import Mathlib

/-!
# ArbolBinarioOrdenado: an array-backed binary search tree

A shallow embedding of `ArbolBinOrdenado.h`.  The node array is a list of
`Nodo`, indices and keys are C++ `int`s modelled as `Int` (runs without signed
overflow), the data file `estudiantes.txt` is the list of the pieces into
which its line breaks split it (the lines and, last, what follows the last
line break: the empty text when the file ends with a line break) and the
static counter of `obtenerIdUnico` is a field of the state; the binary file
`arbol_guardado.dat` is the record `Imagen` of the values written to it.  An
array access outside the allocated array is `Falla.fueraDeRango`; every
`while` loop runs under an explicit bound on the number of evaluations of its
condition and reports `Falla.sinPasos` when the bound is used up.  The code of
the operations on the tree is embedded a second time with the read of the
array passed as a parameter (`insertarCon`, `buscarCon`, ...): with the read
`leer` it is the program, and with the read `leerDato`, which refuses every
index other than those of the data slots, it tells whether a run accesses
another index; every write of the code follows a read at the same index.
-/

namespace ArbolBin

/-! ## The program -/

/-- Ways in which a run of the model can fail to produce a result. -/
inductive Falla where
  | fueraDeRango
  | sinPasos
deriving DecidableEq, Repr

/-- The `struct Nodo` of the source. -/
structure Nodo where
  clave : Int
  id_info : Int
  izq : Int
  der : Int
  activo : Bool
deriving DecidableEq, Repr

/-- The default constructor `Nodo()`. -/
def Nodo.nuevo : Nodo := ⟨0, -1, -1, -1, false⟩

/-- The fields of `class ArbolBinarioOrdenado`, together with the two pieces of
state that live outside the object: the static `contador` of `obtenerIdUnico`
and the data file `archivoDatos`, split at its line breaks: its lines and,
last, the characters that follow the last line break (the empty list also
stands for the empty file). -/
structure ArbolBinarioOrdenado where
  arreglo : List Nodo
  tamano : Int
  raiz : Int
  siguienteLibre : Int
  contador : Int
  archivoDatos : List (List Char)
deriving DecidableEq, Repr

/-- The read `arreglo[i]`. -/
def leer (a : List Nodo) (i : Int) : Option Nodo :=
  if 0 ≤ i then a[i.toNat]? else none

/-- The write `arreglo[i] = x`, for an index that `leer` accepts. -/
def escribir (a : List Nodo) (i : Int) (x : Nodo) : List Nodo :=
  a.set i.toNat x

/-- A `while` loop: `paso` evaluates the condition and, when it holds, the body
(`Sum.inl` is the state after the body, `Sum.inr` the value with which the loop
is left); the first argument bounds the number of evaluations. -/
def iterar {σ ρ : Type} (paso : σ → Except Falla (σ ⊕ ρ)) : Nat → σ → Except Falla ρ
  | 0, _ => .error .sinPasos
  | k + 1, s =>
    match paso s with
    | .error e => .error e
    | .ok (.inl s') => iterar paso k s'
    | .ok (.inr r) => .ok r

/-- Decimal digits of a natural number, most significant first; the first
argument bounds the number of digits. -/
def digitos : Nat → Nat → List Char
  | 0, _ => []
  | f + 1, n => if n < 10 then [Nat.digitChar n] else digitos f (n / 10) ++ [Nat.digitChar (n % 10)]

/-- The library function `std::to_string(int)`. -/
def to_string : Int → List Char
  | .ofNat n => digitos (n + 1) n
  | .negSucc n => '-' :: digitos (n + 2) (n + 1)

/-- The pieces into which its line breaks split a text: the lines and, last,
what follows the last line break. -/
def partirLineas : List Char → List (List Char)
  | [] => [[]]
  | c :: cs =>
    if c = Char.ofNat 10 then [] :: partirLineas cs
    else
      match partirLineas cs with
      | [] => [[c]]
      | l :: ls => (c :: l) :: ls

/-- The text `to_string(id) + "|"`. -/
def prefijoId (id : Int) : List Char := to_string id ++ ['|']

/-- The value of `linea.substr(linea.find("|") + 1)`, when `"|"` occurs. -/
def despuesDeBarra : List Char → Option (List Char)
  | [] => none
  | c :: cs => if c = '|' then some cs else despuesDeBarra cs

def informacionNoEncontrada : List Char := "Informacion no encontrada".toList

def claveNoEncontrada : List Char := "Clave no encontrada".toList

def eliminadoPrefijo : List Char := "ELIMINADO:".toList

/-- A file opened with `ios::app` after a text is written to it: the first
piece of the text continues the last piece of the file. -/
def anexar (datos texto : List (List Char)) : List (List Char) :=
  match datos.getLast?, texto with
  | none, _ => texto
  | some _, [] => datos
  | some ultima, t :: ts => datos.dropLast ++ (ultima ++ t) :: ts

/-- The lines that `getline` reads from a file: its pieces, without the empty
rest after a final line break. -/
def lineasLeidas (datos : List (List Char)) : List (List Char) :=
  if datos.getLast? = some [] then datos.dropLast else datos

/-- The function `guardarEnArchivo`: `id|informacion` and `endl` are written at
the end of the file. -/
def guardarEnArchivo (datos : List (List Char)) (id : Int) (informacion : List Char) :
    List (List Char) :=
  anexar datos (partirLineas (prefijoId id ++ informacion ++ [Char.ofNat 10]))

/-- The function `leerDelArchivo`: the first line that starts with `id|`; the
empty rest after a final line break starts with no id. -/
def leerDelArchivo : List (List Char) → Int → List Char
  | [], _ => informacionNoEncontrada
  | linea :: resto, id =>
    if (prefijoId id).isPrefixOf linea then
      match despuesDeBarra linea with
      | some r => r
      | none => leerDelArchivo resto id
    else leerDelArchivo resto id

/-- The function `marcarBorradoEnArchivo`: the lines of the file are written
again, each followed by `endl`, and every line that starts with `id|` gets the
prefix `ELIMINADO:`. -/
def marcarBorradoEnArchivo (datos : List (List Char)) (id : Int) : List (List Char) :=
  (lineasLeidas datos).map
    (fun linea => if (prefijoId id).isPrefixOf linea then eliminadoPrefijo ++ linea else linea) ++ [[]]

abbrev Arbol := ArbolBinarioOrdenado

/-- The constructor `ArbolBinarioOrdenado(n)` when no saved tree is loaded; `c`
is the current value of the static counter and `d` the data file. -/
def crear (n : Nat) (c : Int) (d : List (List Char)) : Arbol where
  arreglo := List.replicate (n + 1) Nodo.nuevo
  tamano := n
  raiz := -1
  siguienteLibre := 1
  contador := c
  archivoDatos := d

/-- Condition and body of the loop of `buscarPosicion`; the loop state is
`(padre, actual)` and the loop is left with `(posicion, padre)`. -/
def pasoBuscarPosicion (a : List Nodo) (clave : Int) :
    Int × Int → Except Falla ((Int × Int) ⊕ (Int × Int))
  | (padre, actual) =>
    if actual = -1 then .ok (.inr (-1, padre))
    else
      match leer a actual with
      | none => .error .fueraDeRango
      | some nd =>
        if clave = nd.clave then .ok (.inr (actual, padre))
        else if clave < nd.clave then .ok (.inl (actual, nd.izq))
        else .ok (.inl (actual, nd.der))

/-- The function `buscarPosicion(clave, padre)`: the result is the returned
index and the final value of the reference argument `padre`. -/
def buscarPosicion (pasos : Nat) (t : Arbol) (clave : Int) (padre : Int) :
    Except Falla (Int × Int) :=
  if t.raiz = -1 then .ok (-1, padre)
  else iterar (pasoBuscarPosicion t.arreglo clave) pasos (-1, t.raiz)

/-- The function `insertar`. -/
def insertar (pasos : Nat) (t : Arbol) (clave : Int) (informacion : List Char) :
    Except Falla (Bool × Arbol) :=
  if t.siguienteLibre > t.tamano then .ok (false, t)
  else
    match buscarPosicion pasos t clave (-1) with
    | .error e => .error e
    | .ok (posicion, padre) =>
      match (if posicion ≠ -1 then (leer t.arreglo posicion).map Nodo.activo else some false) with
      | none => .error .fueraDeRango
      | some true => .ok (false, t)
      | some false =>
        let id := t.contador
        let datos := guardarEnArchivo t.archivoDatos id informacion
        match leer t.arreglo t.siguienteLibre with
        | none => .error .fueraDeRango
        | some _ =>
          let a1 := escribir t.arreglo t.siguienteLibre ⟨clave, id, -1, -1, true⟩
          if t.raiz = -1 then
            .ok (true, { t with arreglo := a1, raiz := t.siguienteLibre,
                                siguienteLibre := t.siguienteLibre + 1,
                                contador := t.contador + 1, archivoDatos := datos })
          else
            match leer a1 padre with
            | none => .error .fueraDeRango
            | some np =>
              let a2 := if clave < np.clave then escribir a1 padre { np with izq := t.siguienteLibre }
                        else escribir a1 padre { np with der := t.siguienteLibre }
              .ok (true, { t with arreglo := a2, siguienteLibre := t.siguienteLibre + 1,
                                  contador := t.contador + 1, archivoDatos := datos })

/-- Condition and body of the loop of `buscar`; the loop is left with the
record id of the slot that holds the key, or with `none`. -/
def pasoBuscar (a : List Nodo) (clave : Int) : Int → Except Falla (Int ⊕ Option Int)
  | actual =>
    if actual = -1 then .ok (.inr none)
    else
      match leer a actual with
      | none => .error .fueraDeRango
      | some nd =>
        if nd.activo = false then .ok (.inr none)
        else if clave = nd.clave then .ok (.inr (some nd.id_info))
        else if clave < nd.clave then .ok (.inl nd.izq)
        else .ok (.inl nd.der)

/-- The function `buscar`. -/
def buscar (pasos : Nat) (t : Arbol) (clave : Int) : Except Falla (List Char) :=
  match iterar (pasoBuscar t.arreglo clave) pasos t.raiz with
  | .error e => .error e
  | .ok (some id) => .ok (leerDelArchivo t.archivoDatos id)
  | .ok none => .ok claveNoEncontrada

/-- A write to fields of `arreglo[i]`. -/
def actualizar (a : List Nodo) (i : Int) (f : Nodo → Nodo) : Except Falla (List Nodo) :=
  match leer a i with
  | none => .error .fueraDeRango
  | some nd => .ok (escribir a i (f nd))

/-- Condition and body of the search loop of `eliminar`; the loop state is
`(padre, actual)` and the loop is left with `(encontrado, padre, actual)`. -/
def pasoBuscarEliminar (a : List Nodo) (clave : Int) :
    Int × Int → Except Falla ((Int × Int) ⊕ (Bool × Int × Int))
  | (padre, actual) =>
    if actual = -1 then .ok (.inr (false, padre, actual))
    else
      match leer a actual with
      | none => .error .fueraDeRango
      | some nd =>
        if nd.activo = false then .ok (.inr (false, padre, actual))
        else if clave = nd.clave then .ok (.inr (true, padre, actual))
        else if clave < nd.clave then .ok (.inl (actual, nd.izq))
        else .ok (.inl (actual, nd.der))

/-- Condition and body of the successor loop of `eliminar`; the loop state is
`(sucesorPadre, sucesor)`. -/
def pasoSucesor (a : List Nodo) : Int × Int → Except Falla ((Int × Int) ⊕ (Int × Int))
  | (sucesorPadre, sucesor) =>
    match leer a sucesor with
    | none => .error .fueraDeRango
    | some nd =>
      if nd.izq ≠ -1 then .ok (.inl (sucesor, nd.izq))
      else .ok (.inr (sucesorPadre, sucesor))

/-- The link update shared by CASO 1 (`hijo = -1`) and CASO 2 of `eliminar`:
`raiz`, or the link of `padre` that points to `actual`, becomes `hijo`.  The
result is the array and the root. -/
def reenlazar (a : List Nodo) (raiz padre actual hijo : Int) : Except Falla (List Nodo × Int) :=
  if padre = -1 then .ok (a, hijo)
  else
    match leer a padre with
    | none => .error .fueraDeRango
    | some np =>
      if np.izq = actual then .ok (escribir a padre { np with izq := hijo }, raiz)
      else .ok (escribir a padre { np with der := hijo }, raiz)

/-- PASO 4 of `eliminar`: the three cases, on the array and the root. -/
def eliminarNodo (pasos : Nat) (a : List Nodo) (raiz padre actual : Int) :
    Except Falla (List Nodo × Int) :=
  match leer a actual with
  | none => .error .fueraDeRango
  | some nd =>
    if nd.izq = -1 ∧ nd.der = -1 then do
      let (a1, raiz1) ← reenlazar a raiz padre actual (-1)
      let a2 ← actualizar a1 actual (fun x => { x with activo := false })
      pure (a2, raiz1)
    else if nd.izq = -1 ∨ nd.der = -1 then do
      let hijo := if nd.izq ≠ -1 then nd.izq else nd.der
      let (a1, raiz1) ← reenlazar a raiz padre actual hijo
      let a2 ← actualizar a1 actual (fun x => { x with activo := false })
      pure (a2, raiz1)
    else do
      let (sucesorPadre, sucesor) ← iterar (pasoSucesor a) pasos (actual, nd.der)
      let a1 ← match leer a sucesor with
        | none => .error .fueraDeRango
        | some ns => actualizar a actual (fun x => { x with clave := ns.clave })
      let a2 ← match leer a1 sucesor with
        | none => .error .fueraDeRango
        | some ns => actualizar a1 actual (fun x => { x with id_info := ns.id_info })
      let a3 ← match leer a2 sucesor with
        | none => .error .fueraDeRango
        | some ns =>
          if sucesorPadre = actual then actualizar a2 sucesorPadre (fun x => { x with der := ns.der })
          else actualizar a2 sucesorPadre (fun x => { x with izq := ns.der })
      let a4 ← actualizar a3 sucesor (fun x => { x with activo := false })
      pure (a4, raiz)

/-- The function `eliminar`. -/
def eliminar (pasos : Nat) (t : Arbol) (clave : Int) : Except Falla (Bool × Arbol) :=
  match iterar (pasoBuscarEliminar t.arreglo clave) pasos (-1, t.raiz) with
  | .error e => .error e
  | .ok (false, _, _) => .ok (false, t)
  | .ok (true, padre, actual) =>
    match leer t.arreglo actual with
    | none => .error .fueraDeRango
    | some nd =>
      let datos := marcarBorradoEnArchivo t.archivoDatos nd.id_info
      match eliminarNodo pasos t.arreglo t.raiz padre actual with
      | .error e => .error e
      | .ok (a, raiz) => .ok (true, { t with arreglo := a, raiz := raiz, archivoDatos := datos })

/-- Condition and body of the loop of `modificar`; the loop is left with the
index of the slot that holds the key, or with `none`. -/
def pasoModificar (a : List Nodo) (clave : Int) : Int → Except Falla (Int ⊕ Option Int)
  | actual =>
    if actual = -1 then .ok (.inr none)
    else
      match leer a actual with
      | none => .error .fueraDeRango
      | some nd =>
        if nd.activo = false then .ok (.inr none)
        else if clave = nd.clave then .ok (.inr (some actual))
        else if clave < nd.clave then .ok (.inl nd.izq)
        else .ok (.inl nd.der)

/-- The function `modificar`. -/
def modificar (pasos : Nat) (t : Arbol) (clave : Int) (nuevaInformacion : List Char) :
    Except Falla (Bool × Arbol) :=
  match iterar (pasoModificar t.arreglo clave) pasos t.raiz with
  | .error e => .error e
  | .ok none => .ok (false, t)
  | .ok (some actual) =>
    match leer t.arreglo actual with
    | none => .error .fueraDeRango
    | some nd =>
      let datos1 := marcarBorradoEnArchivo t.archivoDatos nd.id_info
      let nuevoId := t.contador
      let datos2 := guardarEnArchivo datos1 nuevoId nuevaInformacion
      .ok (true, { t with arreglo := escribir t.arreglo actual { nd with id_info := nuevoId },
                          contador := t.contador + 1, archivoDatos := datos2 })

/-- The inner loop of `recorridoInorden`, which pushes the left chain; the
loop state is `(actual, pila)`, the top of the stack being the head. -/
def pasoBajar (a : List Nodo) : Int × List Int → Except Falla ((Int × List Int) ⊕ List Int)
  | (actual, pila) =>
    if actual = -1 then .ok (.inr pila)
    else
      match leer a actual with
      | none => .error .fueraDeRango
      | some nd => .ok (.inl (nd.izq, actual :: pila))

/-- Condition and body of the outer loop of `recorridoInorden`; the loop state
is `(actual, pila, resultado)`. -/
def pasoInorden (pasos : Nat) (a : List Nodo) :
    Int × List Int × List Int → Except Falla ((Int × List Int × List Int) ⊕ List Int)
  | (actual, pila, resultado) =>
    if actual = -1 ∧ pila = [] then .ok (.inr resultado)
    else
      match iterar (pasoBajar a) pasos (actual, pila) with
      | .error e => .error e
      | .ok [] => .error .fueraDeRango
      | .ok (tope :: resto) =>
        match leer a tope with
        | none => .error .fueraDeRango
        | some nd =>
          .ok (.inl (nd.der, resto, if nd.activo then resultado ++ [tope] else resultado))

/-- The function `recorridoInorden`: the queue it returns, front first. -/
def recorridoInorden (pasos : Nat) (t : Arbol) : Except Falla (List Int) :=
  iterar (pasoInorden pasos t.arreglo) pasos (t.raiz, [], [])

/-- Condition and body of the loop of `recorridoPreorden`; the loop state is
`(pila, resultado)`, the top of the stack being the head. -/
def pasoPreorden (a : List Nodo) :
    List Int × List Int → Except Falla ((List Int × List Int) ⊕ List Int)
  | ([], resultado) => .ok (.inr resultado)
  | (actual :: pila, resultado) =>
    match leer a actual with
    | none => .error .fueraDeRango
    | some nd =>
      let pila1 := if nd.der ≠ -1 then nd.der :: pila else pila
      let pila2 := if nd.izq ≠ -1 then nd.izq :: pila1 else pila1
      .ok (.inl (pila2, if nd.activo then resultado ++ [actual] else resultado))

/-- The function `recorridoPreorden`: the queue it returns, front first. -/
def recorridoPreorden (pasos : Nat) (t : Arbol) : Except Falla (List Int) :=
  if t.raiz = -1 then .ok []
  else iterar (pasoPreorden t.arreglo) pasos ([t.raiz], [])

/-- Condition and body of the first loop of `recorridoPostorden`; the loop
state is `(pila1, pila2)`, the tops of the stacks being the heads. -/
def pasoPostorden (a : List Nodo) :
    List Int × List Int → Except Falla ((List Int × List Int) ⊕ List Int)
  | ([], pila2) => .ok (.inr pila2)
  | (actual :: pila1, pila2) =>
    match leer a actual with
    | none => .error .fueraDeRango
    | some nd =>
      let p1 := if nd.izq ≠ -1 then nd.izq :: pila1 else pila1
      let p2 := if nd.der ≠ -1 then nd.der :: p1 else p1
      .ok (.inl (p2, actual :: pila2))

/-- The second loop of `recorridoPostorden`, which empties `pila2` into the
result; it runs once for each element of the stack. -/
def vaciarPila2 (a : List Nodo) : List Int → List Int → Except Falla (List Int)
  | [], resultado => .ok resultado
  | actual :: pila2, resultado =>
    match leer a actual with
    | none => .error .fueraDeRango
    | some nd => vaciarPila2 a pila2 (if nd.activo then resultado ++ [actual] else resultado)

/-- The function `recorridoPostorden`: the queue it returns, front first. -/
def recorridoPostorden (pasos : Nat) (t : Arbol) : Except Falla (List Int) :=
  if t.raiz = -1 then .ok []
  else
    match iterar (pasoPostorden t.arreglo) pasos ([t.raiz], []) with
    | .error e => .error e
    | .ok pila2 => vaciarPila2 t.arreglo pila2 []

/-- Condition and body of the loop of `recorridoPorNiveles`; the loop state is
`(cola, resultado)`, the front of the queue being the head. -/
def pasoPorNiveles (a : List Nodo) :
    List Int × List Int → Except Falla ((List Int × List Int) ⊕ List Int)
  | ([], resultado) => .ok (.inr resultado)
  | (actual :: cola, resultado) =>
    match leer a actual with
    | none => .error .fueraDeRango
    | some nd =>
      let cola1 := if nd.izq ≠ -1 then cola ++ [nd.izq] else cola
      let cola2 := if nd.der ≠ -1 then cola1 ++ [nd.der] else cola1
      .ok (.inl (cola2, if nd.activo then resultado ++ [actual] else resultado))

/-- The function `recorridoPorNiveles`: the queue it returns, front first. -/
def recorridoPorNiveles (pasos : Nat) (t : Arbol) : Except Falla (List Int) :=
  if t.raiz = -1 then .ok []
  else iterar (pasoPorNiveles t.arreglo) pasos ([t.raiz], [])

/-- The contents of the file `archivoArbol`: the three integers and the nodes
that `guardarArbol` writes, in the order in which it writes them. -/
structure Imagen where
  tamano : Int
  raiz : Int
  siguienteLibre : Int
  nodos : List Nodo
deriving DecidableEq, Repr

/-- The loop of `guardarArbol`: the nodes `arreglo[i]`, `arreglo[i + 1]`, ...,
`m` of them. -/
def guardarNodos (a : List Nodo) : Nat → Nat → Except Falla (List Nodo)
  | _, 0 => .ok []
  | i, m + 1 =>
    match leer a i with
    | none => .error .fueraDeRango
    | some nd =>
      match guardarNodos a (i + 1) m with
      | .error e => .error e
      | .ok ns => .ok (nd :: ns)

/-- The function `guardarArbol`: the image it writes. -/
def guardarArbol (t : Arbol) : Except Falla Imagen :=
  match guardarNodos t.arreglo 0 (t.tamano + 1).toNat with
  | .error e => .error e
  | .ok ns => .ok ⟨t.tamano, t.raiz, t.siguienteLibre, ns⟩

/-- The loop of `cargarArbol`: the slots `arreglo[i]`, `arreglo[i + 1]`, ...,
`m` of them, are read from the nodes of the image; a read past the end of the
image leaves the slot as it is. -/
def cargarNodos (ns : List Nodo) : List Nodo → Nat → Nat → Except Falla (List Nodo)
  | a, _, 0 => .ok a
  | a, i, m + 1 =>
    match leer a i with
    | none => .error .fueraDeRango
    | some _ =>
      match ns[i]? with
      | none => cargarNodos ns a (i + 1) m
      | some nd => cargarNodos ns (escribir a i nd) (i + 1) m

/-- The function `cargarArbol`; `none` is the case that the file does not
exist. -/
def cargarArbol (t : Arbol) (img : Option Imagen) : Except Falla Arbol :=
  match img with
  | none => .ok t
  | some im =>
    if im.tamano = t.tamano then
      match cargarNodos im.nodos t.arreglo 0 (t.tamano + 1).toNat with
      | .error e => .error e
      | .ok a => .ok { t with raiz := im.raiz, siguienteLibre := im.siguienteLibre, arreglo := a }
    else .ok t

/-- The constructor `ArbolBinarioOrdenado(n)`: the initialisation of `crear`
followed by `cargarArbol()`. -/
def construir (n : Nat) (c : Int) (d : List (List Char)) (img : Option Imagen) :
    Except Falla Arbol :=
  cargarArbol (crear n c d) img

/-- The keys of the slots whose `activo` flag is set, in array order. -/
def clavesVivas (t : Arbol) : List Int :=
  (t.arreglo.filter (fun nd => nd.activo)).map (fun nd => nd.clave)

/-- The key stored in slot `i` of the array (0 outside the array). -/
def claveEn (a : List Nodo) (i : Int) : Int :=
  match leer a i with
  | some nd => nd.clave
  | none => 0

/-- The record id stored in slot `i` of the array (0 outside the array). -/
def idEn (a : List Nodo) (i : Int) : Int :=
  match leer a i with
  | some nd => nd.id_info
  | none => 0

/-- A way of reading the array at an index. -/
abbrev Lectura := List Nodo → Int → Option Nodo

/-- The read `arreglo[i]` of a data slot: it accepts the indices from 1 to the
last index of the array and refuses every other index, the control position 0
too. -/
def leerDato (a : List Nodo) (i : Int) : Option Nodo :=
  if 1 ≤ i then leer a i else none

/-- The code of `pasoBuscarPosicion` with the read of the array passed as `lee`. -/
def pasoBuscarPosicionCon (lee : Lectura) (a : List Nodo) (clave : Int) :
    Int × Int → Except Falla ((Int × Int) ⊕ (Int × Int))
  | (padre, actual) =>
    if actual = -1 then .ok (.inr (-1, padre))
    else
      match lee a actual with
      | none => .error .fueraDeRango
      | some nd =>
        if clave = nd.clave then .ok (.inr (actual, padre))
        else if clave < nd.clave then .ok (.inl (actual, nd.izq))
        else .ok (.inl (actual, nd.der))

/-- The code of `buscarPosicion` with the read of the array passed as `lee`. -/
def buscarPosicionCon (lee : Lectura) (pasos : Nat) (t : Arbol) (clave : Int) (padre : Int) :
    Except Falla (Int × Int) :=
  if t.raiz = -1 then .ok (-1, padre)
  else iterar (pasoBuscarPosicionCon lee t.arreglo clave) pasos (-1, t.raiz)

/-- The code of `insertar` with the read of the array passed as `lee`. -/
def insertarCon (lee : Lectura) (pasos : Nat) (t : Arbol) (clave : Int) (informacion : List Char) :
    Except Falla (Bool × Arbol) :=
  if t.siguienteLibre > t.tamano then .ok (false, t)
  else
    match buscarPosicionCon lee pasos t clave (-1) with
    | .error e => .error e
    | .ok (posicion, padre) =>
      match (if posicion ≠ -1 then (lee t.arreglo posicion).map Nodo.activo else some false) with
      | none => .error .fueraDeRango
      | some true => .ok (false, t)
      | some false =>
        let id := t.contador
        let datos := guardarEnArchivo t.archivoDatos id informacion
        match lee t.arreglo t.siguienteLibre with
        | none => .error .fueraDeRango
        | some _ =>
          let a1 := escribir t.arreglo t.siguienteLibre ⟨clave, id, -1, -1, true⟩
          if t.raiz = -1 then
            .ok (true, { t with arreglo := a1, raiz := t.siguienteLibre,
                                siguienteLibre := t.siguienteLibre + 1,
                                contador := t.contador + 1, archivoDatos := datos })
          else
            match lee a1 padre with
            | none => .error .fueraDeRango
            | some np =>
              let a2 := if clave < np.clave then escribir a1 padre { np with izq := t.siguienteLibre }
                        else escribir a1 padre { np with der := t.siguienteLibre }
              .ok (true, { t with arreglo := a2, siguienteLibre := t.siguienteLibre + 1,
                                  contador := t.contador + 1, archivoDatos := datos })

/-- The code of `pasoBuscar` with the read of the array passed as `lee`. -/
def pasoBuscarCon (lee : Lectura) (a : List Nodo) (clave : Int) :
    Int → Except Falla (Int ⊕ Option Int)
  | actual =>
    if actual = -1 then .ok (.inr none)
    else
      match lee a actual with
      | none => .error .fueraDeRango
      | some nd =>
        if nd.activo = false then .ok (.inr none)
        else if clave = nd.clave then .ok (.inr (some nd.id_info))
        else if clave < nd.clave then .ok (.inl nd.izq)
        else .ok (.inl nd.der)

/-- The code of `buscar` with the read of the array passed as `lee`. -/
def buscarCon (lee : Lectura) (pasos : Nat) (t : Arbol) (clave : Int) : Except Falla (List Char) :=
  match iterar (pasoBuscarCon lee t.arreglo clave) pasos t.raiz with
  | .error e => .error e
  | .ok (some id) => .ok (leerDelArchivo t.archivoDatos id)
  | .ok none => .ok claveNoEncontrada

/-- The code of `actualizar` with the read of the array passed as `lee`. -/
def actualizarCon (lee : Lectura) (a : List Nodo) (i : Int) (f : Nodo → Nodo) :
    Except Falla (List Nodo) :=
  match lee a i with
  | none => .error .fueraDeRango
  | some nd => .ok (escribir a i (f nd))

/-- The code of `pasoBuscarEliminar` with the read of the array passed as `lee`. -/
def pasoBuscarEliminarCon (lee : Lectura) (a : List Nodo) (clave : Int) :
    Int × Int → Except Falla ((Int × Int) ⊕ (Bool × Int × Int))
  | (padre, actual) =>
    if actual = -1 then .ok (.inr (false, padre, actual))
    else
      match lee a actual with
      | none => .error .fueraDeRango
      | some nd =>
        if nd.activo = false then .ok (.inr (false, padre, actual))
        else if clave = nd.clave then .ok (.inr (true, padre, actual))
        else if clave < nd.clave then .ok (.inl (actual, nd.izq))
        else .ok (.inl (actual, nd.der))

/-- The code of `pasoSucesor` with the read of the array passed as `lee`. -/
def pasoSucesorCon (lee : Lectura) (a : List Nodo) :
    Int × Int → Except Falla ((Int × Int) ⊕ (Int × Int))
  | (sucesorPadre, sucesor) =>
    match lee a sucesor with
    | none => .error .fueraDeRango
    | some nd =>
      if nd.izq ≠ -1 then .ok (.inl (sucesor, nd.izq))
      else .ok (.inr (sucesorPadre, sucesor))

/-- The code of `reenlazar` with the read of the array passed as `lee`. -/
def reenlazarCon (lee : Lectura) (a : List Nodo) (raiz padre actual hijo : Int) :
    Except Falla (List Nodo × Int) :=
  if padre = -1 then .ok (a, hijo)
  else
    match lee a padre with
    | none => .error .fueraDeRango
    | some np =>
      if np.izq = actual then .ok (escribir a padre { np with izq := hijo }, raiz)
      else .ok (escribir a padre { np with der := hijo }, raiz)

/-- The code of `eliminarNodo` with the read of the array passed as `lee`. -/
def eliminarNodoCon (lee : Lectura) (pasos : Nat) (a : List Nodo) (raiz padre actual : Int) :
    Except Falla (List Nodo × Int) :=
  match lee a actual with
  | none => .error .fueraDeRango
  | some nd =>
    if nd.izq = -1 ∧ nd.der = -1 then do
      let (a1, raiz1) ← reenlazarCon lee a raiz padre actual (-1)
      let a2 ← actualizarCon lee a1 actual (fun x => { x with activo := false })
      pure (a2, raiz1)
    else if nd.izq = -1 ∨ nd.der = -1 then do
      let hijo := if nd.izq ≠ -1 then nd.izq else nd.der
      let (a1, raiz1) ← reenlazarCon lee a raiz padre actual hijo
      let a2 ← actualizarCon lee a1 actual (fun x => { x with activo := false })
      pure (a2, raiz1)
    else do
      let (sucesorPadre, sucesor) ← iterar (pasoSucesorCon lee a) pasos (actual, nd.der)
      let a1 ← match lee a sucesor with
        | none => .error .fueraDeRango
        | some ns => actualizarCon lee a actual (fun x => { x with clave := ns.clave })
      let a2 ← match lee a1 sucesor with
        | none => .error .fueraDeRango
        | some ns => actualizarCon lee a1 actual (fun x => { x with id_info := ns.id_info })
      let a3 ← match lee a2 sucesor with
        | none => .error .fueraDeRango
        | some ns =>
          if sucesorPadre = actual then actualizarCon lee a2 sucesorPadre (fun x => { x with der := ns.der })
          else actualizarCon lee a2 sucesorPadre (fun x => { x with izq := ns.der })
      let a4 ← actualizarCon lee a3 sucesor (fun x => { x with activo := false })
      pure (a4, raiz)

/-- The code of `eliminar` with the read of the array passed as `lee`. -/
def eliminarCon (lee : Lectura) (pasos : Nat) (t : Arbol) (clave : Int) :
    Except Falla (Bool × Arbol) :=
  match iterar (pasoBuscarEliminarCon lee t.arreglo clave) pasos (-1, t.raiz) with
  | .error e => .error e
  | .ok (false, _, _) => .ok (false, t)
  | .ok (true, padre, actual) =>
    match lee t.arreglo actual with
    | none => .error .fueraDeRango
    | some nd =>
      let datos := marcarBorradoEnArchivo t.archivoDatos nd.id_info
      match eliminarNodoCon lee pasos t.arreglo t.raiz padre actual with
      | .error e => .error e
      | .ok (a, raiz) => .ok (true, { t with arreglo := a, raiz := raiz, archivoDatos := datos })

/-- The code of `pasoModificar` with the read of the array passed as `lee`. -/
def pasoModificarCon (lee : Lectura) (a : List Nodo) (clave : Int) :
    Int → Except Falla (Int ⊕ Option Int)
  | actual =>
    if actual = -1 then .ok (.inr none)
    else
      match lee a actual with
      | none => .error .fueraDeRango
      | some nd =>
        if nd.activo = false then .ok (.inr none)
        else if clave = nd.clave then .ok (.inr (some actual))
        else if clave < nd.clave then .ok (.inl nd.izq)
        else .ok (.inl nd.der)

/-- The code of `modificar` with the read of the array passed as `lee`. -/
def modificarCon (lee : Lectura)
    (pasos : Nat) (t : Arbol) (clave : Int) (nuevaInformacion : List Char) :
    Except Falla (Bool × Arbol) :=
  match iterar (pasoModificarCon lee t.arreglo clave) pasos t.raiz with
  | .error e => .error e
  | .ok none => .ok (false, t)
  | .ok (some actual) =>
    match lee t.arreglo actual with
    | none => .error .fueraDeRango
    | some nd =>
      let datos1 := marcarBorradoEnArchivo t.archivoDatos nd.id_info
      let nuevoId := t.contador
      let datos2 := guardarEnArchivo datos1 nuevoId nuevaInformacion
      .ok (true, { t with arreglo := escribir t.arreglo actual { nd with id_info := nuevoId },
                          contador := t.contador + 1, archivoDatos := datos2 })

/-- The code of `pasoBajar` with the read of the array passed as `lee`. -/
def pasoBajarCon (lee : Lectura) (a : List Nodo) :
    Int × List Int → Except Falla ((Int × List Int) ⊕ List Int)
  | (actual, pila) =>
    if actual = -1 then .ok (.inr pila)
    else
      match lee a actual with
      | none => .error .fueraDeRango
      | some nd => .ok (.inl (nd.izq, actual :: pila))

/-- The code of `pasoInorden` with the read of the array passed as `lee`. -/
def pasoInordenCon (lee : Lectura) (pasos : Nat) (a : List Nodo) :
    Int × List Int × List Int → Except Falla ((Int × List Int × List Int) ⊕ List Int)
  | (actual, pila, resultado) =>
    if actual = -1 ∧ pila = [] then .ok (.inr resultado)
    else
      match iterar (pasoBajarCon lee a) pasos (actual, pila) with
      | .error e => .error e
      | .ok [] => .error .fueraDeRango
      | .ok (tope :: resto) =>
        match lee a tope with
        | none => .error .fueraDeRango
        | some nd =>
          .ok (.inl (nd.der, resto, if nd.activo then resultado ++ [tope] else resultado))

/-- The code of `recorridoInorden` with the read of the array passed as `lee`. -/
def recorridoInordenCon (lee : Lectura) (pasos : Nat) (t : Arbol) : Except Falla (List Int) :=
  iterar (pasoInordenCon lee pasos t.arreglo) pasos (t.raiz, [], [])

/-- The code of `pasoPreorden` with the read of the array passed as `lee`. -/
def pasoPreordenCon (lee : Lectura) (a : List Nodo) :
    List Int × List Int → Except Falla ((List Int × List Int) ⊕ List Int)
  | ([], resultado) => .ok (.inr resultado)
  | (actual :: pila, resultado) =>
    match lee a actual with
    | none => .error .fueraDeRango
    | some nd =>
      let pila1 := if nd.der ≠ -1 then nd.der :: pila else pila
      let pila2 := if nd.izq ≠ -1 then nd.izq :: pila1 else pila1
      .ok (.inl (pila2, if nd.activo then resultado ++ [actual] else resultado))

/-- The code of `recorridoPreorden` with the read of the array passed as `lee`. -/
def recorridoPreordenCon (lee : Lectura) (pasos : Nat) (t : Arbol) : Except Falla (List Int) :=
  if t.raiz = -1 then .ok []
  else iterar (pasoPreordenCon lee t.arreglo) pasos ([t.raiz], [])

/-- The code of `pasoPostorden` with the read of the array passed as `lee`. -/
def pasoPostordenCon (lee : Lectura) (a : List Nodo) :
    List Int × List Int → Except Falla ((List Int × List Int) ⊕ List Int)
  | ([], pila2) => .ok (.inr pila2)
  | (actual :: pila1, pila2) =>
    match lee a actual with
    | none => .error .fueraDeRango
    | some nd =>
      let p1 := if nd.izq ≠ -1 then nd.izq :: pila1 else pila1
      let p2 := if nd.der ≠ -1 then nd.der :: p1 else p1
      .ok (.inl (p2, actual :: pila2))

/-- The code of `vaciarPila2` with the read of the array passed as `lee`. -/
def vaciarPila2Con (lee : Lectura) (a : List Nodo) : List Int → List Int → Except Falla (List Int)
  | [], resultado => .ok resultado
  | actual :: pila2, resultado =>
    match lee a actual with
    | none => .error .fueraDeRango
    | some nd => vaciarPila2Con lee a pila2 (if nd.activo then resultado ++ [actual] else resultado)

/-- The code of `recorridoPostorden` with the read of the array passed as `lee`. -/
def recorridoPostordenCon (lee : Lectura) (pasos : Nat) (t : Arbol) : Except Falla (List Int) :=
  if t.raiz = -1 then .ok []
  else
    match iterar (pasoPostordenCon lee t.arreglo) pasos ([t.raiz], []) with
    | .error e => .error e
    | .ok pila2 => vaciarPila2Con lee t.arreglo pila2 []

/-- The code of `pasoPorNiveles` with the read of the array passed as `lee`. -/
def pasoPorNivelesCon (lee : Lectura) (a : List Nodo) :
    List Int × List Int → Except Falla ((List Int × List Int) ⊕ List Int)
  | ([], resultado) => .ok (.inr resultado)
  | (actual :: cola, resultado) =>
    match lee a actual with
    | none => .error .fueraDeRango
    | some nd =>
      let cola1 := if nd.izq ≠ -1 then cola ++ [nd.izq] else cola
      let cola2 := if nd.der ≠ -1 then cola1 ++ [nd.der] else cola1
      .ok (.inl (cola2, if nd.activo then resultado ++ [actual] else resultado))

/-- The code of `recorridoPorNiveles` with the read of the array passed as `lee`. -/
def recorridoPorNivelesCon (lee : Lectura) (pasos : Nat) (t : Arbol) : Except Falla (List Int) :=
  if t.raiz = -1 then .ok []
  else iterar (pasoPorNivelesCon lee t.arreglo) pasos ([t.raiz], [])

/-! ## Definitions for the statements and the proofs -/

/-- A binary tree of slots: index, key and record id of each slot. -/
inductive Forma where
  | hoja
  | nodo (l : Forma) (i : Int) (c : Int) (d : Int) (r : Forma)
deriving DecidableEq, Repr

namespace Forma

/-- The index of the root slot, `-1` for the empty tree. -/
def raiz : Forma → Int
  | hoja => -1
  | nodo _ i _ _ _ => i

/-- The slot indices, in inorder. -/
def indices : Forma → List Int
  | hoja => []
  | nodo l i _ _ r => l.indices ++ i :: r.indices

/-- The keys, in inorder. -/
def claves : Forma → List Int
  | hoja => []
  | nodo l _ c _ r => l.claves ++ c :: r.claves

/-- The pairs of key and record id, in inorder. -/
def pares : Forma → List (Int × Int)
  | hoja => []
  | nodo l _ c d r => l.pares ++ (c, d) :: r.pares

/-- The number of slots. -/
def talla : Forma → Nat
  | hoja => 0
  | nodo l _ _ _ r => l.talla + 1 + r.talla

/-- The array `a` stores the tree: every slot of the tree is a live slot of the
array with the key, the record id and the links of the tree. -/
def Rep (a : List Nodo) : Forma → Prop
  | hoja => True
  | nodo l i c d r => leer a i = some ⟨c, d, l.raiz, r.raiz, true⟩ ∧ Rep a l ∧ Rep a r

/-- The search-tree order: smaller keys to the left, larger keys to the right. -/
def ordenado : Forma → Prop
  | hoja => True
  | nodo l _ c _ r => ordenado l ∧ ordenado r ∧ (∀ x ∈ l.claves, x < c) ∧ (∀ x ∈ r.claves, c < x)

/-- The record id that a search-tree descent finds for a key. -/
def busca (k : Int) : Forma → Option Int
  | hoja => none
  | nodo l _ c d r => if k = c then some d else if k < c then busca k l else busca k r

/-- Where the descent for key `k` ends: `(padre, actual)`, with `actual = -1`
when the key is not in the tree. -/
def ubica (k : Int) : Forma → Int → Int × Int
  | hoja, p => (p, -1)
  | nodo l i c _ r, p => if k = c then (p, i) else if k < c then ubica k l i else ubica k r i

/-- The tree after linking a new slot `s` with key `k` and record id `d`. -/
def inserta (k s d : Int) : Forma → Forma
  | hoja => nodo hoja s k d hoja
  | nodo l i c e r =>
    if k < c then nodo (inserta k s d l) i c e r else nodo l i c e (inserta k s d r)

end Forma

/-- The table `t` of capacity `n` stores the search tree `f`: the array holds
`n + 1` slots, the live slots are exactly the slots of `f`, the slots from
`siguienteLibre` on and slot 0 are unused, and the record ids of the live slots
are distinct and below the counter. -/
structure Inv (n : Nat) (t : Arbol) (f : Forma) : Prop where
  largo : t.arreglo.length = n + 1
  tam : t.tamano = n
  libre_pos : 1 ≤ t.siguienteLibre
  libre_le : t.siguienteLibre ≤ n + 1
  rep : Forma.Rep t.arreglo f
  raiz : t.raiz = f.raiz
  ord : f.ordenado
  vivo : ∀ i nd, leer t.arreglo i = some nd → (nd.activo = true ↔ i ∈ f.indices)
  resto : ∀ i : Int, t.siguienteLibre ≤ i → i ≤ n → leer t.arreglo i = some Nodo.nuevo
  cero : leer t.arreglo 0 = some Nodo.nuevo
  ids_lt : ∀ p ∈ f.pares, p.2 < t.contador
  ids_nodup : (f.pares.map Prod.snd).Nodup

/-- The state after a successful `insertar` that leaves the array `a` and the
root `raiz`. -/
def trasInsertar (t : Arbol) (p : List Char) (a : List Nodo) (raiz : Int) : Arbol :=
  { t with arreglo := a, raiz := raiz, siguienteLibre := t.siguienteLibre + 1,
           contador := t.contador + 1,
           archivoDatos := guardarEnArchivo t.archivoDatos t.contador p }

namespace Forma

/-- The slot index that a search-tree descent finds for a key. -/
def indiceDe (k : Int) : Forma → Option Int
  | hoja => none
  | nodo l i c _ r => if k = c then some i else if k < c then indiceDe k l else indiceDe k r

/-- Where the successor loop ends on a non-empty tree entered from `q`:
`(sucesorPadre, sucesor)`. -/
def ubicaMin : Forma → Int → Int × Int
  | hoja, q => (q, -1)
  | nodo l i _ _ _, q => if l = hoja then (q, i) else ubicaMin l i

/-- Key and record id of the leftmost slot. -/
def minimo : Forma → Int × Int
  | hoja => (0, 0)
  | nodo l _ c d _ => if l = hoja then (c, d) else minimo l

/-- The tree without its leftmost slot. -/
def sinMinimo : Forma → Forma
  | hoja => hoja
  | nodo l i c d r => if l = hoja then r else nodo (sinMinimo l) i c d r

/-- The two writes with which CASO 3 unlinks the successor `su` from its
parent `sp`. -/
def quitarSucesor (b : List Nodo) (act sp su : Int) (nsp ns : Nodo) : List Nodo :=
  escribir (escribir b sp (if sp = act then { nsp with der := ns.der } else { nsp with izq := ns.der }))
    su { ns with activo := false }

/-- The tree after `eliminar`: a slot with at most one child is replaced by
that child, a slot with two children takes key and record id of its inorder
successor, whose slot is unlinked. -/
def elimina (k : Int) : Forma → Forma
  | hoja => hoja
  | nodo l i c d r =>
    if k = c then
      if l = hoja then r
      else if r = hoja then l
      else nodo l i r.minimo.1 r.minimo.2 r.sinMinimo
    else if k < c then nodo (elimina k l) i c d r
    else nodo l i c d (elimina k r)

/-- CASO 1 and CASO 2 of `eliminar`: relink, then mark the slot dead. -/
def empalmar (a : List Nodo) (raiz padre actual hijo : Int) : Except Falla (List Nodo × Int) := do
  let (a1, raiz1) ← reenlazar a raiz padre actual hijo
  let a2 ← actualizar a1 actual (fun x => { x with activo := false })
  pure (a2, raiz1)

/-- How the slot `p0` from which a subtree with root `i` hangs is known: either
there is none and `raiz0` is the root, or it is a slot outside the subtree one
of whose links is `i` (the left one is looked at first). -/
def Enlace (a : List Nodo) (raiz0 p0 i : Int) (idx : List Int) : Prop :=
  (p0 = -1 ∧ raiz0 = i) ∨
    ∃ np, leer a p0 = some np ∧ p0 ∉ idx ∧ (np.izq = i ∨ (np.izq ≠ i ∧ np.der = i))

/-- The link of `np` that points to `i` replaced with `hijo`. -/
def reenlace (np : Nodo) (i hijo : Int) : Nodo :=
  if np.izq = i then { np with izq := hijo } else { np with der := hijo }

/-- The tree after `modificar`: the slot that holds `k` gets the record id `d`. -/
def cambiaId (k d : Int) : Forma → Forma
  | hoja => hoja
  | nodo l i c e r =>
    if k = c then nodo l i c d r
    else if k < c then nodo (cambiaId k d l) i c e r
    else nodo l i c e (cambiaId k d r)

end Forma

/-- The state after a successful `eliminar` that leaves the array `a` and the
root `raiz`, `id` being the record id of the deleted key. -/
def trasEliminar (t : Arbol) (a : List Nodo) (raiz id : Int) : Arbol :=
  { t with arreglo := a, raiz := raiz,
           archivoDatos := marcarBorradoEnArchivo t.archivoDatos id }

/-- The state after a successful `modificar` that leaves the array `a`, `id`
being the record id that the key had. -/
def trasModificar (t : Arbol) (a : List Nodo) (id : Int) (p : List Char) : Arbol :=
  { t with arreglo := a, contador := t.contador + 1,
           archivoDatos :=
            guardarEnArchivo (marcarBorradoEnArchivo t.archivoDatos id) t.contador p }

/-- The states of a table of capacity `n` that are reached from the empty
table by calls of `insertar`, `eliminar` and `modificar` that return. -/
inductive Alcanzable (n : Nat) : Arbol → Prop where
  | crear (c : Int) (d : List (List Char)) : Alcanzable n (crear n c d)
  | insertar {t t' : Arbol} {pasos : Nat} {k : Int} {p : List Char} {b : Bool} :
      Alcanzable n t → insertar pasos t k p = .ok (b, t') → Alcanzable n t'
  | eliminar {t t' : Arbol} {pasos : Nat} {k : Int} {b : Bool} :
      Alcanzable n t → eliminar pasos t k = .ok (b, t') → Alcanzable n t'
  | modificar {t t' : Arbol} {pasos : Nat} {k : Int} {p : List Char} {b : Bool} :
      Alcanzable n t → modificar pasos t k p = .ok (b, t') → Alcanzable n t'

namespace Forma

/-- The left chain of a tree, deepest slot first: the subtrees whose roots the
inner loop of `recorridoInorden` pushes. -/
def espina : Forma → List Forma
  | hoja => []
  | nodo l i c d r => espina l ++ [nodo l i c d r]

/-- What is still to be emitted for a stack of subtrees whose left parts are
done: the root and the right part of each. -/
def pendiente : List Forma → List Int
  | [] => []
  | hoja :: fs => pendiente fs
  | nodo _ i _ _ r :: fs => i :: r.indices ++ pendiente fs

/-- The number of slots still to be emitted for a stack of subtrees. -/
def costo : List Forma → Nat
  | [] => 0
  | hoja :: fs => costo fs
  | nodo _ _ _ _ r :: fs => r.talla + 1 + costo fs

end Forma

/-- The characters that `to_string` produces. -/
def esCharDeId (c : Char) : Bool := c.isDigit || c == '-'

/-- The number that a list of decimal digits denotes. -/
def valor (s : List Char) : Nat := s.foldl (fun acc c => acc * 10 + (c.toNat - 48)) 0

/-- The integer that a text produced by `to_string` denotes. -/
def valorInt (s : List Char) : Int :=
  if s.head? = some '-' then -(valor s.tail : Int) else (valor s : Int)

/-- The file is empty or ends with a line break. -/
def Cerrado (datos : List (List Char)) : Prop := datos = [] ∨ datos.getLast? = some []

/-- Slot `j` is in the subtree of the array whose root is slot `i`. -/
inductive EnSubarbol (a : List Nodo) : Int → Int → Prop where
  | raiz {i : Int} {nd : Nodo} : leer a i = some nd → EnSubarbol a i i
  | izq {i j : Int} {nd : Nodo} : leer a i = some nd → EnSubarbol a nd.izq j → EnSubarbol a i j
  | der {i j : Int} {nd : Nodo} : leer a i = some nd → EnSubarbol a nd.der j → EnSubarbol a i j

/-- The links of `nd` that point to slot `i` replaced with `h`. -/
def reenlazado (nd : Nodo) (i h : Int) : Nodo :=
  { nd with izq := if nd.izq = i then h else nd.izq, der := if nd.der = i then h else nd.der }

/-- The calls `insertar(k, p)` of a list, each followed by `buscar(k)`; the
result lists what the two calls returned. -/
def insertarYBuscar (pasos : Nat) :
    Arbol → List (Int × List Char) → Except Falla (List (Bool × List Char))
  | _, [] => .ok []
  | t, (k, p) :: resto =>
    match insertar pasos t k p with
    | .error e => .error e
    | .ok (b, t') =>
      match buscar pasos t' k with
      | .error e => .error e
      | .ok r =>
        match insertarYBuscar pasos t' resto with
        | .error e => .error e
        | .ok rs => .ok ((b, r) :: rs)

/-- No line of the data file starts with an id that the counter has not yet
handed out. -/
def SinIdsFuturos (t : Arbol) : Prop :=
  ∀ l ∈ t.archivoDatos, ∀ id, t.contador ≤ id → (prefijoId id).isPrefixOf l = false

/-- The table of capacity 5 after `insertar(50, "A")`. -/
def ejemplo1 : Arbol :=
  ⟨[Nodo.nuevo, ⟨50, 1000, -1, -1, true⟩, Nodo.nuevo, Nodo.nuevo, Nodo.nuevo, Nodo.nuevo],
    5, 1, 2, 1001, ["1000|A".toList, []]⟩

/-- The table after `insertar(30, "B")`. -/
def ejemplo2 : Arbol :=
  ⟨[Nodo.nuevo, ⟨50, 1000, 2, -1, true⟩, ⟨30, 1001, -1, -1, true⟩, Nodo.nuevo, Nodo.nuevo,
     Nodo.nuevo],
    5, 1, 3, 1002, ["1000|A".toList, "1001|B".toList, []]⟩

/-- The table after `insertar(70, "C")`. -/
def ejemplo3 : Arbol :=
  ⟨[Nodo.nuevo, ⟨50, 1000, 2, 3, true⟩, ⟨30, 1001, -1, -1, true⟩, ⟨70, 1002, -1, -1, true⟩,
     Nodo.nuevo, Nodo.nuevo],
    5, 1, 4, 1003, ["1000|A".toList, "1001|B".toList, "1002|C".toList, []]⟩

/-- The table after `insertar(20, "D")`: slot 1 (key 50) has two children,
slot 2 (key 30) has one child, slots 3 and 4 (keys 70 and 20) are leaves. -/
def ejemplo : Arbol :=
  ⟨[Nodo.nuevo, ⟨50, 1000, 2, 3, true⟩, ⟨30, 1001, 4, -1, true⟩, ⟨70, 1002, -1, -1, true⟩,
     ⟨20, 1003, -1, -1, true⟩, Nodo.nuevo],
    5, 1, 5, 1004, ["1000|A".toList, "1001|B".toList, "1002|C".toList, "1003|D".toList, []]⟩

/-- The states of a table of capacity `n` that are reached from the empty
table by a sequence of calls of which exactly `m` are calls of `insertar` that
return true. -/
inductive AlcanzableCon (n : Nat) : Nat → Arbol → Prop where
  | crear (c : Int) (d : List (List Char)) : AlcanzableCon n 0 (crear n c d)
  | insertarSi {m : Nat} {t t' : Arbol} {pasos : Nat} {k : Int} {p : List Char} :
      AlcanzableCon n m t → insertar pasos t k p = .ok (true, t') → AlcanzableCon n (m + 1) t'
  | insertarNo {m : Nat} {t t' : Arbol} {pasos : Nat} {k : Int} {p : List Char} :
      AlcanzableCon n m t → insertar pasos t k p = .ok (false, t') → AlcanzableCon n m t'
  | eliminar {m : Nat} {t t' : Arbol} {pasos : Nat} {k : Int} {b : Bool} :
      AlcanzableCon n m t → eliminar pasos t k = .ok (b, t') → AlcanzableCon n m t'
  | modificar {m : Nat} {t t' : Arbol} {pasos : Nat} {k : Int} {p : List Char} {b : Bool} :
      AlcanzableCon n m t → modificar pasos t k p = .ok (b, t') → AlcanzableCon n m t'

/-- The value `x` is a link that can be followed in `t`: it is `-1` or the
index of a slot that has been allocated. -/
def EnlaceValido (t : Arbol) (x : Int) : Prop :=
  x = -1 ∨ (1 ≤ x ∧ x < t.siguienteLibre)

/-- The result `r` is the result `r'` unless the bound was used up. -/
def Refina {α : Type} (r r' : Except Falla α) : Prop :=
  r = .error .sinPasos ∨ r = r'

namespace Forma

/-- The slot indices in preorder: the slot, its left part, its right part. -/
def preorden : Forma → List Int
  | hoja => []
  | nodo l i _ _ r => i :: (l.preorden ++ r.preorden)

/-- The slot indices in postorder: the left part, the right part, the slot. -/
def postorden : Forma → List Int
  | hoja => []
  | nodo l i _ _ r => l.postorden ++ r.postorden ++ [i]

/-- The order in which the first loop of `recorridoPostorden` pops the slots:
the slot, its right part, its left part. -/
def espejo : Forma → List Int
  | hoja => []
  | nodo l i _ _ r => i :: (r.espejo ++ l.espejo)

/-- The tree as a list of trees, without the empty tree: what a traversal
pushes for a link. -/
def noHoja : Forma → List Forma
  | hoja => []
  | nodo l i c d r => [nodo l i c d r]

/-- The nonempty parts of a tree, left first. -/
def hijos : Forma → List Forma
  | hoja => []
  | nodo l _ _ _ r => noHoja l ++ noHoja r

/-- The number of slots of a list of trees. -/
def tallas : List Forma → Nat
  | [] => 0
  | g :: fs => g.talla + tallas fs

/-- Breadth-first order of a queue of trees: the root of the first tree, then
the rest of the queue followed by the parts of the first tree; the first
argument bounds the number of slots emitted. -/
def anchura : Nat → List Forma → List Int
  | 0, _ => []
  | _ + 1, [] => []
  | m + 1, g :: fs => g.raiz :: anchura m (fs ++ g.hijos)

end Forma

/-- The table of capacity 1 after `insertar(5, "X")`. -/
def capUno1 : Arbol :=
  ⟨[Nodo.nuevo, ⟨5, 1000, -1, -1, true⟩], 1, 1, 2, 1001, ["1000|X".toList, []]⟩

/-- The table of capacity 1 after `insertar(5, "X")` and `eliminar(5)`. -/
def capUno2 : Arbol :=
  ⟨[Nodo.nuevo, ⟨5, 1000, -1, -1, false⟩], 1, -1, 2, 1001, ["ELIMINADO:1000|X".toList, []]⟩

/-- The table of capacity 5 after `insertar(1, p)` for a payload `p` of two
lines, the second being `1002|evil`. -/
def enganoso1 : Arbol :=
  ⟨[Nodo.nuevo, ⟨1, 1000, -1, -1, true⟩, Nodo.nuevo, Nodo.nuevo, Nodo.nuevo, Nodo.nuevo],
    5, 1, 2, 1001, ["1000|x".toList, "1002|evil".toList, []]⟩

/-- The table after `insertar(2, "b")`. -/
def enganoso2 : Arbol :=
  ⟨[Nodo.nuevo, ⟨1, 1000, -1, 2, true⟩, ⟨2, 1001, -1, -1, true⟩, Nodo.nuevo, Nodo.nuevo,
     Nodo.nuevo],
    5, 1, 3, 1002, ["1000|x".toList, "1002|evil".toList, "1001|b".toList, []]⟩

/-- The table after `modificar(2, "c")`. -/
def enganoso3 : Arbol :=
  ⟨[Nodo.nuevo, ⟨1, 1000, -1, 2, true⟩, ⟨2, 1002, -1, -1, true⟩, Nodo.nuevo, Nodo.nuevo,
     Nodo.nuevo],
    5, 1, 3, 1003,
    ["1000|x".toList, "1002|evil".toList, "ELIMINADO:1001|b".toList, "1002|c".toList, []]⟩

/-- A table of capacity 1 whose only slot is its own right child. -/
def ciclo : Arbol :=
  ⟨[Nodo.nuevo, ⟨5, 1000, -1, 1, true⟩], 1, 1, 2, 1001, ["1000|A".toList]⟩

/-- An image from which `cargarArbol` loads the table `ciclo`. -/
def imagenCiclo : Imagen :=
  ⟨1, 1, 2, [Nodo.nuevo, ⟨5, 1000, -1, 1, true⟩]⟩

/-- The table `ejemplo` after `eliminar(50)`: the successor key 70 has moved
into slot 1 and its former slot 3 is dead. -/
def ejemploSin50 : Arbol :=
  ⟨[Nodo.nuevo, ⟨70, 1002, 2, -1, true⟩, ⟨30, 1001, 4, -1, true⟩, ⟨70, 1002, -1, -1, false⟩,
     ⟨20, 1003, -1, -1, true⟩, Nodo.nuevo],
    5, 1, 5, 1004,
    ["ELIMINADO:1000|A".toList, "1001|B".toList, "1002|C".toList, "1003|D".toList, []]⟩

/-- The recursive preorder of the slots below the link `i`, in the words of the
specification: the slot, then its whole left subtree, then its whole right
subtree.  The first argument bounds the depth of the recursion. -/
def preordenRecursivo (a : List Nodo) : Nat → Int → List Int
  | 0, _ => []
  | m + 1, i =>
    if i = -1 then []
    else
      match leer a i with
      | none => []
      | some nd => i :: (preordenRecursivo a m nd.izq ++ preordenRecursivo a m nd.der)

/-- The recursive postorder of the slots below the link `i`, in the words of
the specification: the whole left subtree, then the whole right subtree, then
the slot.  The first argument bounds the depth of the recursion. -/
def postordenRecursivo (a : List Nodo) : Nat → Int → List Int
  | 0, _ => []
  | m + 1, i =>
    if i = -1 then []
    else
      match leer a i with
      | none => []
      | some nd => postordenRecursivo a m nd.izq ++ postordenRecursivo a m nd.der ++ [i]

/-- The slots at depth `d` below the link `i`, from left to right. -/
def nivel (a : List Nodo) : Nat → Int → List Int
  | d, i =>
    if i = -1 then []
    else
      match leer a i with
      | none => []
      | some nd =>
        match d with
        | 0 => [i]
        | d + 1 => nivel a d nd.izq ++ nivel a d nd.der

/-- The breadth-first order of the slots below the link `i`, in the words of
the specification: the levels of depth 0, 1, ..., `m - 1`, one after the
other. -/
def porNivelesRecursivo (a : List Nodo) (m : Nat) (i : Int) : List Int :=
  (List.range m).flatMap (fun d => nivel a d i)

namespace Forma

/-- The slots at depth `d` of a tree, from left to right. -/
def capa : Nat → Forma → List Int
  | _, hoja => []
  | 0, nodo _ i _ _ _ => [i]
  | d + 1, nodo l _ _ _ r => capa d l ++ capa d r

/-- The levels of depth 0, 1, ..., `D - 1` of a list of trees, one after the
other. -/
def capas (D : Nat) (L : List Forma) : List Int :=
  (List.range D).flatMap (fun d => L.flatMap (capa d))

end Forma

/-- The slots that the search-tree walk for the key `k` visits from the link `i`
on, in the order of the visit: the walk goes left when `k` is smaller than the
key of a slot and right otherwise, and ends at a slot that holds `k` or at a
link `-1`.  The first argument bounds the number of slots. -/
def camino (a : List Nodo) (k : Int) : Nat → Int → List Int
  | 0, _ => []
  | m + 1, i =>
    if i = -1 then []
    else
      match leer a i with
      | none => []
      | some nd =>
        if k = nd.clave then [i]
        else i :: camino a k m (if k < nd.clave then nd.izq else nd.der)

/-- No slot of the array has a link to index 0. -/
def SinCero (a : List Nodo) : Prop := ∀ i nd, leer a i = some nd → nd.izq ≠ 0 ∧ nd.der ≠ 0

/-- No index of the list is 0. -/
def SinCeros (l : List Int) : Prop := ∀ x ∈ l, x ≠ 0

/-! ## Reads, writes and loops -/

@[simp] theorem ok_bind {α β : Type} (x : α) (f : α → Except Falla β) :
    (Except.ok x >>= f) = f x := rfl

@[simp] theorem error_bind {α β : Type} (e : Falla) (f : α → Except Falla β) :
    (Except.error e >>= f) = Except.error e := rfl

@[simp] theorem map_ok {α β : Type} (f : α → β) (x : α) :
    f <$> (Except.ok x : Except Falla α) = Except.ok (f x) := rfl

@[simp] theorem map_error {α β : Type} (f : α → β) (e : Falla) :
    f <$> (Except.error e : Except Falla α) = Except.error e := rfl

@[simp] theorem pure_eq_ok {α : Type} (x : α) : (pure x : Except Falla α) = Except.ok x := rfl

theorem leer_some_rango {a : List Nodo} {i : Int} {nd : Nodo} (h : leer a i = some nd) :
    0 ≤ i ∧ i < a.length := by
  unfold leer at h
  split at h
  · rename_i h0
    have := List.getElem?_eq_some.1 h
    obtain ⟨hlt, -⟩ := this
    omega
  · cases h

theorem leer_of_rango {a : List Nodo} {i : Int} (h0 : 0 ≤ i) (h1 : i < a.length) :
    ∃ nd, leer a i = some nd := by
  unfold leer
  rw [if_pos h0]
  have : i.toNat < a.length := by omega
  exact ⟨a[i.toNat], List.getElem?_eq_getElem this⟩

theorem leer_ne_menos_uno {a : List Nodo} {i : Int} {nd : Nodo} (h : leer a i = some nd) :
    i ≠ -1 := by
  have := leer_some_rango h
  omega

theorem length_escribir (a : List Nodo) (i : Int) (x : Nodo) :
    (escribir a i x).length = a.length := by
  simp [escribir]

theorem leer_escribir_mismo {a : List Nodo} {i : Int} {nd : Nodo} (x : Nodo)
    (h : leer a i = some nd) : leer (escribir a i x) i = some x := by
  have hr := leer_some_rango h
  unfold leer escribir
  rw [if_pos hr.1]
  have : i.toNat < a.length := by omega
  simp [this]

theorem leer_escribir_otro {a : List Nodo} {i j : Int} (x : Nodo) (hj : 0 ≤ j) (h : i ≠ j) :
    leer (escribir a j x) i = leer a i := by
  unfold leer escribir
  by_cases h0 : 0 ≤ i
  · rw [if_pos h0, if_pos h0]
    have : j.toNat ≠ i.toNat := by omega
    simp [List.getElem?_set, this]
  · rw [if_neg h0, if_neg h0]

theorem leer_escribir {a : List Nodo} {i j : Int} {nd : Nodo} (x : Nodo)
    (h : leer a j = some nd) :
    leer (escribir a j x) i = if i = j then some x else leer a i := by
  by_cases hij : i = j
  · subst hij
    rw [if_pos rfl]
    exact leer_escribir_mismo x h
  · rw [if_neg hij]
    exact leer_escribir_otro x (leer_some_rango h).1 hij

theorem actualizar_ok {a : List Nodo} {i : Int} {nd : Nodo} (f : Nodo → Nodo)
    (h : leer a i = some nd) : actualizar a i f = .ok (escribir a i (f nd)) := by
  simp [actualizar, h]

theorem iterar_succ_inl {σ ρ : Type} {paso : σ → Except Falla (σ ⊕ ρ)} {s u : σ} (k : Nat)
    (h : paso s = .ok (.inl u)) : iterar paso (k + 1) s = iterar paso k u := by
  simp [iterar, h]

theorem iterar_succ_inr {σ ρ : Type} {paso : σ → Except Falla (σ ⊕ ρ)} {s : σ} {r : ρ} (k : Nat)
    (h : paso s = .ok (.inr r)) : iterar paso (k + 1) s = .ok r := by
  simp [iterar, h]

/-- A loop that ends within a bound ends, with the same value, within any
larger bound, also when the body is replaced by one that agrees with it
wherever it succeeds. -/
theorem iterar_mono {σ ρ : Type} {paso paso' : σ → Except Falla (σ ⊕ ρ)}
    (hp : ∀ s x, paso s = .ok x → paso' s = .ok x) :
    ∀ (k k' : Nat) (s : σ) (r : ρ), k ≤ k' → iterar paso k s = .ok r → iterar paso' k' s = .ok r := by
  intro k
  induction k with
  | zero => intro k' s r _ h; simp [iterar] at h
  | succ k ih =>
    intro k' s r hk h
    obtain ⟨m, rfl⟩ : ∃ m, k' = m + 1 := ⟨k' - 1, by omega⟩
    unfold iterar at h
    split at h
    · cases h
    · rename_i s' hs
      rw [iterar_succ_inl m (hp _ _ hs)]
      exact ih m s' r (by omega) h
    · rename_i r' hs
      rw [iterar_succ_inr m (hp _ _ hs)]
      exact h

namespace Forma

/-! ## The tree stored in the array -/

@[simp] theorem raiz_hoja : hoja.raiz = -1 := rfl

@[simp] theorem raiz_nodo (l : Forma) (i c d : Int) (r : Forma) : (nodo l i c d r).raiz = i := rfl

theorem length_indices (f : Forma) : f.indices.length = f.talla := by
  induction f with
  | hoja => rfl
  | nodo l i c d r ihl ihr => simp [indices, talla, ihl, ihr]; omega

theorem claves_eq_map_pares (f : Forma) : f.claves = f.pares.map Prod.fst := by
  induction f with
  | hoja => rfl
  | nodo l i c d r ihl ihr => simp [claves, pares, ihl, ihr]

theorem raiz_eq_menos_uno {a : List Nodo} {f : Forma} (h : Rep a f) : f.raiz = -1 ↔ f = hoja := by
  cases f with
  | hoja => simp [raiz]
  | nodo l i c d r =>
    simp only [raiz, reduceCtorEq, iff_false]
    exact leer_ne_menos_uno h.1

theorem rep_leer_indices {a : List Nodo} {f : Forma} (h : Rep a f) :
    ∀ i ∈ f.indices, ∃ nd, leer a i = some nd ∧ nd.activo = true ∧ nd.clave ∈ f.claves := by
  induction f with
  | hoja => intro i hi; simp [indices] at hi
  | nodo l j c d r ihl ihr =>
    intro i hi
    simp only [indices, List.mem_append, List.mem_cons] at hi
    rcases hi with hi | rfl | hi
    · obtain ⟨nd, h1, h2, h3⟩ := ihl h.2.1 i hi
      exact ⟨nd, h1, h2, by simp [claves, h3]⟩
    · exact ⟨_, h.1, rfl, by simp [claves]⟩
    · obtain ⟨nd, h1, h2, h3⟩ := ihr h.2.2 i hi
      exact ⟨nd, h1, h2, by simp [claves, h3]⟩

theorem rep_claves_eq {a : List Nodo} {f : Forma} (h : Rep a f) :
    f.claves = f.indices.map (claveEn a) := by
  induction f with
  | hoja => rfl
  | nodo l j c d r ihl ihr =>
    simp [claves, indices, ihl h.2.1, ihr h.2.2, claveEn, h.1]

theorem rep_pares_eq {a : List Nodo} {f : Forma} (h : Rep a f) :
    f.pares = f.indices.map (fun i => (claveEn a i, idEn a i)) := by
  induction f with
  | hoja => rfl
  | nodo l j c d r ihl ihr =>
    simp [pares, indices, ihl h.2.1, ihr h.2.2, claveEn, idEn, h.1]

theorem ordenado_iff_sorted (f : Forma) : f.ordenado ↔ f.claves.Sorted (· < ·) := by
  induction f with
  | hoja => simp [ordenado, claves]
  | nodo l j c d r ihl ihr =>
    simp only [ordenado, claves, List.Sorted, List.pairwise_append, List.pairwise_cons,
      List.mem_cons, ihl, ihr]
    constructor
    · rintro ⟨h1, h2, h3, h4⟩
      refine ⟨h1, ⟨h4, h2⟩, ?_⟩
      intro x hx y hy
      rcases hy with rfl | hy
      · exact h3 x hx
      · exact lt_trans (h3 x hx) (h4 y hy)
    · rintro ⟨h1, ⟨h4, h2⟩, h5⟩
      exact ⟨h1, h2, fun x hx => h5 x hx c (Or.inl rfl), h4⟩

theorem nodup_claves_of_ordenado {f : Forma} (h : f.ordenado) : f.claves.Nodup :=
  ((ordenado_iff_sorted f).1 h).nodup

theorem rep_nodup_indices {a : List Nodo} {f : Forma} (h : Rep a f) (ho : f.ordenado) :
    f.indices.Nodup := by
  have := nodup_claves_of_ordenado ho
  rw [rep_claves_eq h] at this
  exact List.Nodup.of_map _ this

/-- Writing a slot that is not in the tree keeps the tree stored. -/
theorem rep_escribir {a : List Nodo} {f : Forma} (h : Rep a f) {j : Int} (x : Nodo)
    (hj0 : 0 ≤ j) (hj : j ∉ f.indices) : Rep (escribir a j x) f := by
  induction f with
  | hoja => trivial
  | nodo l i c d r ihl ihr =>
    simp only [indices, List.mem_append, List.mem_cons, not_or] at hj
    refine ⟨?_, ihl h.2.1 hj.1, ihr h.2.2 hj.2.2⟩
    rw [leer_escribir_otro x hj0 (Ne.symm hj.2.1)]
    exact h.1

/-- Two arrays that agree on the slots of the tree store the same tree. -/
theorem rep_congr {a b : List Nodo} {f : Forma} (h : Rep a f)
    (hab : ∀ i ∈ f.indices, leer b i = leer a i) : Rep b f := by
  induction f with
  | hoja => trivial
  | nodo l i c d r ihl ihr =>
    refine ⟨?_, ihl h.2.1 ?_, ihr h.2.2 ?_⟩
    · rw [hab i (by simp [indices])]; exact h.1
    · intro j hj; exact hab j (by simp [indices, hj])
    · intro j hj; exact hab j (by simp [indices, hj])

theorem busca_eq_none {f : Forma} {k : Int} (ho : f.ordenado) (hk : k ∉ f.claves) :
    f.busca k = none := by
  induction f with
  | hoja => rfl
  | nodo l i c d r ihl ihr =>
    simp only [claves, List.mem_append, List.mem_cons, not_or] at hk
    simp only [busca, if_neg hk.2.1]
    split
    · exact ihl ho.1 hk.1
    · exact ihr ho.2.1 hk.2.2

theorem busca_eq_some {f : Forma} {k d : Int} (ho : f.ordenado) (hk : (k, d) ∈ f.pares) :
    f.busca k = some d := by
  induction f with
  | hoja => simp [pares] at hk
  | nodo l i c e r ihl ihr =>
    simp only [pares, List.mem_append, List.mem_cons, Prod.mk.injEq] at hk
    simp only [busca]
    rcases hk with hk | ⟨rfl, rfl⟩ | hk
    · have hm : k ∈ l.claves := by
        rw [claves_eq_map_pares]; exact List.mem_map_of_mem Prod.fst hk
      have hlt := ho.2.2.1 k hm
      rw [if_neg (ne_of_lt hlt), if_pos hlt]
      exact ihl ho.1 hk
    · rw [if_pos rfl]
    · have hm : k ∈ r.claves := by
        rw [claves_eq_map_pares]; exact List.mem_map_of_mem Prod.fst hk
      have hlt := ho.2.2.2 k hm
      rw [if_neg (ne_of_gt hlt), if_neg (not_lt.2 (le_of_lt hlt))]
      exact ihr ho.2.1 hk

/-- The loop of `buscar` on a stored tree is the search-tree descent. -/
theorem iterar_pasoBuscar {a : List Nodo} {f : Forma} (h : Rep a f) (k : Int) :
    ∀ pasos : Nat, f.talla < pasos → iterar (pasoBuscar a k) pasos f.raiz = .ok (f.busca k) := by
  induction f with
  | hoja =>
    intro pasos hp
    obtain ⟨m, rfl⟩ : ∃ m, pasos = m + 1 := ⟨pasos - 1, by omega⟩
    exact iterar_succ_inr m (by simp [pasoBuscar, raiz, busca])
  | nodo l i c d r ihl ihr =>
    intro pasos hp
    simp only [talla] at hp
    obtain ⟨m, rfl⟩ : ∃ m, pasos = m + 1 := ⟨pasos - 1, by omega⟩
    have hi : i ≠ -1 := leer_ne_menos_uno h.1
    simp only [raiz, busca]
    by_cases hkc : k = c
    · rw [if_pos hkc]
      exact iterar_succ_inr m (by simp [pasoBuscar, hi, h.1, hkc])
    · rw [if_neg hkc]
      by_cases hlt : k < c
      · rw [if_pos hlt, iterar_succ_inl m (u := l.raiz) (by simp [pasoBuscar, hi, h.1, hkc, hlt])]
        exact ihl h.2.1 m (by omega)
      · rw [if_neg hlt, iterar_succ_inl m (u := r.raiz) (by simp [pasoBuscar, hi, h.1, hkc, hlt])]
        exact ihr h.2.2 m (by omega)

theorem ubica_snd_of_not_mem {f : Forma} {k : Int} (hk : k ∉ f.claves) (p : Int) :
    (f.ubica k p).2 = -1 := by
  induction f generalizing p with
  | hoja => rfl
  | nodo l i c d r ihl ihr =>
    simp only [claves, List.mem_append, List.mem_cons, not_or] at hk
    simp only [ubica, if_neg hk.2.1]
    split
    · exact ihl hk.1 i
    · exact ihr hk.2.2 i

theorem ubica_snd_of_mem {a : List Nodo} {f : Forma} {k : Int} (h : Rep a f) (ho : f.ordenado)
    (hk : k ∈ f.claves) (p : Int) :
    (f.ubica k p).2 ∈ f.indices ∧ claveEn a (f.ubica k p).2 = k := by
  induction f generalizing p with
  | hoja => simp [claves] at hk
  | nodo l i c d r ihl ihr =>
    simp only [claves, List.mem_append, List.mem_cons] at hk
    simp only [ubica, indices, List.mem_append, List.mem_cons]
    by_cases hkc : k = c
    · rw [if_pos hkc]
      exact ⟨Or.inr (Or.inl rfl), by simp [claveEn, h.1, hkc]⟩
    · rw [if_neg hkc]
      by_cases hlt : k < c
      · rw [if_pos hlt]
        have hkl : k ∈ l.claves := by
          rcases hk with hk | hk | hk
          · exact hk
          · exact absurd hk hkc
          · exact absurd (ho.2.2.2 k hk) (not_lt.2 (le_of_lt hlt))
        exact ⟨Or.inl (ihl h.2.1 ho.1 hkl i).1, (ihl h.2.1 ho.1 hkl i).2⟩
      · rw [if_neg hlt]
        have hkr : k ∈ r.claves := by
          rcases hk with hk | hk | hk
          · exact absurd (ho.2.2.1 k hk) hlt
          · exact absurd hk hkc
          · exact hk
        exact ⟨Or.inr (Or.inr (ihr h.2.2 ho.2.1 hkr i).1), (ihr h.2.2 ho.2.1 hkr i).2⟩

/-- The loop of `buscarPosicion` on a stored tree. -/
theorem iterar_pasoBuscarPosicion {a : List Nodo} {f : Forma} (h : Rep a f) (k : Int) :
    ∀ (pasos : Nat) (p : Int), f.talla < pasos →
      iterar (pasoBuscarPosicion a k) pasos (p, f.raiz) = .ok ((f.ubica k p).2, (f.ubica k p).1) := by
  induction f with
  | hoja =>
    intro pasos p hp
    obtain ⟨m, rfl⟩ : ∃ m, pasos = m + 1 := ⟨pasos - 1, by omega⟩
    exact iterar_succ_inr m (by simp [pasoBuscarPosicion, raiz, ubica])
  | nodo l i c d r ihl ihr =>
    intro pasos p hp
    simp only [talla] at hp
    obtain ⟨m, rfl⟩ : ∃ m, pasos = m + 1 := ⟨pasos - 1, by omega⟩
    have hi : i ≠ -1 := leer_ne_menos_uno h.1
    simp only [raiz, ubica]
    by_cases hkc : k = c
    · rw [if_pos hkc]
      exact iterar_succ_inr m (by simp [pasoBuscarPosicion, hi, h.1, hkc])
    · rw [if_neg hkc]
      by_cases hlt : k < c
      · rw [if_pos hlt,
          iterar_succ_inl m (u := (i, l.raiz)) (by simp [pasoBuscarPosicion, hi, h.1, hkc, hlt])]
        exact ihl h.2.1 m i (by omega)
      · rw [if_neg hlt,
          iterar_succ_inl m (u := (i, r.raiz)) (by simp [pasoBuscarPosicion, hi, h.1, hkc, hlt])]
        exact ihr h.2.2 m i (by omega)

theorem inserta_raiz_of_ne_hoja {f : Forma} (k s d : Int) (hf : f ≠ hoja) :
    (f.inserta k s d).raiz = f.raiz := by
  cases f with
  | hoja => exact absurd rfl hf
  | nodo l i c e r => simp only [inserta]; split <;> rfl

theorem pares_inserta (k s d : Int) (f : Forma) :
    (f.inserta k s d).pares.Perm ((k, d) :: f.pares) := by
  induction f with
  | hoja => simp [inserta, pares]
  | nodo l i c e r ihl ihr =>
    simp only [inserta]
    split
    · simp only [pares]
      exact (List.Perm.append_right _ ihl).trans (by simp)
    · simp only [pares]
      have h1 : (l.pares ++ (c, e) :: (inserta k s d r).pares).Perm
          (l.pares ++ (c, e) :: (k, d) :: r.pares) :=
        List.Perm.append_left _ (List.Perm.cons _ ihr)
      refine h1.trans ?_
      have h2 : ((k, d) :: (l.pares ++ (c, e) :: r.pares)).Perm
          (l.pares ++ (k, d) :: (c, e) :: r.pares) := List.perm_middle.symm
      refine List.Perm.trans ?_ h2.symm
      exact List.Perm.append_left _ (List.Perm.swap _ _ _)

theorem mem_claves_inserta {k s d : Int} {f : Forma} {x : Int} :
    x ∈ (f.inserta k s d).claves ↔ x = k ∨ x ∈ f.claves := by
  rw [claves_eq_map_pares, claves_eq_map_pares, ((pares_inserta k s d f).map Prod.fst).mem_iff]
  simp

theorem indices_inserta (k s d : Int) (f : Forma) :
    (f.inserta k s d).indices.Perm (s :: f.indices) := by
  induction f with
  | hoja => simp [inserta, indices]
  | nodo l i c e r ihl ihr =>
    simp only [inserta]
    split
    · simp only [indices]
      exact (List.Perm.append_right _ ihl).trans (by simp)
    · simp only [indices]
      have h1 : (l.indices ++ i :: (inserta k s d r).indices).Perm
          (l.indices ++ i :: s :: r.indices) :=
        List.Perm.append_left _ (List.Perm.cons _ ihr)
      refine h1.trans ?_
      have h2 : (s :: (l.indices ++ i :: r.indices)).Perm
          (l.indices ++ s :: i :: r.indices) := List.perm_middle.symm
      refine List.Perm.trans ?_ h2.symm
      exact List.Perm.append_left _ (List.Perm.swap _ _ _)

theorem ordenado_inserta {k : Int} (s d : Int) {f : Forma} (ho : f.ordenado) (hk : k ∉ f.claves) :
    (f.inserta k s d).ordenado := by
  induction f with
  | hoja => simp [inserta, ordenado, claves]
  | nodo l i c e r ihl ihr =>
    simp only [claves, List.mem_append, List.mem_cons, not_or] at hk
    simp only [inserta]
    split
    · rename_i hlt
      refine ⟨ihl ho.1 hk.1, ho.2.1, ?_, ho.2.2.2⟩
      intro x hx
      rcases mem_claves_inserta.1 hx with rfl | hx
      · exact hlt
      · exact ho.2.2.1 x hx
    · rename_i hlt
      refine ⟨ho.1, ihr ho.2.1 hk.2.2, ho.2.2.1, ?_⟩
      intro x hx
      rcases mem_claves_inserta.1 hx with rfl | hx
      · exact lt_of_le_of_ne (not_lt.1 hlt) (Ne.symm hk.2.1)
      · exact ho.2.2.2 x hx

/-- Linking the new slot `s` under the parent found by `buscarPosicion` stores
the tree with the key inserted. -/
theorem rep_inserta {b : List Nodo} {f : Forma} {k s d : Int} (h : Rep b f) (ho : f.ordenado)
    (hf : f ≠ hoja) (hk : k ∉ f.claves) (hs : s ∉ f.indices)
    (hb : leer b s = some ⟨k, d, -1, -1, true⟩) (p : Int) :
    ∃ np, (f.ubica k p).1 ∈ f.indices ∧ leer b (f.ubica k p).1 = some np ∧
      Rep (escribir b (f.ubica k p).1
            (if k < np.clave then { np with izq := s } else { np with der := s }))
          (f.inserta k s d) := by
  induction f generalizing p with
  | hoja => exact absurd rfl hf
  | nodo l i c e r ihl ihr =>
    have hnd := rep_nodup_indices h ho
    simp only [indices, List.nodup_append, List.nodup_cons, List.Disjoint, List.mem_cons] at hnd
    obtain ⟨hnl, ⟨hir, hnr⟩, hdis⟩ := hnd
    have hil : i ∉ l.indices := fun hx => hdis hx (Or.inl rfl)
    simp only [claves, List.mem_append, List.mem_cons, not_or] at hk
    simp only [indices, List.mem_append, List.mem_cons, not_or] at hs
    have hi0 : 0 ≤ i := (leer_some_rango h.1).1
    simp only [ubica, if_neg hk.2.1, inserta]
    by_cases hlt : k < c
    · simp only [if_pos hlt]
      by_cases hl : l = hoja
      · subst hl
        refine ⟨_, by simp [indices, ubica], h.1, ?_⟩
        simp only [ubica, if_pos hlt, inserta]
        refine ⟨?_, ⟨?_, trivial, trivial⟩, ?_⟩
        · rw [leer_escribir_mismo _ h.1]; rfl
        · rw [leer_escribir_otro _ hi0 hs.2.1]; exact hb
        · exact rep_escribir h.2.2 _ hi0 hir
      · obtain ⟨np, hpi, hnp, hrep⟩ := ihl h.2.1 ho.1 hl hk.1 hs.1 i
        have hp0 : 0 ≤ (l.ubica k i).1 := (leer_some_rango hnp).1
        refine ⟨np, by simp [indices, hpi], hnp, ?_, hrep, ?_⟩
        · rw [leer_escribir_otro _ hp0 (fun hx => hil (by rw [hx]; exact hpi)), inserta_raiz_of_ne_hoja _ _ _ hl]
          exact h.1
        · exact rep_escribir h.2.2 _ hp0 (fun hx => hdis hpi (Or.inr hx))
    · simp only [if_neg hlt]
      by_cases hr : r = hoja
      · subst hr
        refine ⟨_, by simp [indices, ubica], h.1, ?_⟩
        simp only [ubica, if_neg hlt, inserta]
        refine ⟨?_, ?_, ⟨?_, trivial, trivial⟩⟩
        · rw [leer_escribir_mismo _ h.1]; rfl
        · exact rep_escribir h.2.1 _ hi0 hil
        · rw [leer_escribir_otro _ hi0 hs.2.1]; exact hb
      · obtain ⟨np, hpi, hnp, hrep⟩ := ihr h.2.2 ho.2.1 hr hk.2.2 hs.2.2 i
        have hp0 : 0 ≤ (r.ubica k i).1 := (leer_some_rango hnp).1
        refine ⟨np, by simp [indices, hpi], hnp, ?_, ?_, hrep⟩
        · rw [leer_escribir_otro _ hp0 (fun hx => hir (by rw [hx]; exact hpi)), inserta_raiz_of_ne_hoja _ _ _ hr]
          exact h.1
        · exact rep_escribir h.2.1 _ hp0 (fun hx => hdis hx (Or.inr hpi))

end Forma

/-! ## The invariant of the table -/

theorem leer_replicate {n : Nat} {i : Int} (h0 : 0 ≤ i) (h1 : i ≤ n) :
    leer (List.replicate (n + 1) Nodo.nuevo) i = some Nodo.nuevo := by
  unfold leer
  rw [if_pos h0]
  have : i.toNat < n + 1 := by omega
  simp [List.getElem?_replicate, this]

theorem inv_crear (n : Nat) (c : Int) (d : List (List Char)) : Inv n (crear n c d) Forma.hoja where
  largo := by simp [crear]
  tam := rfl
  libre_pos := by simp [crear]
  libre_le := by simp [crear]
  rep := trivial
  raiz := rfl
  ord := trivial
  vivo := by
    intro i nd h
    have hr := leer_some_rango h
    simp only [crear, List.length_replicate] at hr
    rw [show (crear n c d).arreglo = List.replicate (n + 1) Nodo.nuevo from rfl,
      leer_replicate hr.1 (by omega)] at h
    cases h
    simp [Nodo.nuevo, Forma.indices]
  resto := by
    intro i h0 h1
    simp only [crear] at h0
    exact leer_replicate (by omega) h1
  cero := leer_replicate (le_refl _) (by omega)
  ids_lt := by simp [Forma.pares]
  ids_nodup := by simp [Forma.pares]

theorem Inv.indice_rango {n : Nat} {t : Arbol} {f : Forma} (h : Inv n t f) {i : Int}
    (hi : i ∈ f.indices) : 1 ≤ i ∧ i < t.siguienteLibre := by
  obtain ⟨nd, hnd, hact, -⟩ := Forma.rep_leer_indices h.rep i hi
  have hr := leer_some_rango hnd
  rw [h.largo] at hr
  constructor
  · by_contra hlt
    have h0 : i = 0 := by omega
    subst h0
    rw [h.cero] at hnd
    cases hnd
    simp [Nodo.nuevo] at hact
  · by_contra hge
    rw [h.resto i (by omega) (by omega)] at hnd
    cases hnd
    simp [Nodo.nuevo] at hact

theorem length_le_of_nodup_rango {l : List Int} {m : Int} (hn : l.Nodup)
    (hr : ∀ i ∈ l, 1 ≤ i ∧ i < m) : (l.length : Int) < max m 1 := by
  have hsub : l.toFinset ⊆ Finset.Ico 1 m := by
    intro i hi
    rw [List.mem_toFinset] at hi
    rw [Finset.mem_Ico]
    exact hr i hi
  have hcard := Finset.card_le_card hsub
  rw [List.toFinset_card_of_nodup hn, Int.card_Ico] at hcard
  omega

theorem Inv.talla_lt {n : Nat} {t : Arbol} {f : Forma} (h : Inv n t f) :
    (f.talla : Int) < t.siguienteLibre := by
  have h1 := length_le_of_nodup_rango (Forma.rep_nodup_indices h.rep h.ord)
    (fun i hi => h.indice_rango hi)
  rw [Forma.length_indices] at h1
  have := h.libre_pos
  omega

theorem Inv.talla_lt_pasos {n : Nat} {t : Arbol} {f : Forma} (h : Inv n t f) {pasos : Nat}
    (hp : t.siguienteLibre ≤ pasos) : f.talla < pasos := by
  have := h.talla_lt
  omega

theorem mem_clavesVivas {t : Arbol} {k : Int} :
    k ∈ clavesVivas t ↔ ∃ i nd, leer t.arreglo i = some nd ∧ nd.activo = true ∧ nd.clave = k := by
  simp only [clavesVivas, List.mem_map, List.mem_filter]
  constructor
  · rintro ⟨nd, ⟨hm, ha⟩, hk⟩
    obtain ⟨j, hj, hget⟩ := List.getElem_of_mem hm
    refine ⟨(j : Int), nd, ?_, ha, hk⟩
    unfold leer
    rw [if_pos (by omega)]
    simp [hget, hj]
  · rintro ⟨i, nd, hl, ha, hk⟩
    refine ⟨nd, ⟨?_, ha⟩, hk⟩
    unfold leer at hl
    split at hl
    · exact List.getElem?_mem hl
    · cases hl

theorem Inv.viva_iff {n : Nat} {t : Arbol} {f : Forma} (h : Inv n t f) {k : Int} :
    k ∈ clavesVivas t ↔ k ∈ f.claves := by
  rw [ArbolBin.mem_clavesVivas]
  constructor
  · rintro ⟨i, nd, hl, ha, hk⟩
    have hi := (h.vivo i nd hl).1 ha
    obtain ⟨nd', hl', -, hc⟩ := Forma.rep_leer_indices h.rep i hi
    rw [hl] at hl'
    cases hl'
    rw [← hk]
    exact hc
  · intro hk
    rw [Forma.rep_claves_eq h.rep, List.mem_map] at hk
    obtain ⟨i, hi, hc⟩ := hk
    obtain ⟨nd, hl, ha, -⟩ := Forma.rep_leer_indices h.rep i hi
    refine ⟨i, nd, hl, ha, ?_⟩
    simpa [claveEn, hl] using hc

/-! ## `insertar` on a table that satisfies the invariant -/

theorem buscarPosicion_eq {n : Nat} {t : Arbol} {f : Forma} (h : Inv n t f) {pasos : Nat}
    (hp : t.siguienteLibre ≤ pasos) (k : Int) :
    buscarPosicion pasos t k (-1) = .ok ((f.ubica k (-1)).2, (f.ubica k (-1)).1) := by
  unfold buscarPosicion
  by_cases hr : t.raiz = -1
  · rw [if_pos hr]
    have : f = Forma.hoja := (Forma.raiz_eq_menos_uno h.rep).1 (h.raiz ▸ hr)
    subst this
    rfl
  · rw [if_neg hr, h.raiz]
    exact Forma.iterar_pasoBuscarPosicion h.rep k pasos (-1) (h.talla_lt_pasos hp)

theorem insertar_lleno {t : Arbol} (pasos : Nat) (k : Int) (p : List Char)
    (h : t.siguienteLibre > t.tamano) : insertar pasos t k p = .ok (false, t) := by
  simp [insertar, h]

theorem insertar_duplicada {n : Nat} {t : Arbol} {f : Forma} (h : Inv n t f) {pasos : Nat}
    (hp : t.siguienteLibre ≤ pasos) {k : Int} (hk : k ∈ f.claves) (p : List Char) :
    insertar pasos t k p = .ok (false, t) := by
  by_cases hfull : t.siguienteLibre > t.tamano
  · exact insertar_lleno pasos k p hfull
  · obtain ⟨hmem, -⟩ := Forma.ubica_snd_of_mem h.rep h.ord hk (-1)
    obtain ⟨nd, hnd, hact, -⟩ := Forma.rep_leer_indices h.rep _ hmem
    have hne : (f.ubica k (-1)).2 ≠ -1 := leer_ne_menos_uno hnd
    simp [insertar, hfull, buscarPosicion_eq h hp, hne, hnd, hact]

theorem insertar_nueva {n : Nat} {t : Arbol} {f : Forma} (h : Inv n t f) {pasos : Nat}
    (hp : t.siguienteLibre ≤ pasos) {k : Int} (hk : k ∉ f.claves) (p : List Char)
    (hfull : ¬ t.siguienteLibre > t.tamano) :
    ∃ a, insertar pasos t k p =
        .ok (true, trasInsertar t p a (if t.raiz = -1 then t.siguienteLibre else t.raiz)) ∧
      Inv n (trasInsertar t p a (if t.raiz = -1 then t.siguienteLibre else t.raiz))
        (f.inserta k t.siguienteLibre t.contador) ∧
      (∀ i, i ≠ t.siguienteLibre → i ≠ (f.ubica k (-1)).1 → leer a i = leer t.arreglo i) := by
  have hpos : (f.ubica k (-1)).2 = -1 := Forma.ubica_snd_of_not_mem hk (-1)
  have hsl : t.siguienteLibre ≤ n := by have := h.tam; omega
  have hlibre : leer t.arreglo t.siguienteLibre = some Nodo.nuevo := h.resto _ (le_refl _) hsl
  have hsl0 : 0 ≤ t.siguienteLibre := by have := h.libre_pos; omega
  have hsf : t.siguienteLibre ∉ f.indices := fun hx => lt_irrefl _ (h.indice_rango hx).2
  -- the facts about the new tree that do not depend on the array
  have hord : (f.inserta k t.siguienteLibre t.contador).ordenado :=
    Forma.ordenado_inserta _ _ h.ord hk
  have hpares := Forma.pares_inserta k t.siguienteLibre t.contador f
  have hids_lt : ∀ q ∈ (f.inserta k t.siguienteLibre t.contador).pares, q.2 < t.contador + 1 := by
    intro q hq
    rcases List.mem_cons.1 (hpares.mem_iff.1 hq) with rfl | hq
    · simp
    · have := h.ids_lt q hq; omega
  have hids_nd : ((f.inserta k t.siguienteLibre t.contador).pares.map Prod.snd).Nodup := by
    rw [(hpares.map Prod.snd).nodup_iff, List.map_cons, List.nodup_cons]
    refine ⟨?_, h.ids_nodup⟩
    intro hx
    obtain ⟨q, hq, hq2⟩ := List.mem_map.1 hx
    have := h.ids_lt q hq
    simp only at hq2
    omega
  have hind : ∀ i, i ∈ (f.inserta k t.siguienteLibre t.contador).indices ↔
      i = t.siguienteLibre ∨ i ∈ f.indices := by
    intro i
    rw [(Forma.indices_inserta k t.siguienteLibre t.contador f).mem_iff, List.mem_cons]
  have hrep1 : Forma.Rep (escribir t.arreglo t.siguienteLibre ⟨k, t.contador, -1, -1, true⟩) f :=
    Forma.rep_escribir h.rep _ hsl0 hsf
  have hleer1 : leer (escribir t.arreglo t.siguienteLibre ⟨k, t.contador, -1, -1, true⟩)
      t.siguienteLibre = some ⟨k, t.contador, -1, -1, true⟩ := leer_escribir_mismo _ hlibre
  by_cases hr : t.raiz = -1
  · have hf : f = Forma.hoja := (Forma.raiz_eq_menos_uno h.rep).1 (h.raiz ▸ hr)
    subst hf
    refine ⟨escribir t.arreglo t.siguienteLibre ⟨k, t.contador, -1, -1, true⟩, ?_, ?_, ?_⟩
    · simp [insertar, hfull, buscarPosicion_eq h hp, hpos, hlibre, hr, trasInsertar]
    · rw [if_pos hr]
      refine ⟨?_, h.tam, ?_, ?_, ?_, rfl, hord, ?_, ?_, ?_, hids_lt, hids_nd⟩
      · simp [trasInsertar, length_escribir, h.largo]
      · simp only [trasInsertar]; have := h.libre_pos; omega
      · simp only [trasInsertar]; omega
      · exact ⟨hleer1, trivial, trivial⟩
      · intro i nd hl
        simp only [trasInsertar, leer_escribir _ hlibre] at hl
        rw [hind]
        split at hl
        · cases hl; simp [*]
        · rename_i hne
          simp only [hne, false_or]
          exact h.vivo i nd hl
      · intro i h0 h1
        simp only [trasInsertar] at h0 ⊢
        rw [leer_escribir_otro _ hsl0 (by omega)]
        exact h.resto i (by omega) h1
      · simp only [trasInsertar]
        rw [leer_escribir_otro _ hsl0 (by have := h.libre_pos; omega)]
        exact h.cero
    · intro i hi _
      exact leer_escribir_otro _ hsl0 hi
  · have hf : f ≠ Forma.hoja := fun hx => hr (by rw [h.raiz, hx]; rfl)
    obtain ⟨np, hpd, hnp, hrep2⟩ :=
      Forma.rep_inserta hrep1 h.ord hf hk hsf hleer1 (-1)
    have hpd_r := h.indice_rango hpd
    have hpd0 : 0 ≤ (f.ubica k (-1)).1 := by omega
    have hpd_ne : (f.ubica k (-1)).1 ≠ t.siguienteLibre := by omega
    have hnp' : leer t.arreglo (f.ubica k (-1)).1 = some np := by
      rw [← hnp, leer_escribir_otro _ hsl0 hpd_ne]
    refine ⟨escribir (escribir t.arreglo t.siguienteLibre ⟨k, t.contador, -1, -1, true⟩)
      (f.ubica k (-1)).1
      (if k < np.clave then { np with izq := t.siguienteLibre }
        else { np with der := t.siguienteLibre }), ?_, ?_, ?_⟩
    · simp only [insertar, if_neg hfull, buscarPosicion_eq h hp, hpos, hlibre, if_neg hr, hnp]
      simp only [ne_eq, not_true_eq_false, if_false, trasInsertar]
      congr 3
      split <;> rfl
    · rw [if_neg hr]
      refine ⟨?_, h.tam, ?_, ?_, hrep2, ?_, hord, ?_, ?_, ?_, hids_lt, hids_nd⟩
      · simp [trasInsertar, length_escribir, h.largo]
      · simp only [trasInsertar]; have := h.libre_pos; omega
      · simp only [trasInsertar]; omega
      · simp only [trasInsertar]
        rw [Forma.inserta_raiz_of_ne_hoja _ _ _ hf]
        exact h.raiz
      · intro i nd hl
        simp only [trasInsertar, leer_escribir _ hnp, leer_escribir _ hlibre] at hl
        rw [hind]
        split at hl
        · rename_i hi
          cases hl
          have hact : np.activo = true := (h.vivo _ np hnp').2 hpd
          subst hi
          simp only [hpd, or_true, iff_true]
          split <;> exact hact
        · split at hl
          · cases hl; simp [*]
          · rename_i hne
            simp only [hne, false_or]
            exact h.vivo i nd hl
      · intro i h0 h1
        simp only [trasInsertar] at h0 ⊢
        rw [leer_escribir_otro _ hpd0 (by omega), leer_escribir_otro _ hsl0 (by omega)]
        exact h.resto i (by omega) h1
      · simp only [trasInsertar]
        rw [leer_escribir_otro _ hpd0 (by omega),
          leer_escribir_otro _ hsl0 (by have := h.libre_pos; omega)]
        exact h.cero
    · intro i hi hi2
      rw [leer_escribir_otro _ hpd0 hi2, leer_escribir_otro _ hsl0 hi]

namespace Forma

/-! ## `buscar` and `modificar` on a stored tree -/

/-- The loop of `modificar` on a stored tree. -/
theorem iterar_pasoModificar {a : List Nodo} {f : Forma} (h : Rep a f) (k : Int) :
    ∀ pasos : Nat, f.talla < pasos →
      iterar (pasoModificar a k) pasos f.raiz = .ok (f.indiceDe k) := by
  induction f with
  | hoja =>
    intro pasos hp
    obtain ⟨m, rfl⟩ : ∃ m, pasos = m + 1 := ⟨pasos - 1, by omega⟩
    exact iterar_succ_inr m (by simp [pasoModificar, raiz, indiceDe])
  | nodo l i c d r ihl ihr =>
    intro pasos hp
    simp only [talla] at hp
    obtain ⟨m, rfl⟩ : ∃ m, pasos = m + 1 := ⟨pasos - 1, by omega⟩
    have hi : i ≠ -1 := leer_ne_menos_uno h.1
    simp only [raiz, indiceDe]
    by_cases hkc : k = c
    · rw [if_pos hkc]
      exact iterar_succ_inr m (by simp [pasoModificar, hi, h.1, hkc])
    · rw [if_neg hkc]
      by_cases hlt : k < c
      · rw [if_pos hlt, iterar_succ_inl m (u := l.raiz) (by simp [pasoModificar, hi, h.1, hkc, hlt])]
        exact ihl h.2.1 m (by omega)
      · rw [if_neg hlt, iterar_succ_inl m (u := r.raiz) (by simp [pasoModificar, hi, h.1, hkc, hlt])]
        exact ihr h.2.2 m (by omega)

/-- The loop of `eliminar` that looks for the key, on a stored tree. -/
theorem iterar_pasoBuscarEliminar {a : List Nodo} {f : Forma} (h : Rep a f) (k : Int) :
    ∀ (pasos : Nat) (p : Int), f.talla < pasos →
      iterar (pasoBuscarEliminar a k) pasos (p, f.raiz) =
        .ok (decide ((f.ubica k p).2 ≠ -1), (f.ubica k p).1, (f.ubica k p).2) := by
  induction f with
  | hoja =>
    intro pasos p hp
    obtain ⟨m, rfl⟩ : ∃ m, pasos = m + 1 := ⟨pasos - 1, by omega⟩
    exact iterar_succ_inr m (by simp [pasoBuscarEliminar, raiz, ubica])
  | nodo l i c d r ihl ihr =>
    intro pasos p hp
    simp only [talla] at hp
    obtain ⟨m, rfl⟩ : ∃ m, pasos = m + 1 := ⟨pasos - 1, by omega⟩
    have hi : i ≠ -1 := leer_ne_menos_uno h.1
    simp only [raiz, ubica]
    by_cases hkc : k = c
    · simp only [if_pos hkc]
      exact iterar_succ_inr m (by simp [pasoBuscarEliminar, hi, h.1, hkc])
    · simp only [if_neg hkc]
      by_cases hlt : k < c
      · simp only [if_pos hlt]
        rw [iterar_succ_inl m (u := (i, l.raiz)) (by simp [pasoBuscarEliminar, hi, h.1, hkc, hlt])]
        exact ihl h.2.1 m i (by omega)
      · simp only [if_neg hlt]
        rw [iterar_succ_inl m (u := (i, r.raiz)) (by simp [pasoBuscarEliminar, hi, h.1, hkc, hlt])]
        exact ihr h.2.2 m i (by omega)

/-! ## The inorder successor -/

/-- The successor loop of `eliminar` on a stored tree. -/
theorem iterar_pasoSucesor {a : List Nodo} {g : Forma} (h : Rep a g) (hg : g ≠ hoja) :
    ∀ (pasos : Nat) (q : Int), g.talla < pasos →
      iterar (pasoSucesor a) pasos (q, g.raiz) = .ok (g.ubicaMin q) := by
  induction g with
  | hoja => exact absurd rfl hg
  | nodo l i c d r ihl _ =>
    intro pasos q hp
    simp only [talla] at hp
    obtain ⟨m, rfl⟩ : ∃ m, pasos = m + 1 := ⟨pasos - 1, by omega⟩
    simp only [raiz, ubicaMin]
    by_cases hl : l = hoja
    · rw [if_pos hl]
      subst hl
      exact iterar_succ_inr m (by simp [pasoSucesor, h.1, raiz])
    · rw [if_neg hl]
      have hlr : l.raiz ≠ -1 := fun hx => hl ((raiz_eq_menos_uno h.2.1).1 hx)
      rw [iterar_succ_inl m (u := (i, l.raiz)) (by simp [pasoSucesor, h.1, hlr])]
      exact ihl h.2.1 hl m i (by omega)

theorem pares_eq_minimo_cons {g : Forma} (hg : g ≠ hoja) :
    g.pares = g.minimo :: g.sinMinimo.pares := by
  induction g with
  | hoja => exact absurd rfl hg
  | nodo l i c d r ihl _ =>
    simp only [minimo, sinMinimo]
    by_cases hl : l = hoja
    · subst hl; simp [pares]
    · simp only [if_neg hl, pares, ihl hl, List.cons_append]

/-- Unlinking the leftmost slot of a stored tree `g` that hangs from `q` (to
the right when `q` is `act`, to the left otherwise) stores `g.sinMinimo`. -/
theorem rep_quitarSucesor {b : List Nodo} {g : Forma} (act : Int) (h : Rep b g)
    (hnd : g.indices.Nodup) (hg : g ≠ hoja) (hact : act ∉ g.indices) :
    ∀ (q : Int) (nq : Nodo), leer b q = some nq → q ∉ g.indices →
      (if q = act then nq.der = g.raiz else nq.izq = g.raiz) →
      ∃ ns nsp, leer b (g.ubicaMin q).2 = some ns ∧ leer b (g.ubicaMin q).1 = some nsp ∧
        (g.ubicaMin q).2 ∈ g.indices ∧
        ((g.ubicaMin q).1 = q ∨ (g.ubicaMin q).1 ∈ g.indices) ∧
        (g.ubicaMin q).1 ≠ (g.ubicaMin q).2 ∧
        (ns.clave, ns.id_info) = g.minimo ∧
        (∀ x, x ∈ g.sinMinimo.indices ↔ x ∈ g.indices ∧ x ≠ (g.ubicaMin q).2) ∧
        Rep (quitarSucesor b act (g.ubicaMin q).1 (g.ubicaMin q).2 nsp ns) g.sinMinimo ∧
        leer (quitarSucesor b act (g.ubicaMin q).1 (g.ubicaMin q).2 nsp ns) q =
          some (if q = act then { nq with der := g.sinMinimo.raiz }
                else { nq with izq := g.sinMinimo.raiz }) := by
  induction g with
  | hoja => exact absurd rfl hg
  | nodo l j c d r ihl _ =>
    intro q nq hq hqg hlink
    simp only [indices, List.nodup_append, List.nodup_cons, List.Disjoint, List.mem_cons] at hnd
    obtain ⟨hnl, ⟨hjr, hnr⟩, hdis⟩ := hnd
    have hjl : j ∉ l.indices := fun hx => hdis hx (Or.inl rfl)
    simp only [indices, List.mem_append, List.mem_cons, not_or] at hqg hact
    have hj0 : 0 ≤ j := (leer_some_rango h.1).1
    have hq0 : 0 ≤ q := (leer_some_rango hq).1
    simp only [raiz] at hlink
    by_cases hl : l = hoja
    · subst hl
      simp only [ubicaMin, if_pos, minimo, sinMinimo, indices, List.nil_append, List.mem_cons]
      refine ⟨_, nq, h.1, hq, Or.inl trivial, Or.inl trivial, hqg.2.1, rfl, ?_, ?_, ?_⟩
      · intro x
        constructor
        · intro hx
          exact ⟨Or.inr hx, fun hxj => hjr (hxj ▸ hx)⟩
        · rintro ⟨hx | hx, hne⟩
          · exact absurd hx hne
          · exact hx
      · exact rep_escribir (rep_escribir h.2.2 _ hq0 hqg.2.2) _ hj0 hjr
      · unfold quitarSucesor
        rw [leer_escribir_otro _ hj0 hqg.2.1, leer_escribir_mismo _ hq]
    · have hja : j ≠ act := fun hx => hact.2.1 hx.symm
      obtain ⟨ns, nsp, h1, h2, h3, h4, h5, h6, h7, h8, h9⟩ :=
        ihl h.2.1 hnl hl hact.1 j _ h.1 hjl (by rw [if_neg hja])
      rw [if_neg hja] at h9
      simp only [ubicaMin, if_neg hl, minimo, sinMinimo, indices, List.mem_append, List.mem_cons]
      have hsp_g : (l.ubicaMin j).1 = j ∨ (l.ubicaMin j).1 ∈ l.indices := h4
      have hsu0 : 0 ≤ (l.ubicaMin j).2 := (leer_some_rango h1).1
      have hsp0 : 0 ≤ (l.ubicaMin j).1 := (leer_some_rango h2).1
      have hsu_r : (l.ubicaMin j).2 ∉ r.indices := fun hx => hdis h3 (Or.inr hx)
      have hsp_r : (l.ubicaMin j).1 ∉ r.indices := by
        rcases hsp_g with hx | hx
        · rw [hx]; exact hjr
        · exact fun hy => hdis hx (Or.inr hy)
      have hsp_q : q ≠ (l.ubicaMin j).1 := by
        rcases hsp_g with hx | hx
        · rw [hx]; exact hqg.2.1
        · exact fun hy => hqg.1 (hy ▸ hx)
      have hsu_q : q ≠ (l.ubicaMin j).2 := fun hy => hqg.1 (hy ▸ h3)
      refine ⟨ns, nsp, h1, h2, Or.inl h3, ?_, h5, h6, ?_, ⟨h9, h8, ?_⟩, ?_⟩
      · rcases hsp_g with hx | hx
        · exact Or.inr (Or.inr (Or.inl hx))
        · exact Or.inr (Or.inl hx)
      · intro x
        rw [h7]
        constructor
        · rintro (⟨hx, hne⟩ | hx | hx)
          · exact ⟨Or.inl hx, hne⟩
          · exact ⟨Or.inr (Or.inl hx), fun hy => hjl (by rw [← hx, hy]; exact h3)⟩
          · exact ⟨Or.inr (Or.inr hx), fun hy => hsu_r (hy ▸ hx)⟩
        · rintro ⟨hx | hx | hx, hne⟩
          · exact Or.inl ⟨hx, hne⟩
          · exact Or.inr (Or.inl hx)
          · exact Or.inr (Or.inr hx)
      · exact rep_escribir (rep_escribir h.2.2 _ hsp0 hsp_r) _ hsu0 hsu_r
      · unfold quitarSucesor
        rw [leer_escribir_otro _ hsu0 hsu_q, leer_escribir_otro _ hsp0 hsp_q, hq]
        split at hlink
        · rename_i hqa
          rw [if_pos hqa]
          simp only [raiz, ← hlink]
        · rename_i hqa
          rw [if_neg hqa]
          simp only [raiz, ← hlink]

/-! ## `eliminar` on a stored tree -/

theorem mem_claves_of_mem_pares {f : Forma} {p : Int × Int} (h : p ∈ f.pares) : p.1 ∈ f.claves := by
  rw [claves_eq_map_pares]
  exact List.mem_map_of_mem Prod.fst h

theorem pares_elimina {f : Forma} (k : Int) (ho : f.ordenado) :
    (f.elimina k).pares = f.pares.filter (fun p => p.1 ≠ k) := by
  induction f with
  | hoja => rfl
  | nodo l i c d r ihl ihr =>
    have hl_lt : ∀ p ∈ l.pares, p.1 < c := fun p hp => ho.2.2.1 _ (mem_claves_of_mem_pares hp)
    have hr_gt : ∀ p ∈ r.pares, c < p.1 := fun p hp => ho.2.2.2 _ (mem_claves_of_mem_pares hp)
    simp only [elimina, pares, List.filter_append, List.filter_cons]
    by_cases hkc : k = c
    · subst hkc
      have hl : l.pares.filter (fun p => p.1 ≠ k) = l.pares :=
        List.filter_eq_self.2 (fun p hp => by simpa using ne_of_lt (hl_lt p hp))
      have hr : r.pares.filter (fun p => p.1 ≠ k) = r.pares :=
        List.filter_eq_self.2 (fun p hp => by simpa using ne_of_gt (hr_gt p hp))
      simp only [if_true, hl, hr, ne_eq, not_true_eq_false, decide_False, Bool.false_eq_true,
        if_false]
      by_cases hl0 : l = hoja
      · subst hl0; simp [pares]
      · rw [if_neg hl0]
        by_cases hr0 : r = hoja
        · subst hr0; simp [pares]
        · rw [if_neg hr0]
          simp only [pares]
          rw [← pares_eq_minimo_cons hr0]
    · have hck : c ≠ k := fun hx => hkc hx.symm
      simp only [if_neg hkc, ne_eq, hck, not_false_eq_true, decide_True, if_true]
      by_cases hlt : k < c
      · have hr : r.pares.filter (fun p => p.1 ≠ k) = r.pares :=
          List.filter_eq_self.2 (fun p hp => by simpa using ne_of_gt (lt_trans hlt (hr_gt p hp)))
        simp only [if_pos hlt, pares, ihl ho.1]
        simp only [ne_eq] at hr
        rw [hr]
      · have hgt : c < k := lt_of_le_of_ne (not_lt.1 hlt) hck
        have hl : l.pares.filter (fun p => p.1 ≠ k) = l.pares :=
          List.filter_eq_self.2 (fun p hp => by simpa using ne_of_lt (lt_trans (hl_lt p hp) hgt))
        simp only [if_neg hlt, pares, ihr ho.2.1]
        simp only [ne_eq] at hl
        rw [hl]

theorem claves_elimina {f : Forma} (k : Int) (ho : f.ordenado) :
    (f.elimina k).claves = f.claves.filter (fun x => x ≠ k) := by
  rw [claves_eq_map_pares, claves_eq_map_pares, pares_elimina k ho, List.filter_map]
  rfl

theorem ordenado_elimina {f : Forma} (k : Int) (ho : f.ordenado) : (f.elimina k).ordenado := by
  rw [ordenado_iff_sorted, claves_elimina k ho]
  exact List.Pairwise.filter _ ((ordenado_iff_sorted f).1 ho)

theorem eliminarNodo_caso12 {a : List Nodo} {i : Int} {nd : Nodo} (pasos : Nat) (raiz padre : Int)
    (h : leer a i = some nd) (hh : nd.izq = -1 ∨ nd.der = -1) :
    eliminarNodo pasos a raiz padre i =
      empalmar a raiz padre i (if nd.izq ≠ -1 then nd.izq else nd.der) := by
  unfold eliminarNodo empalmar
  simp only [h]
  by_cases h1 : nd.izq = -1 ∧ nd.der = -1
  · rw [if_pos h1]
    simp [h1.1, h1.2]
  · rw [if_neg h1, if_pos hh]

theorem reenlace_mismo {a : List Nodo} {raiz0 p0 i : Int} {idx : List Int} {np : Nodo}
    (hl : Enlace a raiz0 p0 i idx) (hnp : leer a p0 = some np) : reenlace np i i = np := by
  rcases hl with ⟨h1, -⟩ | ⟨np', h1, -, h2⟩
  · exact absurd h1 (leer_ne_menos_uno hnp)
  · rw [hnp] at h1
    cases h1
    unfold reenlace
    rcases h2 with h2 | ⟨h2, h3⟩
    · rw [if_pos h2, ← h2]
    · rw [if_neg h2, ← h3]

theorem empalmar_spec {a : List Nodo} {raiz0 p0 i : Int} {idx : List Int} {nd : Nodo} (hijo : Int)
    (hnd : leer a i = some nd) (hi : i ∈ idx) (hl : Enlace a raiz0 p0 i idx) :
    ∃ a' raiz', empalmar a raiz0 p0 i hijo = .ok (a', raiz') ∧ a'.length = a.length ∧
      leer a' i = some { nd with activo := false } ∧
      (∀ x, x ≠ i → x ≠ p0 → leer a' x = leer a x) ∧
      (p0 = -1 → raiz' = hijo) ∧
      (p0 ≠ -1 → raiz' = raiz0 ∧
        ∀ np, leer a p0 = some np → leer a' p0 = some (reenlace np i hijo)) := by
  have hi0 : 0 ≤ i := (leer_some_rango hnd).1
  rcases hl with ⟨h1, -⟩ | ⟨np, h1, h2, -⟩
  · subst h1
    refine ⟨escribir a i { nd with activo := false }, hijo, ?_, length_escribir _ _ _,
      leer_escribir_mismo _ hnd, ?_, fun _ => rfl, fun hx => absurd rfl hx⟩
    · simp [empalmar, reenlazar, actualizar, hnd]
    · intro x hx _
      exact leer_escribir_otro _ hi0 hx
  · have hp : p0 ≠ -1 := leer_ne_menos_uno h1
    have hp0 : 0 ≤ p0 := (leer_some_rango h1).1
    have hpi : i ≠ p0 := fun hx => h2 (hx ▸ hi)
    have hnd1 : leer (escribir a p0 (reenlace np i hijo)) i = some nd := by
      rw [leer_escribir_otro _ hp0 hpi, hnd]
    refine ⟨escribir (escribir a p0 (reenlace np i hijo)) i { nd with activo := false }, raiz0,
      ?_, ?_, leer_escribir_mismo _ hnd1, ?_, fun hx => absurd hx hp, fun _ => ⟨rfl, ?_⟩⟩
    · unfold reenlace at hnd1 ⊢
      by_cases hz : np.izq = i
      · rw [if_pos hz] at hnd1 ⊢
        simp [empalmar, reenlazar, actualizar, hp, h1, hz, hnd1]
      · rw [if_neg hz] at hnd1 ⊢
        simp [empalmar, reenlazar, actualizar, hp, h1, hz, hnd1]
    · simp [length_escribir]
    · intro x hx hxp
      rw [leer_escribir_otro _ hi0 hx, leer_escribir_otro _ hp0 hxp]
    · intro np' hnp'
      rw [h1] at hnp'
      cases hnp'
      rw [leer_escribir_otro _ hi0 (Ne.symm hpi), leer_escribir_mismo _ h1]

/-- CASO 3 of `eliminar` at the root of a stored tree with two children. -/
theorem eliminarNodo_caso3 {a : List Nodo} {l r : Forma} {i c d : Int}
    (h : Rep a (nodo l i c d r)) (hnd : (nodo l i c d r).indices.Nodup)
    (hl : l ≠ hoja) (hr : r ≠ hoja) {pasos : Nat} (hp : r.talla < pasos) (raiz0 padre : Int) :
    ∃ a', eliminarNodo pasos a raiz0 padre i = .ok (a', raiz0) ∧ a'.length = a.length ∧
      Rep a' (nodo l i r.minimo.1 r.minimo.2 r.sinMinimo) ∧
      (∀ x, x ∉ (nodo l i c d r).indices → leer a' x = leer a x) ∧
      (∀ x ∈ r.indices, x ∉ r.sinMinimo.indices →
        leer a' x = (leer a x).map (fun nd => { nd with activo := false })) := by
  simp only [indices, List.nodup_append, List.nodup_cons, List.Disjoint, List.mem_cons] at hnd
  obtain ⟨hnl, ⟨hir, hnr⟩, hdis⟩ := hnd
  have hil : i ∉ l.indices := fun hx => hdis hx (Or.inl rfl)
  have hi0 : 0 ≤ i := (leer_some_rango h.1).1
  have hlr : l.raiz ≠ -1 := fun hx => hl ((raiz_eq_menos_uno h.2.1).1 hx)
  have hrr : r.raiz ≠ -1 := fun hx => hr ((raiz_eq_menos_uno h.2.2).1 hx)
  -- the successor, read before any write
  obtain ⟨ns0, -, hns0, -, hsu_r, -, -, -, -, -, -⟩ :=
    rep_quitarSucesor i h.2.2 hnr hr hir i _ h.1 hir (by simp)
  have hsu_i : (r.ubicaMin i).2 ≠ i := fun hx => hir (hx ▸ hsu_r)
  -- the two copies into slot `i`
  have hleer1 : leer (escribir a i ⟨ns0.clave, d, l.raiz, r.raiz, true⟩) i =
      some ⟨ns0.clave, d, l.raiz, r.raiz, true⟩ := leer_escribir_mismo _ h.1
  have hsu1 : leer (escribir a i ⟨ns0.clave, d, l.raiz, r.raiz, true⟩) (r.ubicaMin i).2 = some ns0 := by
    rw [leer_escribir_otro _ hi0 hsu_i, hns0]
  obtain ⟨a2, ha2⟩ : ∃ a2, a2 = escribir (escribir a i ⟨ns0.clave, d, l.raiz, r.raiz, true⟩) i
      ⟨ns0.clave, ns0.id_info, l.raiz, r.raiz, true⟩ := ⟨_, rfl⟩
  have hleer2 : leer a2 i = some ⟨ns0.clave, ns0.id_info, l.raiz, r.raiz, true⟩ := by
    rw [ha2]; exact leer_escribir_mismo _ hleer1
  have hotro2 : ∀ x, x ≠ i → leer a2 x = leer a x := by
    intro x hx
    rw [ha2, leer_escribir_otro _ hi0 hx, leer_escribir_otro _ hi0 hx]
  have hrep2r : Rep a2 r := rep_congr h.2.2 (fun x hx => hotro2 x (fun hxi => hir (hxi ▸ hx)))
  have hrep2l : Rep a2 l := rep_congr h.2.1 (fun x hx => hotro2 x (fun hxi => hil (hxi ▸ hx)))
  have hlen2 : a2.length = a.length := by rw [ha2]; simp [length_escribir]
  -- unlinking the successor
  obtain ⟨ns, nsp, h1, h2, h3, h4, h5, h6, h7, h8, h9⟩ :=
    rep_quitarSucesor i hrep2r hnr hr hir i _ hleer2 hir (by simp)
  have hns : ns = ns0 := by
    rw [hotro2 _ hsu_i, hns0] at h1
    exact (Option.some.inj h1).symm
  subst hns
  have hsu0 : 0 ≤ (r.ubicaMin i).2 := (leer_some_rango h1).1
  have hsp0 : 0 ≤ (r.ubicaMin i).1 := (leer_some_rango h2).1
  have hsp_l : (r.ubicaMin i).1 ∉ l.indices := by
    rcases h4 with hx | hx
    · rw [hx]; exact hil
    · exact fun hy => hdis hy (Or.inr hx)
  have hsu_l : (r.ubicaMin i).2 ∉ l.indices := fun hy => hdis hy (Or.inr h3)
  have hsu3 : ∀ x : Nodo, leer (escribir a2 (r.ubicaMin i).1 x) (r.ubicaMin i).2 = some ns := by
    intro x
    rw [leer_escribir_otro _ hsp0 (Ne.symm h5), h1]
  refine ⟨quitarSucesor a2 i (r.ubicaMin i).1 (r.ubicaMin i).2 nsp ns, ?_, ?_, ⟨?_, ?_, h8⟩, ?_, ?_⟩
  · have hit := iterar_pasoSucesor h.2.2 hr pasos i hp
    unfold eliminarNodo
    simp only [h.1, hlr, hrr, false_and, false_or, if_false, hit, ok_bind]
    simp only [hns0, actualizar, h.1, ok_bind, hsu1, hleer1, ← ha2, h1]
    unfold quitarSucesor
    by_cases hspi : (r.ubicaMin i).1 = i
    · simp only [if_pos hspi, h2, ok_bind, hsu3, pure_eq_ok]
    · simp only [if_neg hspi, h2, ok_bind, hsu3, pure_eq_ok]
  · simp [quitarSucesor, length_escribir, hlen2]
  · rw [h9, if_pos rfl, ← h6]
  · exact rep_escribir (rep_escribir hrep2l _ hsp0 hsp_l) _ hsu0 hsu_l
  · intro x hx
    simp only [indices, List.mem_append, List.mem_cons, not_or] at hx
    have hx_sp : x ≠ (r.ubicaMin i).1 := by
      rcases h4 with hy | hy
      · rw [hy]; exact hx.2.1
      · exact fun hxy => hx.2.2 (hxy ▸ hy)
    have hx_su : x ≠ (r.ubicaMin i).2 := fun hxy => hx.2.2 (hxy ▸ h3)
    unfold quitarSucesor
    rw [leer_escribir_otro _ hsu0 hx_su, leer_escribir_otro _ hsp0 hx_sp, hotro2 x hx.2.1]
  · intro x hx hx'
    have hxs : x = (r.ubicaMin i).2 := by
      by_contra hne
      exact hx' ((h7 x).2 ⟨hx, hne⟩)
    subst hxs
    unfold quitarSucesor
    rw [leer_escribir_mismo _ (hsu3 _), hns0]
    rfl

theorem raiz_mem_indices {f : Forma} (hf : f ≠ hoja) : f.raiz ∈ f.indices := by
  cases f with
  | hoja => exact absurd rfl hf
  | nodo l i c d r => simp [raiz, indices]

theorem rep_indices_ne {a : List Nodo} {f : Forma} (h : Rep a f) {x : Int} (hx : x ∈ f.indices) :
    x ≠ -1 := by
  obtain ⟨nd, hnd, -, -⟩ := rep_leer_indices h x hx
  exact leer_ne_menos_uno hnd

theorem ne_hoja_of_mem_claves {f : Forma} {k : Int} (hk : k ∈ f.claves) : f ≠ hoja := by
  rintro rfl
  simp [claves] at hk

theorem mem_indices_sinMinimo {g : Forma} {x : Int} (hx : x ∈ g.sinMinimo.indices) :
    x ∈ g.indices := by
  induction g with
  | hoja => exact hx
  | nodo l i c d r ihl _ =>
    simp only [sinMinimo] at hx
    simp only [indices, List.mem_append, List.mem_cons]
    split at hx
    · exact Or.inr (Or.inr hx)
    · simp only [indices, List.mem_append, List.mem_cons] at hx
      rcases hx with hx | hx | hx
      · exact Or.inl (ihl hx)
      · exact Or.inr (Or.inl hx)
      · exact Or.inr (Or.inr hx)

theorem mem_indices_elimina {f : Forma} {k x : Int} (hx : x ∈ (f.elimina k).indices) :
    x ∈ f.indices := by
  induction f with
  | hoja => exact hx
  | nodo l i c d r ihl ihr =>
    simp only [elimina] at hx
    simp only [indices, List.mem_append, List.mem_cons]
    split at hx
    · split at hx
      · exact Or.inr (Or.inr hx)
      · split at hx
        · exact Or.inl hx
        · simp only [indices, List.mem_append, List.mem_cons] at hx
          rcases hx with hx | hx | hx
          · exact Or.inl hx
          · exact Or.inr (Or.inl hx)
          · exact Or.inr (Or.inr (mem_indices_sinMinimo hx))
    · split at hx
      · simp only [indices, List.mem_append, List.mem_cons] at hx
        rcases hx with hx | hx | hx
        · exact Or.inl (ihl hx)
        · exact Or.inr (Or.inl hx)
        · exact Or.inr (Or.inr hx)
      · simp only [indices, List.mem_append, List.mem_cons] at hx
        rcases hx with hx | hx | hx
        · exact Or.inl hx
        · exact Or.inr (Or.inl hx)
        · exact Or.inr (Or.inr (ihr hx))

theorem Enlace.ne_of_mem {a : List Nodo} {raiz0 p0 i : Int} {idx : List Int}
    (hl : Enlace a raiz0 p0 i idx) {x : Int} (hx : x ∈ idx) (hx1 : x ≠ -1) : x ≠ p0 := by
  rcases hl with ⟨h1, -⟩ | ⟨np, -, h2, -⟩
  · rw [h1]; exact hx1
  · exact fun hxp => h2 (hxp ▸ hx)

theorem Enlace.raiz_eq {a : List Nodo} {raiz0 p0 i : Int} {idx : List Int}
    (hl : Enlace a raiz0 p0 i idx) (hp : p0 = -1) : raiz0 = i := by
  rcases hl with ⟨-, h1⟩ | ⟨np, h1, -, -⟩
  · exact h1
  · exact absurd hp (leer_ne_menos_uno h1)

theorem Enlace.not_mem {a : List Nodo} {raiz0 p0 i : Int} {idx : List Int}
    (hl : Enlace a raiz0 p0 i idx) (hne : ∀ x ∈ idx, x ≠ -1) : p0 ∉ idx := by
  rcases hl with ⟨h1, -⟩ | ⟨np, -, h2, -⟩
  · exact fun hx => hne _ hx h1
  · exact h2

/-- PASO 4 of `eliminar` on a stored search tree `f` that hangs from `p0`: the
array then stores `f.elimina k`, the slots outside `f` other than `p0` are
unchanged, the slots that leave the tree are marked dead and are otherwise
unchanged, and the link from which `f` hangs points to the new root. -/
theorem eliminarNodo_spec {a : List Nodo} {f : Forma} {k : Int} (h : Rep a f) (ho : f.ordenado)
    (hk : k ∈ f.claves) {pasos : Nat} (hp : f.talla < pasos) :
    ∀ (raiz0 p0 : Int), Enlace a raiz0 p0 f.raiz f.indices →
      ∃ a' raiz', eliminarNodo pasos a raiz0 (f.ubica k p0).1 (f.ubica k p0).2 = .ok (a', raiz') ∧
        a'.length = a.length ∧ Rep a' (f.elimina k) ∧
        (∀ x, x ∉ f.indices → x ≠ p0 → leer a' x = leer a x) ∧
        (∀ x ∈ f.indices, x ∉ (f.elimina k).indices →
          leer a' x = (leer a x).map (fun nd => { nd with activo := false })) ∧
        (p0 = -1 → raiz' = (f.elimina k).raiz) ∧
        (p0 ≠ -1 → raiz' = raiz0 ∧
          ∀ np, leer a p0 = some np → leer a' p0 = some (reenlace np f.raiz (f.elimina k).raiz)) := by
  induction f generalizing pasos with
  | hoja => simp [claves] at hk
  | nodo l i c d r ihl ihr =>
    intro raiz0 p0 hen
    have hnd := rep_nodup_indices h ho
    have hne1 : ∀ x ∈ (nodo l i c d r).indices, x ≠ -1 := fun x hx => rep_indices_ne h hx
    have hp0f : p0 ∉ (nodo l i c d r).indices := hen.not_mem hne1
    have hnd' := hnd
    simp only [indices, List.nodup_append, List.nodup_cons, List.Disjoint, List.mem_cons] at hnd'
    obtain ⟨hnl, ⟨hir, hnr⟩, hdis⟩ := hnd'
    have hil : i ∉ l.indices := fun hx => hdis hx (Or.inl rfl)
    have hi1 : i ≠ -1 := leer_ne_menos_uno h.1
    simp only [talla] at hp
    simp only [raiz] at hen
    simp only [claves, List.mem_append, List.mem_cons] at hk
    simp only [indices, List.mem_append, List.mem_cons, not_or] at hp0f
    by_cases hkc : k = c
    · simp only [ubica, if_pos hkc, elimina, raiz]
      by_cases hl : l = hoja
      · -- no left child
        subst hl
        rw [eliminarNodo_caso12 pasos raiz0 p0 h.1 (Or.inl rfl)]
        obtain ⟨a', raiz', e1, e2, e3, e4, e5, e6⟩ :=
          empalmar_spec r.raiz h.1 (List.mem_cons_self i r.indices)
            (by simpa [indices] using hen)
        refine ⟨a', raiz', ?_, e2, ?_, ?_, ?_, ?_, ?_⟩
        · simpa [raiz] using e1
        · simp only [if_true]
          exact rep_congr h.2.2 (fun x hx => e4 x (fun hxi => hir (hxi ▸ hx))
            (fun hxp => hp0f.2.2 (hxp ▸ hx)))
        · intro x hx hxp
          simp only [indices, List.nil_append, List.mem_cons, not_or] at hx
          exact e4 x hx.1 hxp
        · intro x hx hx'
          simp only [if_true] at hx'
          simp only [indices, List.nil_append, List.mem_cons] at hx
          rcases hx with rfl | hx
          · rw [e3, h.1]; rfl
          · exact absurd hx hx'
        · simpa using e5
        · simpa using e6
      · have hlr : l.raiz ≠ -1 := fun hx => hl ((raiz_eq_menos_uno h.2.1).1 hx)
        by_cases hr : r = hoja
        · -- no right child
          subst hr
          rw [eliminarNodo_caso12 pasos raiz0 p0 h.1 (Or.inr rfl)]
          obtain ⟨a', raiz', e1, e2, e3, e4, e5, e6⟩ :=
            empalmar_spec l.raiz h.1 (show i ∈ (nodo l i c d hoja).indices by simp [indices])
              (by simpa [indices] using hen)
          refine ⟨a', raiz', ?_, e2, ?_, ?_, ?_, ?_, ?_⟩
          · simpa [hlr] using e1
          · simp only [if_neg hl, if_true]
            exact rep_congr h.2.1 (fun x hx => e4 x (fun hxi => hil (hxi ▸ hx))
              (fun hxp => hp0f.1 (hxp ▸ hx)))
          · intro x hx hxp
            simp only [indices, List.mem_append, List.mem_cons, not_or] at hx
            exact e4 x hx.2.1 hxp
          · intro x hx hx'
            simp only [if_neg hl, if_true] at hx'
            simp only [indices, List.mem_append, List.mem_cons, List.not_mem_nil, or_false] at hx
            rcases hx with hx | rfl
            · exact absurd hx hx'
            · rw [e3, h.1]; rfl
          · simpa [hl] using e5
          · simpa [hl] using e6
        · -- two children
          obtain ⟨a', e1, e2, e3, e4, e5⟩ :=
            eliminarNodo_caso3 h hnd hl hr (show r.talla < pasos by omega) raiz0 p0
          refine ⟨a', raiz0, e1, e2, ?_, ?_, ?_, ?_, ?_⟩
          · simpa [hl, hr] using e3
          · intro x hx _
            exact e4 x hx
          · intro x hx hx'
            simp only [if_neg hl, if_neg hr, if_true, indices, List.mem_append, List.mem_cons,
              not_or] at hx hx'
            rcases hx with hx | hx | hx
            · exact absurd hx hx'.1
            · exact absurd hx hx'.2.1
            · exact e5 x hx hx'.2.2
          · intro hp1
            simp only [if_neg hl, if_neg hr, if_true, raiz]
            exact hen.raiz_eq hp1
          · intro _
            refine ⟨rfl, ?_⟩
            intro np hnp
            simp only [if_neg hl, if_neg hr, if_true, raiz]
            rw [e4 p0 (by simpa [indices] using hp0f), hnp, reenlace_mismo hen hnp]
    · by_cases hlt : k < c
      · -- the key is in the left subtree
        have hkl : k ∈ l.claves := by
          rcases hk with hk | hk | hk
          · exact hk
          · exact absurd hk hkc
          · exact absurd (ho.2.2.2 k hk) (not_lt.2 (le_of_lt hlt))
        simp only [ubica, if_neg hkc, if_pos hlt, elimina, raiz]
        obtain ⟨a', raiz', e1, e2, e3, e4, e5, -, e7⟩ :=
          ihl h.2.1 ho.1 hkl (show l.talla < pasos by omega) raiz0 i
            (Or.inr ⟨_, h.1, hil, Or.inl rfl⟩)
        obtain ⟨e7a, e7b⟩ := e7 hi1
        have hcell := e7b _ h.1
        simp only [reenlace, if_true] at hcell
        refine ⟨a', raiz', e1, e2, ⟨hcell, e3, ?_⟩, ?_, ?_, ?_, ?_⟩
        · exact rep_congr h.2.2 (fun x hx => e4 x (fun hxl => hdis hxl (Or.inr hx))
            (fun hxi => hir (hxi ▸ hx)))
        · intro x hx _
          simp only [indices, List.mem_append, List.mem_cons, not_or] at hx
          exact e4 x hx.1 hx.2.1
        · intro x hx hx'
          simp only [indices, List.mem_append, List.mem_cons, not_or] at hx hx'
          rcases hx with hx | hx | hx
          · exact e5 x hx hx'.1
          · exact absurd hx hx'.2.1
          · exact absurd hx hx'.2.2
        · intro hp1
          rw [e7a]
          exact hen.raiz_eq hp1
        · intro _
          refine ⟨e7a, ?_⟩
          intro np hnp
          rw [e4 p0 hp0f.1 hp0f.2.1, hnp, reenlace_mismo hen hnp]
      · -- the key is in the right subtree
        have hkr : k ∈ r.claves := by
          rcases hk with hk | hk | hk
          · exact absurd (ho.2.2.1 k hk) hlt
          · exact absurd hk hkc
          · exact hk
        have hrne : r ≠ hoja := ne_hoja_of_mem_claves hkr
        have hlr : l.raiz ≠ r.raiz := by
          intro hx
          have hrm := raiz_mem_indices hrne
          have hl0 : l ≠ hoja := by
            intro hl0
            subst hl0
            exact rep_indices_ne h.2.2 hrm (by rw [← hx]; rfl)
          exact hdis (raiz_mem_indices hl0) (Or.inr (hx ▸ hrm))
        simp only [ubica, if_neg hkc, if_neg hlt, elimina, raiz]
        obtain ⟨a', raiz', e1, e2, e3, e4, e5, -, e7⟩ :=
          ihr h.2.2 ho.2.1 hkr (show r.talla < pasos by omega) raiz0 i
            (Or.inr ⟨_, h.1, hir, Or.inr ⟨hlr, rfl⟩⟩)
        obtain ⟨e7a, e7b⟩ := e7 hi1
        have hcell := e7b _ h.1
        simp only [reenlace, if_neg hlr] at hcell
        refine ⟨a', raiz', e1, e2, ⟨hcell, ?_, e3⟩, ?_, ?_, ?_, ?_⟩
        · exact rep_congr h.2.1 (fun x hx => e4 x (fun hxr => hdis hx (Or.inr hxr))
            (fun hxi => hil (hxi ▸ hx)))
        · intro x hx _
          simp only [indices, List.mem_append, List.mem_cons, not_or] at hx
          exact e4 x hx.2.2 hx.2.1
        · intro x hx hx'
          simp only [indices, List.mem_append, List.mem_cons, not_or] at hx hx'
          rcases hx with hx | hx | hx
          · exact absurd hx hx'.1
          · exact absurd hx hx'.2.1
          · exact e5 x hx hx'.2.2
        · intro hp1
          rw [e7a]
          exact hen.raiz_eq hp1
        · intro _
          refine ⟨e7a, ?_⟩
          intro np hnp
          rw [e4 p0 hp0f.2.2 hp0f.2.1, hnp, reenlace_mismo hen hnp]

theorem raiz_cambiaId (k d : Int) (f : Forma) : (f.cambiaId k d).raiz = f.raiz := by
  cases f with
  | hoja => rfl
  | nodo l i c e r => simp only [cambiaId]; split_ifs <;> rfl

theorem indices_cambiaId (k d : Int) (f : Forma) : (f.cambiaId k d).indices = f.indices := by
  induction f with
  | hoja => rfl
  | nodo l i c e r ihl ihr => simp only [cambiaId]; split_ifs <;> simp [indices, ihl, ihr]

theorem claves_cambiaId (k d : Int) (f : Forma) : (f.cambiaId k d).claves = f.claves := by
  induction f with
  | hoja => rfl
  | nodo l i c e r ihl ihr => simp only [cambiaId]; split_ifs <;> simp [claves, ihl, ihr]

theorem ordenado_cambiaId (k d : Int) {f : Forma} (ho : f.ordenado) : (f.cambiaId k d).ordenado := by
  rw [ordenado_iff_sorted, claves_cambiaId]
  exact (ordenado_iff_sorted f).1 ho

theorem pares_cambiaId (k d : Int) {f : Forma} (ho : f.ordenado) :
    (f.cambiaId k d).pares = f.pares.map (fun p => if p.1 = k then (p.1, d) else p) := by
  induction f with
  | hoja => rfl
  | nodo l i c e r ihl ihr =>
    have hl_lt : ∀ p ∈ l.pares, p.1 < c := fun p hp => ho.2.2.1 _ (mem_claves_of_mem_pares hp)
    have hr_gt : ∀ p ∈ r.pares, c < p.1 := fun p hp => ho.2.2.2 _ (mem_claves_of_mem_pares hp)
    have hid : ∀ (ps : List (Int × Int)), (∀ p ∈ ps, p.1 ≠ k) →
        ps.map (fun p => if p.1 = k then (p.1, d) else p) = ps := by
      intro ps hps
      conv_rhs => rw [← List.map_id ps]
      apply List.map_congr_left
      intro p hp
      simp [hps p hp]
    simp only [cambiaId]
    by_cases hkc : k = c
    · subst hkc
      simp only [if_true, pares, List.map_append, List.map_cons]
      rw [hid l.pares (fun p hp => ne_of_lt (hl_lt p hp)),
        hid r.pares (fun p hp => ne_of_gt (hr_gt p hp))]
    · have hck : ¬ c = k := fun hx => hkc hx.symm
      simp only [if_neg hkc]
      by_cases hlt : k < c
      · simp only [if_pos hlt, pares, List.map_append, List.map_cons, ihl ho.1, if_neg hck]
        rw [hid r.pares (fun p hp => ne_of_gt (lt_trans hlt (hr_gt p hp)))]
      · have hgt : c < k := lt_of_le_of_ne (not_lt.1 hlt) hck
        simp only [if_neg hlt, pares, List.map_append, List.map_cons, ihr ho.2.1, if_neg hck]
        rw [hid l.pares (fun p hp => ne_of_lt (lt_trans (hl_lt p hp) hgt))]

theorem indiceDe_eq_none {f : Forma} {k : Int} (hk : k ∉ f.claves) : f.indiceDe k = none := by
  induction f with
  | hoja => rfl
  | nodo l i c d r ihl ihr =>
    simp only [claves, List.mem_append, List.mem_cons, not_or] at hk
    simp only [indiceDe, if_neg hk.2.1]
    split
    · exact ihl hk.1
    · exact ihr hk.2.2

/-- Writing the new record id into the slot that holds `k` stores the tree
with the record id changed. -/
theorem rep_cambiaId {a : List Nodo} {f : Forma} {k : Int} (d : Int) (h : Rep a f)
    (ho : f.ordenado) (hk : k ∈ f.claves) :
    ∃ j nd, f.indiceDe k = some j ∧ j ∈ f.indices ∧ leer a j = some nd ∧ nd.clave = k ∧
      (k, nd.id_info) ∈ f.pares ∧
      Rep (escribir a j { nd with id_info := d }) (f.cambiaId k d) := by
  induction f with
  | hoja => simp [claves] at hk
  | nodo l i c e r ihl ihr =>
    have hnd := rep_nodup_indices h ho
    simp only [indices, List.nodup_append, List.nodup_cons, List.Disjoint, List.mem_cons] at hnd
    obtain ⟨hnl, ⟨hir, hnr⟩, hdis⟩ := hnd
    have hil : i ∉ l.indices := fun hx => hdis hx (Or.inl rfl)
    have hi0 : 0 ≤ i := (leer_some_rango h.1).1
    simp only [claves, List.mem_append, List.mem_cons] at hk
    simp only [indiceDe, cambiaId, indices, pares, List.mem_append, List.mem_cons]
    by_cases hkc : k = c
    · subst hkc
      refine ⟨i, _, by simp, Or.inr (Or.inl rfl), h.1, rfl, Or.inr (Or.inl rfl), ?_⟩
      simp only [if_true]
      exact ⟨leer_escribir_mismo _ h.1, rep_escribir h.2.1 _ hi0 hil, rep_escribir h.2.2 _ hi0 hir⟩
    · simp only [if_neg hkc]
      by_cases hlt : k < c
      · have hkl : k ∈ l.claves := by
          rcases hk with hk | hk | hk
          · exact hk
          · exact absurd hk hkc
          · exact absurd (ho.2.2.2 k hk) (not_lt.2 (le_of_lt hlt))
        obtain ⟨j, nd, h1, h2, h3, h4, h5, h6⟩ := ihl h.2.1 ho.1 hkl
        have hj0 : 0 ≤ j := (leer_some_rango h3).1
        refine ⟨j, nd, by simp [hlt, h1], Or.inl h2, h3, h4, Or.inl h5, ?_⟩
        simp only [if_pos hlt]
        refine ⟨?_, h6, rep_escribir h.2.2 _ hj0 (fun hx => hdis h2 (Or.inr hx))⟩
        rw [leer_escribir_otro _ hj0 (fun hx => hil (by rw [hx]; exact h2)), raiz_cambiaId]
        exact h.1
      · have hkr : k ∈ r.claves := by
          rcases hk with hk | hk | hk
          · exact absurd (ho.2.2.1 k hk) hlt
          · exact absurd hk hkc
          · exact hk
        obtain ⟨j, nd, h1, h2, h3, h4, h5, h6⟩ := ihr h.2.2 ho.2.1 hkr
        have hj0 : 0 ≤ j := (leer_some_rango h3).1
        refine ⟨j, nd, by simp [hlt, h1], Or.inr (Or.inr h2), h3, h4, Or.inr (Or.inr h5), ?_⟩
        simp only [if_neg hlt]
        refine ⟨?_, rep_escribir h.2.1 _ hj0 (fun hx => hdis hx (Or.inr h2)), h6⟩
        rw [leer_escribir_otro _ hj0 (fun hx => hir (by rw [hx]; exact h2)), raiz_cambiaId]
        exact h.1

theorem par_unico {f : Forma} (ho : f.ordenado) {p q : Int × Int} (hp : p ∈ f.pares)
    (hq : q ∈ f.pares) (h : p.1 = q.1) : p = q := by
  have hnd := nodup_claves_of_ordenado ho
  rw [claves_eq_map_pares] at hnd
  exact List.inj_on_of_nodup_map hnd hp hq h

end Forma

/-! ## `buscar`, `eliminar` and `modificar` on a table that satisfies the invariant -/

theorem buscar_eq {n : Nat} {t : Arbol} {f : Forma} (h : Inv n t f) {pasos : Nat}
    (hp : t.siguienteLibre ≤ pasos) (k : Int) :
    buscar pasos t k = .ok (match f.busca k with
      | some id => leerDelArchivo t.archivoDatos id
      | none => claveNoEncontrada) := by
  unfold buscar
  rw [h.raiz, Forma.iterar_pasoBuscar h.rep k pasos (h.talla_lt_pasos hp)]
  cases f.busca k <;> rfl

theorem eliminar_ausente {n : Nat} {t : Arbol} {f : Forma} (h : Inv n t f) {pasos : Nat}
    (hp : t.siguienteLibre ≤ pasos) {k : Int} (hk : k ∉ f.claves) :
    eliminar pasos t k = .ok (false, t) := by
  unfold eliminar
  rw [h.raiz, Forma.iterar_pasoBuscarEliminar h.rep k pasos (-1) (h.talla_lt_pasos hp)]
  simp [Forma.ubica_snd_of_not_mem hk]

theorem eliminar_presente {n : Nat} {t : Arbol} {f : Forma} (h : Inv n t f) {pasos : Nat}
    (hp : t.siguienteLibre ≤ pasos) {k : Int} (hk : k ∈ f.claves) :
    ∃ a id, (k, id) ∈ f.pares ∧
      eliminar pasos t k = .ok (true, trasEliminar t a (f.elimina k).raiz id) ∧
      Inv n (trasEliminar t a (f.elimina k).raiz id) (f.elimina k) ∧
      (∀ x, x ∉ f.indices → leer a x = leer t.arreglo x) ∧
      (∀ x ∈ f.indices, x ∉ (f.elimina k).indices →
        leer a x = (leer t.arreglo x).map (fun nd => { nd with activo := false })) := by
  have htalla := h.talla_lt_pasos hp
  obtain ⟨hmem, hclave⟩ := Forma.ubica_snd_of_mem h.rep h.ord hk (-1)
  obtain ⟨nd, hnd, hact, -⟩ := Forma.rep_leer_indices h.rep _ hmem
  have hne : (f.ubica k (-1)).2 ≠ -1 := leer_ne_menos_uno hnd
  have hpar : (k, nd.id_info) ∈ f.pares := by
    rw [Forma.rep_pares_eq h.rep, List.mem_map]
    refine ⟨_, hmem, ?_⟩
    simp only [claveEn, hnd] at hclave
    simp [claveEn, idEn, hnd, hclave]
  obtain ⟨a', raiz', e1, e2, e3, e4, e5, e6, -⟩ :=
    Forma.eliminarNodo_spec h.rep h.ord hk htalla t.raiz (-1) (Or.inl ⟨rfl, h.raiz⟩)
  have hraiz := e6 rfl
  subst hraiz
  have hframe : ∀ x, x ∉ f.indices → leer a' x = leer t.arreglo x := by
    intro x hx
    by_cases hx1 : x = -1
    · subst hx1
      rfl
    · exact e4 x hx hx1
  have hsub : ∀ x ∈ (f.elimina k).pares, x ∈ f.pares := by
    intro x hx
    rw [Forma.pares_elimina k h.ord] at hx
    exact List.mem_of_mem_filter hx
  refine ⟨a', nd.id_info, hpar, ?_, ?_, hframe, e5⟩
  · unfold eliminar
    rw [h.raiz, Forma.iterar_pasoBuscarEliminar h.rep k pasos (-1) htalla]
    simp only [ne_eq, hne, not_false_eq_true, decide_True, hnd]
    rw [← h.raiz, e1]
    rfl
  · refine ⟨?_, h.tam, h.libre_pos, h.libre_le, e3, rfl, Forma.ordenado_elimina k h.ord, ?_, ?_,
      ?_, ?_, ?_⟩
    · simp only [trasEliminar]
      rw [e2, h.largo]
    · intro x ndx hx
      simp only [trasEliminar] at hx
      constructor
      · intro hax
        by_contra hnot
        by_cases hxf : x ∈ f.indices
        · rw [e5 x hxf hnot] at hx
          cases hlx : leer t.arreglo x with
          | none => rw [hlx] at hx; cases hx
          | some y =>
            rw [hlx] at hx
            cases hx
            simp at hax
        · rw [hframe x hxf] at hx
          exact hxf ((h.vivo x ndx hx).1 hax)
      · intro hxm
        obtain ⟨y, hy, hya, -⟩ := Forma.rep_leer_indices e3 x hxm
        rw [hx] at hy
        cases hy
        exact hya
    · intro x h0 h1
      simp only [trasEliminar] at h0 ⊢
      rw [hframe x (fun hx => by have := (h.indice_rango hx).2; omega)]
      exact h.resto x h0 h1
    · simp only [trasEliminar]
      rw [hframe 0 (fun hx => by have := (h.indice_rango hx).1; omega)]
      exact h.cero
    · intro p hp'
      exact h.ids_lt p (hsub p hp')
    · rw [Forma.pares_elimina k h.ord]
      exact h.ids_nodup.sublist (List.Sublist.map _ (List.filter_sublist _))

theorem modificar_ausente {n : Nat} {t : Arbol} {f : Forma} (h : Inv n t f) {pasos : Nat}
    (hp : t.siguienteLibre ≤ pasos) {k : Int} (hk : k ∉ f.claves) (p : List Char) :
    modificar pasos t k p = .ok (false, t) := by
  unfold modificar
  rw [h.raiz, Forma.iterar_pasoModificar h.rep k pasos (h.talla_lt_pasos hp),
    Forma.indiceDe_eq_none hk]

theorem modificar_presente {n : Nat} {t : Arbol} {f : Forma} (h : Inv n t f) {pasos : Nat}
    (hp : t.siguienteLibre ≤ pasos) {k : Int} (hk : k ∈ f.claves) (p : List Char) :
    ∃ j nd, leer t.arreglo j = some nd ∧ nd.activo = true ∧ nd.clave = k ∧
      (k, nd.id_info) ∈ f.pares ∧
      modificar pasos t k p = .ok (true,
        trasModificar t (escribir t.arreglo j { nd with id_info := t.contador }) nd.id_info p) ∧
      Inv n (trasModificar t (escribir t.arreglo j { nd with id_info := t.contador }) nd.id_info p)
        (f.cambiaId k t.contador) := by
  obtain ⟨j, nd, h1, h2, h3, h4, h5, h6⟩ := Forma.rep_cambiaId t.contador h.rep h.ord hk
  have hj0 : 0 ≤ j := (leer_some_rango h3).1
  have hact : nd.activo = true := (h.vivo j nd h3).2 h2
  refine ⟨j, nd, h3, hact, h4, h5, ?_, ?_⟩
  · unfold modificar
    rw [h.raiz, Forma.iterar_pasoModificar h.rep k pasos (h.talla_lt_pasos hp), h1]
    simp only [h3, trasModificar, h.raiz]
  · refine ⟨?_, h.tam, h.libre_pos, h.libre_le, h6, ?_, Forma.ordenado_cambiaId _ _ h.ord, ?_, ?_,
      ?_, ?_, ?_⟩
    · simp only [trasModificar, length_escribir]
      exact h.largo
    · simp only [trasModificar, Forma.raiz_cambiaId]
      exact h.raiz
    · intro x ndx hx
      simp only [trasModificar, leer_escribir _ h3] at hx
      rw [Forma.indices_cambiaId]
      split at hx
      · rename_i hxj
        cases hx
        subst hxj
        simp [hact, h2]
      · exact h.vivo x ndx hx
    · intro x h0 h1
      simp only [trasModificar] at h0 ⊢
      rw [leer_escribir_otro _ hj0 (fun hx => by have := (h.indice_rango h2).2; omega)]
      exact h.resto x h0 h1
    · simp only [trasModificar]
      rw [leer_escribir_otro _ hj0 (fun hx => by have := (h.indice_rango h2).1; omega)]
      exact h.cero
    · intro q hq
      rw [Forma.pares_cambiaId _ _ h.ord, List.mem_map] at hq
      obtain ⟨q', hq', rfl⟩ := hq
      simp only [trasModificar]
      split
      · simp
      · have := h.ids_lt q' hq'
        omega
    · rw [Forma.pares_cambiaId _ _ h.ord, List.map_map]
      have hpn : f.pares.Nodup := List.Nodup.of_map _ h.ids_nodup
      refine List.Nodup.map_on ?_ hpn
      intro x hx y hy hxy
      simp only [Function.comp] at hxy
      by_cases hxk : x.1 = k
      · by_cases hyk : y.1 = k
        · exact Forma.par_unico h.ord hx hy (hxk.trans hyk.symm)
        · rw [if_pos hxk, if_neg hyk] at hxy
          have := h.ids_lt y hy
          simp only at hxy
          omega
      · by_cases hyk : y.1 = k
        · rw [if_neg hxk, if_pos hyk] at hxy
          have := h.ids_lt x hx
          simp only at hxy
          omega
        · rw [if_neg hxk, if_neg hyk] at hxy
          exact List.inj_on_of_nodup_map h.ids_nodup hx hy hxy

/-! ## Larger bounds give the same results -/

theorem iterar_mono_mismo {σ ρ : Type} {paso : σ → Except Falla (σ ⊕ ρ)} {k k' : Nat} {s : σ}
    {r : ρ} (hk : k ≤ k') (h : iterar paso k s = .ok r) : iterar paso k' s = .ok r :=
  iterar_mono (fun _ _ hx => hx) k k' s r hk h

theorem insertar_mono {pasos pasos' : Nat} {t : Arbol} {k : Int} {p : List Char}
    {r : Bool × Arbol} (hle : pasos ≤ pasos') (h : insertar pasos t k p = .ok r) :
    insertar pasos' t k p = .ok r := by
  have key : ∀ x, buscarPosicion pasos t k (-1) = .ok x → buscarPosicion pasos' t k (-1) = .ok x := by
    intro x hx
    unfold buscarPosicion at hx ⊢
    by_cases hr : t.raiz = -1
    · rw [if_pos hr] at hx ⊢
      exact hx
    · rw [if_neg hr] at hx ⊢
      exact iterar_mono_mismo hle hx
  unfold insertar at h ⊢
  by_cases hfull : t.siguienteLibre > t.tamano
  · rw [if_pos hfull] at h ⊢
    exact h
  · rw [if_neg hfull] at h ⊢
    cases hb : buscarPosicion pasos t k (-1) with
    | error e => rw [hb] at h; cases h
    | ok x =>
      rw [hb] at h
      rw [key x hb]
      exact h

theorem eliminarNodo_mono {pasos pasos' : Nat} {a : List Nodo} {raiz padre actual : Int}
    {r : List Nodo × Int} (hle : pasos ≤ pasos')
    (h : eliminarNodo pasos a raiz padre actual = .ok r) :
    eliminarNodo pasos' a raiz padre actual = .ok r := by
  unfold eliminarNodo at h ⊢
  cases hl : leer a actual with
  | none => rw [hl] at h; cases h
  | some nd =>
    rw [hl] at h
    simp only at h ⊢
    by_cases h1 : nd.izq = -1 ∧ nd.der = -1
    · rw [if_pos h1] at h ⊢
      exact h
    · rw [if_neg h1] at h ⊢
      by_cases h2 : nd.izq = -1 ∨ nd.der = -1
      · rw [if_pos h2] at h ⊢
        exact h
      · rw [if_neg h2] at h ⊢
        cases hit : iterar (pasoSucesor a) pasos (actual, nd.der) with
        | error e => rw [hit] at h; cases h
        | ok x =>
          rw [hit] at h
          rw [iterar_mono_mismo hle hit]
          exact h

theorem eliminar_mono {pasos pasos' : Nat} {t : Arbol} {k : Int} {r : Bool × Arbol}
    (hle : pasos ≤ pasos') (h : eliminar pasos t k = .ok r) : eliminar pasos' t k = .ok r := by
  unfold eliminar at h ⊢
  cases hit : iterar (pasoBuscarEliminar t.arreglo k) pasos (-1, t.raiz) with
  | error e => rw [hit] at h; cases h
  | ok x =>
    rw [hit] at h
    rw [iterar_mono_mismo hle hit]
    obtain ⟨enc, padre, actual⟩ := x
    cases enc with
    | false => exact h
    | true =>
      simp only at h ⊢
      cases hl : leer t.arreglo actual with
      | none => rw [hl] at h; cases h
      | some nd =>
        rw [hl] at h
        simp only at h ⊢
        cases hn : eliminarNodo pasos t.arreglo t.raiz padre actual with
        | error e => rw [hn] at h; cases h
        | ok y =>
          rw [hn] at h
          rw [eliminarNodo_mono hle hn]
          exact h

theorem modificar_mono {pasos pasos' : Nat} {t : Arbol} {k : Int} {p : List Char}
    {r : Bool × Arbol} (hle : pasos ≤ pasos') (h : modificar pasos t k p = .ok r) :
    modificar pasos' t k p = .ok r := by
  unfold modificar at h ⊢
  cases hit : iterar (pasoModificar t.arreglo k) pasos t.raiz with
  | error e => rw [hit] at h; cases h
  | ok x =>
    rw [hit] at h
    rw [iterar_mono_mismo hle hit]
    exact h

/-! ## Reachable states -/

theorem inv_insertar {n : Nat} {t t' : Arbol} {f : Forma} (h : Inv n t f) {pasos : Nat} {k : Int}
    {p : List Char} {b : Bool} (hop : insertar pasos t k p = .ok (b, t')) : ∃ f', Inv n t' f' := by
  have hbig := insertar_mono (le_max_left pasos t.siguienteLibre.toNat) hop
  have hp : t.siguienteLibre ≤ ((max pasos t.siguienteLibre.toNat : Nat) : Int) := by
    have := le_max_right pasos t.siguienteLibre.toNat
    omega
  by_cases hfull : t.siguienteLibre > t.tamano
  · rw [insertar_lleno _ k p hfull] at hbig
    cases hbig
    exact ⟨f, h⟩
  · by_cases hk : k ∈ f.claves
    · rw [insertar_duplicada h hp hk p] at hbig
      cases hbig
      exact ⟨f, h⟩
    · obtain ⟨a, e1, e2, -⟩ := insertar_nueva h hp hk p hfull
      rw [e1] at hbig
      cases hbig
      exact ⟨_, e2⟩

theorem inv_eliminar {n : Nat} {t t' : Arbol} {f : Forma} (h : Inv n t f) {pasos : Nat} {k : Int}
    {b : Bool} (hop : eliminar pasos t k = .ok (b, t')) : ∃ f', Inv n t' f' := by
  have hbig := eliminar_mono (le_max_left pasos t.siguienteLibre.toNat) hop
  have hp : t.siguienteLibre ≤ ((max pasos t.siguienteLibre.toNat : Nat) : Int) := by
    have := le_max_right pasos t.siguienteLibre.toNat
    omega
  by_cases hk : k ∈ f.claves
  · obtain ⟨a, id, -, e1, e2, -⟩ := eliminar_presente h hp hk
    rw [e1] at hbig
    cases hbig
    exact ⟨_, e2⟩
  · rw [eliminar_ausente h hp hk] at hbig
    cases hbig
    exact ⟨f, h⟩

theorem inv_modificar {n : Nat} {t t' : Arbol} {f : Forma} (h : Inv n t f) {pasos : Nat} {k : Int}
    {p : List Char} {b : Bool} (hop : modificar pasos t k p = .ok (b, t')) :
    ∃ f', Inv n t' f' := by
  have hbig := modificar_mono (le_max_left pasos t.siguienteLibre.toNat) hop
  have hp : t.siguienteLibre ≤ ((max pasos t.siguienteLibre.toNat : Nat) : Int) := by
    have := le_max_right pasos t.siguienteLibre.toNat
    omega
  by_cases hk : k ∈ f.claves
  · obtain ⟨j, nd, -, -, -, -, e1, e2⟩ := modificar_presente h hp hk p
    rw [e1] at hbig
    cases hbig
    exact ⟨_, e2⟩
  · rw [modificar_ausente h hp hk p] at hbig
    cases hbig
    exact ⟨f, h⟩

/-- Every reachable state stores a search tree. -/
theorem inv_alcanzable {n : Nat} {t : Arbol} (h : Alcanzable n t) : ∃ f, Inv n t f := by
  induction h with
  | crear c d => exact ⟨_, inv_crear n c d⟩
  | insertar _ hop ih => obtain ⟨f, hf⟩ := ih; exact inv_insertar hf hop
  | eliminar _ hop ih => obtain ⟨f, hf⟩ := ih; exact inv_eliminar hf hop
  | modificar _ hop ih => obtain ⟨f, hf⟩ := ih; exact inv_modificar hf hop

namespace Forma

/-! ## `recorridoInorden` on a stored tree -/

theorem pendiente_append (xs ys : List Forma) :
    pendiente (xs ++ ys) = pendiente xs ++ pendiente ys := by
  induction xs with
  | nil => rfl
  | cons x xs ih => cases x <;> simp [pendiente, ih]

theorem costo_append (xs ys : List Forma) : costo (xs ++ ys) = costo xs + costo ys := by
  induction xs with
  | nil => simp [costo]
  | cons x xs ih => cases x <;> simp [costo, ih]; omega

theorem pendiente_espina (g : Forma) : pendiente (espina g) = g.indices := by
  induction g with
  | hoja => rfl
  | nodo l i c d r ihl _ => simp [espina, pendiente_append, pendiente, ihl, indices]

theorem costo_espina (g : Forma) : costo (espina g) = g.talla := by
  induction g with
  | hoja => rfl
  | nodo l i c d r ihl _ => simp [espina, costo_append, costo, ihl, talla]; omega

theorem rep_espina {a : List Nodo} {g : Forma} (h : Rep a g) : ∀ x ∈ espina g, Rep a x := by
  induction g with
  | hoja => intro x hx; simp [espina] at hx
  | nodo l i c d r ihl _ =>
    intro x hx
    simp only [espina, List.mem_append, List.mem_singleton] at hx
    rcases hx with hx | rfl
    · exact ihl h.2.1 x hx
    · exact h

/-- The inner loop of `recorridoInorden` pushes the left chain. -/
theorem iterar_pasoBajar {a : List Nodo} {g : Forma} (h : Rep a g) :
    ∀ (pasos : Nat) (pila : List Int), g.talla < pasos →
      iterar (pasoBajar a) pasos (g.raiz, pila) = .ok ((espina g).map raiz ++ pila) := by
  induction g with
  | hoja =>
    intro pasos pila hp
    obtain ⟨m, rfl⟩ : ∃ m, pasos = m + 1 := ⟨pasos - 1, by omega⟩
    exact iterar_succ_inr m (by simp [pasoBajar, raiz, espina])
  | nodo l i c d r ihl _ =>
    intro pasos pila hp
    simp only [talla] at hp
    obtain ⟨m, rfl⟩ : ∃ m, pasos = m + 1 := ⟨pasos - 1, by omega⟩
    have hi : i ≠ -1 := leer_ne_menos_uno h.1
    rw [iterar_succ_inl m (u := (l.raiz, i :: pila)) (by simp [pasoBajar, raiz, hi, h.1]),
      ihl h.2.1 m (i :: pila) (by omega)]
    simp [espina, raiz]

theorem espina_ne_hoja {g : Forma} : ∀ x ∈ espina g, x ≠ hoja := by
  induction g with
  | hoja => intro x hx; simp [espina] at hx
  | nodo l i c d r ihl _ =>
    intro x hx
    simp only [espina, List.mem_append, List.mem_singleton] at hx
    rcases hx with hx | rfl
    · exact ihl x hx
    · simp

/-- The outer loop of `recorridoInorden`, started on a stored tree `g` with a
stack of stored subtrees whose left parts are done, emits the slots of `g` in
inorder and then what is pending for the stack. -/
theorem iterar_pasoInorden {a : List Nodo} (interno : Nat) :
    ∀ (m : Nat) (g : Forma) (fs : List Forma) (res : List Int) (pasos : Nat),
      Rep a g → (∀ x ∈ fs, Rep a x ∧ x ≠ hoja) → g.talla + costo fs = m → m < interno →
      m < pasos →
      iterar (pasoInorden interno a) pasos (g.raiz, fs.map raiz, res) =
        .ok (res ++ g.indices ++ pendiente fs) := by
  intro m
  induction m with
  | zero =>
    intro g fs res pasos hg hfs hm _ hp
    obtain ⟨p, rfl⟩ : ∃ p, pasos = p + 1 := ⟨pasos - 1, by omega⟩
    have hg0 : g = hoja := by
      cases g with
      | hoja => rfl
      | nodo l i c d r => simp only [talla] at hm; omega
    subst hg0
    cases fs with
    | nil => exact iterar_succ_inr p (by simp [pasoInorden, raiz, indices, pendiente])
    | cons x fs =>
      cases x with
      | hoja => exact absurd rfl (hfs hoja (List.mem_cons_self _ _)).2
      | nodo l i c d r => simp only [costo] at hm; omega
  | succ m ih =>
    intro g fs res pasos hg hfs hm hint hp
    obtain ⟨p, rfl⟩ : ∃ p, pasos = p + 1 := ⟨pasos - 1, by omega⟩
    have hne : ¬ (g.raiz = -1 ∧ fs.map raiz = []) := by
      rintro ⟨h1, h2⟩
      have hg0 : g = hoja := (raiz_eq_menos_uno hg).1 h1
      have hf0 : fs = [] := List.map_eq_nil_iff.1 h2
      subst hg0 hf0
      simp [talla, costo] at hm
    have hbaj := iterar_pasoBajar hg interno (fs.map raiz) (by omega)
    rw [← List.map_append] at hbaj
    have hcosto : costo (espina g ++ fs) = m + 1 := by
      rw [costo_append, costo_espina]; exact hm
    have hpend : pendiente (espina g ++ fs) = g.indices ++ pendiente fs := by
      rw [pendiente_append, pendiente_espina]
    have hall : ∀ x ∈ espina g ++ fs, Rep a x ∧ x ≠ hoja := by
      intro x hx
      rcases List.mem_append.1 hx with hx | hx
      · exact ⟨rep_espina hg x hx, espina_ne_hoja x hx⟩
      · exact hfs x hx
    cases hx : espina g ++ fs with
    | nil => rw [hx] at hcosto; simp [costo] at hcosto
    | cons x rest =>
      rw [hx] at hbaj hcosto hpend hall
      cases x with
      | hoja => exact absurd rfl (hall hoja (List.mem_cons_self _ _)).2
      | nodo xl xi xc xd xr =>
        have hxrep := (hall _ (List.mem_cons_self _ _)).1
        simp only [costo] at hcosto
        simp only [pendiente] at hpend
        rw [iterar_succ_inl p (u := (xr.raiz, rest.map raiz, res ++ [xi]))
          (by simp only [pasoInorden, if_neg hne, hbaj, List.map_cons,
                show raiz (nodo xl xi xc xd xr) = xi from rfl, hxrep.1, if_true]),
          ih xr rest (res ++ [xi]) p hxrep.2.2
            (fun y hy => hall y (List.mem_cons_of_mem _ hy)) (by omega) (by omega) (by omega)]
        rw [List.append_assoc res g.indices, ← hpend]
        simp

/-- On a stored tree `recorridoInorden` returns the slots in inorder. -/
theorem recorridoInorden_eq {n : Nat} {t : Arbol} {f : Forma} (h : Inv n t f) {pasos : Nat}
    (hp : t.siguienteLibre ≤ pasos) : recorridoInorden pasos t = .ok f.indices := by
  have htalla := h.talla_lt_pasos hp
  unfold recorridoInorden
  rw [h.raiz]
  have := iterar_pasoInorden (a := t.arreglo) pasos f.talla f [] [] pasos h.rep
    (by simp) (by simp [costo]) htalla htalla
  simpa [pendiente] using this

end Forma

/-! ## The data file -/

theorem digitChar_isDigit {d : Nat} (h : d < 10) : (Nat.digitChar d).isDigit = true := by
  interval_cases d <;> rfl

theorem digitos_isDigit (f n : Nat) : ∀ c ∈ digitos f n, c.isDigit = true := by
  induction f generalizing n with
  | zero => intro c hc; simp [digitos] at hc
  | succ f ih =>
    intro c hc
    unfold digitos at hc
    split at hc
    · rename_i hn
      rw [List.mem_singleton] at hc
      subst hc
      exact digitChar_isDigit hn
    · rw [List.mem_append, List.mem_singleton] at hc
      rcases hc with hc | rfl
      · exact ih _ c hc
      · exact digitChar_isDigit (Nat.mod_lt _ (by decide))

theorem to_string_chars (x : Int) : ∀ c ∈ to_string x, esCharDeId c = true := by
  intro c hc
  cases x with
  | ofNat n =>
    simp only [to_string] at hc
    simp [esCharDeId, digitos_isDigit _ _ c hc]
  | negSucc n =>
    simp only [to_string, List.mem_cons] at hc
    rcases hc with rfl | hc
    · rfl
    · simp [esCharDeId, digitos_isDigit _ _ c hc]

theorem valor_digitChar {d : Nat} (h : d < 10) : (Nat.digitChar d).toNat - 48 = d := by
  interval_cases d <;> rfl

theorem valor_digitos (f n : Nat) (h : n < f) : valor (digitos f n) = n := by
  induction f generalizing n with
  | zero => omega
  | succ f ih =>
    unfold digitos
    split
    · rename_i hn
      simp [valor, valor_digitChar hn]
    · rename_i hn
      have h1 : n / 10 < f := by omega
      have h2 := ih (n / 10) h1
      unfold valor at h2 ⊢
      rw [List.foldl_append, h2]
      simp only [List.foldl_cons, List.foldl_nil]
      rw [valor_digitChar (Nat.mod_lt _ (by decide))]
      omega

theorem valorInt_to_string (x : Int) : valorInt (to_string x) = x := by
  cases x with
  | ofNat n =>
    simp only [to_string, valorInt]
    have hne : (digitos (n + 1) n).head? ≠ some '-' := by
      intro hx
      have := digitos_isDigit (n + 1) n '-' (List.mem_of_mem_head? hx)
      simp [Char.isDigit] at this
    rw [if_neg hne, valor_digitos _ _ (by omega)]
    rfl
  | negSucc n =>
    simp only [to_string, valorInt, List.head?_cons, List.tail_cons, if_true]
    rw [valor_digitos _ _ (by omega)]
    rfl

theorem to_string_inj {x y : Int} (h : to_string x = to_string y) : x = y := by
  rw [← valorInt_to_string x, ← valorInt_to_string y, h]

theorem prefijo_barra {A B rest : List Char} {c : Char} (hA : c ∉ A) (hB : c ∉ B)
    (h : (A ++ [c]) <+: (B ++ c :: rest)) : A = B := by
  induction A generalizing B with
  | nil =>
    cases B with
    | nil => rfl
    | cons b B =>
      obtain ⟨rfl, -⟩ := List.cons_prefix_cons.1 h
      simp at hB
  | cons a A ih =>
    cases B with
    | nil =>
      obtain ⟨rfl, -⟩ := List.cons_prefix_cons.1 h
      simp at hA
    | cons b B =>
      obtain ⟨rfl, h'⟩ := List.cons_prefix_cons.1 h
      simp only [List.mem_cons, not_or] at hA hB
      rw [ih hA.2 hB.2 h']

theorem barra_not_mem (x : Int) : '|' ∉ to_string x := by
  intro h
  have := to_string_chars x _ h
  simp [esCharDeId, Char.isDigit] at this

/-- A line that starts with `id'|` and with `id|` belongs to one id. -/
theorem id_eq_of_prefijos {id id' : Int} {rest : List Char}
    (h : (prefijoId id').isPrefixOf (prefijoId id ++ rest) = true) : id' = id := by
  rw [List.isPrefixOf_iff_prefix] at h
  unfold prefijoId at h
  rw [List.append_assoc, List.singleton_append] at h
  exact to_string_inj (prefijo_barra (barra_not_mem _) (barra_not_mem _) h)

theorem despuesDeBarra_append {A : List Char} (hA : '|' ∉ A) (rest : List Char) :
    despuesDeBarra (A ++ '|' :: rest) = some rest := by
  induction A with
  | nil => simp [despuesDeBarra]
  | cons a A ih =>
    simp only [List.mem_cons, not_or] at hA
    simp only [List.cons_append, despuesDeBarra]
    rw [if_neg (fun hx => hA.1 hx.symm)]
    exact ih hA.2

theorem despuesDeBarra_prefijoId (id : Int) (p : List Char) :
    despuesDeBarra (prefijoId id ++ p) = some p := by
  unfold prefijoId
  rw [List.append_assoc, List.singleton_append]
  exact despuesDeBarra_append (barra_not_mem id) p

/-- Reading skips the lines that do not start with `id|`. -/
theorem leerDelArchivo_append {xs : List (List Char)} {id : Int}
    (h : ∀ l ∈ xs, (prefijoId id).isPrefixOf l = false) (ys : List (List Char)) :
    leerDelArchivo (xs ++ ys) id = leerDelArchivo ys id := by
  induction xs with
  | nil => rfl
  | cons x xs ih =>
    have hx := h x (List.mem_cons_self _ _)
    simp only [List.cons_append, leerDelArchivo, hx]
    exact ih (fun l hl => h l (List.mem_cons_of_mem _ hl))

theorem leerDelArchivo_cons_mismo (id : Int) (p : List Char) (ys : List (List Char)) :
    leerDelArchivo ((prefijoId id ++ p) :: ys) id = p := by
  have h1 : (prefijoId id).isPrefixOf (prefijoId id ++ p) = true := by
    rw [List.isPrefixOf_iff_prefix]
    exact List.prefix_append _ _
  simp only [leerDelArchivo, h1, if_true, despuesDeBarra_prefijoId]

theorem prefijoId_eliminado (id : Int) (l : List Char) :
    (prefijoId id).isPrefixOf (eliminadoPrefijo ++ l) = false := by
  have hE : esCharDeId 'E' = false := by decide
  have hB : ('|' == 'E') = false := by decide
  unfold prefijoId
  cases hs : to_string id with
  | nil => simp [eliminadoPrefijo, List.isPrefixOf, hB]
  | cons c cs =>
    have hc := to_string_chars id c (by rw [hs]; exact List.mem_cons_self _ _)
    have hne : (c == 'E') = false := by
      cases hce : c == 'E' with
      | false => rfl
      | true =>
        rw [beq_iff_eq] at hce
        rw [hce, hE] at hc
        cases hc
    simp [eliminadoPrefijo, List.isPrefixOf, hne]

theorem prefijo_otro {id id' : Int} (h : id' ≠ id) (p : List Char) :
    (prefijoId id').isPrefixOf (prefijoId id ++ p) = false := by
  cases hp : (prefijoId id').isPrefixOf (prefijoId id ++ p) with
  | false => rfl
  | true => exact absurd (id_eq_of_prefijos hp) h

theorem prefijoId_vacia (id : Int) : (prefijoId id).isPrefixOf ([] : List Char) = false := by
  unfold prefijoId
  cases to_string id <;> rfl

/-- A line appended to the file that does not start with `id|` does not change
what is read for `id`. -/
theorem leerDelArchivo_append_otro {id : Int} {l : List Char}
    (h : (prefijoId id).isPrefixOf l = false) (xs : List (List Char)) :
    leerDelArchivo (xs ++ [l]) id = leerDelArchivo xs id := by
  induction xs with
  | nil => simp [leerDelArchivo, h]
  | cons x xs ih =>
    rw [List.cons_append]
    unfold leerDelArchivo
    rw [ih]

theorem lineasLeidas_append_vacia (xs : List (List Char)) : lineasLeidas (xs ++ [[]]) = xs := by
  unfold lineasLeidas
  rw [if_pos (by simp), List.dropLast_concat]

theorem lineasLeidas_o (datos : List (List Char)) :
    lineasLeidas datos = datos ∨ datos = lineasLeidas datos ++ [[]] := by
  unfold lineasLeidas
  by_cases h : datos.getLast? = some []
  · rw [if_pos h]
    exact Or.inr (List.dropLast_append_getLast? _ h).symm
  · rw [if_neg h]
    exact Or.inl rfl

theorem lineasLeidas_mem {datos : List (List Char)} {l : List Char} (h : l ∈ lineasLeidas datos) :
    l ∈ datos := by
  rcases lineasLeidas_o datos with e | e
  · rw [e] at h; exact h
  · rw [e]; exact List.mem_append_left _ h

/-- Reading sees the lines of the file. -/
theorem leerDelArchivo_lineasLeidas (datos : List (List Char)) (id : Int) :
    leerDelArchivo (lineasLeidas datos) id = leerDelArchivo datos id := by
  rcases lineasLeidas_o datos with e | e
  · rw [e]
  · conv_rhs => rw [e]
    rw [leerDelArchivo_append_otro (prefijoId_vacia id)]

theorem leerDelArchivo_map_marcar {id id' : Int} (h : id' ≠ id) (datos : List (List Char)) :
    leerDelArchivo (datos.map (fun linea =>
      if (prefijoId id).isPrefixOf linea then eliminadoPrefijo ++ linea else linea)) id' =
      leerDelArchivo datos id' := by
  induction datos with
  | nil => rfl
  | cons l ls ih =>
    simp only [List.map_cons]
    by_cases hl : (prefijoId id).isPrefixOf l = true
    · rw [if_pos hl]
      have hno : (prefijoId id').isPrefixOf l = false := by
        cases hp : (prefijoId id').isPrefixOf l with
        | false => rfl
        | true =>
          rw [List.isPrefixOf_iff_prefix] at hl
          obtain ⟨rest, rfl⟩ := hl
          exact absurd (id_eq_of_prefijos hp) h
      simp only [leerDelArchivo, prefijoId_eliminado, hno]
      exact ih
    · rw [if_neg hl]
      simp only [leerDelArchivo, ih]

/-- Marking the lines of one id does not change what is read for another id. -/
theorem leerDelArchivo_marcar {id id' : Int} (h : id' ≠ id) (datos : List (List Char)) :
    leerDelArchivo (marcarBorradoEnArchivo datos id) id' = leerDelArchivo datos id' := by
  unfold marcarBorradoEnArchivo
  rw [leerDelArchivo_append_otro (prefijoId_vacia id'), leerDelArchivo_map_marcar h,
    leerDelArchivo_lineasLeidas]

theorem cerrado_marcar (datos : List (List Char)) (id : Int) :
    Cerrado (marcarBorradoEnArchivo datos id) := by
  unfold marcarBorradoEnArchivo
  exact Or.inr (by simp)

theorem partirLineas_sin_salto {s : List Char} (h : Char.ofNat 10 ∉ s) : partirLineas s = [s] := by
  induction s with
  | nil => rfl
  | cons c cs ih =>
    simp only [List.mem_cons, not_or] at h
    simp only [partirLineas]
    rw [if_neg (fun hx => h.1 hx.symm), ih h.2]

theorem partirLineas_ne_nil (p : List Char) : ∃ l rest, partirLineas p = l :: rest := by
  cases p with
  | nil => exact ⟨[], [], rfl⟩
  | cons c cs =>
    simp only [partirLineas]
    by_cases h : c = Char.ofNat 10
    · rw [if_pos h]; exact ⟨_, _, rfl⟩
    · rw [if_neg h]
      cases partirLineas cs with
      | nil => exact ⟨_, _, rfl⟩
      | cons l ls => exact ⟨_, _, rfl⟩

/-- A text that ends with a line break: its pieces end with the empty rest. -/
theorem partirLineas_salto (s : List Char) :
    partirLineas (s ++ [Char.ofNat 10]) = partirLineas s ++ [[]] := by
  induction s with
  | nil => rfl
  | cons c cs ih =>
    rw [List.cons_append]
    unfold partirLineas
    by_cases h : c = Char.ofNat 10
    · rw [if_pos h, if_pos h, ih]; rfl
    · rw [if_neg h, if_neg h, ih]
      obtain ⟨l, rest, e⟩ := partirLineas_ne_nil cs
      rw [e]
      rfl

theorem salto_not_mem_prefijoId (id : Int) : Char.ofNat 10 ∉ prefijoId id := by
  intro h
  unfold prefijoId at h
  rw [List.mem_append, List.mem_singleton] at h
  rcases h with h | h
  · have := to_string_chars id _ h
    revert this
    decide
  · revert h
    decide

theorem anexar_cerrado {datos : List (List Char)} (h : Cerrado datos) (t : List Char)
    (ts : List (List Char)) : anexar datos (t :: ts) = lineasLeidas datos ++ t :: ts := by
  unfold anexar lineasLeidas
  rcases h with h | h
  · subst h
    rfl
  · rw [h, if_pos rfl]
    rfl

/-- The pieces of a file that is empty or ends with a line break, after
`guardarEnArchivo`: the lines it had, the lines of the record and the empty
rest. -/
theorem guardarEnArchivo_cerrado {datos : List (List Char)} (h : Cerrado datos) (id : Int)
    (p : List Char) :
    guardarEnArchivo datos id p =
      lineasLeidas datos ++ (partirLineas (prefijoId id ++ p) ++ [[]]) := by
  unfold guardarEnArchivo
  rw [partirLineas_salto]
  obtain ⟨l, rest, e⟩ := partirLineas_ne_nil (prefijoId id ++ p)
  rw [e, List.cons_append, anexar_cerrado h]

theorem guardarEnArchivo_sin_salto {datos : List (List Char)} (h : Cerrado datos) (id : Int)
    {p : List Char} (hp : Char.ofNat 10 ∉ p) :
    guardarEnArchivo datos id p = lineasLeidas datos ++ [prefijoId id ++ p, []] := by
  rw [guardarEnArchivo_cerrado h, partirLineas_sin_salto]
  · rfl
  · intro hx
    rcases List.mem_append.1 hx with hx | hx
    · exact salto_not_mem_prefijoId id hx
    · exact hp hx

/-- After `guardarEnArchivo` the file ends with a line break. -/
theorem guardarEnArchivo_termina (datos : List (List Char)) (id : Int) (p : List Char) :
    ∃ xs, guardarEnArchivo datos id p = xs ++ [[]] := by
  unfold guardarEnArchivo
  rw [partirLineas_salto]
  obtain ⟨l, rest, e⟩ := partirLineas_ne_nil (prefijoId id ++ p)
  rw [e, List.cons_append]
  unfold anexar
  cases hu : datos.getLast? with
  | none => exact ⟨l :: rest, rfl⟩
  | some u => exact ⟨datos.dropLast ++ (u ++ l) :: rest, by simp⟩

theorem cerrado_guardar (datos : List (List Char)) (id : Int) (p : List Char) :
    Cerrado (guardarEnArchivo datos id p) := by
  obtain ⟨xs, e⟩ := guardarEnArchivo_termina datos id p
  rw [e]
  exact Or.inr (by simp)

/-! ## The live slots and the subtrees of the array -/

theorem filter_map_range (a : List Nodo) (p : Nodo → Bool) (g : Nodo → Int) :
    (a.filter p).map g =
      ((List.range a.length).filter (fun j => p (a.getD j Nodo.nuevo))).map
        (fun j => g (a.getD j Nodo.nuevo)) := by
  have ha : (List.range a.length).map (fun j => a.getD j Nodo.nuevo) = a := by
    apply List.ext_getElem
    · simp
    · intro i h1 h2
      simp [List.getD_eq_getElem?_getD, List.getElem?_eq_getElem h2]
  conv_lhs => rw [← ha]
  rw [List.filter_map, List.map_map]
  rfl

theorem leer_eq_getD {a : List Nodo} {i : Int} {nd : Nodo} (h : leer a i = some nd) :
    a.getD i.toNat Nodo.nuevo = nd := by
  unfold leer at h
  split at h
  · simp [List.getD_eq_getElem?_getD, h]
  · cases h

/-- The keys of the stored tree are the keys of the live slots. -/
theorem Inv.perm_clavesVivas {n : Nat} {t : Arbol} {f : Forma} (h : Inv n t f) :
    f.claves.Perm (clavesVivas t) := by
  have hnd := Forma.rep_nodup_indices h.rep h.ord
  have hpos : ∀ i ∈ f.indices, 0 ≤ i := fun i hi => by have := (h.indice_rango hi).1; omega
  have hnd2 : (f.indices.map Int.toNat).Nodup := by
    refine List.Nodup.map_on ?_ hnd
    intro x hx y hy hxy
    have := hpos x hx
    have := hpos y hy
    omega
  have hperm : (f.indices.map Int.toNat).Perm
      ((List.range t.arreglo.length).filter (fun j => (t.arreglo.getD j Nodo.nuevo).activo)) := by
    rw [List.perm_ext_iff_of_nodup hnd2 (List.Nodup.filter _ (List.nodup_range _))]
    intro j
    simp only [List.mem_map, List.mem_filter, List.mem_range]
    constructor
    · rintro ⟨i, hi, rfl⟩
      obtain ⟨nd, hl, ha, -⟩ := Forma.rep_leer_indices h.rep i hi
      have hr := leer_some_rango hl
      exact ⟨by omega, by rw [leer_eq_getD hl]; exact ha⟩
    · rintro ⟨hj, ha⟩
      obtain ⟨nd, hl⟩ := leer_of_rango (a := t.arreglo) (i := (j : Int)) (by omega) (by omega)
      have hg := leer_eq_getD hl
      simp only [Int.toNat_ofNat] at hg
      rw [hg] at ha
      exact ⟨(j : Int), (h.vivo _ nd hl).1 ha, by simp⟩
  have hcl : f.claves = (f.indices.map Int.toNat).map (fun j => (t.arreglo.getD j Nodo.nuevo).clave) := by
    rw [Forma.rep_claves_eq h.rep, List.map_map]
    apply List.map_congr_left
    intro i hi
    obtain ⟨nd, hl, -, -⟩ := Forma.rep_leer_indices h.rep i hi
    simp only [claveEn, hl, Function.comp, leer_eq_getD hl]
  rw [hcl]
  unfold clavesVivas
  rw [filter_map_range]
  exact hperm.map _

namespace Forma

theorem mem_indices_of_enSubarbol {a : List Nodo} {p j : Int} (hs : EnSubarbol a p j) :
    ∀ g : Forma, Rep a g → p = g.raiz → j ∈ g.indices := by
  induction hs with
  | raiz hl =>
    intro g hg hp
    cases g with
    | hoja => exact absurd hp (leer_ne_menos_uno hl)
    | nodo l i c d r => simp [raiz] at hp; simp [indices, hp]
  | izq hl _ ih =>
    intro g hg hp
    cases g with
    | hoja => exact absurd hp (leer_ne_menos_uno hl)
    | nodo l i c d r =>
      simp only [raiz] at hp
      subst hp
      rw [hg.1] at hl
      cases hl
      simp only [indices, List.mem_append]
      exact Or.inl (ih l hg.2.1 rfl)
  | der hl _ ih =>
    intro g hg hp
    cases g with
    | hoja => exact absurd hp (leer_ne_menos_uno hl)
    | nodo l i c d r =>
      simp only [raiz] at hp
      subst hp
      rw [hg.1] at hl
      cases hl
      simp only [indices, List.mem_append, List.mem_cons]
      exact Or.inr (Or.inr (ih r hg.2.2 rfl))

theorem mem_claves_of_mem_indices {a : List Nodo} {g : Forma} (h : Rep a g) {j : Int}
    (hj : j ∈ g.indices) : claveEn a j ∈ g.claves := by
  rw [rep_claves_eq h]
  exact List.mem_map_of_mem _ hj

/-- In a stored search tree the keys below the left link of a slot are
smaller than its key and the keys below its right link are larger. -/
theorem orden_subarboles {a : List Nodo} {f : Forma} (h : Rep a f) (ho : f.ordenado) :
    ∀ i ∈ f.indices, ∀ nd, leer a i = some nd →
      (∀ j, EnSubarbol a nd.izq j → claveEn a j < nd.clave) ∧
      (∀ j, EnSubarbol a nd.der j → nd.clave < claveEn a j) := by
  induction f with
  | hoja => intro i hi; simp [indices] at hi
  | nodo l i0 c d r ihl ihr =>
    intro i hi nd hl
    simp only [indices, List.mem_append, List.mem_cons] at hi
    rcases hi with hi | rfl | hi
    · exact ihl h.2.1 ho.1 i hi nd hl
    · rw [h.1] at hl
      cases hl
      constructor
      · intro j hj
        exact ho.2.2.1 _ (mem_claves_of_mem_indices h.2.1
          (mem_indices_of_enSubarbol hj l h.2.1 rfl))
      · intro j hj
        exact ho.2.2.2 _ (mem_claves_of_mem_indices h.2.2
          (mem_indices_of_enSubarbol hj r h.2.2 rfl))
    · exact ihr h.2.2 ho.2.1 i hi nd hl

/-! ## Deleting a slot with at most one child -/

theorem rep_leer_eq {a a' : List Nodo} {g : Forma} (h : Rep a g) (h' : Rep a' g) :
    ∀ j ∈ g.indices, leer a' j = leer a j := by
  induction g with
  | hoja => intro j hj; simp [indices] at hj
  | nodo l i c d r ihl ihr =>
    intro j hj
    simp only [indices, List.mem_append, List.mem_cons] at hj
    rcases hj with hj | rfl | hj
    · exact ihl h.2.1 h'.2.1 j hj
    · rw [h.1, h'.1]
    · exact ihr h.2.2 h'.2.2 j hj

theorem raiz_mem_o_vacio {a : List Nodo} {g : Forma} (h : Rep a g) :
    g.raiz = -1 ∨ g.raiz ∈ g.indices := by
  by_cases hg : g = hoja
  · exact Or.inl ((raiz_eq_menos_uno h).2 hg)
  · exact Or.inr (raiz_mem_indices hg)

/-- The links of a slot of a stored tree are empty or slots of the tree. -/
theorem rep_enlaces {a : List Nodo} {g : Forma} (h : Rep a g) :
    ∀ j ∈ g.indices, ∀ nd, leer a j = some nd →
      (nd.izq = -1 ∨ nd.izq ∈ g.indices) ∧ (nd.der = -1 ∨ nd.der ∈ g.indices) := by
  induction g with
  | hoja => intro j hj; simp [indices] at hj
  | nodo l i c d r ihl ihr =>
    intro j hj nd hnd
    simp only [indices, List.mem_append, List.mem_cons] at hj ⊢
    rcases hj with hj | rfl | hj
    · obtain ⟨h1, h2⟩ := ihl h.2.1 j hj nd hnd
      exact ⟨h1.imp id Or.inl, h2.imp id Or.inl⟩
    · rw [h.1] at hnd
      cases hnd
      exact ⟨(raiz_mem_o_vacio h.2.1).imp id Or.inl,
        (raiz_mem_o_vacio h.2.2).imp id (fun hx => Or.inr (Or.inr hx))⟩
    · obtain ⟨h1, h2⟩ := ihr h.2.2 j hj nd hnd
      exact ⟨h1.imp id (fun hx => Or.inr (Or.inr hx)), h2.imp id (fun hx => Or.inr (Or.inr hx))⟩

/-- A slot whose links avoid `i` is its own relinking. -/
theorem reenlazado_mismo {a : List Nodo} {g : Forma} (h : Rep a g) {i : Int} (hi : i ∉ g.indices)
    (hi1 : i ≠ -1) {j : Int} (hj : j ∈ g.indices) {nd : Nodo} (hnd : leer a j = some nd)
    (x : Int) : reenlazado nd i x = nd := by
  obtain ⟨h1, h2⟩ := rep_enlaces h j hj nd hnd
  have e1 : nd.izq ≠ i := by
    rcases h1 with h1 | h1
    · rw [h1]; exact Ne.symm hi1
    · exact fun hx => hi (hx ▸ h1)
  have e2 : nd.der ≠ i := by
    rcases h2 with h2 | h2
    · rw [h2]; exact Ne.symm hi1
    · exact fun hx => hi (hx ▸ h2)
  simp [reenlazado, e1, e2]

theorem mem_indices_of_indiceDe {f : Forma} {k i : Int} (h : f.indiceDe k = some i) :
    i ∈ f.indices := by
  induction f with
  | hoja => simp [indiceDe] at h
  | nodo l j c d r ihl ihr =>
    simp only [indiceDe] at h
    simp only [indices, List.mem_append, List.mem_cons]
    split at h
    · cases h; exact Or.inr (Or.inl rfl)
    · split at h
      · exact Or.inl (ihl h)
      · exact Or.inr (Or.inr (ihr h))

/-- The root after deleting the key of a slot `i` whose only child (or `-1`)
is `x`. -/
theorem raiz_elimina_simple {a : List Nodo} {g : Forma} {k i : Int} {ndi : Nodo} (h : Rep a g)
    (hnd : g.indices.Nodup) (hi : g.indiceDe k = some i) (hl : leer a i = some ndi)
    (hs : ndi.izq = -1 ∨ ndi.der = -1) :
    (g.elimina k).raiz =
      if g.raiz = i then (if ndi.izq ≠ -1 then ndi.izq else ndi.der) else g.raiz := by
  cases g with
  | hoja => simp [indiceDe] at hi
  | nodo l j c d r =>
    simp only [indices, List.nodup_append, List.nodup_cons, List.Disjoint, List.mem_cons] at hnd
    obtain ⟨-, ⟨hjr, -⟩, hdis⟩ := hnd
    have hjl : j ∉ l.indices := fun hx => hdis hx (Or.inl rfl)
    simp only [indiceDe] at hi
    simp only [elimina, raiz_nodo]
    by_cases hkc : k = c
    · rw [if_pos hkc] at hi
      cases hi
      rw [h.1] at hl
      cases hl
      simp only at hs
      simp only [if_pos hkc, if_true]
      by_cases hl0 : l = hoja
      · subst hl0; simp
      · have hlr : l.raiz ≠ -1 := fun hx => hl0 ((raiz_eq_menos_uno h.2.1).1 hx)
        have hr0 : r = hoja := by
          rcases hs with hs | hs
          · exact absurd hs hlr
          · exact (raiz_eq_menos_uno h.2.2).1 hs
        simp [hl0, hr0, hlr]
    · rw [if_neg hkc] at hi
      simp only [if_neg hkc]
      have hne : j ≠ i := by
        split at hi
        · exact fun hx => hjl (hx ▸ mem_indices_of_indiceDe hi)
        · exact fun hx => hjr (hx ▸ mem_indices_of_indiceDe hi)
      by_cases hlt : k < c <;> simp [hlt, hne]

/-- Deleting the key of a slot `i` with at most one child removes `i` from the
inorder sequence of slots. -/
theorem indices_elimina_simple {a : List Nodo} {g : Forma} {k i : Int} {ndi : Nodo} (h : Rep a g)
    (hnd : g.indices.Nodup) (hi : g.indiceDe k = some i) (hl : leer a i = some ndi)
    (hs : ndi.izq = -1 ∨ ndi.der = -1) :
    (g.elimina k).indices = g.indices.filter (fun x => x ≠ i) := by
  induction g with
  | hoja => simp [indiceDe] at hi
  | nodo l j c d r ihl ihr =>
    simp only [indices, List.nodup_append, List.nodup_cons, List.Disjoint, List.mem_cons] at hnd
    obtain ⟨hnl, ⟨hjr, hnr⟩, hdis⟩ := hnd
    have hjl : j ∉ l.indices := fun hx => hdis hx (Or.inl rfl)
    have hsin : ∀ (xs : List Int), i ∉ xs → xs.filter (fun x => x ≠ i) = xs := by
      intro xs hx
      refine List.filter_eq_self.2 (fun y hy => ?_)
      have hyi : y ≠ i := fun hyi => hx (by rw [← hyi]; exact hy)
      simpa using hyi
    simp only [indiceDe] at hi
    simp only [elimina, indices, List.filter_append, List.filter_cons]
    by_cases hkc : k = c
    · rw [if_pos hkc] at hi
      cases hi
      rw [h.1] at hl
      cases hl
      simp only at hs
      simp only [if_pos hkc, if_true, ne_eq, not_true_eq_false, decide_False, Bool.false_eq_true,
        if_false]
      have e1 := hsin l.indices hjl
      have e2 := hsin r.indices hjr
      simp only [ne_eq] at e1 e2
      rw [e1, e2]
      by_cases hl0 : l = hoja
      · subst hl0; simp [indices]
      · have hlr : l.raiz ≠ -1 := fun hx => hl0 ((raiz_eq_menos_uno h.2.1).1 hx)
        have hr0 : r = hoja := by
          rcases hs with hs | hs
          · exact absurd hs hlr
          · exact (raiz_eq_menos_uno h.2.2).1 hs
        subst hr0
        simp [hl0, indices]
    · rw [if_neg hkc] at hi
      simp only [if_neg hkc]
      by_cases hlt : k < c
      · rw [if_pos hlt] at hi
        have him := mem_indices_of_indiceDe hi
        have hji : j ≠ i := fun hx => hjl (hx ▸ him)
        have e2 := hsin r.indices (fun hx => hdis him (Or.inr hx))
        simp only [ne_eq] at e2
        simp only [if_pos hlt, indices, ihl h.2.1 hnl hi, ne_eq, hji, not_false_eq_true,
          decide_True, if_true, e2]
      · rw [if_neg hlt] at hi
        have him := mem_indices_of_indiceDe hi
        have hji : j ≠ i := fun hx => hjr (hx ▸ him)
        have e1 := hsin l.indices (fun hx => hdis hx (Or.inr him))
        simp only [ne_eq] at e1
        simp only [if_neg hlt, indices, ihr h.2.2 hnr hi, ne_eq, hji, not_false_eq_true,
          decide_True, if_true, e1]

/-- After deleting the key of a slot `i` with at most one child, every slot that
stays in the tree is the slot it was, with its link to `i` (if any) replaced by
the child of `i`. -/
theorem rep_elimina_simple {a a' : List Nodo} {g : Forma} {k i : Int} {ndi : Nodo}
    (h : Rep a g) (h' : Rep a' (g.elimina k)) (hnd : g.indices.Nodup)
    (hi : g.indiceDe k = some i) (hl : leer a i = some ndi)
    (hs : ndi.izq = -1 ∨ ndi.der = -1) :
    ∀ j ∈ (g.elimina k).indices, ∀ nd, leer a j = some nd →
      leer a' j = some (reenlazado nd i (if ndi.izq ≠ -1 then ndi.izq else ndi.der)) := by
  have hi1 : i ≠ -1 := leer_ne_menos_uno hl
  induction g with
  | hoja => simp [indiceDe] at hi
  | nodo l j0 c d r ihl ihr =>
    have hnd0 := hnd
    simp only [indices, List.nodup_append, List.nodup_cons, List.Disjoint, List.mem_cons] at hnd
    obtain ⟨hnl, ⟨hjr, hnr⟩, hdis⟩ := hnd
    have hjl : j0 ∉ l.indices := fun hx => hdis hx (Or.inl rfl)
    have hi' := hi
    simp only [indiceDe] at hi
    simp only [elimina] at h' ⊢
    by_cases hkc : k = c
    · rw [if_pos hkc] at hi
      cases hi
      rw [if_pos hkc] at h' ⊢
      have hcell := h.1
      rw [hl] at hcell
      cases hcell
      simp only at hs
      by_cases hl0 : l = hoja
      · subst hl0
        rw [if_pos rfl] at h' ⊢
        intro j hj nd hnd'
        rw [rep_leer_eq h.2.2 h' j hj, hnd', reenlazado_mismo h.2.2 hjr hi1 hj hnd']
      · have hlr : l.raiz ≠ -1 := fun hx => hl0 ((raiz_eq_menos_uno h.2.1).1 hx)
        have hr0 : r = hoja := by
          rcases hs with hs | hs
          · exact absurd hs hlr
          · exact (raiz_eq_menos_uno h.2.2).1 hs
        subst hr0
        rw [if_neg hl0, if_pos rfl] at h' ⊢
        intro j hj nd hnd'
        rw [rep_leer_eq h.2.1 h' j hj, hnd', reenlazado_mismo h.2.1 hjl hi1 hj hnd']
    · rw [if_neg hkc] at hi h' ⊢
      by_cases hlt : k < c
      · rw [if_pos hlt] at hi h' ⊢
        have him := mem_indices_of_indiceDe hi
        have hir : i ∉ r.indices := fun hx => hdis him (Or.inr hx)
        intro j hj nd hnd'
        simp only [indices, List.mem_append, List.mem_cons] at hj
        rcases hj with hj | rfl | hj
        · exact ihl h.2.1 h'.2.1 hnl hi j hj nd hnd'
        · rw [h.1] at hnd'
          cases hnd'
          rw [h'.1, raiz_elimina_simple h.2.1 hnl hi hl hs]
          have hrr : r.raiz ≠ i := by
            rcases raiz_mem_o_vacio h.2.2 with hx | hx
            · rw [hx]; exact Ne.symm hi1
            · exact fun hy => hir (hy ▸ hx)
          simp [reenlazado, hrr]
        · rw [rep_leer_eq h.2.2 h'.2.2 j hj, hnd', reenlazado_mismo h.2.2 hir hi1 hj hnd']
      · rw [if_neg hlt] at hi h' ⊢
        have him := mem_indices_of_indiceDe hi
        have hil : i ∉ l.indices := fun hx => hdis hx (Or.inr him)
        intro j hj nd hnd'
        simp only [indices, List.mem_append, List.mem_cons] at hj
        rcases hj with hj | rfl | hj
        · rw [rep_leer_eq h.2.1 h'.2.1 j hj, hnd', reenlazado_mismo h.2.1 hil hi1 hj hnd']
        · rw [h.1] at hnd'
          cases hnd'
          rw [h'.1, raiz_elimina_simple h.2.2 hnr hi hl hs]
          have hlr : l.raiz ≠ i := by
            rcases raiz_mem_o_vacio h.2.1 with hx | hx
            · rw [hx]; exact Ne.symm hi1
            · exact fun hy => hil (hy ▸ hx)
          simp [reenlazado, hlr]
        · exact ihr h.2.2 h'.2.2 hnr hi j hj nd hnd'

/-- Deleting the key of a slot `i` with two children keeps `i` in the tree. -/
theorem mem_indices_elimina_dos {a : List Nodo} {g : Forma} {k i : Int} {ndi : Nodo}
    (h : Rep a g) (hi : g.indiceDe k = some i) (hl : leer a i = some ndi)
    (hizq : ndi.izq ≠ -1) (hder : ndi.der ≠ -1) : i ∈ (g.elimina k).indices := by
  induction g with
  | hoja => simp [indiceDe] at hi
  | nodo l j c d r ihl ihr =>
    simp only [indiceDe] at hi
    simp only [elimina]
    by_cases hkc : k = c
    · rw [if_pos hkc] at hi
      cases hi
      rw [h.1] at hl
      cases hl
      simp only at hizq hder
      have hl0 : l ≠ hoja := fun hx => hizq (by rw [hx]; rfl)
      have hr0 : r ≠ hoja := fun hx => hder (by rw [hx]; rfl)
      simp [hkc, hl0, hr0, indices]
    · rw [if_neg hkc] at hi ⊢
      by_cases hlt : k < c
      · rw [if_pos hlt] at hi ⊢
        simp only [indices, List.mem_append]
        exact Or.inl (ihl h.2.1 hi)
      · rw [if_neg hlt] at hi ⊢
        simp only [indices, List.mem_append, List.mem_cons]
        exact Or.inr (Or.inr (ihr h.2.2 hi))

end Forma

theorem Inv.indiceDe_eq {n : Nat} {t : Arbol} {f : Forma} (h : Inv n t f) {i k : Int} {nd : Nodo}
    (hl : leer t.arreglo i = some nd) (ha : nd.activo = true) (hc : nd.clave = k) :
    f.indiceDe k = some i := by
  have hi : i ∈ f.indices := (h.vivo i nd hl).1 ha
  have hk : k ∈ f.claves := h.viva_iff.1 (ArbolBin.mem_clavesVivas.2 ⟨i, nd, hl, ha, hc⟩)
  obtain ⟨j, nd', h1, h2, h3, h4, -, -⟩ := Forma.rep_cambiaId 0 h.rep h.ord hk
  have hnd := Forma.nodup_claves_of_ordenado h.ord
  rw [Forma.rep_claves_eq h.rep] at hnd
  have : j = i := List.inj_on_of_nodup_map hnd h2 hi (by simp [claveEn, h3, hl, h4, hc])
  rw [h1, this]

/-! ## Insertions followed by lookups -/

theorem insertarYBuscar_spec {n pasos : Nat} (hp : n < pasos) :
    ∀ (ops : List (Int × List Char)) (t : Arbol) (f : Forma), Inv n t f → SinIdsFuturos t →
      Cerrado t.archivoDatos → t.siguienteLibre + ops.length ≤ n + 1 → (ops.map Prod.fst).Nodup →
      (∀ op ∈ ops, op.1 ∉ f.claves) → (∀ op ∈ ops, Char.ofNat 10 ∉ op.2) →
      insertarYBuscar pasos t ops = .ok (ops.map (fun op => (true, op.2))) := by
  intro ops
  induction ops with
  | nil => intro t f _ _ _ _ _ _ _; rfl
  | cons op resto ih =>
    intro t f hinv hlimpio hcer hcap hdist hnuevas hsalto
    obtain ⟨k, p⟩ := op
    simp only [List.length_cons, Nat.cast_add, Nat.cast_one] at hcap
    simp only [List.map_cons, List.nodup_cons, List.mem_map] at hdist
    have hk : k ∉ f.claves := hnuevas (k, p) (List.mem_cons_self _ _)
    have hps : Char.ofNat 10 ∉ p := hsalto (k, p) (List.mem_cons_self _ _)
    have hfull : ¬ t.siguienteLibre > t.tamano := by rw [hinv.tam]; omega
    have hpt : t.siguienteLibre ≤ (pasos : Int) := by omega
    obtain ⟨a, e1, e2, -⟩ := insertar_nueva hinv hpt hk p hfull
    have hpar : (k, t.contador) ∈ (f.inserta k t.siguienteLibre t.contador).pares :=
      (Forma.pares_inserta k t.siguienteLibre t.contador f).mem_iff.2 (List.mem_cons_self _ _)
    have hpt' : (trasInsertar t p a (if t.raiz = -1 then t.siguienteLibre else t.raiz)).siguienteLibre
        ≤ (pasos : Int) := by simp only [trasInsertar]; omega
    have hbus := buscar_eq e2 hpt' k
    rw [Forma.busca_eq_some e2.ord hpar] at hbus
    have hleer : leerDelArchivo (guardarEnArchivo t.archivoDatos t.contador p) t.contador = p := by
      rw [guardarEnArchivo_sin_salto hcer _ hps,
        leerDelArchivo_append (fun l hl => hlimpio l (lineasLeidas_mem hl) _ (le_refl _)),
        leerDelArchivo_cons_mismo]
    have hlimpio' : SinIdsFuturos
        (trasInsertar t p a (if t.raiz = -1 then t.siguienteLibre else t.raiz)) := by
      intro l hl id hid
      simp only [trasInsertar] at hl hid
      rw [guardarEnArchivo_sin_salto hcer _ hps, List.mem_append, List.mem_cons,
        List.mem_singleton] at hl
      rcases hl with hl | rfl | rfl
      · exact hlimpio l (lineasLeidas_mem hl) id (by omega)
      · cases hpre : (prefijoId id).isPrefixOf (prefijoId t.contador ++ p) with
        | false => rfl
        | true =>
          have := id_eq_of_prefijos hpre
          omega
      · exact prefijoId_vacia id
    have hrec := ih _ _ e2 hlimpio' (cerrado_guardar _ _ _) (by simp only [trasInsertar]; omega) hdist.2
      (fun op hop hmem => by
        rcases Forma.mem_claves_inserta.1 hmem with hx | hx
        · exact hdist.1 ⟨op, hop, hx⟩
        · exact hnuevas op (List.mem_cons_of_mem _ hop) hx)
      (fun op hop => hsalto op (List.mem_cons_of_mem _ hop))
    simp only [insertarYBuscar, e1, hbus, hrec, List.map_cons]
    simp only [trasInsertar, hleer]

/-- C1: on a fresh empty table of capacity `n` with an empty data file, for at
most `n` calls of `insertar` with pairwise distinct keys and payloads without a
line break, every call returns true and `buscar` of the key, evaluated right
after its insertion, returns exactly the payload. -/
theorem C1_insertar_luego_buscar (n : Nat) (c : Int) (ops : List (Int × List Char))
    (pasos : Nat) (hlen : ops.length ≤ n) (hdist : (ops.map Prod.fst).Nodup)
    (hsalto : ∀ op ∈ ops, Char.ofNat 10 ∉ op.2) (hp : n < pasos) :
    insertarYBuscar pasos (crear n c []) ops = .ok (ops.map (fun op => (true, op.2))) :=
  insertarYBuscar_spec hp ops (crear n c []) Forma.hoja (inv_crear n c [])
    (by intro l hl; simp [crear] at hl) (Or.inl rfl) (by simp only [crear]; omega) hdist
    (by intro op _; simp [Forma.claves]) hsalto

theorem C1_insertar_luego_buscar_witness :
    insertarYBuscar 3 (crear 2 1000 []) [(50, ['A', 'n', 'a']), (30, ['B'])] =
      .ok [(true, ['A', 'n', 'a']), (true, ['B'])] :=
  C1_insertar_luego_buscar 2 1000 [(50, ['A', 'n', 'a']), (30, ['B'])] 3 (by decide) (by decide)
    (by decide) (by decide)

/-! ## An example table -/

theorem alcanzable_ejemplo : Alcanzable 5 ejemplo :=
  @Alcanzable.insertar 5 ejemplo3 ejemplo 6 20 ['D'] true
    (@Alcanzable.insertar 5 ejemplo2 ejemplo3 6 70 ['C'] true
      (@Alcanzable.insertar 5 ejemplo1 ejemplo2 6 30 ['B'] true
        (@Alcanzable.insertar 5 (crear 5 1000 []) ejemplo1 6 50 ['A'] true
          (Alcanzable.crear 1000 []) rfl) rfl) rfl) rfl

/-! ## The properties of the specification -/

/-- C2: in every reachable state `recorridoInorden` returns, and the keys of
the slots it returns, in order, are strictly ascending and are exactly the keys
of the slots whose `activo` flag is set, each once. -/
theorem C2_inorden_ascendente (n : Nat) (t : Arbol) (pasos : Nat) (h : Alcanzable n t)
    (hp : t.siguienteLibre ≤ pasos) :
    ∃ idx, recorridoInorden pasos t = .ok idx ∧
      (idx.map (claveEn t.arreglo)).Sorted (· < ·) ∧
      (idx.map (claveEn t.arreglo)).Perm (clavesVivas t) := by
  obtain ⟨f, hf⟩ := inv_alcanzable h
  refine ⟨f.indices, Forma.recorridoInorden_eq hf hp, ?_, ?_⟩
  · rw [← Forma.rep_claves_eq hf.rep]
    exact (Forma.ordenado_iff_sorted f).1 hf.ord
  · rw [← Forma.rep_claves_eq hf.rep]
    exact hf.perm_clavesVivas

theorem C2_inorden_ascendente_witness :
    ∃ idx, recorridoInorden 5 ejemplo = .ok idx ∧
      (idx.map (claveEn ejemplo.arreglo)).Sorted (· < ·) ∧
      (idx.map (claveEn ejemplo.arreglo)).Perm (clavesVivas ejemplo) :=
  C2_inorden_ascendente 5 ejemplo 5 alcanzable_ejemplo (by decide)

/-- C3: in every reachable state, for every live slot, every key in the
subtree below its left link is strictly smaller than its key and every key in
the subtree below its right link is greater than or equal to its key. -/
theorem C3_orden_de_busqueda (n : Nat) (t : Arbol) (i : Int) (nd : Nodo) (h : Alcanzable n t)
    (hl : leer t.arreglo i = some nd) (ha : nd.activo = true) :
    (∀ j, EnSubarbol t.arreglo nd.izq j → claveEn t.arreglo j < nd.clave) ∧
    (∀ j, EnSubarbol t.arreglo nd.der j → nd.clave ≤ claveEn t.arreglo j) := by
  obtain ⟨f, hf⟩ := inv_alcanzable h
  obtain ⟨h1, h2⟩ := Forma.orden_subarboles hf.rep hf.ord i ((hf.vivo i nd hl).1 ha) nd hl
  exact ⟨h1, fun j hj => le_of_lt (h2 j hj)⟩

theorem C3_orden_de_busqueda_witness :
    (∀ j, EnSubarbol ejemplo.arreglo 2 j → claveEn ejemplo.arreglo j < 50) ∧
    (∀ j, EnSubarbol ejemplo.arreglo 3 j → (50 : Int) ≤ claveEn ejemplo.arreglo j) :=
  C3_orden_de_busqueda 5 ejemplo 1 ⟨50, 1000, 2, 3, true⟩ alcanzable_ejemplo rfl rfl

/-- C4: in every reachable state, for every live key `k`, `eliminar(k)`
returns true and a following `buscar(k)` returns "Clave no encontrada". -/
theorem C4_eliminar_luego_buscar (n : Nat) (t : Arbol) (k : Int) (pasos : Nat)
    (h : Alcanzable n t) (hk : k ∈ clavesVivas t) (hp : t.siguienteLibre ≤ pasos) :
    ∃ t', eliminar pasos t k = .ok (true, t') ∧ buscar pasos t' k = .ok claveNoEncontrada := by
  obtain ⟨f, hf⟩ := inv_alcanzable h
  obtain ⟨a, id, -, e1, e2, -⟩ := eliminar_presente hf hp (hf.viva_iff.1 hk)
  refine ⟨_, e1, ?_⟩
  rw [buscar_eq e2 (by simpa [trasEliminar] using hp) k, Forma.busca_eq_none e2.ord]
  rw [Forma.claves_elimina k hf.ord]
  simp

theorem C4_eliminar_luego_buscar_witness :
    ∃ t', eliminar 5 ejemplo 50 = .ok (true, t') ∧ buscar 5 t' 50 = .ok claveNoEncontrada :=
  C4_eliminar_luego_buscar 5 ejemplo 50 5 alcanzable_ejemplo (by decide) (by decide)

/-- C5: in every reachable state, for every live key `k` whose slot `i` has both
a left and a right child, after `eliminar(k)` the inorder traversal is still
strictly ascending and its key list is the previous inorder key list with `k`
removed; slot `i` itself stays in the traversal. -/
theorem C5_eliminar_dos_hijos (n : Nat) (t : Arbol) (k i : Int) (nd : Nodo) (pasos : Nat)
    (h : Alcanzable n t) (hl : leer t.arreglo i = some nd) (ha : nd.activo = true)
    (hc : nd.clave = k) (hizq : nd.izq ≠ -1) (hder : nd.der ≠ -1)
    (hp : t.siguienteLibre ≤ pasos) :
    ∃ idx t' idx', recorridoInorden pasos t = .ok idx ∧ eliminar pasos t k = .ok (true, t') ∧
      recorridoInorden pasos t' = .ok idx' ∧
      (idx'.map (claveEn t'.arreglo)).Sorted (· < ·) ∧
      idx'.map (claveEn t'.arreglo) = (idx.map (claveEn t.arreglo)).erase k ∧
      i ∈ idx' := by
  obtain ⟨f, hf⟩ := inv_alcanzable h
  have hk : k ∈ f.claves := hf.viva_iff.1 (mem_clavesVivas.2 ⟨i, nd, hl, ha, hc⟩)
  obtain ⟨a, id, -, e1, e2, -⟩ := eliminar_presente hf hp hk
  refine ⟨f.indices, _, (f.elimina k).indices, Forma.recorridoInorden_eq hf hp, e1,
    Forma.recorridoInorden_eq e2 (by simpa [trasEliminar] using hp), ?_, ?_,
    Forma.mem_indices_elimina_dos hf.rep (hf.indiceDe_eq hl ha hc) hl hizq hder⟩
  · rw [← Forma.rep_claves_eq e2.rep]
    exact (Forma.ordenado_iff_sorted _).1 e2.ord
  · rw [← Forma.rep_claves_eq e2.rep, ← Forma.rep_claves_eq hf.rep, Forma.claves_elimina k hf.ord,
      (Forma.nodup_claves_of_ordenado hf.ord).erase_eq_filter]
    refine List.filter_congr (fun x _ => ?_)
    by_cases hx : x = k <;> simp [hx]

theorem C5_eliminar_dos_hijos_witness :
    ∃ idx t' idx', recorridoInorden 5 ejemplo = .ok idx ∧ eliminar 5 ejemplo 50 = .ok (true, t') ∧
      recorridoInorden 5 t' = .ok idx' ∧
      (idx'.map (claveEn t'.arreglo)).Sorted (· < ·) ∧
      idx'.map (claveEn t'.arreglo) = (idx.map (claveEn ejemplo.arreglo)).erase 50 ∧
      1 ∈ idx' :=
  C5_eliminar_dos_hijos 5 ejemplo 50 1 ⟨50, 1000, 2, 3, true⟩ 5 alcanzable_ejemplo rfl rfl rfl
    (by decide) (by decide) (by decide)

/-- C6: in every reachable state, for every live key `k` whose slot `i` has no
child or exactly one child, `eliminar(k)` returns true; slot `i` is marked dead
and is otherwise unchanged; with `hijo` the only child of `i` (or `-1`), `raiz`
becomes `hijo` when `i` was the root, and in every other live slot a link to
`i` becomes `hijo`; nothing else changes in the array; and the inorder
sequence of slots is the previous one without `i`, hence its keys are the
previous keys without `k`. -/
theorem C6_eliminar_hoja_o_un_hijo (n : Nat) (t : Arbol) (k i : Int) (nd : Nodo) (pasos : Nat)
    (h : Alcanzable n t) (hl : leer t.arreglo i = some nd) (ha : nd.activo = true)
    (hc : nd.clave = k) (hs : nd.izq = -1 ∨ nd.der = -1) (hp : t.siguienteLibre ≤ pasos) :
    ∃ t' idx idx', eliminar pasos t k = .ok (true, t') ∧
      t'.raiz = (if t.raiz = i then (if nd.izq ≠ -1 then nd.izq else nd.der) else t.raiz) ∧
      (∀ j ndj, leer t.arreglo j = some ndj →
        leer t'.arreglo j = some
          (if j = i then { ndj with activo := false }
           else if ndj.activo = true then
             reenlazado ndj i (if nd.izq ≠ -1 then nd.izq else nd.der)
           else ndj)) ∧
      recorridoInorden pasos t = .ok idx ∧ recorridoInorden pasos t' = .ok idx' ∧
      idx' = idx.erase i ∧
      idx'.map (claveEn t'.arreglo) = (idx.map (claveEn t.arreglo)).erase k := by
  obtain ⟨f, hf⟩ := inv_alcanzable h
  have hi : i ∈ f.indices := (hf.vivo i nd hl).1 ha
  have hk : k ∈ f.claves := hf.viva_iff.1 (mem_clavesVivas.2 ⟨i, nd, hl, ha, hc⟩)
  have hide := hf.indiceDe_eq hl ha hc
  have hnd := Forma.rep_nodup_indices hf.rep hf.ord
  obtain ⟨a, id, -, e1, e2, e3, e4⟩ := eliminar_presente hf hp hk
  have hidx := Forma.indices_elimina_simple hf.rep hnd hide hl hs
  refine ⟨_, f.indices, (f.elimina k).indices, e1, ?_, ?_, Forma.recorridoInorden_eq hf hp,
    Forma.recorridoInorden_eq e2 (by simpa [trasEliminar] using hp), ?_, ?_⟩
  · simp only [trasEliminar]
    rw [Forma.raiz_elimina_simple hf.rep hnd hide hl hs, hf.raiz]
  · intro j ndj hj
    simp only [trasEliminar]
    by_cases hji : j = i
    · subst hji
      rw [if_pos rfl, e4 j hi (by rw [hidx]; simp), hj]
      rfl
    · rw [if_neg hji]
      by_cases haj : ndj.activo = true
      · rw [if_pos haj]
        have hjf : j ∈ f.indices := (hf.vivo j ndj hj).1 haj
        exact Forma.rep_elimina_simple hf.rep e2.rep hnd hide hl hs j
          (by rw [hidx]; simp [hjf, hji]) ndj hj
      · rw [if_neg haj, e3 j (fun hx => haj ((hf.vivo j ndj hj).2 hx)), hj]
  · rw [hidx, hnd.erase_eq_filter]
    refine List.filter_congr (fun x _ => ?_)
    by_cases hx : x = i <;> simp [hx]
  · rw [← Forma.rep_claves_eq e2.rep, ← Forma.rep_claves_eq hf.rep, Forma.claves_elimina k hf.ord,
      (Forma.nodup_claves_of_ordenado hf.ord).erase_eq_filter]
    refine List.filter_congr (fun x _ => ?_)
    by_cases hx : x = k <;> simp [hx]

theorem C6_eliminar_hoja_o_un_hijo_witness :
    ∃ t' idx idx', eliminar 5 ejemplo 30 = .ok (true, t') ∧
      t'.raiz = (if ejemplo.raiz = 2 then (if (4 : Int) ≠ -1 then 4 else -1) else ejemplo.raiz) ∧
      (∀ j ndj, leer ejemplo.arreglo j = some ndj →
        leer t'.arreglo j = some
          (if j = 2 then { ndj with activo := false }
           else if ndj.activo = true then
             reenlazado ndj 2 (if (4 : Int) ≠ -1 then 4 else -1)
           else ndj)) ∧
      recorridoInorden 5 ejemplo = .ok idx ∧ recorridoInorden 5 t' = .ok idx' ∧
      idx' = idx.erase 2 ∧
      idx'.map (claveEn t'.arreglo) = (idx.map (claveEn ejemplo.arreglo)).erase 30 :=
  C6_eliminar_hoja_o_un_hijo 5 ejemplo 30 2 ⟨30, 1001, 4, -1, true⟩ 5 alcanzable_ejemplo rfl rfl rfl
    (by decide) (by decide)

/-- C7: in every reachable state, for every live key `k` and every other live
key `k'`, `buscar(k')` returns the same payload after `eliminar(k)` as before
it, also when `k'` is the inorder successor that moves into the slot of `k`. -/
theorem C7_eliminar_no_altera_otras (n : Nat) (t : Arbol) (k k' : Int) (pasos : Nat)
    (h : Alcanzable n t) (hk : k ∈ clavesVivas t) (hk' : k' ∈ clavesVivas t) (hne : k' ≠ k)
    (hp : t.siguienteLibre ≤ pasos) :
    ∃ t' r, eliminar pasos t k = .ok (true, t') ∧ buscar pasos t k' = .ok r ∧
      buscar pasos t' k' = .ok r := by
  obtain ⟨f, hf⟩ := inv_alcanzable h
  have hkf' : k' ∈ f.claves := hf.viva_iff.1 hk'
  rw [Forma.claves_eq_map_pares, List.mem_map] at hkf'
  obtain ⟨⟨k'', d'⟩, hpar', hk''⟩ := hkf'
  simp only at hk''
  subst hk''
  obtain ⟨a, id, hpar, e1, e2, -⟩ := eliminar_presente hf hp (hf.viva_iff.1 hk)
  have hpar2 : (k'', d') ∈ (f.elimina k).pares := by
    rw [Forma.pares_elimina k hf.ord, List.mem_filter]
    exact ⟨hpar', by simpa using hne⟩
  have hid : d' ≠ id := by
    intro hx
    have := List.inj_on_of_nodup_map hf.ids_nodup hpar' hpar hx
    exact hne (congrArg Prod.fst this)
  refine ⟨_, leerDelArchivo t.archivoDatos d', e1, ?_, ?_⟩
  · rw [buscar_eq hf hp, Forma.busca_eq_some hf.ord hpar']
  · rw [buscar_eq e2 (by simpa [trasEliminar] using hp), Forma.busca_eq_some e2.ord hpar2]
    simp only [trasEliminar]
    rw [leerDelArchivo_marcar hid]

theorem C7_eliminar_no_altera_otras_witness :
    ∃ t' r, eliminar 5 ejemplo 50 = .ok (true, t') ∧ buscar 5 ejemplo 70 = .ok r ∧
      buscar 5 t' 70 = .ok r :=
  C7_eliminar_no_altera_otras 5 ejemplo 50 70 5 alcanzable_ejemplo (by decide) (by decide)
    (by decide) (by decide)

/-- C8: in every reachable state, for every key `k` that is not live,
`eliminar(k)` returns false and leaves the whole state unchanged. -/
theorem C8_eliminar_ausente (n : Nat) (t : Arbol) (k : Int) (pasos : Nat) (h : Alcanzable n t)
    (hk : k ∉ clavesVivas t) (hp : t.siguienteLibre ≤ pasos) :
    eliminar pasos t k = .ok (false, t) := by
  obtain ⟨f, hf⟩ := inv_alcanzable h
  exact eliminar_ausente hf hp (fun hx => hk (hf.viva_iff.2 hx))

theorem C8_eliminar_ausente_witness : eliminar 5 ejemplo 60 = .ok (false, ejemplo) :=
  C8_eliminar_ausente 5 ejemplo 60 5 alcanzable_ejemplo (by decide) (by decide)

/-- C9: in every reachable state, for every key `k` that is already live and
every payload, `insertar(k, p)` returns false and leaves the whole state
unchanged. -/
theorem C9_insertar_duplicada (n : Nat) (t : Arbol) (k : Int) (p : List Char) (pasos : Nat)
    (h : Alcanzable n t) (hk : k ∈ clavesVivas t) (hp : t.siguienteLibre ≤ pasos) :
    insertar pasos t k p = .ok (false, t) := by
  obtain ⟨f, hf⟩ := inv_alcanzable h
  exact insertar_duplicada hf hp (hf.viva_iff.1 hk) p

theorem C9_insertar_duplicada_witness : insertar 5 ejemplo 70 ['Z'] = .ok (false, ejemplo) :=
  C9_insertar_duplicada 5 ejemplo 70 ['Z'] 5 alcanzable_ejemplo (by decide) (by decide)

/-- C10: in every reachable state `insertar(k, p)` returns, and it returns
false if and only if the table is full (`siguienteLibre > tamano`) or `k` is
already a live key. -/
theorem C10_insertar_falla_sii (n : Nat) (t : Arbol) (k : Int) (p : List Char) (pasos : Nat)
    (h : Alcanzable n t) (hp : t.siguienteLibre ≤ pasos) :
    ∃ b t', insertar pasos t k p = .ok (b, t') ∧
      (b = false ↔ (t.siguienteLibre > t.tamano ∨ k ∈ clavesVivas t)) := by
  obtain ⟨f, hf⟩ := inv_alcanzable h
  by_cases hfull : t.siguienteLibre > t.tamano
  · exact ⟨false, t, insertar_lleno pasos k p hfull, by simp [hfull]⟩
  · by_cases hk : k ∈ f.claves
    · exact ⟨false, t, insertar_duplicada hf hp hk p, by simp [hf.viva_iff.2 hk]⟩
    · obtain ⟨a, e1, -, -⟩ := insertar_nueva hf hp hk p hfull
      refine ⟨true, _, e1, ?_⟩
      have : k ∉ clavesVivas t := fun hx => hk (hf.viva_iff.1 hx)
      simp [hfull, this]

theorem C10_insertar_falla_sii_witness :
    ∃ b t', insertar 5 ejemplo 60 ['F'] = .ok (b, t') ∧
      (b = false ↔ (ejemplo.siguienteLibre > ejemplo.tamano ∨ 60 ∈ clavesVivas ejemplo)) :=
  C10_insertar_falla_sii 5 ejemplo 60 ['F'] 5 alcanzable_ejemplo (by decide)

/-! ## What a call that returns has done -/

/-- A call of `insertar` that returns on a table that stores `f` either fails
and changes nothing, or links the slot `siguienteLibre`. -/
theorem insertar_inversion {n : Nat} {t t' : Arbol} {f : Forma} (h : Inv n t f) {pasos : Nat}
    {k : Int} {p : List Char} {b : Bool} (hop : insertar pasos t k p = .ok (b, t')) :
    (b = false ∧ t' = t ∧ (t.siguienteLibre > t.tamano ∨ k ∈ f.claves)) ∨
    (b = true ∧ ¬ t.siguienteLibre > t.tamano ∧ k ∉ f.claves ∧
      ∃ a, t' = trasInsertar t p a (if t.raiz = -1 then t.siguienteLibre else t.raiz) ∧
        Inv n t' (f.inserta k t.siguienteLibre t.contador) ∧
        ∀ i, i ≠ t.siguienteLibre → i ≠ (f.ubica k (-1)).1 → leer a i = leer t.arreglo i) := by
  have hbig := insertar_mono (le_max_left pasos t.siguienteLibre.toNat) hop
  have hp : t.siguienteLibre ≤ ((max pasos t.siguienteLibre.toNat : Nat) : Int) := by
    have := le_max_right pasos t.siguienteLibre.toNat
    omega
  by_cases hfull : t.siguienteLibre > t.tamano
  · rw [insertar_lleno _ k p hfull] at hbig
    cases hbig
    exact Or.inl ⟨rfl, rfl, Or.inl hfull⟩
  · by_cases hk : k ∈ f.claves
    · rw [insertar_duplicada h hp hk p] at hbig
      cases hbig
      exact Or.inl ⟨rfl, rfl, Or.inr hk⟩
    · obtain ⟨a, e1, e2, e3⟩ := insertar_nueva h hp hk p hfull
      rw [e1] at hbig
      cases hbig
      exact Or.inr ⟨rfl, hfull, hk, a, rfl, e2, e3⟩

/-- A call of `eliminar` that returns on a table that stores `f` either fails
and changes nothing, or leaves a table that stores `f.elimina k`. -/
theorem eliminar_inversion {n : Nat} {t t' : Arbol} {f : Forma} (h : Inv n t f) {pasos : Nat}
    {k : Int} {b : Bool} (hop : eliminar pasos t k = .ok (b, t')) :
    (b = false ∧ t' = t ∧ k ∉ f.claves) ∨
    (b = true ∧ k ∈ f.claves ∧
      ∃ a id, (k, id) ∈ f.pares ∧ t' = trasEliminar t a (f.elimina k).raiz id ∧
        Inv n t' (f.elimina k) ∧
        (∀ x, x ∉ f.indices → leer a x = leer t.arreglo x) ∧
        (∀ x ∈ f.indices, x ∉ (f.elimina k).indices →
          leer a x = (leer t.arreglo x).map (fun nd => { nd with activo := false }))) := by
  have hbig := eliminar_mono (le_max_left pasos t.siguienteLibre.toNat) hop
  have hp : t.siguienteLibre ≤ ((max pasos t.siguienteLibre.toNat : Nat) : Int) := by
    have := le_max_right pasos t.siguienteLibre.toNat
    omega
  by_cases hk : k ∈ f.claves
  · obtain ⟨a, id, e0, e1, e2, e3, e4⟩ := eliminar_presente h hp hk
    rw [e1] at hbig
    cases hbig
    exact Or.inr ⟨rfl, hk, a, id, e0, rfl, e2, e3, e4⟩
  · rw [eliminar_ausente h hp hk] at hbig
    cases hbig
    exact Or.inl ⟨rfl, rfl, hk⟩

/-- A call of `modificar` that returns on a table that stores `f` either fails
and changes nothing, or writes the new record id into the slot of the key. -/
theorem modificar_inversion {n : Nat} {t t' : Arbol} {f : Forma} (h : Inv n t f) {pasos : Nat}
    {k : Int} {p : List Char} {b : Bool} (hop : modificar pasos t k p = .ok (b, t')) :
    (b = false ∧ t' = t ∧ k ∉ f.claves) ∨
    (b = true ∧ k ∈ f.claves ∧
      ∃ j nd, leer t.arreglo j = some nd ∧ nd.activo = true ∧ nd.clave = k ∧
        (k, nd.id_info) ∈ f.pares ∧
        t' = trasModificar t (escribir t.arreglo j { nd with id_info := t.contador })
          nd.id_info p ∧
        Inv n t' (f.cambiaId k t.contador)) := by
  have hbig := modificar_mono (le_max_left pasos t.siguienteLibre.toNat) hop
  have hp : t.siguienteLibre ≤ ((max pasos t.siguienteLibre.toNat : Nat) : Int) := by
    have := le_max_right pasos t.siguienteLibre.toNat
    omega
  by_cases hk : k ∈ f.claves
  · obtain ⟨j, nd, e1, e2, e3, e4, e5, e6⟩ := modificar_presente h hp hk p
    rw [e5] at hbig
    cases hbig
    exact Or.inr ⟨rfl, hk, j, nd, e1, e2, e3, e4, rfl, e6⟩
  · rw [modificar_ausente h hp hk p] at hbig
    cases hbig
    exact Or.inl ⟨rfl, rfl, hk⟩

/-! ## Counting the successful insertions -/

theorem alcanzable_of_con {n m : Nat} {t : Arbol} (h : AlcanzableCon n m t) : Alcanzable n t := by
  induction h with
  | crear c d => exact Alcanzable.crear c d
  | insertarSi _ hop ih => exact Alcanzable.insertar ih hop
  | insertarNo _ hop ih => exact Alcanzable.insertar ih hop
  | eliminar _ hop ih => exact Alcanzable.eliminar ih hop
  | modificar _ hop ih => exact Alcanzable.modificar ih hop

theorem con_of_alcanzable {n : Nat} {t : Arbol} (h : Alcanzable n t) :
    ∃ m, AlcanzableCon n m t := by
  induction h with
  | crear c d => exact ⟨0, AlcanzableCon.crear c d⟩
  | @insertar t t' pasos k p b _ hop ih =>
    obtain ⟨m, hm⟩ := ih
    cases b with
    | true => exact ⟨m + 1, AlcanzableCon.insertarSi hm hop⟩
    | false => exact ⟨m, AlcanzableCon.insertarNo hm hop⟩
  | eliminar _ hop ih => obtain ⟨m, hm⟩ := ih; exact ⟨m, AlcanzableCon.eliminar hm hop⟩
  | modificar _ hop ih => obtain ⟨m, hm⟩ := ih; exact ⟨m, AlcanzableCon.modificar hm hop⟩

/-- The allocation cursor is one more than the number of successful
insertions. -/
theorem siguienteLibre_con {n m : Nat} {t : Arbol} (h : AlcanzableCon n m t) :
    t.siguienteLibre = m + 1 := by
  induction h with
  | crear c d => rfl
  | insertarSi hprev hop ih =>
    obtain ⟨f, hf⟩ := inv_alcanzable (alcanzable_of_con hprev)
    rcases insertar_inversion hf hop with ⟨hb, -⟩ | ⟨-, -, -, a, rfl, -, -⟩
    · cases hb
    · simp only [trasInsertar, ih]
      push_cast
      ring
  | insertarNo hprev hop ih =>
    obtain ⟨f, hf⟩ := inv_alcanzable (alcanzable_of_con hprev)
    rcases insertar_inversion hf hop with ⟨-, rfl, -⟩ | ⟨hb, -⟩
    · exact ih
    · cases hb
  | eliminar hprev hop ih =>
    obtain ⟨f, hf⟩ := inv_alcanzable (alcanzable_of_con hprev)
    rcases eliminar_inversion hf hop with ⟨-, rfl, -⟩ | ⟨-, -, a, id, -, rfl, -⟩
    · exact ih
    · exact ih
  | modificar hprev hop ih =>
    obtain ⟨f, hf⟩ := inv_alcanzable (alcanzable_of_con hprev)
    rcases modificar_inversion hf hop with ⟨-, rfl, -⟩ | ⟨-, -, j, nd, -, -, -, -, rfl, -⟩
    · exact ih
    · exact ih

/-! ## The stored indices -/

theorem Forma.ubica_fst (k : Int) (f : Forma) (p : Int) :
    (f.ubica k p).1 = p ∨ (f.ubica k p).1 ∈ f.indices := by
  induction f generalizing p with
  | hoja => exact Or.inl rfl
  | nodo l i c d r ihl ihr =>
    simp only [Forma.ubica, Forma.indices, List.mem_append, List.mem_cons]
    by_cases hkc : k = c
    · rw [if_pos hkc]; exact Or.inl rfl
    · rw [if_neg hkc]
      by_cases hlt : k < c
      · rw [if_pos hlt]
        rcases ihl i with hx | hx
        · exact Or.inr (Or.inr (Or.inl hx))
        · exact Or.inr (Or.inl hx)
      · rw [if_neg hlt]
        rcases ihr i with hx | hx
        · exact Or.inr (Or.inr (Or.inl hx))
        · exact Or.inr (Or.inr (Or.inr hx))

theorem Inv.enlaces_vivos {n : Nat} {t : Arbol} {f : Forma} (h : Inv n t f) {i : Int} {nd : Nodo}
    (hi : i ∈ f.indices) (hl : leer t.arreglo i = some nd) :
    EnlaceValido t nd.izq ∧ EnlaceValido t nd.der := by
  obtain ⟨h1, h2⟩ := Forma.rep_enlaces h.rep i hi nd hl
  exact ⟨h1.imp id (fun hx => h.indice_rango hx), h2.imp id (fun hx => h.indice_rango hx)⟩

theorem Inv.raiz_valida {n : Nat} {t : Arbol} {f : Forma} (h : Inv n t f) :
    EnlaceValido t t.raiz := by
  rw [h.raiz]
  exact (Forma.raiz_mem_o_vacio h.rep).imp id (fun hx => h.indice_rango hx)

theorem enlaceValido_mono {t t' : Arbol} {x : Int} (h : EnlaceValido t x)
    (hle : t.siguienteLibre ≤ t'.siguienteLibre) : EnlaceValido t' x := by
  rcases h with h | h
  · exact Or.inl h
  · exact Or.inr ⟨h.1, by omega⟩

/-- In every reachable state both links of every slot of the array, live, dead
or unused, are `-1` or the index of an allocated slot. -/
theorem enlaces_alcanzable {n : Nat} {t : Arbol} (h : Alcanzable n t) :
    ∀ i nd, leer t.arreglo i = some nd → EnlaceValido t nd.izq ∧ EnlaceValido t nd.der := by
  induction h with
  | crear c d =>
    intro i nd hl
    have hr := leer_some_rango hl
    simp only [crear, List.length_replicate] at hr
    rw [show (crear n c d).arreglo = List.replicate (n + 1) Nodo.nuevo from rfl,
      leer_replicate hr.1 (by omega)] at hl
    cases hl
    exact ⟨Or.inl rfl, Or.inl rfl⟩
  | @insertar t t' pasos k p b hprev hop ih =>
    obtain ⟨f, hf⟩ := inv_alcanzable hprev
    rcases insertar_inversion hf hop with ⟨-, rfl, -⟩ | ⟨-, -, hk, a, rfl, hf', hframe⟩
    · exact ih
    · intro i nd hl
      by_cases hact : nd.activo = true
      · exact hf'.enlaces_vivos ((hf'.vivo i nd hl).1 hact) hl
      · have hnot : i ∉ (f.inserta k t.siguienteLibre t.contador).indices :=
          fun hx => hact ((hf'.vivo i nd hl).2 hx)
        have hmem : ∀ x, x = t.siguienteLibre ∨ x ∈ f.indices →
            x ∈ (f.inserta k t.siguienteLibre t.contador).indices := by
          intro x hx
          rw [(Forma.indices_inserta k t.siguienteLibre t.contador f).mem_iff, List.mem_cons]
          exact hx
        have h1 : i ≠ t.siguienteLibre := fun hx => hnot (hmem i (Or.inl hx))
        have h2 : i ≠ (f.ubica k (-1)).1 := by
          rcases Forma.ubica_fst k f (-1) with hx | hx
          · rw [hx]; exact leer_ne_menos_uno hl
          · exact fun hy => hnot (hmem i (Or.inr (hy ▸ hx)))
        simp only [trasInsertar] at hl
        rw [hframe i h1 h2] at hl
        obtain ⟨e1, e2⟩ := ih i nd hl
        exact ⟨enlaceValido_mono e1 (by simp [trasInsertar]), enlaceValido_mono e2 (by simp [trasInsertar])⟩
  | @eliminar t t' pasos k b hprev hop ih =>
    obtain ⟨f, hf⟩ := inv_alcanzable hprev
    rcases eliminar_inversion hf hop with ⟨-, rfl, -⟩ | ⟨-, -, a, id, -, rfl, hf', hframe, hdead⟩
    · exact ih
    · intro i nd hl
      by_cases hi' : i ∈ (f.elimina k).indices
      · exact hf'.enlaces_vivos hi' hl
      · simp only [trasEliminar] at hl
        by_cases hi : i ∈ f.indices
        · rw [hdead i hi hi'] at hl
          cases hold : leer t.arreglo i with
          | none => rw [hold] at hl; cases hl
          | some old =>
            rw [hold] at hl
            cases hl
            obtain ⟨e1, e2⟩ := ih i old hold
            exact ⟨enlaceValido_mono e1 (le_refl _), enlaceValido_mono e2 (le_refl _)⟩
        · rw [hframe i hi] at hl
          obtain ⟨e1, e2⟩ := ih i nd hl
          exact ⟨enlaceValido_mono e1 (le_refl _), enlaceValido_mono e2 (le_refl _)⟩
  | @modificar t t' pasos k p b hprev hop ih =>
    obtain ⟨f, hf⟩ := inv_alcanzable hprev
    rcases modificar_inversion hf hop with
      ⟨-, rfl, -⟩ | ⟨-, -, j, ndj, hj, -, -, -, rfl, -⟩
    · exact ih
    · intro i nd hl
      simp only [trasModificar, leer_escribir _ hj] at hl
      split at hl
      · cases hl
        obtain ⟨e1, e2⟩ := ih j ndj hj
        exact ⟨enlaceValido_mono e1 (le_refl _), enlaceValido_mono e2 (le_refl _)⟩
      · obtain ⟨e1, e2⟩ := ih i nd hl
        exact ⟨enlaceValido_mono e1 (le_refl _), enlaceValido_mono e2 (le_refl _)⟩

/-! ## Smaller bounds give the same result or run out of steps -/

theorem iterar_refina {σ ρ : Type} {paso paso' : σ → Except Falla (σ ⊕ ρ)}
    (hp : ∀ s, Refina (paso s) (paso' s)) :
    ∀ (k k' : Nat) (s : σ), k ≤ k' → Refina (iterar paso k s) (iterar paso' k' s) := by
  intro k
  induction k with
  | zero => intro k' s _; exact Or.inl rfl
  | succ k ih =>
    intro k' s hk
    obtain ⟨m, rfl⟩ : ∃ m, k' = m + 1 := ⟨k' - 1, by omega⟩
    rcases hp s with h | h
    · exact Or.inl (by simp [iterar, h])
    · cases hs : paso s with
      | error e =>
        rw [hs] at h
        exact Or.inr (by simp [iterar, hs, ← h])
      | ok x =>
        rw [hs] at h
        cases x with
        | inl u =>
          rw [iterar_succ_inl k hs, iterar_succ_inl m h.symm]
          exact ih m u (by omega)
        | inr v =>
          rw [iterar_succ_inr k hs, iterar_succ_inr m h.symm]
          exact Or.inr rfl

theorem iterar_refina_mismo {σ ρ : Type} (paso : σ → Except Falla (σ ⊕ ρ)) {k k' : Nat} (s : σ)
    (hk : k ≤ k') : Refina (iterar paso k s) (iterar paso k' s) :=
  iterar_refina (fun _ => Or.inr rfl) k k' s hk

theorem Refina.sin_fuera {α : Type} {r r' : Except Falla α} {x : α} (h : Refina r r')
    (hr : r' = .ok x) : r ≠ .error .fueraDeRango := by
  rcases h with h | h
  · rw [h]; intro hx; cases hx
  · rw [h, hr]; intro hx; cases hx

theorem buscar_refina {k k' : Nat} (hk : k ≤ k') (t : Arbol) (c : Int) :
    Refina (buscar k t c) (buscar k' t c) := by
  rcases iterar_refina_mismo (pasoBuscar t.arreglo c) t.raiz hk with h | h
  · exact Or.inl (by simp [buscar, h])
  · exact Or.inr (by unfold buscar; rw [h])

theorem modificar_refina {k k' : Nat} (hk : k ≤ k') (t : Arbol) (c : Int) (p : List Char) :
    Refina (modificar k t c p) (modificar k' t c p) := by
  rcases iterar_refina_mismo (pasoModificar t.arreglo c) t.raiz hk with h | h
  · exact Or.inl (by simp [modificar, h])
  · exact Or.inr (by unfold modificar; rw [h])

theorem buscarPosicion_refina {k k' : Nat} (hk : k ≤ k') (t : Arbol) (c p : Int) :
    Refina (buscarPosicion k t c p) (buscarPosicion k' t c p) := by
  unfold buscarPosicion
  by_cases hr : t.raiz = -1
  · rw [if_pos hr, if_pos hr]; exact Or.inr rfl
  · rw [if_neg hr, if_neg hr]
    exact iterar_refina_mismo _ _ hk

theorem insertar_refina {k k' : Nat} (hk : k ≤ k') (t : Arbol) (c : Int) (p : List Char) :
    Refina (insertar k t c p) (insertar k' t c p) := by
  by_cases hfull : t.siguienteLibre > t.tamano
  · exact Or.inr (by simp [insertar, hfull])
  · rcases buscarPosicion_refina hk t c (-1) with h | h
    · exact Or.inl (by simp [insertar, hfull, h])
    · exact Or.inr (by unfold insertar; rw [h])

theorem eliminarNodo_refina {k k' : Nat} (hk : k ≤ k') (a : List Nodo) (raiz padre actual : Int) :
    Refina (eliminarNodo k a raiz padre actual) (eliminarNodo k' a raiz padre actual) := by
  unfold eliminarNodo
  cases hl : leer a actual with
  | none => exact Or.inr rfl
  | some nd =>
    simp only
    by_cases h1 : nd.izq = -1 ∧ nd.der = -1
    · rw [if_pos h1, if_pos h1]; exact Or.inr rfl
    · rw [if_neg h1, if_neg h1]
      by_cases h2 : nd.izq = -1 ∨ nd.der = -1
      · rw [if_pos h2, if_pos h2]; exact Or.inr rfl
      · rw [if_neg h2, if_neg h2]
        rcases iterar_refina_mismo (pasoSucesor a) (actual, nd.der) hk with h | h
        · exact Or.inl (by rw [h]; rfl)
        · exact Or.inr (by rw [h])

theorem eliminar_refina {k k' : Nat} (hk : k ≤ k') (t : Arbol) (c : Int) :
    Refina (eliminar k t c) (eliminar k' t c) := by
  rcases iterar_refina_mismo (pasoBuscarEliminar t.arreglo c) (-1, t.raiz) hk with h | h
  · exact Or.inl (by simp [eliminar, h])
  · unfold eliminar
    rw [h]
    cases iterar (pasoBuscarEliminar t.arreglo c) k' (-1, t.raiz) with
    | error e => exact Or.inr rfl
    | ok x =>
      obtain ⟨enc, padre, actual⟩ := x
      cases enc with
      | false => exact Or.inr rfl
      | true =>
        simp only
        cases leer t.arreglo actual with
        | none => exact Or.inr rfl
        | some nd =>
          simp only
          rcases eliminarNodo_refina hk t.arreglo t.raiz padre actual with h2 | h2
          · exact Or.inl (by rw [h2])
          · exact Or.inr (by rw [h2])

theorem pasoInorden_refina {k k' : Nat} (hk : k ≤ k') (a : List Nodo)
    (s : Int × List Int × List Int) : Refina (pasoInorden k a s) (pasoInorden k' a s) := by
  obtain ⟨actual, pila, res⟩ := s
  unfold pasoInorden
  by_cases h0 : actual = -1 ∧ pila = []
  · simp only [if_pos h0]; exact Or.inr rfl
  · simp only [if_neg h0]
    rcases iterar_refina_mismo (pasoBajar a) (actual, pila) hk with h | h
    · exact Or.inl (by rw [h])
    · exact Or.inr (by rw [h])

theorem recorridoInorden_refina {k k' : Nat} (hk : k ≤ k') (t : Arbol) :
    Refina (recorridoInorden k t) (recorridoInorden k' t) :=
  iterar_refina (pasoInorden_refina hk t.arreglo) k k' _ hk

theorem recorridoPreorden_refina {k k' : Nat} (hk : k ≤ k') (t : Arbol) :
    Refina (recorridoPreorden k t) (recorridoPreorden k' t) := by
  unfold recorridoPreorden
  by_cases hr : t.raiz = -1
  · rw [if_pos hr, if_pos hr]; exact Or.inr rfl
  · rw [if_neg hr, if_neg hr]
    exact iterar_refina_mismo _ _ hk

theorem recorridoPostorden_refina {k k' : Nat} (hk : k ≤ k') (t : Arbol) :
    Refina (recorridoPostorden k t) (recorridoPostorden k' t) := by
  unfold recorridoPostorden
  by_cases hr : t.raiz = -1
  · rw [if_pos hr, if_pos hr]; exact Or.inr rfl
  · rw [if_neg hr, if_neg hr]
    rcases iterar_refina_mismo (pasoPostorden t.arreglo) ([t.raiz], []) hk with h | h
    · exact Or.inl (by rw [h])
    · exact Or.inr (by rw [h])

theorem recorridoPorNiveles_refina {k k' : Nat} (hk : k ≤ k') (t : Arbol) :
    Refina (recorridoPorNiveles k t) (recorridoPorNiveles k' t) := by
  unfold recorridoPorNiveles
  by_cases hr : t.raiz = -1
  · rw [if_pos hr, if_pos hr]; exact Or.inr rfl
  · rw [if_neg hr, if_neg hr]
    exact iterar_refina_mismo _ _ hk

namespace Forma

/-! ## `recorridoPreorden`, `recorridoPostorden` and `recorridoPorNiveles` on a stored tree -/

theorem tallas_append (xs ys : List Forma) : tallas (xs ++ ys) = tallas xs + tallas ys := by
  induction xs with
  | nil => simp [tallas]
  | cons x xs ih => simp [tallas, ih]; omega

theorem tallas_noHoja (g : Forma) : tallas (noHoja g) = g.talla := by
  cases g <;> simp [noHoja, tallas, talla]

theorem talla_pos {g : Forma} (hg : g ≠ hoja) : 0 < g.talla := by
  cases g with
  | hoja => exact absurd rfl hg
  | nodo l i c d r => simp only [talla]; omega

theorem mem_noHoja {a : List Nodo} {g : Forma} (h : Rep a g) :
    ∀ x ∈ noHoja g, Rep a x ∧ x ≠ hoja := by
  cases g with
  | hoja => intro x hx; simp [noHoja] at hx
  | nodo l i c d r =>
    intro x hx
    simp only [noHoja, List.mem_singleton] at hx
    subst hx
    exact ⟨h, by simp⟩

theorem apilar_enlace {a : List Nodo} {g : Forma} (h : Rep a g) (xs : List Int) :
    (if g.raiz ≠ -1 then g.raiz :: xs else xs) = (noHoja g).map raiz ++ xs := by
  cases g with
  | hoja => simp [noHoja]
  | nodo l i c d r =>
    have hi : i ≠ -1 := leer_ne_menos_uno h.1
    simp [noHoja, hi]

theorem encolar_enlace {a : List Nodo} {g : Forma} (h : Rep a g) (xs : List Int) :
    (if g.raiz ≠ -1 then xs ++ [g.raiz] else xs) = xs ++ (noHoja g).map raiz := by
  cases g with
  | hoja => simp [noHoja]
  | nodo l i c d r =>
    have hi : i ≠ -1 := leer_ne_menos_uno h.1
    simp [noHoja, hi]

theorem preorden_noHoja (g : Forma) : (noHoja g).flatMap preorden = g.preorden := by
  cases g <;> simp [noHoja, preorden]

theorem espejo_noHoja (g : Forma) : (noHoja g).flatMap espejo = g.espejo := by
  cases g <;> simp [noHoja, espejo]

theorem reverse_espejo (g : Forma) : g.espejo.reverse = g.postorden := by
  induction g with
  | hoja => rfl
  | nodo l i c d r ihl ihr => simp [espejo, postorden, ihl, ihr]

/-- The loop of `recorridoPreorden`, started with a stack of stored nonempty
trees, emits the preorder of each tree of the stack in turn. -/
theorem iterar_pasoPreorden {a : List Nodo} :
    ∀ (m : Nat) (fs : List Forma) (res : List Int) (pasos : Nat),
      (∀ x ∈ fs, Rep a x ∧ x ≠ hoja) → tallas fs = m → m < pasos →
      iterar (pasoPreorden a) pasos (fs.map raiz, res) = .ok (res ++ fs.flatMap preorden) := by
  intro m
  induction m using Nat.strong_induction_on with
  | _ m ih =>
    intro fs res pasos hfs hm hp
    obtain ⟨p, rfl⟩ : ∃ p, pasos = p + 1 := ⟨pasos - 1, by omega⟩
    cases fs with
    | nil => exact iterar_succ_inr p (by simp [pasoPreorden])
    | cons x rest =>
      cases x with
      | hoja => exact absurd rfl (hfs hoja (List.mem_cons_self _ _)).2
      | nodo l i c d r =>
        have hx := (hfs _ (List.mem_cons_self _ _)).1
        simp only [tallas, talla] at hm
        have hpaso : pasoPreorden a ((nodo l i c d r :: rest).map raiz, res) =
            .ok (.inl ((noHoja l ++ (noHoja r ++ rest)).map raiz, res ++ [i])) := by
          simp only [List.map_cons, raiz_nodo, pasoPreorden, hx.1, if_true, List.map_append]
          rw [apilar_enlace hx.2.2, apilar_enlace hx.2.1]
        rw [iterar_succ_inl p hpaso,
          ih (tallas (noHoja l ++ (noHoja r ++ rest)))
            (by simp only [tallas_append, tallas_noHoja]; omega) _ _ p
            (by
              intro y hy
              rcases List.mem_append.1 hy with hy | hy
              · exact mem_noHoja hx.2.1 y hy
              · rcases List.mem_append.1 hy with hy | hy
                · exact mem_noHoja hx.2.2 y hy
                · exact hfs y (List.mem_cons_of_mem _ hy))
            rfl (by simp only [tallas_append, tallas_noHoja]; omega)]
        simp [List.flatMap_append, preorden_noHoja, preorden]

/-- The first loop of `recorridoPostorden`, started with a stack of stored
nonempty trees, leaves on the second stack the slots in the reverse of the
order in which it popped them. -/
theorem iterar_pasoPostorden {a : List Nodo} :
    ∀ (m : Nat) (fs : List Forma) (p2 : List Int) (pasos : Nat),
      (∀ x ∈ fs, Rep a x ∧ x ≠ hoja) → tallas fs = m → m < pasos →
      iterar (pasoPostorden a) pasos (fs.map raiz, p2) =
        .ok ((fs.flatMap espejo).reverse ++ p2) := by
  intro m
  induction m using Nat.strong_induction_on with
  | _ m ih =>
    intro fs p2 pasos hfs hm hp
    obtain ⟨p, rfl⟩ : ∃ p, pasos = p + 1 := ⟨pasos - 1, by omega⟩
    cases fs with
    | nil => exact iterar_succ_inr p (by simp [pasoPostorden])
    | cons x rest =>
      cases x with
      | hoja => exact absurd rfl (hfs hoja (List.mem_cons_self _ _)).2
      | nodo l i c d r =>
        have hx := (hfs _ (List.mem_cons_self _ _)).1
        simp only [tallas, talla] at hm
        have hpaso : pasoPostorden a ((nodo l i c d r :: rest).map raiz, p2) =
            .ok (.inl ((noHoja r ++ (noHoja l ++ rest)).map raiz, i :: p2)) := by
          simp only [List.map_cons, raiz_nodo, pasoPostorden, hx.1, List.map_append]
          rw [apilar_enlace hx.2.1, apilar_enlace hx.2.2]
        rw [iterar_succ_inl p hpaso,
          ih (tallas (noHoja r ++ (noHoja l ++ rest)))
            (by simp only [tallas_append, tallas_noHoja]; omega) _ _ p
            (by
              intro y hy
              rcases List.mem_append.1 hy with hy | hy
              · exact mem_noHoja hx.2.2 y hy
              · rcases List.mem_append.1 hy with hy | hy
                · exact mem_noHoja hx.2.1 y hy
                · exact hfs y (List.mem_cons_of_mem _ hy))
            rfl (by simp only [tallas_append, tallas_noHoja]; omega)]
        simp [List.flatMap_append, espejo_noHoja, espejo]

theorem mem_indices_espejo {g : Forma} {x : Int} : x ∈ g.espejo ↔ x ∈ g.indices := by
  induction g with
  | hoja => simp [espejo, indices]
  | nodo l i c d r ihl ihr =>
    simp only [espejo, indices, List.mem_cons, List.mem_append, ihl, ihr]
    tauto

theorem mem_indices_postorden {g : Forma} {x : Int} : x ∈ g.postorden ↔ x ∈ g.indices := by
  rw [← reverse_espejo, List.mem_reverse, mem_indices_espejo]

theorem mem_indices_preorden {g : Forma} {x : Int} : x ∈ g.preorden ↔ x ∈ g.indices := by
  induction g with
  | hoja => simp [preorden, indices]
  | nodo l i c d r ihl ihr =>
    simp only [preorden, indices, List.mem_cons, List.mem_append, ihl, ihr]
    tauto

theorem tallas_hijos (l r : Forma) (i c d : Int) :
    tallas (nodo l i c d r).hijos + 1 = (nodo l i c d r).talla := by
  simp only [hijos, tallas_append, tallas_noHoja, talla]
  omega

theorem mem_hijos {a : List Nodo} {g : Forma} (h : Rep a g) :
    ∀ x ∈ g.hijos, Rep a x ∧ x ≠ hoja := by
  cases g with
  | hoja => intro x hx; simp [hijos] at hx
  | nodo l i c d r =>
    intro x hx
    rcases List.mem_append.1 hx with hx | hx
    · exact mem_noHoja h.2.1 x hx
    · exact mem_noHoja h.2.2 x hx

/-- The loop of `recorridoPorNiveles`, started with a queue of stored nonempty
trees, emits their slots in breadth-first order. -/
theorem iterar_pasoPorNiveles {a : List Nodo} :
    ∀ (m : Nat) (fs : List Forma) (res : List Int) (pasos : Nat),
      (∀ x ∈ fs, Rep a x ∧ x ≠ hoja) → tallas fs = m → m < pasos →
      iterar (pasoPorNiveles a) pasos (fs.map raiz, res) = .ok (res ++ anchura m fs) := by
  intro m
  induction m with
  | zero =>
    intro fs res pasos hfs hm hp
    obtain ⟨p, rfl⟩ : ∃ p, pasos = p + 1 := ⟨pasos - 1, by omega⟩
    cases fs with
    | nil => exact iterar_succ_inr p (by simp [pasoPorNiveles, anchura])
    | cons x rest =>
      have := talla_pos (hfs x (List.mem_cons_self _ _)).2
      simp only [tallas] at hm
      omega
  | succ m ih =>
    intro fs res pasos hfs hm hp
    obtain ⟨p, rfl⟩ : ∃ p, pasos = p + 1 := ⟨pasos - 1, by omega⟩
    cases fs with
    | nil => simp [tallas] at hm
    | cons x rest =>
      cases x with
      | hoja => exact absurd rfl (hfs hoja (List.mem_cons_self _ _)).2
      | nodo l i c d r =>
        have hx := (hfs _ (List.mem_cons_self _ _)).1
        have ht := tallas_hijos l r i c d
        simp only [tallas] at hm
        have hpaso : pasoPorNiveles a ((nodo l i c d r :: rest).map raiz, res) =
            .ok (.inl ((rest ++ (nodo l i c d r).hijos).map raiz, res ++ [i])) := by
          simp only [List.map_cons, raiz_nodo, pasoPorNiveles, hx.1, if_true, List.map_append,
            hijos]
          rw [encolar_enlace hx.2.1, encolar_enlace hx.2.2, List.append_assoc]
        rw [iterar_succ_inl p hpaso,
          ih (rest ++ (nodo l i c d r).hijos) (res ++ [i]) p
            (by
              intro y hy
              rcases List.mem_append.1 hy with hy | hy
              · exact hfs y (List.mem_cons_of_mem _ hy)
              · exact mem_hijos hx y hy)
            (by rw [tallas_append]; omega) (by omega)]
        simp [anchura]

/-- The second loop of `recorridoPostorden` appends the stack, top first, when
every slot on it is live. -/
theorem vaciarPila2_vivos {a : List Nodo} :
    ∀ (xs res : List Int), (∀ x ∈ xs, ∃ nd, leer a x = some nd ∧ nd.activo = true) →
      vaciarPila2 a xs res = .ok (res ++ xs) := by
  intro xs
  induction xs with
  | nil => intro res _; simp [vaciarPila2]
  | cons x xs ih =>
    intro res h
    obtain ⟨nd, h1, h2⟩ := h x (List.mem_cons_self _ _)
    simp only [vaciarPila2, h1, h2, if_true]
    rw [ih _ (fun y hy => h y (List.mem_cons_of_mem _ hy))]
    simp

theorem tallas_uno (g : Forma) : tallas [g] = g.talla := by
  simp [tallas]

/-- On a stored tree `recorridoPreorden` returns the slots in preorder. -/
theorem recorridoPreorden_eq {n : Nat} {t : Arbol} {f : Forma} (h : Inv n t f) {pasos : Nat}
    (hp : t.siguienteLibre ≤ pasos) : recorridoPreorden pasos t = .ok f.preorden := by
  have htalla := h.talla_lt_pasos hp
  unfold recorridoPreorden
  rw [h.raiz]
  by_cases hf : f = hoja
  · subst hf; rfl
  · rw [if_neg (fun hr => hf ((raiz_eq_menos_uno h.rep).1 hr))]
    have := iterar_pasoPreorden (a := t.arreglo) (tallas [f]) [f] [] pasos
      (by intro x hx; rw [List.mem_singleton.1 hx]; exact ⟨h.rep, hf⟩) rfl
      (by rw [tallas_uno]; exact htalla)
    simpa using this

/-- On a stored tree `recorridoPostorden` returns the slots in postorder. -/
theorem recorridoPostorden_eq {n : Nat} {t : Arbol} {f : Forma} (h : Inv n t f) {pasos : Nat}
    (hp : t.siguienteLibre ≤ pasos) : recorridoPostorden pasos t = .ok f.postorden := by
  have htalla := h.talla_lt_pasos hp
  unfold recorridoPostorden
  rw [h.raiz]
  by_cases hf : f = hoja
  · subst hf; rfl
  · rw [if_neg (fun hr => hf ((raiz_eq_menos_uno h.rep).1 hr))]
    have := iterar_pasoPostorden (a := t.arreglo) (tallas [f]) [f] [] pasos
      (by intro x hx; rw [List.mem_singleton.1 hx]; exact ⟨h.rep, hf⟩) rfl
      (by rw [tallas_uno]; exact htalla)
    simp only [List.map_cons, List.map_nil, List.flatMap_cons, List.flatMap_nil,
      List.append_nil, reverse_espejo] at this
    rw [this]
    simp only
    rw [vaciarPila2_vivos]
    · simp
    · intro x hx
      obtain ⟨nd, h1, h2, _⟩ := rep_leer_indices h.rep x (mem_indices_postorden.1 hx)
      exact ⟨nd, h1, h2⟩

/-- On a stored tree `recorridoPorNiveles` returns the slots in breadth-first
order. -/
theorem recorridoPorNiveles_eq {n : Nat} {t : Arbol} {f : Forma} (h : Inv n t f) {pasos : Nat}
    (hp : t.siguienteLibre ≤ pasos) :
    recorridoPorNiveles pasos t = .ok (anchura f.talla [f]) := by
  have htalla := h.talla_lt_pasos hp
  unfold recorridoPorNiveles
  rw [h.raiz]
  by_cases hf : f = hoja
  · subst hf; rfl
  · rw [if_neg (fun hr => hf ((raiz_eq_menos_uno h.rep).1 hr))]
    have := iterar_pasoPorNiveles (a := t.arreglo) (tallas [f]) [f] [] pasos
      (by intro x hx; rw [List.mem_singleton.1 hx]; exact ⟨h.rep, hf⟩) rfl
      (by rw [tallas_uno]; exact htalla)
    simpa [tallas_uno] using this

end Forma

/-! ## More on the data file -/

/-- After marking the lines of `id` no line starts with `id|`. -/
theorem marcar_sin_prefijo (datos : List (List Char)) (id : Int) :
    ∀ l ∈ marcarBorradoEnArchivo datos id, (prefijoId id).isPrefixOf l = false := by
  intro l hl
  simp only [marcarBorradoEnArchivo, List.mem_append, List.mem_map, List.mem_singleton] at hl
  rcases hl with ⟨x, _, rfl⟩ | rfl
  · by_cases hx : (prefijoId id).isPrefixOf x = true
    · rw [if_pos hx]; exact prefijoId_eliminado id x
    · rw [if_neg hx]; exact Bool.eq_false_iff.2 hx
  · exact prefijoId_vacia id

/-- Marking the lines of one id adds no line that starts with another id. -/
theorem marcar_conserva_sin_prefijo {datos : List (List Char)} {id' : Int}
    (h : ∀ l ∈ datos, (prefijoId id').isPrefixOf l = false) (id : Int) :
    ∀ l ∈ marcarBorradoEnArchivo datos id, (prefijoId id').isPrefixOf l = false := by
  intro l hl
  simp only [marcarBorradoEnArchivo, List.mem_append, List.mem_map, List.mem_singleton] at hl
  rcases hl with ⟨x, hx, rfl⟩ | rfl
  · by_cases hp : (prefijoId id).isPrefixOf x = true
    · rw [if_pos hp]; exact prefijoId_eliminado id' x
    · rw [if_neg hp]; exact h x (lineasLeidas_mem hx)
  · exact prefijoId_vacia id'

/-- The pieces of the file after a record is marked and another one, without a
line break, is written. -/
theorem guardar_tras_marcar (datos : List (List Char)) (id nuevo : Int) {p : List Char}
    (hp : Char.ofNat 10 ∉ p) :
    ∃ xs, marcarBorradoEnArchivo datos id = xs ++ [[]] ∧
      guardarEnArchivo (marcarBorradoEnArchivo datos id) nuevo p = xs ++ [prefijoId nuevo ++ p, []] := by
  refine ⟨_, rfl, ?_⟩
  rw [guardarEnArchivo_sin_salto (cerrado_marcar datos id) _ hp]
  unfold marcarBorradoEnArchivo
  rw [lineasLeidas_append_vacia]

theorem sin_prefijo_inicio {xs : List (List Char)} {id : Int}
    (h : ∀ l ∈ xs ++ [[]], (prefijoId id).isPrefixOf l = false) :
    ∀ l ∈ xs, (prefijoId id).isPrefixOf l = false :=
  fun l hl => h l (List.mem_append_left _ hl)

/-- Reading the id of a record that has just been marked and replaced finds
nothing. -/
theorem leerDelArchivo_marcado {id nuevo : Int} (h : id ≠ nuevo) (datos : List (List Char))
    {p : List Char} (hp : Char.ofNat 10 ∉ p) :
    leerDelArchivo (guardarEnArchivo (marcarBorradoEnArchivo datos id) nuevo p) id =
      informacionNoEncontrada := by
  obtain ⟨xs, e1, e2⟩ := guardar_tras_marcar datos id nuevo hp
  have hno := marcar_sin_prefijo datos id
  rw [e1] at hno
  rw [e2, leerDelArchivo_append (sin_prefijo_inicio hno)]
  simp [leerDelArchivo, prefijo_otro h p, prefijoId_vacia]

/-- Reading the id of a record that has just been written finds the payload,
when no older line starts with that id. -/
theorem leerDelArchivo_nuevo {datos : List (List Char)} {nuevo : Int}
    (h : ∀ l ∈ datos, (prefijoId nuevo).isPrefixOf l = false) (id : Int) {p : List Char}
    (hp : Char.ofNat 10 ∉ p) :
    leerDelArchivo (guardarEnArchivo (marcarBorradoEnArchivo datos id) nuevo p) nuevo = p := by
  obtain ⟨xs, e1, e2⟩ := guardar_tras_marcar datos id nuevo hp
  have hno := marcar_conserva_sin_prefijo h id
  rw [e1] at hno
  rw [e2, leerDelArchivo_append (sin_prefijo_inicio hno), leerDelArchivo_cons_mismo]

/-- Marking one record and writing another does not change what is read for a
third id. -/
theorem leerDelArchivo_ajeno {id nuevo otro : Int} (h1 : otro ≠ id) (h2 : otro ≠ nuevo)
    (datos : List (List Char)) {p : List Char} (hp : Char.ofNat 10 ∉ p) :
    leerDelArchivo (guardarEnArchivo (marcarBorradoEnArchivo datos id) nuevo p) otro =
      leerDelArchivo datos otro := by
  obtain ⟨xs, e1, e2⟩ := guardar_tras_marcar datos id nuevo hp
  rw [e2, show xs ++ [prefijoId nuevo ++ p, []] = (xs ++ [prefijoId nuevo ++ p]) ++ [[]] by simp,
    leerDelArchivo_append_otro (prefijoId_vacia otro),
    leerDelArchivo_append_otro (prefijo_otro h2 p), ← leerDelArchivo_marcar h1 datos, e1,
    leerDelArchivo_append_otro (prefijoId_vacia otro)]

/-! ## The image of the table -/

theorem leer_nat (a : List Nodo) (i : Nat) : leer a (i : Int) = a[i]? := by
  simp [leer]

theorem guardarNodos_eq (a : List Nodo) :
    ∀ (m i : Nat), i + m ≤ a.length → guardarNodos a i m = .ok ((a.drop i).take m) := by
  intro m
  induction m with
  | zero => intro i _; simp [guardarNodos]
  | succ m ih =>
    intro i hi
    have hlt : i < a.length := by omega
    have hl : leer a (i : Int) = some a[i] := by
      rw [leer_nat, List.getElem?_eq_getElem hlt]
    simp only [guardarNodos, hl, ih (i + 1) (by omega)]
    rw [List.drop_eq_getElem_cons hlt, List.take_succ_cons]

theorem cargarNodos_spec (b : List Nodo) :
    ∀ (m : Nat) (a : List Nodo) (i : Nat), a.length = b.length → i + m ≤ b.length →
      ∃ a', cargarNodos b a i m = .ok a' ∧ a'.length = b.length ∧
        ∀ j : Nat, a'[j]? = if i ≤ j ∧ j < i + m then b[j]? else a[j]? := by
  intro m
  induction m with
  | zero =>
    intro a i hl _
    refine ⟨a, rfl, hl, ?_⟩
    intro j
    rw [if_neg (by omega)]
  | succ m ih =>
    intro a i hl hi
    have hlta : i < a.length := by omega
    have hltb : i < b.length := by omega
    have hla : leer a (i : Int) = some a[i] := by
      rw [leer_nat, List.getElem?_eq_getElem hlta]
    obtain ⟨a', e1, e2, e3⟩ := ih (escribir a (i : Int) b[i]) (i + 1)
      (by rw [length_escribir]; exact hl) (by omega)
    refine ⟨a', ?_, e2, ?_⟩
    · simp only [cargarNodos, hla, List.getElem?_eq_getElem hltb, e1]
    · intro j
      rw [e3 j]
      by_cases h1 : i + 1 ≤ j ∧ j < i + 1 + m
      · rw [if_pos h1, if_pos (by omega)]
      · rw [if_neg h1]
        by_cases h2 : i = j
        · subst h2
          rw [if_pos (by omega)]
          simp [escribir, List.getElem?_set, hlta, List.getElem?_eq_getElem hltb]
        · rw [if_neg (by omega)]
          simp [escribir, List.getElem?_set, h2]

/-- Loading the nodes of a whole array of the same length gives that array. -/
theorem cargarNodos_todo {a b : List Nodo} (hl : a.length = b.length) :
    cargarNodos b a 0 b.length = .ok b := by
  obtain ⟨a', e1, e2, e3⟩ := cargarNodos_spec b b.length a 0 hl (by omega)
  rw [e1]
  congr 1
  apply List.ext_getElem?
  intro j
  rw [e3 j]
  by_cases hj : j < b.length
  · rw [if_pos (by omega)]
  · rw [if_neg (by omega), List.getElem?_eq_none (by omega), List.getElem?_eq_none (by omega)]

/-! ## Every operation returns, and never leaves the array -/

theorem insertar_total {n : Nat} {t : Arbol} {f : Forma} (h : Inv n t f) {pasos : Nat}
    (hp : t.siguienteLibre ≤ pasos) (k : Int) (p : List Char) :
    ∃ r, insertar pasos t k p = .ok r := by
  by_cases hfull : t.siguienteLibre > t.tamano
  · exact ⟨_, insertar_lleno pasos k p hfull⟩
  · by_cases hk : k ∈ f.claves
    · exact ⟨_, insertar_duplicada h hp hk p⟩
    · obtain ⟨a, e, -⟩ := insertar_nueva h hp hk p hfull
      exact ⟨_, e⟩

theorem eliminar_total {n : Nat} {t : Arbol} {f : Forma} (h : Inv n t f) {pasos : Nat}
    (hp : t.siguienteLibre ≤ pasos) (k : Int) : ∃ r, eliminar pasos t k = .ok r := by
  by_cases hk : k ∈ f.claves
  · obtain ⟨a, id, -, e, -⟩ := eliminar_presente h hp hk
    exact ⟨_, e⟩
  · exact ⟨_, eliminar_ausente h hp hk⟩

theorem modificar_total {n : Nat} {t : Arbol} {f : Forma} (h : Inv n t f) {pasos : Nat}
    (hp : t.siguienteLibre ≤ pasos) (k : Int) (p : List Char) :
    ∃ r, modificar pasos t k p = .ok r := by
  by_cases hk : k ∈ f.claves
  · obtain ⟨j, nd, -, -, -, -, e, -⟩ := modificar_presente h hp hk p
    exact ⟨_, e⟩
  · exact ⟨_, modificar_ausente h hp hk p⟩

/-- An operation that returns once the bound reaches `m`, and that for a
smaller bound either runs out of steps or does the same, never reads outside
the array. -/
theorem sin_fuera_de_total {α : Type} {op : Nat → Except Falla α}
    (href : ∀ k k', k ≤ k' → Refina (op k) (op k')) {m : Nat}
    (htot : ∀ k, m ≤ k → ∃ r, op k = .ok r) (pasos : Nat) : op pasos ≠ .error .fueraDeRango := by
  obtain ⟨r, hr⟩ := htot (max pasos m) (le_max_right _ _)
  exact (href pasos (max pasos m) (le_max_left _ _)).sin_fuera hr

theorem pasos_de_nat {t : Arbol} {k : Nat} (h : t.siguienteLibre.toNat ≤ k) :
    t.siguienteLibre ≤ (k : Int) := by
  omega

/-! ## More example tables -/

theorem alcanzableCon_capUno2 : AlcanzableCon 1 1 capUno2 :=
  @AlcanzableCon.eliminar 1 1 capUno1 capUno2 2 5 true
    (@AlcanzableCon.insertarNo 1 1 capUno1 capUno1 2 6 ['Y']
      (@AlcanzableCon.insertarSi 1 0 (crear 1 1000 []) capUno1 2 5 ['X']
        (AlcanzableCon.crear 1000 []) rfl) rfl) rfl

theorem alcanzableCon_ejemplo : AlcanzableCon 5 4 ejemplo :=
  @AlcanzableCon.insertarSi 5 3 ejemplo3 ejemplo 6 20 ['D']
    (@AlcanzableCon.insertarSi 5 2 ejemplo2 ejemplo3 6 70 ['C']
      (@AlcanzableCon.insertarSi 5 1 ejemplo1 ejemplo2 6 30 ['B']
        (@AlcanzableCon.insertarSi 5 0 (crear 5 1000 []) ejemplo1 6 50 ['A']
          (AlcanzableCon.crear 1000 []) rfl) rfl) rfl) rfl

/-! ## The properties of the specification, continued -/

/-- C11: deleted slots are never reused. In every state reached from the empty
table of capacity `n` by a sequence of calls of which `n` (or more) are calls
of `insertar` that returned true, every call of `insertar` returns false and
leaves the state as it is, however many calls of `eliminar` have succeeded and
however few keys are live. -/
theorem C11_sin_reutilizar (n m : Nat) (t : Arbol) (k : Int) (p : List Char) (pasos : Nat)
    (h : AlcanzableCon n m t) (hm : n ≤ m) : insertar pasos t k p = .ok (false, t) := by
  have hs := siguienteLibre_con h
  obtain ⟨f, hf⟩ := inv_alcanzable (alcanzable_of_con h)
  exact insertar_lleno pasos k p (by rw [hs, hf.tam]; omega)

theorem C11_sin_reutilizar_witness :
    insertar 2 (crear 1 1000 []) 5 ['X'] = .ok (true, capUno1) ∧
    insertar 2 capUno1 6 ['Y'] = .ok (false, capUno1) ∧
    eliminar 2 capUno1 5 = .ok (true, capUno2) ∧
    clavesVivas capUno2 = [] ∧
    insertar 2 capUno2 6 ['Y'] = .ok (false, capUno2) :=
  ⟨rfl, rfl, rfl, rfl, C11_sin_reutilizar 1 1 capUno2 6 ['Y'] 2 alcanzableCon_capUno2 (le_refl 1)⟩

/-- C12: the scenario of the specification. On an empty table of capacity 10
the seven calls of `insertar` return true and `recorridoInorden` then yields
the keys 20, 30, 40, 50, 60, 70, 80; `eliminar(50)` returns true, after which
`recorridoInorden` yields 20, 30, 40, 60, 70, 80, `buscar(50)` returns the
not-found text and `buscar(60)` returns "F". -/
theorem C12_escenario :
    (do
      let (b1, t1) ← insertar 11 (crear 10 1000 []) 50 ['A']
      let (b2, t2) ← insertar 11 t1 30 ['B']
      let (b3, t3) ← insertar 11 t2 70 ['C']
      let (b4, t4) ← insertar 11 t3 20 ['D']
      let (b5, t5) ← insertar 11 t4 40 ['E']
      let (b6, t6) ← insertar 11 t5 60 ['F']
      let (b7, t7) ← insertar 11 t6 80 ['G']
      let antes ← recorridoInorden 11 t7
      let (b, t8) ← eliminar 11 t7 50
      let despues ← recorridoInorden 11 t8
      let r50 ← buscar 11 t8 50
      let r60 ← buscar 11 t8 60
      pure ([b1, b2, b3, b4, b5, b6, b7], antes.map (claveEn t7.arreglo), b,
        despues.map (claveEn t8.arreglo), r50, r60) : Except Falla _) =
    .ok ([true, true, true, true, true, true, true], [20, 30, 40, 50, 60, 70, 80], true,
      [20, 30, 40, 60, 70, 80], claveNoEncontrada, ['F']) := by
  rfl

theorem alcanzable_enganoso2 : Alcanzable 5 enganoso2 :=
  @Alcanzable.insertar 5 enganoso1 enganoso2 3 2 ['b'] true
    (@Alcanzable.insertar 5 (crear 5 1000 []) enganoso1 3 1
      (['x', Char.ofNat 10] ++ "1002|evil".toList) true (Alcanzable.crear 1000 []) rfl) rfl

/-- The loop of `modificar` is left with the index of a live slot that holds
the key, if it is left with an index. -/
theorem iterar_pasoModificar_some {a : List Nodo} {k : Int} :
    ∀ (pasos : Nat) (x j : Int), iterar (pasoModificar a k) pasos x = .ok (some j) →
      ∃ nd, leer a j = some nd ∧ nd.activo = true ∧ nd.clave = k := by
  intro pasos
  induction pasos with
  | zero => intro x j h; simp [iterar] at h
  | succ m ih =>
    intro x j h
    unfold iterar at h
    split at h
    · cases h
    · rename_i s' hs
      exact ih s' j h
    · rename_i r hs
      cases h
      by_cases hx : x = -1
      · simp [pasoModificar, hx] at hs
      · cases hl : leer a x with
        | none => simp [pasoModificar, hx, hl] at hs
        | some nd =>
          simp only [pasoModificar, if_neg hx, hl] at hs
          by_cases ha : nd.activo = false
          · simp [ha] at hs
          · rw [if_neg ha] at hs
            by_cases hc : k = nd.clave
            · rw [if_pos hc] at hs
              cases hs
              exact ⟨nd, hl, by simpa using ha, hc.symm⟩
            · rw [if_neg hc] at hs
              split_ifs at hs <;> simp at hs

theorem iterar_ciclo (pasos : Nat) :
    iterar (pasoModificar ciclo.arreglo 7) pasos 1 = .error .sinPasos := by
  induction pasos with
  | zero => rfl
  | succ m ih => rw [iterar_succ_inl m (u := 1) rfl, ih]

/-- The result of `modificar`, whenever it returns: the state as it was, or
the state with a new record id in one live slot that holds the key. -/
theorem modificar_forma {t t' : Arbol} {k : Int} {p : List Char} {pasos : Nat} {b : Bool}
    (hop : modificar pasos t k p = .ok (b, t')) :
    (b = false ∧ t' = t) ∨
    (b = true ∧ ∃ j nd, leer t.arreglo j = some nd ∧ nd.activo = true ∧ nd.clave = k ∧
      t' = trasModificar t (escribir t.arreglo j { nd with id_info := t.contador })
        nd.id_info p) := by
  unfold modificar at hop
  cases hit : iterar (pasoModificar t.arreglo k) pasos t.raiz with
  | error e => rw [hit] at hop; cases hop
  | ok r =>
    rw [hit] at hop
    cases r with
    | none =>
      cases hop
      exact Or.inl ⟨rfl, rfl⟩
    | some j =>
      obtain ⟨nd, h1, h2, h3⟩ := iterar_pasoModificar_some pasos t.raiz j hit
      simp only [h1] at hop
      cases hop
      exact Or.inr ⟨rfl, j, nd, h1, h2, h3, rfl⟩

/-- C13, the claim as stated fails: from the empty table with an empty data
file, after `insertar(1, p)` with a payload `p` whose second line is
`1002|evil` and `insertar(2, "b")`, the key 2 is live and the payload "c" has
no line break, but `buscar(2)` after `modificar(2, "c")` returns "evil", not
"c". -/
theorem C13_contraejemplo :
    Alcanzable 5 enganoso2 ∧ (2 : Int) ∈ clavesVivas enganoso2 ∧ Char.ofNat 10 ∉ ['c'] ∧
    modificar 3 enganoso2 2 ['c'] = .ok (true, enganoso3) ∧
    buscar 3 enganoso3 2 = .ok "evil".toList ∧ buscar 3 enganoso3 2 ≠ .ok ['c'] := by
  refine ⟨alcanzable_enganoso2, by decide, by decide, rfl, rfl, ?_⟩
  rw [show buscar 3 enganoso3 2 = .ok "evil".toList from rfl]
  intro h
  injection h with h
  revert h
  decide

/-- C13, amended: in every reachable state, for every live key `k` and every
payload `p` without a line break, `modificar(k, p)` returns true, the record id
that the slot of `k` held before is no longer found in the data file, and
`buscar(k')` is unchanged for every other key `k'`; a following `buscar(k)`
returns exactly `p` when, before the call, no line of the data file starts with
the record id that is handed out for `p` followed by `|`. -/
theorem C13_modificar_luego_buscar (n : Nat) (t : Arbol) (k : Int) (p : List Char) (pasos : Nat)
    (h : Alcanzable n t) (hk : k ∈ clavesVivas t) (hsalto : Char.ofNat 10 ∉ p)
    (hp : t.siguienteLibre ≤ pasos) :
    ∃ t' i nd, leer t.arreglo i = some nd ∧ nd.activo = true ∧ nd.clave = k ∧
      modificar pasos t k p = .ok (true, t') ∧
      ((∀ l ∈ t.archivoDatos, (prefijoId t.contador).isPrefixOf l = false) →
        buscar pasos t' k = .ok p) ∧
      leerDelArchivo t'.archivoDatos nd.id_info = informacionNoEncontrada ∧
      ∀ k', k' ≠ k → buscar pasos t' k' = buscar pasos t k' := by
  obtain ⟨f, hf⟩ := inv_alcanzable h
  have hkf := hf.viva_iff.1 hk
  obtain ⟨j, nd, e1, e2, e3, e4, e5, e6⟩ := modificar_presente hf hp hkf p
  have hp' : (trasModificar t (escribir t.arreglo j { nd with id_info := t.contador })
      nd.id_info p).siguienteLibre ≤ (pasos : Int) := hp
  have hviejo : nd.id_info ≠ t.contador := ne_of_lt (hf.ids_lt _ e4)
  have hpar : (k, t.contador) ∈ (f.cambiaId k t.contador).pares := by
    rw [Forma.pares_cambiaId k t.contador hf.ord, List.mem_map]
    exact ⟨(k, nd.id_info), e4, by simp⟩
  refine ⟨_, j, nd, e1, e2, e3, e5, ?_, ?_, ?_⟩
  · intro hid
    rw [buscar_eq e6 hp', Forma.busca_eq_some e6.ord hpar]
    exact congrArg Except.ok (leerDelArchivo_nuevo hid _ hsalto)
  · exact leerDelArchivo_marcado hviejo _ hsalto
  · intro k' hne
    rw [buscar_eq e6 hp', buscar_eq hf hp]
    by_cases hk' : k' ∈ f.claves
    · rw [Forma.claves_eq_map_pares, List.mem_map] at hk'
      obtain ⟨⟨k'', d'⟩, hpar', hk''⟩ := hk'
      simp only at hk''
      subst hk''
      have hpar2 : (k'', d') ∈ (f.cambiaId k t.contador).pares := by
        rw [Forma.pares_cambiaId k t.contador hf.ord, List.mem_map]
        exact ⟨(k'', d'), hpar', by simp [hne]⟩
      have h1 : d' ≠ nd.id_info := by
        intro hx
        have := List.inj_on_of_nodup_map hf.ids_nodup hpar' e4 hx
        exact hne (congrArg Prod.fst this)
      have h2 : d' ≠ t.contador := ne_of_lt (hf.ids_lt _ hpar')
      rw [Forma.busca_eq_some e6.ord hpar2, Forma.busca_eq_some hf.ord hpar']
      exact congrArg Except.ok (leerDelArchivo_ajeno h1 h2 _ hsalto)
    · rw [Forma.busca_eq_none e6.ord (by rw [Forma.claves_cambiaId]; exact hk'),
        Forma.busca_eq_none hf.ord hk']

theorem C13_modificar_luego_buscar_witness :
    ∃ t' i nd, leer ejemplo.arreglo i = some nd ∧ nd.activo = true ∧ nd.clave = 30 ∧
      modificar 5 ejemplo 30 ['Z'] = .ok (true, t') ∧
      buscar 5 t' 30 = .ok ['Z'] ∧
      leerDelArchivo t'.archivoDatos nd.id_info = informacionNoEncontrada ∧
      ∀ k', k' ≠ 30 → buscar 5 t' k' = buscar 5 ejemplo k' :=
  match C13_modificar_luego_buscar 5 ejemplo 30 ['Z'] 5 alcanzable_ejemplo (by decide) (by decide)
    (by decide) with
  | ⟨t', i, nd, h1, h2, h3, h4, h5, h6, h7⟩ => ⟨t', i, nd, h1, h2, h3, h4, h5 (by decide), h6, h7⟩

/-- C14, the claim as stated fails: the table `ciclo`, which `cargarArbol`
loads from an image, has a slot that is its own right child; the key 7 is not
live in it, and `modificar(7, "Z")` does not return false: it never leaves its
loop, whatever the bound on the steps. -/
theorem C14_contraejemplo :
    construir 1 1001 ["1000|A".toList] (some imagenCiclo) = .ok ciclo ∧
    (7 : Int) ∉ clavesVivas ciclo ∧
    ∀ pasos, modificar pasos ciclo 7 ['Z'] = .error .sinPasos := by
  refine ⟨rfl, by decide, ?_⟩
  intro pasos
  unfold modificar
  rw [show ciclo.raiz = 1 from rfl, iterar_ciclo]

/-- C14, amended: for every state, key and payload, whenever `modificar`
returns, `raiz`, `siguienteLibre`, `tamano` and the `clave`, `izq`, `der` and
`activo` of every slot are as before, only the `id_info` of a live slot that
holds the key can have changed, at most one slot has changed, and when the key
is not live the call has returned false and the whole state, the data file
included, is as before. In every reachable state `modificar` does return, and
it returns true exactly when the key is live. -/
theorem C14_modificar_conserva_forma (n : Nat) (t : Arbol) (k : Int) (p : List Char)
    (pasos : Nat) :
    (∀ b t', modificar pasos t k p = .ok (b, t') →
      t'.raiz = t.raiz ∧ t'.siguienteLibre = t.siguienteLibre ∧ t'.tamano = t.tamano ∧
      t'.arreglo.length = t.arreglo.length ∧
      (∀ i nd, leer t.arreglo i = some nd → ∃ nd', leer t'.arreglo i = some nd' ∧
        nd'.clave = nd.clave ∧ nd'.izq = nd.izq ∧ nd'.der = nd.der ∧ nd'.activo = nd.activo ∧
        (nd'.id_info ≠ nd.id_info → nd.activo = true ∧ nd.clave = k)) ∧
      (∀ i j, leer t'.arreglo i ≠ leer t.arreglo i → leer t'.arreglo j ≠ leer t.arreglo j →
        i = j) ∧
      (k ∉ clavesVivas t → b = false ∧ t' = t)) ∧
    (Alcanzable n t → t.siguienteLibre ≤ pasos →
      ∃ b t', modificar pasos t k p = .ok (b, t') ∧ (b = true ↔ k ∈ clavesVivas t)) := by
  constructor
  · intro b t' hop
    rcases modificar_forma hop with ⟨rfl, rfl⟩ | ⟨rfl, j, nd, h1, h2, h3, rfl⟩
    · refine ⟨rfl, rfl, rfl, rfl, ?_, ?_, fun _ => ⟨rfl, rfl⟩⟩
      · intro i nd hl
        exact ⟨nd, hl, rfl, rfl, rfl, rfl, fun hx => absurd rfl hx⟩
      · intro i j hi
        exact absurd rfl hi
    · refine ⟨rfl, rfl, rfl, by simp [trasModificar, length_escribir], ?_, ?_, ?_⟩
      · intro i ndi hl
        simp only [trasModificar, leer_escribir _ h1]
        by_cases hij : i = j
        · subst hij
          rw [h1] at hl
          cases hl
          rw [if_pos rfl]
          exact ⟨_, rfl, rfl, rfl, rfl, rfl, fun _ => ⟨h2, h3⟩⟩
        · rw [if_neg hij]
          exact ⟨ndi, hl, rfl, rfl, rfl, rfl, fun hx => absurd rfl hx⟩
      · intro i i' hi hi'
        simp only [trasModificar, leer_escribir _ h1] at hi hi'
        have e1 : i = j := by
          by_contra hne
          rw [if_neg hne] at hi
          exact hi rfl
        have e2 : i' = j := by
          by_contra hne
          rw [if_neg hne] at hi'
          exact hi' rfl
        rw [e1, e2]
      · intro hk
        exact absurd (mem_clavesVivas.2 ⟨j, nd, h1, h2, h3⟩) hk
  · intro h hp
    obtain ⟨f, hf⟩ := inv_alcanzable h
    by_cases hk : k ∈ f.claves
    · obtain ⟨j, nd, -, -, -, -, e, -⟩ := modificar_presente hf hp hk p
      exact ⟨true, _, e, by simp [hf.viva_iff, hk]⟩
    · exact ⟨false, t, modificar_ausente hf hp hk p, by simp [hf.viva_iff, hk]⟩

theorem C14_modificar_conserva_forma_witness :
    ∃ b t', modificar 5 ejemplo 60 ['Z'] = .ok (b, t') ∧ b = false ∧ t' = ejemplo :=
  match (C14_modificar_conserva_forma 5 ejemplo 60 ['Z'] 5).2 alcanzable_ejemplo (by decide) with
  | ⟨b, t', e, _⟩ =>
    ⟨b, t', e, ((C14_modificar_conserva_forma 5 ejemplo 60 ['Z'] 5).1 b t' e).2.2.2.2.2.2
      (by decide)⟩

theorem guardarArbol_eq {n : Nat} {t : Arbol} (hl : t.arreglo.length = n + 1)
    (ht : t.tamano = n) :
    guardarArbol t = .ok ⟨t.tamano, t.raiz, t.siguienteLibre, t.arreglo⟩ := by
  have hn : (t.tamano + 1).toNat = n + 1 := by rw [ht]; omega
  unfold guardarArbol
  rw [hn, guardarNodos_eq t.arreglo (n + 1) 0 (by omega), List.drop_zero,
    List.take_of_length_le (by omega)]

theorem cargarArbol_eq {n : Nat} {t : Arbol} (c : Int) (d : List (List Char))
    (hl : t.arreglo.length = n + 1) (ht : t.tamano = n) :
    cargarArbol (crear n c d) (some ⟨t.tamano, t.raiz, t.siguienteLibre, t.arreglo⟩) =
      .ok ⟨t.arreglo, n, t.raiz, t.siguienteLibre, c, d⟩ := by
  have hn : (((crear n c d).tamano + 1).toNat) = t.arreglo.length := by
    rw [hl]; simp only [crear]; omega
  have hc := cargarNodos_todo (a := (crear n c d).arreglo) (b := t.arreglo)
    (by simp [crear, hl])
  unfold cargarArbol
  simp only [ht]
  rw [if_pos (show (n : Int) = (crear n c d).tamano from rfl), hn, hc]
  rfl

theorem clavesVivas_crear (n : Nat) (c : Int) (d : List (List Char)) :
    clavesVivas (crear n c d) = [] := by
  simp [clavesVivas, crear, Nodo.nuevo, List.filter_eq_nil_iff]

/-- C15: for every table `t` of capacity `n`, `guardarArbol` writes an image,
and the constructor of a table of the same capacity that finds this image
(with the data file of `t`) yields a table with the `raiz`, the
`siguienteLibre` and the whole array of `t`; so the live keys are the same, and
`buscar` of every key does the same as in `t`. -/
theorem C15_guardar_y_cargar (n : Nat) (t : Arbol) (c : Int)
    (hl : t.arreglo.length = n + 1) (ht : t.tamano = n) :
    ∃ im t', guardarArbol t = .ok im ∧ construir n c t.archivoDatos (some im) = .ok t' ∧
      t'.raiz = t.raiz ∧ t'.siguienteLibre = t.siguienteLibre ∧ t'.tamano = t.tamano ∧
      t'.arreglo = t.arreglo ∧ clavesVivas t' = clavesVivas t ∧
      ∀ pasos k, buscar pasos t' k = buscar pasos t k :=
  ⟨_, _, guardarArbol_eq hl ht, cargarArbol_eq c t.archivoDatos hl ht, rfl, rfl, ht.symm, rfl, rfl,
    fun _ _ => rfl⟩

theorem C15_guardar_y_cargar_witness :
    ∃ im t', guardarArbol ejemplo = .ok im ∧
      construir 5 1000 ejemplo.archivoDatos (some im) = .ok t' ∧
      t'.raiz = ejemplo.raiz ∧ t'.siguienteLibre = ejemplo.siguienteLibre ∧
      t'.tamano = ejemplo.tamano ∧ t'.arreglo = ejemplo.arreglo ∧
      clavesVivas t' = clavesVivas ejemplo ∧
      ∀ pasos k, buscar pasos t' k = buscar pasos ejemplo k :=
  C15_guardar_y_cargar 5 ejemplo 1000 rfl rfl

/-- C16: when there is no image, or the capacity stored in the image differs
from the capacity `n` of the table, the constructor leaves the table empty:
`raiz` is `-1`, `siguienteLibre` is 1 and each of the `n + 1` slots is in its
default state (key 0, record id `-1`, links `-1`, not live). -/
theorem C16_cargar_sin_imagen (n : Nat) (c : Int) (d : List (List Char)) (img : Option Imagen)
    (h : ∀ im, img = some im → im.tamano ≠ (n : Int)) :
    ∃ t, construir n c d img = .ok t ∧ t = crear n c d ∧ t.raiz = -1 ∧
      t.siguienteLibre = 1 ∧ t.arreglo.length = n + 1 ∧
      (∀ i : Int, 0 ≤ i → i ≤ n → leer t.arreglo i = some ⟨0, -1, -1, -1, false⟩) ∧
      clavesVivas t = [] := by
  refine ⟨crear n c d, ?_, rfl, rfl, rfl, by simp [crear], ?_, clavesVivas_crear n c d⟩
  · cases img with
    | none => rfl
    | some im =>
      have hne := h im rfl
      unfold construir cargarArbol
      simp only
      rw [if_neg (by simpa [crear] using hne)]
  · intro i h0 h1
    exact leer_replicate h0 h1

theorem C16_cargar_sin_imagen_witness :
    (∃ t, construir 5 1000 [] none = .ok t ∧ t = crear 5 1000 [] ∧ t.raiz = -1 ∧
      t.siguienteLibre = 1 ∧ t.arreglo.length = 5 + 1 ∧
      (∀ i : Int, 0 ≤ i → i ≤ (5 : Nat) → leer t.arreglo i = some ⟨0, -1, -1, -1, false⟩) ∧
      clavesVivas t = []) ∧
    (∃ t, construir 5 1000 [] (some imagenCiclo) = .ok t ∧ t = crear 5 1000 [] ∧ t.raiz = -1 ∧
      t.siguienteLibre = 1 ∧ t.arreglo.length = 5 + 1 ∧
      (∀ i : Int, 0 ≤ i → i ≤ (5 : Nat) → leer t.arreglo i = some ⟨0, -1, -1, -1, false⟩) ∧
      clavesVivas t = []) :=
  ⟨C16_cargar_sin_imagen 5 1000 [] none (fun _ hx => by cases hx),
    C16_cargar_sin_imagen 5 1000 [] (some imagenCiclo)
      (fun im hx => by cases hx; decide)⟩

theorem alcanzable_ejemploSin50 : Alcanzable 5 ejemploSin50 :=
  @Alcanzable.eliminar 5 ejemplo ejemploSin50 5 50 true alcanzable_ejemplo rfl

/-- C17: in every reachable state `raiz` is `-1` if and only if no slot of the
array has `activo` set. -/
theorem C17_raiz_vacia_sii (n : Nat) (t : Arbol) (h : Alcanzable n t) :
    t.raiz = -1 ↔ ∀ i nd, leer t.arreglo i = some nd → nd.activo = false := by
  obtain ⟨f, hf⟩ := inv_alcanzable h
  rw [hf.raiz, Forma.raiz_eq_menos_uno hf.rep]
  constructor
  · rintro rfl i nd hl
    have := hf.vivo i nd hl
    simp only [Forma.indices, List.not_mem_nil, iff_false] at this
    simpa using this
  · intro hall
    by_contra hne
    obtain ⟨nd, h1, h2, -⟩ := Forma.rep_leer_indices hf.rep _ (Forma.raiz_mem_indices hne)
    rw [hall _ nd h1] at h2
    cases h2

theorem C17_raiz_vacia_sii_witness :
    (capUno2.raiz = -1 ↔ ∀ i nd, leer capUno2.arreglo i = some nd → nd.activo = false) ∧
    (ejemplo.raiz = -1 ↔ ∀ i nd, leer ejemplo.arreglo i = some nd → nd.activo = false) :=
  ⟨C17_raiz_vacia_sii 1 capUno2 (alcanzable_of_con alcanzableCon_capUno2),
    C17_raiz_vacia_sii 5 ejemplo alcanzable_ejemplo⟩

/-- C18: in every reachable state two live slots that hold the same key are
the same slot, and the list of the keys of the live slots has no repetition. -/
theorem C18_claves_unicas (n : Nat) (t : Arbol) (i j : Int) (ndi ndj : Nodo)
    (h : Alcanzable n t) (hi : leer t.arreglo i = some ndi) (hj : leer t.arreglo j = some ndj)
    (hai : ndi.activo = true) (haj : ndj.activo = true) (hc : ndi.clave = ndj.clave) :
    i = j ∧ (clavesVivas t).Nodup := by
  obtain ⟨f, hf⟩ := inv_alcanzable h
  have e1 := hf.indiceDe_eq hi hai hc
  have e2 := hf.indiceDe_eq hj haj rfl
  rw [e1] at e2
  exact ⟨Option.some.inj e2,
    (hf.perm_clavesVivas.nodup_iff).1 (Forma.nodup_claves_of_ordenado hf.ord)⟩

theorem C18_claves_unicas_witness : (1 : Int) = 1 ∧ (clavesVivas ejemploSin50).Nodup :=
  C18_claves_unicas 5 ejemploSin50 1 1 ⟨70, 1002, 2, -1, true⟩ ⟨70, 1002, 2, -1, true⟩
    alcanzable_ejemploSin50 rfl rfl rfl rfl rfl

/-- C19: in every state reached from the empty table of capacity `n` by calls
of which `m` were calls of `insertar` that returned true, `siguienteLibre - 1`
is `m`, `siguienteLibre` lies between 1 and `n + 1`, at most `m` slots are
live, and every slot from `siguienteLibre` on is in its default state; a call
of `insertar` that returns true adds one to `siguienteLibre`, and a call of
`insertar` that returns false, of `eliminar` or of `modificar` leaves it as it
is. -/
theorem C19_cursor_cuenta (n m : Nat) (t : Arbol) (h : AlcanzableCon n m t) :
    t.siguienteLibre - 1 = m ∧ 1 ≤ t.siguienteLibre ∧ t.siguienteLibre ≤ n + 1 ∧
    (clavesVivas t).length ≤ m ∧
    (∀ i : Int, t.siguienteLibre ≤ i → i ≤ n →
      leer t.arreglo i = some ⟨0, -1, -1, -1, false⟩) ∧
    (∀ pasos k p b t', insertar pasos t k p = .ok (b, t') →
      t'.siguienteLibre = if b = true then t.siguienteLibre + 1 else t.siguienteLibre) ∧
    (∀ pasos k b t', eliminar pasos t k = .ok (b, t') → t'.siguienteLibre = t.siguienteLibre) ∧
    (∀ pasos k p b t', modificar pasos t k p = .ok (b, t') →
      t'.siguienteLibre = t.siguienteLibre) := by
  have hs := siguienteLibre_con h
  obtain ⟨f, hf⟩ := inv_alcanzable (alcanzable_of_con h)
  refine ⟨by omega, hf.libre_pos, hf.libre_le, ?_, hf.resto, ?_, ?_, ?_⟩
  · rw [← hf.perm_clavesVivas.length_eq, Forma.claves_eq_map_pares, List.length_map]
    have h1 := hf.talla_lt
    have h2 : f.pares.length = f.talla := by
      rw [← Forma.length_indices]
      have := congrArg List.length (Forma.rep_pares_eq hf.rep)
      simpa using this
    omega
  · intro pasos k p b t' hop
    rcases insertar_inversion hf hop with ⟨rfl, rfl, -⟩ | ⟨rfl, -, -, a, rfl, -⟩
    · simp
    · simp [trasInsertar]
  · intro pasos k b t' hop
    rcases eliminar_inversion hf hop with ⟨-, rfl, -⟩ | ⟨-, -, a, id, -, rfl, -⟩
    · rfl
    · rfl
  · intro pasos k p b t' hop
    rcases modificar_inversion hf hop with ⟨-, rfl, -⟩ | ⟨-, -, j, nd, -, -, -, -, rfl, -⟩
    · rfl
    · rfl

theorem C19_cursor_cuenta_witness :
    ejemplo.siguienteLibre - 1 = (4 : Nat) ∧ 1 ≤ ejemplo.siguienteLibre ∧
    ejemplo.siguienteLibre ≤ (5 : Nat) + 1 ∧ (clavesVivas ejemplo).length ≤ 4 ∧
    (∀ i : Int, ejemplo.siguienteLibre ≤ i → i ≤ (5 : Nat) →
      leer ejemplo.arreglo i = some ⟨0, -1, -1, -1, false⟩) ∧
    (∀ pasos k p b t', insertar pasos ejemplo k p = .ok (b, t') →
      t'.siguienteLibre = if b = true then ejemplo.siguienteLibre + 1
        else ejemplo.siguienteLibre) ∧
    (∀ pasos k b t', eliminar pasos ejemplo k = .ok (b, t') →
      t'.siguienteLibre = ejemplo.siguienteLibre) ∧
    (∀ pasos k p b t', modificar pasos ejemplo k p = .ok (b, t') →
      t'.siguienteLibre = ejemplo.siguienteLibre) :=
  C19_cursor_cuenta 5 4 ejemplo alcanzableCon_ejemplo

namespace Forma

/-! ## The recursive traversals -/

theorem preordenRecursivo_eq {a : List Nodo} {f : Forma} (h : Rep a f) :
    ∀ m : Nat, f.talla ≤ m → preordenRecursivo a m f.raiz = f.preorden := by
  induction f with
  | hoja =>
    intro m _
    cases m <;> simp [preordenRecursivo, preorden]
  | nodo l i c d r ihl ihr =>
    intro m hm
    simp only [talla] at hm
    obtain ⟨q, rfl⟩ : ∃ q, m = q + 1 := ⟨m - 1, by omega⟩
    have hi : i ≠ -1 := leer_ne_menos_uno h.1
    simp only [raiz_nodo, preordenRecursivo, if_neg hi, h.1, preorden]
    rw [ihl h.2.1 q (by omega), ihr h.2.2 q (by omega)]

theorem postordenRecursivo_eq {a : List Nodo} {f : Forma} (h : Rep a f) :
    ∀ m : Nat, f.talla ≤ m → postordenRecursivo a m f.raiz = f.postorden := by
  induction f with
  | hoja =>
    intro m _
    cases m <;> simp [postordenRecursivo, postorden]
  | nodo l i c d r ihl ihr =>
    intro m hm
    simp only [talla] at hm
    obtain ⟨q, rfl⟩ : ∃ q, m = q + 1 := ⟨m - 1, by omega⟩
    have hi : i ≠ -1 := leer_ne_menos_uno h.1
    simp only [raiz_nodo, postordenRecursivo, if_neg hi, h.1, postorden]
    rw [ihl h.2.1 q (by omega), ihr h.2.2 q (by omega)]

theorem perm_preorden (f : Forma) : f.preorden.Perm f.indices := by
  induction f with
  | hoja => exact List.Perm.refl _
  | nodo l i c d r ihl ihr =>
    simp only [preorden, indices]
    exact (List.Perm.cons i (ihl.append ihr)).trans List.perm_middle.symm

theorem perm_postorden (f : Forma) : f.postorden.Perm f.indices := by
  induction f with
  | hoja => exact List.Perm.refl _
  | nodo l i c d r ihl ihr =>
    simp only [postorden, indices, List.append_assoc]
    exact ihl.append ((ihr.append (List.Perm.refl [i])).trans List.perm_append_comm)

/-- Every slot of a stored tree is reached from its root by following the
links. -/
theorem enSubarbol_of_mem {a : List Nodo} {f : Forma} (h : Rep a f) :
    ∀ j ∈ f.indices, EnSubarbol a f.raiz j := by
  induction f with
  | hoja => intro j hj; simp [indices] at hj
  | nodo l i c d r ihl ihr =>
    intro j hj
    simp only [indices, List.mem_append, List.mem_cons] at hj
    rcases hj with hj | rfl | hj
    · exact EnSubarbol.izq h.1 (ihl h.2.1 j hj)
    · exact EnSubarbol.raiz h.1
    · exact EnSubarbol.der h.1 (ihr h.2.2 j hj)

theorem enSubarbol_iff_mem {a : List Nodo} {f : Forma} (h : Rep a f) (j : Int) :
    EnSubarbol a f.raiz j ↔ j ∈ f.indices :=
  ⟨fun hs => mem_indices_of_enSubarbol hs f h rfl, enSubarbol_of_mem h j⟩

/-- In the preorder of a stored tree a slot comes before the slots below its
links. -/
theorem preorden_antes {a : List Nodo} {f : Forma} (h : Rep a f) :
    ∀ i ∈ f.indices, ∀ nd, leer a i = some nd →
      ∀ j, (EnSubarbol a nd.izq j ∨ EnSubarbol a nd.der j) →
        ∃ xs ys, f.preorden = xs ++ i :: ys ∧ j ∈ ys := by
  induction f with
  | hoja => intro i hi; simp [indices] at hi
  | nodo l i0 c d r ihl ihr =>
    intro i hi nd hl j hj
    simp only [indices, List.mem_append, List.mem_cons] at hi
    rcases hi with hi | rfl | hi
    · obtain ⟨xs, ys, e, hm⟩ := ihl h.2.1 i hi nd hl j hj
      refine ⟨i0 :: xs, ys ++ r.preorden, ?_, List.mem_append_left _ hm⟩
      simp [preorden, e]
    · rw [h.1] at hl
      cases hl
      refine ⟨[], l.preorden ++ r.preorden, rfl, ?_⟩
      rcases hj with hj | hj
      · exact List.mem_append_left _
          (mem_indices_preorden.2 (mem_indices_of_enSubarbol hj l h.2.1 rfl))
      · exact List.mem_append_right _
          (mem_indices_preorden.2 (mem_indices_of_enSubarbol hj r h.2.2 rfl))
    · obtain ⟨xs, ys, e, hm⟩ := ihr h.2.2 i hi nd hl j hj
      refine ⟨i0 :: (l.preorden ++ xs), ys, ?_, hm⟩
      simp [preorden, e]

/-- In the postorder of a stored tree a slot comes after the slots below its
links. -/
theorem postorden_despues {a : List Nodo} {f : Forma} (h : Rep a f) :
    ∀ i ∈ f.indices, ∀ nd, leer a i = some nd →
      ∀ j, (EnSubarbol a nd.izq j ∨ EnSubarbol a nd.der j) →
        ∃ xs ys, f.postorden = xs ++ i :: ys ∧ j ∈ xs := by
  induction f with
  | hoja => intro i hi; simp [indices] at hi
  | nodo l i0 c d r ihl ihr =>
    intro i hi nd hl j hj
    simp only [indices, List.mem_append, List.mem_cons] at hi
    rcases hi with hi | rfl | hi
    · obtain ⟨xs, ys, e, hm⟩ := ihl h.2.1 i hi nd hl j hj
      refine ⟨xs, ys ++ (r.postorden ++ [i0]), ?_, hm⟩
      simp [postorden, e]
    · rw [h.1] at hl
      cases hl
      refine ⟨l.postorden ++ r.postorden, [], rfl, ?_⟩
      rcases hj with hj | hj
      · exact List.mem_append_left _
          (mem_indices_postorden.2 (mem_indices_of_enSubarbol hj l h.2.1 rfl))
      · exact List.mem_append_right _
          (mem_indices_postorden.2 (mem_indices_of_enSubarbol hj r h.2.2 rfl))
    · obtain ⟨xs, ys, e, hm⟩ := ihr h.2.2 i hi nd hl j hj
      refine ⟨l.postorden ++ xs, ys ++ [i0], ?_, List.mem_append_right _ hm⟩
      simp [postorden, e]

/-! ## The breadth-first order, level by level -/

theorem capa_hoja (d : Nat) : capa d hoja = [] := by
  cases d <;> rfl

theorem nivel_eq {a : List Nodo} {f : Forma} (h : Rep a f) :
    ∀ d : Nat, nivel a d f.raiz = capa d f := by
  induction f with
  | hoja =>
    intro d
    rw [capa_hoja]
    unfold nivel
    simp
  | nodo l i c e r ihl ihr =>
    intro d
    have hi : i ≠ -1 := leer_ne_menos_uno h.1
    unfold nivel
    cases d with
    | zero => simp [hi, h.1, capa]
    | succ d =>
      simp only [raiz_nodo, if_neg hi, h.1, capa]
      rw [ihl h.2.1 d, ihr h.2.2 d]

theorem capa_vacia : ∀ (f : Forma) (d : Nat), f.talla ≤ d → capa d f = [] := by
  intro f
  induction f with
  | hoja => intro d _; exact capa_hoja d
  | nodo l i c e r ihl ihr =>
    intro d hd
    simp only [talla] at hd
    obtain ⟨q, rfl⟩ : ∃ q, d = q + 1 := ⟨d - 1, by omega⟩
    simp only [capa]
    rw [ihl q (by omega), ihr q (by omega)]
    rfl

theorem capa_noHoja (g : Forma) (d : Nat) : (noHoja g).flatMap (capa d) = capa d g := by
  cases g with
  | hoja => simp [noHoja, capa_hoja]
  | nodo l i c e r => simp [noHoja]

theorem capa_hijos (g : Forma) (d : Nat) : g.hijos.flatMap (capa d) = capa (d + 1) g := by
  cases g with
  | hoja => simp [hijos, capa_hoja]
  | nodo l i c e r => simp [hijos, List.flatMap_append, capa_noHoja, capa]

theorem capa_cero {L : List Forma} (hL : ∀ x ∈ L, x ≠ hoja) :
    L.flatMap (capa 0) = L.map raiz := by
  induction L with
  | nil => rfl
  | cons g L ih =>
    have hg := hL g (List.mem_cons_self _ _)
    cases g with
    | hoja => exact absurd rfl hg
    | nodo l i c e r =>
      simp only [List.flatMap_cons, List.map_cons, capa, raiz_nodo]
      rw [ih (fun x hx => hL x (List.mem_cons_of_mem _ hx))]
      rfl

theorem capas_nil (D : Nat) : capas D [] = [] := by
  simp [capas]

theorem capas_succ_primero {L : List Forma} (hL : ∀ x ∈ L, x ≠ hoja) (D : Nat) :
    capas (D + 1) L = L.map raiz ++ capas D (L.flatMap hijos) := by
  unfold capas
  rw [List.range_succ_eq_map, List.flatMap_cons, List.flatMap_map, capa_cero hL]
  congr 1
  refine congrArg _ (funext fun d => ?_)
  rw [List.flatMap_assoc]
  refine congrArg _ (funext fun g => ?_)
  exact (capa_hijos g d).symm

theorem talla_le_tallas {L : List Forma} {g : Forma} (hg : g ∈ L) : g.talla ≤ tallas L := by
  induction L with
  | nil => cases hg
  | cons x L ih =>
    simp only [tallas]
    rcases List.mem_cons.1 hg with rfl | hx
    · omega
    · have := ih hx
      omega

theorem capas_succ_ultimo {L : List Forma} {D : Nat} (hD : tallas L ≤ D) :
    capas (D + 1) L = capas D L := by
  unfold capas
  rw [List.range_succ, List.flatMap_append, List.flatMap_singleton]
  have : L.flatMap (capa D) = [] := by
    rw [List.flatMap_eq_nil_iff]
    intro g hg
    exact capa_vacia g D (le_trans (talla_le_tallas hg) hD)
  rw [this, List.append_nil]

theorem capas_estable {L : List Forma} {D : Nat} (hD : tallas L ≤ D) :
    ∀ q : Nat, capas (D + q) L = capas D L := by
  intro q
  induction q with
  | zero => rfl
  | succ q ih => rw [← Nat.add_assoc, capas_succ_ultimo (by omega), ih]

theorem hijos_ne_hoja (g : Forma) : ∀ x ∈ g.hijos, x ≠ hoja := by
  cases g with
  | hoja => intro x hx; simp [hijos] at hx
  | nodo l i c e r =>
    intro x hx
    simp only [hijos, List.mem_append] at hx
    rcases hx with hx | hx
    · cases l with
      | hoja => simp [noHoja] at hx
      | nodo _ _ _ _ _ => simp only [noHoja, List.mem_singleton] at hx; rw [hx]; simp
    · cases r with
      | hoja => simp [noHoja] at hx
      | nodo _ _ _ _ _ => simp only [noHoja, List.mem_singleton] at hx; rw [hx]; simp

theorem flatMap_hijos_ne_hoja (L : List Forma) : ∀ x ∈ L.flatMap hijos, x ≠ hoja := by
  intro x hx
  obtain ⟨g, -, hg⟩ := List.mem_flatMap.1 hx
  exact hijos_ne_hoja g x hg

theorem tallas_hijos_ne_hoja {g : Forma} (hg : g ≠ hoja) : tallas g.hijos + 1 = g.talla := by
  cases g with
  | hoja => exact absurd rfl hg
  | nodo l i c e r => exact tallas_hijos l r i c e

theorem tallas_flatMap_hijos {L : List Forma} (hL : ∀ x ∈ L, x ≠ hoja) :
    tallas (L.flatMap hijos) + L.length = tallas L := by
  induction L with
  | nil => rfl
  | cons g L ih =>
    have h1 := tallas_hijos_ne_hoja (hL g (List.mem_cons_self _ _))
    have h2 := ih (fun x hx => hL x (List.mem_cons_of_mem _ hx))
    simp only [List.flatMap_cons, tallas_append, tallas, List.length_cons]
    omega

theorem tallas_cons (g : Forma) (fs : List Forma) : tallas (g :: fs) = g.talla + tallas fs :=
  rfl

theorem anchura_cons (m : Nat) (g : Forma) (fs : List Forma) :
    anchura (m + 1) (g :: fs) = g.raiz :: anchura m (fs ++ g.hijos) :=
  rfl

/-- The queue of `recorridoPorNiveles` holds the rest `xs` of a level followed
by the parts of the slots `ps` of that level that have been emitted; what it
emits is the rest of the level and then the deeper levels in turn. -/
theorem anchura_eq_capas :
    ∀ (N : Nat) (xs ps : List Forma) (D : Nat), (∀ x ∈ xs, x ≠ hoja) → (∀ x ∈ ps, x ≠ hoja) →
      tallas (xs ++ ps.flatMap hijos) = N → tallas ((ps ++ xs).flatMap hijos) ≤ D →
      anchura N (xs ++ ps.flatMap hijos) = xs.map raiz ++ capas D ((ps ++ xs).flatMap hijos) := by
  intro N
  induction N using Nat.strong_induction_on with
  | _ N ih =>
    have hcons : ∀ (g : Forma) (xs ps : List Forma) (D : Nat), g ≠ hoja → (∀ x ∈ xs, x ≠ hoja) →
        (∀ x ∈ ps, x ≠ hoja) → tallas (g :: xs ++ ps.flatMap hijos) = N →
        tallas ((ps ++ g :: xs).flatMap hijos) ≤ D →
        anchura N (g :: xs ++ ps.flatMap hijos) =
          (g :: xs).map raiz ++ capas D ((ps ++ g :: xs).flatMap hijos) := by
      intro g xs ps D hg hxs hps hN hD
      have h1 := tallas_hijos_ne_hoja hg
      rw [List.cons_append, tallas_cons, tallas_append] at hN
      obtain ⟨q, rfl⟩ : ∃ q, N = q + 1 := ⟨N - 1, by omega⟩
      have hcola : xs ++ ps.flatMap hijos ++ g.hijos = xs ++ (ps ++ [g]).flatMap hijos := by
        simp [List.flatMap_append]
      have hrec := ih q (by omega) xs (ps ++ [g]) D hxs
        (by
          intro x hx
          rcases List.mem_append.1 hx with hx | hx
          · exact hps x hx
          · rw [List.mem_singleton.1 hx]; exact hg)
        (by
          rw [← hcola]
          simp only [tallas_append]
          omega)
        (by simpa using hD)
      rw [List.cons_append, anchura_cons, hcola, hrec]
      simp
    intro xs ps D hxs hps hN hD
    cases xs with
    | cons g xs =>
      exact hcons g xs ps D (hxs g (List.mem_cons_self _ _))
        (fun x hx => hxs x (List.mem_cons_of_mem _ hx)) hps hN hD
    | nil =>
      simp only [List.nil_append, List.append_nil, List.map_nil] at hN hD ⊢
      cases hL : ps.flatMap hijos with
      | nil =>
        rw [hL] at hN
        simp only [tallas] at hN
        subst hN
        rw [capas_nil]
        rfl
      | cons g L =>
        have hne : ∀ x ∈ g :: L, x ≠ hoja := by
          rw [← hL]; exact flatMap_hijos_ne_hoja ps
        have hsum := tallas_flatMap_hijos hne
        rw [hL] at hN
        simp only [List.length_cons] at hsum
        obtain ⟨q, rfl⟩ : ∃ q, D = q + 1 := ⟨D - 1, by
          have := hD
          rw [hL] at this
          omega⟩
        have := hcons g L [] q (hne g (List.mem_cons_self _ _))
          (fun x hx => hne x (List.mem_cons_of_mem _ hx)) (by simp)
          (by simpa using hN)
          (by
            rw [hL] at hD
            simp only [List.nil_append]
            omega)
        simp only [List.flatMap_nil, List.append_nil, List.nil_append] at this
        rw [this, capas_succ_primero hne]

/-- The breadth-first order of a stored tree is the list of its levels. -/
theorem anchura_eq_niveles {a : List Nodo} {f : Forma} (h : Rep a f) {m : Nat}
    (hm : f.talla ≤ m) : anchura f.talla [f] = porNivelesRecursivo a m f.raiz := by
  have hniv : porNivelesRecursivo a m f.raiz = capas m [f] := by
    unfold porNivelesRecursivo capas
    refine congrArg _ (funext fun d => ?_)
    rw [nivel_eq h d]
    simp
  rw [hniv]
  by_cases hf : f = hoja
  · subst hf
    simp [capas, capa_hoja, anchura, talla]
  · have hpos := talla_pos hf
    have hh := tallas_hijos_ne_hoja hf
    obtain ⟨q, rfl⟩ : ∃ q, m = q + 1 := ⟨m - 1, by omega⟩
    have := anchura_eq_capas f.talla [f] [] q
      (by intro x hx; rw [List.mem_singleton.1 hx]; exact hf) (by simp)
      (by simp [tallas]) (by simp only [List.nil_append, List.flatMap_singleton]; omega)
    simp only [List.flatMap_nil, List.append_nil, List.nil_append] at this
    rw [this, capas_succ_primero (by intro x hx; rw [List.mem_singleton.1 hx]; exact hf)]

/-- The breadth-first order lists every slot of the queued trees once. -/
theorem perm_anchura :
    ∀ (N : Nat) (q : List Forma), (∀ x ∈ q, x ≠ hoja) → tallas q = N →
      (anchura N q).Perm (q.flatMap indices) := by
  intro N
  induction N with
  | zero =>
    intro q hq hN
    cases q with
    | nil => exact List.Perm.refl _
    | cons g fs =>
      have := talla_pos (hq g (List.mem_cons_self _ _))
      simp only [tallas] at hN
      omega
  | succ N ih =>
    intro q hq hN
    cases q with
    | nil => simp [tallas] at hN
    | cons g fs =>
      have hg := hq g (List.mem_cons_self _ _)
      have hh := tallas_hijos_ne_hoja hg
      simp only [tallas] at hN
      have hrec := ih (fs ++ g.hijos)
        (by
          intro x hx
          rcases List.mem_append.1 hx with hx | hx
          · exact hq x (List.mem_cons_of_mem _ hx)
          · exact hijos_ne_hoja g x hx)
        (by rw [tallas_append]; omega)
      cases g with
      | hoja => exact absurd rfl hg
      | nodo l i c e r =>
        have hind : ∀ x : Forma, (noHoja x).flatMap indices = x.indices := by
          intro x
          cases x <;> simp [noHoja, indices]
        simp only [anchura, raiz_nodo, List.flatMap_cons, indices]
        simp only [hijos, List.flatMap_append, hind] at hrec
        refine (List.Perm.cons i hrec).trans ?_
        refine List.Perm.trans ?_ (List.Perm.append_right _ List.perm_middle.symm)
        rw [List.cons_append]
        exact List.Perm.cons i (List.perm_append_comm.trans (by rw [List.append_assoc]))

theorem perm_anchura_uno {f : Forma} : (anchura f.talla [f]).Perm f.indices := by
  by_cases hf : f = hoja
  · subst hf
    simp [anchura, talla, indices]
  · have := perm_anchura f.talla [f]
      (by intro x hx; rw [List.mem_singleton.1 hx]; exact hf) (by simp [tallas])
    simpa using this

end Forma

/-! ## The properties of the specification: traversals -/

theorem Inv.talla_le_nat {n : Nat} {t : Arbol} {f : Forma} (h : Inv n t f) {m : Nat}
    (hm : t.siguienteLibre ≤ m) : f.talla ≤ m := by
  have := h.talla_lt
  omega

/-- C21: in every reachable state `recorridoPreorden` returns the recursive
preorder of the slots below `raiz` (the slot, then its whole left subtree, then
its whole right subtree); this list has every slot that is reached from `raiz`
exactly once, and each slot in it comes before every slot below its `izq` and
`der` links. -/
theorem C21_preorden_recursivo (n : Nat) (t : Arbol) (pasos m : Nat) (h : Alcanzable n t)
    (hp : t.siguienteLibre ≤ pasos) (hm : t.siguienteLibre ≤ m) :
    recorridoPreorden pasos t = .ok (preordenRecursivo t.arreglo m t.raiz) ∧
    (preordenRecursivo t.arreglo m t.raiz).Nodup ∧
    (∀ j, j ∈ preordenRecursivo t.arreglo m t.raiz ↔ EnSubarbol t.arreglo t.raiz j) ∧
    ∀ i nd j, i ∈ preordenRecursivo t.arreglo m t.raiz → leer t.arreglo i = some nd →
      (EnSubarbol t.arreglo nd.izq j ∨ EnSubarbol t.arreglo nd.der j) →
      ∃ xs ys, preordenRecursivo t.arreglo m t.raiz = xs ++ i :: ys ∧ j ∈ ys := by
  obtain ⟨f, hf⟩ := inv_alcanzable h
  have e : preordenRecursivo t.arreglo m t.raiz = f.preorden := by
    rw [hf.raiz]
    exact Forma.preordenRecursivo_eq hf.rep m (hf.talla_le_nat hm)
  rw [e]
  refine ⟨Forma.recorridoPreorden_eq hf hp, ?_, ?_, ?_⟩
  · exact (Forma.perm_preorden f).nodup_iff.2 (Forma.rep_nodup_indices hf.rep hf.ord)
  · intro j
    rw [Forma.mem_indices_preorden, hf.raiz, Forma.enSubarbol_iff_mem hf.rep]
  · intro i nd j hi hl hj
    exact Forma.preorden_antes hf.rep i (Forma.mem_indices_preorden.1 hi) nd hl j hj

theorem C21_preorden_recursivo_witness :
    recorridoPreorden 5 ejemplo = .ok (preordenRecursivo ejemplo.arreglo 5 ejemplo.raiz) ∧
    (preordenRecursivo ejemplo.arreglo 5 ejemplo.raiz).Nodup ∧
    (∀ j, j ∈ preordenRecursivo ejemplo.arreglo 5 ejemplo.raiz ↔
      EnSubarbol ejemplo.arreglo ejemplo.raiz j) ∧
    ∀ i nd j, i ∈ preordenRecursivo ejemplo.arreglo 5 ejemplo.raiz →
      leer ejemplo.arreglo i = some nd →
      (EnSubarbol ejemplo.arreglo nd.izq j ∨ EnSubarbol ejemplo.arreglo nd.der j) →
      ∃ xs ys, preordenRecursivo ejemplo.arreglo 5 ejemplo.raiz = xs ++ i :: ys ∧ j ∈ ys :=
  C21_preorden_recursivo 5 ejemplo 5 5 alcanzable_ejemplo (by decide) (by decide)

/-- C22: in every reachable state `recorridoPostorden` returns the recursive
postorder of the slots below `raiz` (the whole left subtree, then the whole
right subtree, then the slot); this list has every slot that is reached from
`raiz` exactly once, and each slot in it comes after every slot below its `izq`
and `der` links. -/
theorem C22_postorden_recursivo (n : Nat) (t : Arbol) (pasos m : Nat) (h : Alcanzable n t)
    (hp : t.siguienteLibre ≤ pasos) (hm : t.siguienteLibre ≤ m) :
    recorridoPostorden pasos t = .ok (postordenRecursivo t.arreglo m t.raiz) ∧
    (postordenRecursivo t.arreglo m t.raiz).Nodup ∧
    (∀ j, j ∈ postordenRecursivo t.arreglo m t.raiz ↔ EnSubarbol t.arreglo t.raiz j) ∧
    ∀ i nd j, i ∈ postordenRecursivo t.arreglo m t.raiz → leer t.arreglo i = some nd →
      (EnSubarbol t.arreglo nd.izq j ∨ EnSubarbol t.arreglo nd.der j) →
      ∃ xs ys, postordenRecursivo t.arreglo m t.raiz = xs ++ i :: ys ∧ j ∈ xs := by
  obtain ⟨f, hf⟩ := inv_alcanzable h
  have e : postordenRecursivo t.arreglo m t.raiz = f.postorden := by
    rw [hf.raiz]
    exact Forma.postordenRecursivo_eq hf.rep m (hf.talla_le_nat hm)
  rw [e]
  refine ⟨Forma.recorridoPostorden_eq hf hp, ?_, ?_, ?_⟩
  · exact (Forma.perm_postorden f).nodup_iff.2 (Forma.rep_nodup_indices hf.rep hf.ord)
  · intro j
    rw [Forma.mem_indices_postorden, hf.raiz, Forma.enSubarbol_iff_mem hf.rep]
  · intro i nd j hi hl hj
    exact Forma.postorden_despues hf.rep i (Forma.mem_indices_postorden.1 hi) nd hl j hj

theorem C22_postorden_recursivo_witness :
    recorridoPostorden 5 ejemplo = .ok (postordenRecursivo ejemplo.arreglo 5 ejemplo.raiz) ∧
    (postordenRecursivo ejemplo.arreglo 5 ejemplo.raiz).Nodup ∧
    (∀ j, j ∈ postordenRecursivo ejemplo.arreglo 5 ejemplo.raiz ↔
      EnSubarbol ejemplo.arreglo ejemplo.raiz j) ∧
    ∀ i nd j, i ∈ postordenRecursivo ejemplo.arreglo 5 ejemplo.raiz →
      leer ejemplo.arreglo i = some nd →
      (EnSubarbol ejemplo.arreglo nd.izq j ∨ EnSubarbol ejemplo.arreglo nd.der j) →
      ∃ xs ys, postordenRecursivo ejemplo.arreglo 5 ejemplo.raiz = xs ++ i :: ys ∧ j ∈ xs :=
  C22_postorden_recursivo 5 ejemplo 5 5 alcanzable_ejemplo (by decide) (by decide)

/-- C23: in every reachable state `recorridoPorNiveles` returns the levels of
the slots below `raiz` one after the other by increasing depth, each level from
left to right; this list has every slot that is reached from `raiz` exactly
once. -/
theorem C23_por_niveles (n : Nat) (t : Arbol) (pasos m : Nat) (h : Alcanzable n t)
    (hp : t.siguienteLibre ≤ pasos) (hm : t.siguienteLibre ≤ m) :
    recorridoPorNiveles pasos t = .ok (porNivelesRecursivo t.arreglo m t.raiz) ∧
    (porNivelesRecursivo t.arreglo m t.raiz).Nodup ∧
    ∀ j, j ∈ porNivelesRecursivo t.arreglo m t.raiz ↔ EnSubarbol t.arreglo t.raiz j := by
  obtain ⟨f, hf⟩ := inv_alcanzable h
  have e : porNivelesRecursivo t.arreglo m t.raiz = Forma.anchura f.talla [f] := by
    rw [hf.raiz]
    exact (Forma.anchura_eq_niveles hf.rep (hf.talla_le_nat hm)).symm
  rw [e]
  refine ⟨Forma.recorridoPorNiveles_eq hf hp, ?_, ?_⟩
  · exact Forma.perm_anchura_uno.nodup_iff.2 (Forma.rep_nodup_indices hf.rep hf.ord)
  · intro j
    rw [Forma.perm_anchura_uno.mem_iff, hf.raiz, Forma.enSubarbol_iff_mem hf.rep]

theorem C23_por_niveles_witness :
    recorridoPorNiveles 5 ejemplo = .ok (porNivelesRecursivo ejemplo.arreglo 5 ejemplo.raiz) ∧
    (porNivelesRecursivo ejemplo.arreglo 5 ejemplo.raiz).Nodup ∧
    ∀ j, j ∈ porNivelesRecursivo ejemplo.arreglo 5 ejemplo.raiz ↔
      EnSubarbol ejemplo.arreglo ejemplo.raiz j :=
  C23_por_niveles 5 ejemplo 5 5 alcanzable_ejemplo (by decide) (by decide)

/-- The slots that are reached from `raiz` are the live slots. -/
theorem Inv.alcanzado_iff_vivo {n : Nat} {t : Arbol} {f : Forma} (h : Inv n t f) (j : Int) :
    EnSubarbol t.arreglo t.raiz j ↔ ∃ nd, leer t.arreglo j = some nd ∧ nd.activo = true := by
  rw [h.raiz, Forma.enSubarbol_iff_mem h.rep]
  constructor
  · intro hj
    obtain ⟨nd, h1, h2, -⟩ := Forma.rep_leer_indices h.rep j hj
    exact ⟨nd, h1, h2⟩
  · rintro ⟨nd, h1, h2⟩
    exact (h.vivo j nd h1).1 h2

/-- C24: in every reachable state the slots that are reached from `raiz` by
following `izq` and `der` links are exactly the slots with `activo` set.  So
each of the four traversals returns exactly the slots reached from `raiz` (none
is left out as dead), and the descent of `buscar` starts at `raiz` and moves
from a reached slot only to `-1` or to another reached, hence live, slot. -/
theorem C24_muertos_no_visitados (n : Nat) (t : Arbol) (h : Alcanzable n t) :
    (∀ j, EnSubarbol t.arreglo t.raiz j ↔
      ∃ nd, leer t.arreglo j = some nd ∧ nd.activo = true) ∧
    (∀ pasos : Nat, t.siguienteLibre ≤ pasos →
      ∃ r1 r2 r3 r4, recorridoInorden pasos t = .ok r1 ∧ recorridoPreorden pasos t = .ok r2 ∧
        recorridoPostorden pasos t = .ok r3 ∧ recorridoPorNiveles pasos t = .ok r4 ∧
        ∀ j, (j ∈ r1 ↔ EnSubarbol t.arreglo t.raiz j) ∧
          (j ∈ r2 ↔ EnSubarbol t.arreglo t.raiz j) ∧
          (j ∈ r3 ↔ EnSubarbol t.arreglo t.raiz j) ∧
          (j ∈ r4 ↔ EnSubarbol t.arreglo t.raiz j)) ∧
    (t.raiz = -1 ∨ EnSubarbol t.arreglo t.raiz t.raiz) ∧
    (∀ k x y, EnSubarbol t.arreglo t.raiz x → pasoBuscar t.arreglo k x = .ok (.inl y) →
      y = -1 ∨ EnSubarbol t.arreglo t.raiz y) := by
  obtain ⟨f, hf⟩ := inv_alcanzable h
  refine ⟨hf.alcanzado_iff_vivo, ?_, ?_, ?_⟩
  · intro pasos hp
    refine ⟨_, _, _, _, Forma.recorridoInorden_eq hf hp, Forma.recorridoPreorden_eq hf hp,
      Forma.recorridoPostorden_eq hf hp, Forma.recorridoPorNiveles_eq hf hp, ?_⟩
    intro j
    rw [hf.raiz, Forma.enSubarbol_iff_mem hf.rep, Forma.mem_indices_preorden,
      Forma.mem_indices_postorden, Forma.perm_anchura_uno.mem_iff]
    exact ⟨Iff.rfl, Iff.rfl, Iff.rfl, Iff.rfl⟩
  · rw [hf.raiz]
    rcases Forma.raiz_mem_o_vacio hf.rep with h0 | h0
    · exact Or.inl h0
    · exact Or.inr (Forma.enSubarbol_of_mem hf.rep _ h0)
  · intro k x y hx hpaso
    rw [hf.raiz] at hx ⊢
    have hxi := (Forma.enSubarbol_iff_mem hf.rep x).1 hx
    obtain ⟨nd, h1, h2, -⟩ := Forma.rep_leer_indices hf.rep x hxi
    have hne := Forma.rep_indices_ne hf.rep hxi
    have hen := Forma.rep_enlaces hf.rep x hxi nd h1
    simp only [pasoBuscar, if_neg hne, h1, h2] at hpaso
    by_cases hk : k = nd.clave
    · simp [hk] at hpaso
    · by_cases hlt : k < nd.clave
      · simp only [if_neg hk, if_pos hlt, Bool.true_eq_false, if_false] at hpaso
        injection hpaso with hpaso
        injection hpaso with hpaso
        rw [← hpaso]
        exact hen.1.imp id (Forma.enSubarbol_of_mem hf.rep _)
      · simp only [if_neg hk, if_neg hlt, Bool.true_eq_false, if_false] at hpaso
        injection hpaso with hpaso
        injection hpaso with hpaso
        rw [← hpaso]
        exact hen.2.imp id (Forma.enSubarbol_of_mem hf.rep _)

theorem C24_muertos_no_visitados_witness :
    (∀ j, EnSubarbol ejemploSin50.arreglo ejemploSin50.raiz j ↔
      ∃ nd, leer ejemploSin50.arreglo j = some nd ∧ nd.activo = true) ∧
    (∀ pasos : Nat, ejemploSin50.siguienteLibre ≤ pasos →
      ∃ r1 r2 r3 r4, recorridoInorden pasos ejemploSin50 = .ok r1 ∧
        recorridoPreorden pasos ejemploSin50 = .ok r2 ∧
        recorridoPostorden pasos ejemploSin50 = .ok r3 ∧
        recorridoPorNiveles pasos ejemploSin50 = .ok r4 ∧
        ∀ j, (j ∈ r1 ↔ EnSubarbol ejemploSin50.arreglo ejemploSin50.raiz j) ∧
          (j ∈ r2 ↔ EnSubarbol ejemploSin50.arreglo ejemploSin50.raiz j) ∧
          (j ∈ r3 ↔ EnSubarbol ejemploSin50.arreglo ejemploSin50.raiz j) ∧
          (j ∈ r4 ↔ EnSubarbol ejemploSin50.arreglo ejemploSin50.raiz j)) ∧
    (ejemploSin50.raiz = -1 ∨ EnSubarbol ejemploSin50.arreglo ejemploSin50.raiz ejemploSin50.raiz) ∧
    (∀ k x y, EnSubarbol ejemploSin50.arreglo ejemploSin50.raiz x →
      pasoBuscar ejemploSin50.arreglo k x = .ok (.inl y) →
      y = -1 ∨ EnSubarbol ejemploSin50.arreglo ejemploSin50.raiz y) :=
  C24_muertos_no_visitados 5 ejemploSin50 alcanzable_ejemploSin50

namespace Forma

/-! ## The successor of a slot with two children -/

theorem minimo_mem {g : Forma} (hg : g ≠ hoja) : g.minimo.1 ∈ g.claves := by
  induction g with
  | hoja => exact absurd rfl hg
  | nodo l i c d r ihl _ =>
    simp only [minimo, claves]
    by_cases hl : l = hoja
    · rw [if_pos hl]; simp
    · rw [if_neg hl]; exact List.mem_append_left _ (ihl hl)

theorem minimo_le {g : Forma} (ho : g.ordenado) : ∀ x ∈ g.claves, g.minimo.1 ≤ x := by
  induction g with
  | hoja => intro x hx; simp [claves] at hx
  | nodo l i c d r ihl _ =>
    intro x hx
    simp only [claves, List.mem_append, List.mem_cons] at hx
    simp only [minimo]
    by_cases hl : l = hoja
    · rw [if_pos hl]
      subst hl
      rcases hx with hx | rfl | hx
      · simp [claves] at hx
      · exact le_refl _
      · exact le_of_lt (ho.2.2.2 x hx)
    · rw [if_neg hl]
      have hm := ho.2.2.1 _ (minimo_mem hl)
      rcases hx with hx | rfl | hx
      · exact ihl ho.1 x hx
      · exact le_of_lt hm
      · exact le_of_lt (lt_trans hm (ho.2.2.2 x hx))

/-- The slots of the tree without its leftmost slot. -/
theorem indices_sinMinimo {g : Forma} (hg : g ≠ hoja) (hn : g.indices.Nodup) (q : Int) :
    (g.ubicaMin q).2 ∈ g.indices ∧
      ∀ x, x ∈ g.sinMinimo.indices ↔ x ∈ g.indices ∧ x ≠ (g.ubicaMin q).2 := by
  induction g generalizing q with
  | hoja => exact absurd rfl hg
  | nodo l i c d r ihl _ =>
    simp only [indices] at hn
    have hn' := List.nodup_append.1 hn
    have hcons := List.nodup_cons.1 hn'.2.1
    have hil : i ∉ l.indices := fun hx => hn'.2.2 hx (List.mem_cons_self _ _)
    simp only [ubicaMin, sinMinimo]
    by_cases hl : l = hoja
    · rw [if_pos hl, if_pos hl]
      subst hl
      refine ⟨by simp [indices], fun x => ?_⟩
      simp only [indices, List.nil_append, List.mem_cons]
      constructor
      · intro hx
        exact ⟨Or.inr hx, fun hxi => hcons.1 (hxi ▸ hx)⟩
      · rintro ⟨hx | hx, hne⟩
        · exact absurd hx hne
        · exact hx
    · rw [if_neg hl, if_neg hl]
      obtain ⟨h1, h2⟩ := ihl hl hn'.1 i
      refine ⟨by simp [indices, h1], fun x => ?_⟩
      simp only [indices, List.mem_append, List.mem_cons, h2 x]
      constructor
      · rintro (⟨hx, hne⟩ | rfl | hx)
        · exact ⟨Or.inl hx, hne⟩
        · exact ⟨Or.inr (Or.inl rfl), fun hxi => hil (hxi ▸ h1)⟩
        · exact ⟨Or.inr (Or.inr hx), fun hxi =>
            hn'.2.2 h1 (List.mem_cons_of_mem _ (hxi ▸ hx))⟩
      · rintro ⟨hx | rfl | hx, hne⟩
        · exact Or.inl ⟨hx, hne⟩
        · exact Or.inr (Or.inl rfl)
        · exact Or.inr (Or.inr hx)

/-- Where the leftmost slot of a stored tree is and how it is unlinked: it has
no left child; it is the root, and its right link becomes the new root, or it
is the left child of a slot of the tree, whose left link becomes that right
link. -/
theorem sucesor_desenlazado {a a' : List Nodo} {g : Forma} (h : Rep a g)
    (h' : Rep a' g.sinMinimo) (hg : g ≠ hoja) (hn : g.indices.Nodup) (q : Int) :
    ∃ ns, leer a (g.ubicaMin q).2 = some ns ∧ ns.izq = -1 ∧ ns.activo = true ∧
      (ns.clave, ns.id_info) = g.minimo ∧
      (((g.ubicaMin q).1 = q ∧ (g.ubicaMin q).2 = g.raiz ∧ g.sinMinimo.raiz = ns.der) ∨
        ((g.ubicaMin q).2 ≠ g.raiz ∧ g.sinMinimo.raiz = g.raiz ∧
          (g.ubicaMin q).1 ∈ g.indices ∧
          ∃ np, leer a (g.ubicaMin q).1 = some np ∧ np.izq = (g.ubicaMin q).2 ∧
            leer a' (g.ubicaMin q).1 = some { np with izq := ns.der })) := by
  induction g generalizing q with
  | hoja => exact absurd rfl hg
  | nodo l i c d r ihl _ =>
    simp only [indices] at hn
    have hn' := List.nodup_append.1 hn
    have hil : i ∉ l.indices := fun hx => hn'.2.2 hx (List.mem_cons_self _ _)
    by_cases hl : l = hoja
    · subst hl
      have hu : (nodo hoja i c d r).ubicaMin q = (q, i) := by simp [ubicaMin]
      have hs : (nodo hoja i c d r).sinMinimo = r := by simp [sinMinimo]
      have hm : (nodo hoja i c d r).minimo = (c, d) := by simp [minimo]
      rw [hu, hs, hm]
      exact ⟨_, h.1, rfl, rfl, rfl, Or.inl ⟨rfl, rfl, rfl⟩⟩
    · have hu : (nodo l i c d r).ubicaMin q = l.ubicaMin i := by simp [ubicaMin, hl]
      have hs : (nodo l i c d r).sinMinimo = nodo l.sinMinimo i c d r := by simp [sinMinimo, hl]
      have hm : (nodo l i c d r).minimo = l.minimo := by simp [minimo, hl]
      rw [hs] at h'
      rw [hu, hs, hm]
      obtain ⟨ns, e1, e2, e3, e4, e5⟩ := ihl h.2.1 h'.2.1 hl hn'.1 i
      have hsu := (indices_sinMinimo hl hn'.1 i).1
      have hne : (l.ubicaMin i).2 ≠ (nodo l i c d r).raiz := by
        intro hx
        rw [raiz_nodo] at hx
        rw [hx] at hsu
        exact hil hsu
      refine ⟨ns, e1, e2, e3, e4, Or.inr ⟨hne, rfl, ?_, ?_⟩⟩
      · rcases e5 with ⟨e6, -, -⟩ | ⟨-, -, e7, -⟩
        · rw [e6]
          simp [indices]
        · simp [indices, e7]
      · rcases e5 with ⟨e6, e7, e8⟩ | ⟨-, -, -, np, e8, e9, e10⟩
        · rw [e6]
          refine ⟨_, h.1, e7.symm, ?_⟩
          rw [h'.1, e8]
        · exact ⟨np, e8, e9, e10⟩

/-- The slot of a key that has two children, before and after `eliminar`: the
slot takes key and record id of the leftmost slot of its right part, and the
tree loses exactly that leftmost slot. -/
theorem elimina_dos_hijos {a a' : List Nodo} {f : Forma} {k i : Int} {nd : Nodo}
    (h : Rep a f) (h' : Rep a' (f.elimina k)) (ho : f.ordenado) (hn : f.indices.Nodup)
    (hi : f.indiceDe k = some i) (hl : leer a i = some nd) (hizq : nd.izq ≠ -1)
    (hder : nd.der ≠ -1) :
    ∃ (l : Forma) (d : Int) (r : Forma), r ≠ hoja ∧ Rep a r ∧
      nd = ⟨k, d, l.raiz, r.raiz, true⟩ ∧ r.ordenado ∧
      r.indices.Nodup ∧ i ∉ r.indices ∧ (∀ x ∈ r.indices, x ∈ f.indices) ∧
      (∀ x ∈ r.claves, k < x) ∧
      leer a' i = some ⟨r.minimo.1, r.minimo.2, l.raiz, r.sinMinimo.raiz, true⟩ ∧
      Rep a' r.sinMinimo ∧
      ∀ x, x ∈ (f.elimina k).indices ↔ x ∈ f.indices ∧ x ≠ (r.ubicaMin i).2 := by
  induction f with
  | hoja => simp [indiceDe] at hi
  | nodo l0 i0 c0 d0 r0 ihl ihr =>
    simp only [indices] at hn
    have hn' := List.nodup_append.1 hn
    have hcons := List.nodup_cons.1 hn'.2.1
    have hil : i0 ∉ l0.indices := fun hx => hn'.2.2 hx (List.mem_cons_self _ _)
    by_cases hk : k = c0
    · simp only [indiceDe, if_pos hk, Option.some.injEq] at hi
      subst hi
      subst hk
      rw [h.1] at hl
      cases hl
      have hl0 : l0 ≠ hoja := by
        intro hx
        subst hx
        exact hizq rfl
      have hr0 : r0 ≠ hoja := by
        intro hx
        subst hx
        exact hder rfl
      have he : (nodo l0 i0 k d0 r0).elimina k =
          nodo l0 i0 r0.minimo.1 r0.minimo.2 r0.sinMinimo := by
        simp [elimina, hl0, hr0]
      rw [he] at h' ⊢
      obtain ⟨hsu, hsin⟩ := indices_sinMinimo hr0 hcons.2 i0
      refine ⟨l0, d0, r0, hr0, h.2.2, rfl, ho.2.1, hcons.2, hcons.1, ?_, ho.2.2.2, h'.1, h'.2.2, ?_⟩
      · intro x hx
        simp [indices, hx]
      · intro x
        simp only [indices, List.mem_append, List.mem_cons, hsin x]
        constructor
        · rintro (hx | rfl | ⟨hx, hne⟩)
          · exact ⟨Or.inl hx, fun hxs => hn'.2.2 hx (List.mem_cons_of_mem _ (hxs ▸ hsu))⟩
          · exact ⟨Or.inr (Or.inl rfl), fun hxs => hcons.1 (hxs ▸ hsu)⟩
          · exact ⟨Or.inr (Or.inr hx), hne⟩
        · rintro ⟨hx | rfl | hx, hne⟩
          · exact Or.inl hx
          · exact Or.inr (Or.inl rfl)
          · exact Or.inr (Or.inr ⟨hx, hne⟩)
    · by_cases hlt : k < c0
      · simp only [indiceDe, if_neg hk, if_pos hlt] at hi
        have he : (nodo l0 i0 c0 d0 r0).elimina k = nodo (l0.elimina k) i0 c0 d0 r0 := by
          simp [elimina, hk, hlt]
        rw [he] at h' ⊢
        obtain ⟨l, d, r, e1, e2, e3, e4, e5, e6, e7, e8, e9, e10, e11⟩ :=
          ihl h.2.1 h'.2.1 ho.1 hn'.1 hi
        have hsu := e7 _ (indices_sinMinimo e1 e5 i).1
        refine ⟨l, d, r, e1, e2, e3, e4, e5, e6, ?_, e8, e9, e10, ?_⟩
        · intro x hx
          simp [indices, e7 x hx]
        · intro x
          simp only [indices, List.mem_append, List.mem_cons, e11 x]
          constructor
          · rintro (⟨hx, hne⟩ | rfl | hx)
            · exact ⟨Or.inl hx, hne⟩
            · exact ⟨Or.inr (Or.inl rfl), fun hxs => hil (hxs ▸ hsu)⟩
            · exact ⟨Or.inr (Or.inr hx), fun hxs =>
                hn'.2.2 hsu (List.mem_cons_of_mem _ (hxs ▸ hx))⟩
          · rintro ⟨hx | rfl | hx, hne⟩
            · exact Or.inl ⟨hx, hne⟩
            · exact Or.inr (Or.inl rfl)
            · exact Or.inr (Or.inr hx)
      · simp only [indiceDe, if_neg hk, if_neg hlt] at hi
        have he : (nodo l0 i0 c0 d0 r0).elimina k = nodo l0 i0 c0 d0 (r0.elimina k) := by
          simp [elimina, hk, hlt]
        rw [he] at h' ⊢
        obtain ⟨l, d, r, e1, e2, e3, e4, e5, e6, e7, e8, e9, e10, e11⟩ :=
          ihr h.2.2 h'.2.2 ho.2.1 hcons.2 hi
        have hsu := e7 _ (indices_sinMinimo e1 e5 i).1
        refine ⟨l, d, r, e1, e2, e3, e4, e5, e6, ?_, e8, e9, e10, ?_⟩
        · intro x hx
          simp [indices, e7 x hx]
        · intro x
          simp only [indices, List.mem_append, List.mem_cons, e11 x]
          constructor
          · rintro (hx | rfl | ⟨hx, hne⟩)
            · exact ⟨Or.inl hx, fun hxs =>
                hn'.2.2 hx (List.mem_cons_of_mem _ (hxs ▸ hsu))⟩
            · exact ⟨Or.inr (Or.inl rfl), fun hxs => hcons.1 (hxs ▸ hsu)⟩
            · exact ⟨Or.inr (Or.inr hx), hne⟩
          · rintro ⟨hx | rfl | hx, hne⟩
            · exact Or.inl hx
            · exact Or.inr (Or.inl rfl)
            · exact Or.inr (Or.inr ⟨hx, hne⟩)

end Forma

/-! ## The properties of the specification: deleting and inserting, slot by slot -/

/-- C25: in every reachable state, for a live key `k` in a slot `i` with two
children, `eliminar(k)` returns true; with `j` the leftmost slot below the right
link of `i` (it holds the smallest key of that subtree, which is larger than
`k`), slot `i` is afterwards still live, keeps its left link and holds key and
record id of `j`; slot `j` is as before but dead, and no other slot changes its
`activo` flag; the former right link of `j` is the new right link of `i` when
`j` was the right child of `i`, and otherwise the new left link of the slot
whose left child `j` was, the right link of `i` staying as it is. -/
theorem C25_eliminar_sucesor (n : Nat) (t : Arbol) (k i : Int) (nd : Nodo) (pasos : Nat)
    (h : Alcanzable n t) (hl : leer t.arreglo i = some nd) (ha : nd.activo = true)
    (hc : nd.clave = k) (hizq : nd.izq ≠ -1) (hder : nd.der ≠ -1)
    (hp : t.siguienteLibre ≤ pasos) :
    ∃ t' j ns nd', eliminar pasos t k = .ok (true, t') ∧
      leer t.arreglo j = some ns ∧ EnSubarbol t.arreglo nd.der j ∧ ns.izq = -1 ∧
      ns.activo = true ∧ j ≠ i ∧ k < ns.clave ∧
      (∀ x, EnSubarbol t.arreglo nd.der x → ns.clave ≤ claveEn t.arreglo x) ∧
      leer t'.arreglo i = some nd' ∧ nd'.activo = true ∧ nd'.izq = nd.izq ∧
      nd'.clave = ns.clave ∧ nd'.id_info = ns.id_info ∧
      leer t'.arreglo j = some { ns with activo := false } ∧
      (∀ x ndx ndx', x ≠ j → leer t.arreglo x = some ndx → leer t'.arreglo x = some ndx' →
        ndx'.activo = ndx.activo) ∧
      (nd.der = j → nd'.der = ns.der) ∧
      (nd.der ≠ j → nd'.der = nd.der ∧ ∃ pj np, pj ≠ i ∧ EnSubarbol t.arreglo nd.der pj ∧
        leer t.arreglo pj = some np ∧ np.izq = j ∧
        leer t'.arreglo pj = some { np with izq := ns.der }) := by
  obtain ⟨f, hf⟩ := inv_alcanzable h
  have hk : k ∈ f.claves := hf.viva_iff.1 (mem_clavesVivas.2 ⟨i, nd, hl, ha, hc⟩)
  have hidx := hf.indiceDe_eq hl ha hc
  have hnodup := Forma.rep_nodup_indices hf.rep hf.ord
  obtain ⟨a, id, -, e1, e2, e4, e5⟩ := eliminar_presente hf hp hk
  have hrep' : Forma.Rep a (f.elimina k) := e2.rep
  obtain ⟨l, d, r, r1, r2, r3, r4, r5, r6, r7, r8, r9, r10, r11⟩ :=
    Forma.elimina_dos_hijos hf.rep hrep' hf.ord hnodup hidx hl hizq hder
  obtain ⟨ns, s1, s2, s3, s4, s5⟩ := Forma.sucesor_desenlazado r2 r10 r1 r5 i
  have hjr : (r.ubicaMin i).2 ∈ r.indices := (Forma.indices_sinMinimo r1 r5 i).1
  have hclave : ns.clave = r.minimo.1 := congrArg Prod.fst s4
  have hid : ns.id_info = r.minimo.2 := congrArg Prod.snd s4
  subst r3
  refine ⟨trasEliminar t a (f.elimina k).raiz id, (r.ubicaMin i).2, ns,
    ⟨r.minimo.1, r.minimo.2, l.raiz, r.sinMinimo.raiz, true⟩, e1, s1,
    Forma.enSubarbol_of_mem r2 _ hjr, s2, s3, fun hx => r6 (hx ▸ hjr), ?_, ?_, r9, rfl, rfl,
    hclave.symm, hid.symm, ?_, ?_, ?_, ?_⟩
  · rw [hclave]
    exact r8 _ (Forma.minimo_mem r1)
  · intro x hx
    rw [hclave]
    exact Forma.minimo_le r4 _
      (Forma.mem_claves_of_mem_indices r2 (Forma.mem_indices_of_enSubarbol hx r r2 rfl))
  · have := e5 _ (r7 _ hjr) (fun hx => ((r11 _).1 hx).2 rfl)
    rw [s1] at this
    exact this
  · intro x ndx ndx' hne hx hx'
    by_cases hxf : x ∈ f.indices
    · have h1 := (hf.vivo x ndx hx).2 hxf
      have h2 := (e2.vivo x ndx' hx').2 ((r11 x).2 ⟨hxf, hne⟩)
      rw [h1, h2]
    · have := e4 x hxf
      have hx2 : leer a x = some ndx' := hx'
      rw [this, hx] at hx2
      cases hx2
      rfl
  · intro hder_j
    rcases s5 with ⟨-, -, s8⟩ | ⟨s6, -⟩
    · exact s8
    · exact absurd hder_j.symm s6
  · intro hder_j
    rcases s5 with ⟨-, s7, -⟩ | ⟨-, s7, s8, np, s9, s10, s11⟩
    · exact absurd s7.symm hder_j
    · exact ⟨s7, _, np, fun hx => r6 (hx ▸ s8), Forma.enSubarbol_of_mem r2 _ s8, s9, s10, s11⟩

theorem C25_eliminar_sucesor_witness :
    ∃ t' j ns nd', eliminar 5 ejemplo 50 = .ok (true, t') ∧
      leer ejemplo.arreglo j = some ns ∧ EnSubarbol ejemplo.arreglo 3 j ∧ ns.izq = -1 ∧
      ns.activo = true ∧ j ≠ 1 ∧ 50 < ns.clave ∧
      (∀ x, EnSubarbol ejemplo.arreglo 3 x → ns.clave ≤ claveEn ejemplo.arreglo x) ∧
      leer t'.arreglo 1 = some nd' ∧ nd'.activo = true ∧ nd'.izq = 2 ∧
      nd'.clave = ns.clave ∧ nd'.id_info = ns.id_info ∧
      leer t'.arreglo j = some { ns with activo := false } ∧
      (∀ x ndx ndx', x ≠ j → leer ejemplo.arreglo x = some ndx →
        leer t'.arreglo x = some ndx' → ndx'.activo = ndx.activo) ∧
      ((3 : Int) = j → nd'.der = ns.der) ∧
      ((3 : Int) ≠ j → nd'.der = 3 ∧ ∃ pj np, pj ≠ 1 ∧ EnSubarbol ejemplo.arreglo 3 pj ∧
        leer ejemplo.arreglo pj = some np ∧ np.izq = j ∧
        leer t'.arreglo pj = some { np with izq := ns.der }) :=
  C25_eliminar_sucesor 5 ejemplo 50 1 ⟨50, 1000, 2, 3, true⟩ 5 alcanzable_ejemplo rfl rfl rfl
    (by decide) (by decide) (by decide)

/-! ## The lines of the live records -/

theorem Inv.vivo_de_par {n : Nat} {t : Arbol} {f : Forma} (h : Inv n t f) {q : Int × Int}
    (hq : q ∈ f.pares) :
    ∃ i nd, leer t.arreglo i = some nd ∧ nd.activo = true ∧ (nd.clave, nd.id_info) = q := by
  rw [Forma.rep_pares_eq h.rep, List.mem_map] at hq
  obtain ⟨i, hi, rfl⟩ := hq
  obtain ⟨nd, h1, h2, -⟩ := Forma.rep_leer_indices h.rep i hi
  exact ⟨i, nd, h1, h2, by simp [claveEn, idEn, h1]⟩

namespace Forma

/-! ## Where a new key is linked -/

theorem raiz_inserta_hoja (k s d : Int) : (hoja.inserta k s d).raiz = s :=
  rfl

/-- The slot at which the walk for an absent key ends: a slot of the tree
whose link on the side of the key is `-1`; in the tree with the key inserted
this link is the new slot and the slot is otherwise as before. -/
theorem padre_de_insercion {a : List Nodo} {f : Forma} {k : Int} (h : Rep a f)
    (hk : k ∉ f.claves) (hf : f ≠ hoja) (q : Int) :
    (f.ubica k q).1 ∈ f.indices ∧
      ∃ np, leer a (f.ubica k q).1 = some np ∧ np.activo = true ∧
        (k < np.clave → np.izq = -1) ∧ (¬ k < np.clave → np.der = -1) ∧
        ∀ (a' : List Nodo) (s d : Int), Rep a' (f.inserta k s d) →
          leer a' (f.ubica k q).1 =
            some (if k < np.clave then { np with izq := s } else { np with der := s }) := by
  induction f generalizing q with
  | hoja => exact absurd rfl hf
  | nodo l i c e r ihl ihr =>
    simp only [claves, List.mem_append, List.mem_cons, not_or] at hk
    by_cases hlt : k < c
    · have hu : (nodo l i c e r).ubica k q = l.ubica k i := by
        simp [ubica, hk.2.1, hlt]
      have he : ∀ s d, (nodo l i c e r).inserta k s d = nodo (l.inserta k s d) i c e r := by
        intro s d
        simp [inserta, hlt]
      rw [hu]
      by_cases hl : l = hoja
      · subst hl
        refine ⟨by simp [ubica, indices], ⟨c, e, -1, r.raiz, true⟩, h.1, rfl, fun _ => rfl,
          fun hx => absurd hlt hx, ?_⟩
        intro a' s d h'
        rw [he] at h'
        rw [if_pos hlt]
        exact h'.1
      · obtain ⟨h1, np, h2, h3, h4, h5, h6⟩ := ihl h.2.1 hk.1 hl i
        refine ⟨by simp [indices, h1], np, h2, h3, h4, h5, ?_⟩
        intro a' s d h'
        rw [he] at h'
        exact h6 a' s d h'.2.1
    · have hu : (nodo l i c e r).ubica k q = r.ubica k i := by
        simp [ubica, hk.2.1, hlt]
      have he : ∀ s d, (nodo l i c e r).inserta k s d = nodo l i c e (r.inserta k s d) := by
        intro s d
        simp [inserta, hlt]
      rw [hu]
      by_cases hr : r = hoja
      · subst hr
        refine ⟨by simp [ubica, indices], ⟨c, e, l.raiz, -1, true⟩, h.1, rfl,
          fun hx => absurd hx hlt, fun _ => rfl, ?_⟩
        intro a' s d h'
        rw [he] at h'
        rw [if_neg hlt]
        exact h'.1
      · obtain ⟨h1, np, h2, h3, h4, h5, h6⟩ := ihr h.2.2 hk.2.2 hr i
        refine ⟨by simp [indices, h1], np, h2, h3, h4, h5, ?_⟩
        intro a' s d h'
        rw [he] at h'
        exact h6 a' s d h'.2.2

theorem camino_menos_uno (a : List Nodo) (k : Int) (m : Nat) : camino a k m (-1) = [] := by
  cases m <;> simp [camino]

/-- The walk for an absent key ends at the slot that `buscarPosicion` leaves
in `padre`. -/
theorem camino_ultimo_ausente {a : List Nodo} {f : Forma} {k : Int} (h : Rep a f)
    (hk : k ∉ f.claves) (hf : f ≠ hoja) :
    ∀ (m : Nat) (q : Int), f.talla ≤ m →
      (camino a k m f.raiz).getLast? = some (f.ubica k q).1 := by
  induction f with
  | hoja => exact absurd rfl hf
  | nodo l i c e r ihl ihr =>
    intro m q hm
    simp only [talla] at hm
    simp only [claves, List.mem_append, List.mem_cons, not_or] at hk
    obtain ⟨p, rfl⟩ : ∃ p, m = p + 1 := ⟨m - 1, by omega⟩
    have hi : i ≠ -1 := leer_ne_menos_uno h.1
    simp only [raiz_nodo, camino, if_neg hi, h.1, if_neg hk.2.1]
    by_cases hlt : k < c
    · have hu : (nodo l i c e r).ubica k q = l.ubica k i := by
        simp [ubica, hk.2.1, hlt]
      rw [hu, if_pos hlt]
      by_cases hl : l = hoja
      · subst hl
        simp [camino_menos_uno, ubica]
      · rw [List.getLast?_cons, ihl h.2.1 hk.1 hl p i (by omega)]
        rfl
    · have hu : (nodo l i c e r).ubica k q = r.ubica k i := by
        simp [ubica, hk.2.1, hlt]
      rw [hu, if_neg hlt]
      by_cases hr : r = hoja
      · subst hr
        simp [camino_menos_uno, ubica]
      · rw [List.getLast?_cons, ihr h.2.2 hk.2.2 hr p i (by omega)]
        rfl

/-- The walk for a key of the tree ends at the slot that holds it. -/
theorem camino_ultimo_presente {a : List Nodo} {f : Forma} {k : Int} (h : Rep a f)
    (ho : f.ordenado) (hk : k ∈ f.claves) :
    ∀ (m : Nat) (q : Int), f.talla ≤ m →
      (camino a k m f.raiz).getLast? = some (f.ubica k q).2 := by
  induction f with
  | hoja => simp [claves] at hk
  | nodo l i c e r ihl ihr =>
    intro m q hm
    simp only [talla] at hm
    obtain ⟨p, rfl⟩ : ∃ p, m = p + 1 := ⟨m - 1, by omega⟩
    have hi : i ≠ -1 := leer_ne_menos_uno h.1
    simp only [raiz_nodo, camino, if_neg hi, h.1]
    by_cases hkc : k = c
    · simp [ubica, hkc]
    · rw [if_neg hkc]
      simp only [claves, List.mem_append, List.mem_cons] at hk
      by_cases hlt : k < c
      · have hkl : k ∈ l.claves := by
          rcases hk with hk | hk | hk
          · exact hk
          · exact absurd hk hkc
          · exact absurd (ho.2.2.2 k hk) (by omega)
        have hu : (nodo l i c e r).ubica k q = l.ubica k i := by
          simp [ubica, hkc, hlt]
        rw [hu, if_pos hlt, List.getLast?_cons, ihl h.2.1 ho.1 hkl p i (by omega)]
        rfl
      · have hkr : k ∈ r.claves := by
          rcases hk with hk | hk | hk
          · exact absurd (ho.2.2.1 k hk) hlt
          · exact absurd hk hkc
          · exact hk
        have hu : (nodo l i c e r).ubica k q = r.ubica k i := by
          simp [ubica, hkc, hlt]
        rw [hu, if_neg hlt, List.getLast?_cons, ihr h.2.2 ho.2.1 hkr p i (by omega)]
        rfl

end Forma

/-! ## The properties of the specification: insertion -/

/-- C28, the claim as stated fails: the empty table of capacity 3 is reachable
and the key 5 is not live in it, but `buscarPosicion(5, padre)` entered with
`padre` equal to 77 returns `-1` and leaves `padre` at 77, not at `-1`. -/
theorem C28_contraejemplo :
    Alcanzable 3 (crear 3 1000 []) ∧ (5 : Int) ∉ clavesVivas (crear 3 1000 []) ∧
    (crear 3 1000 []).raiz = -1 ∧
    buscarPosicion 9 (crear 3 1000 []) 5 77 = .ok (-1, 77) ∧ (77 : Int) ≠ -1 :=
  ⟨Alcanzable.crear 1000 [], by decide, rfl, rfl, by decide⟩

/-- C28, amended: in every reachable state `buscarPosicion(k, padre)` returns,
whatever the value `p0` of `padre` on entry.  When `k` is live it returns the
index of the live slot that holds `k`, where the search-tree walk for `k` ends.
When `k` is not live it returns `-1`; `padre` then keeps its entry value `p0`
(the `-1` that `insertar` passes) if the tree is empty, and is otherwise the
last slot of the walk for `k`, a live slot whose link on the side of `k` (`izq`
when `k` is smaller than its key, else `der`) is `-1`. -/
theorem C28_buscarPosicion (n : Nat) (t : Arbol) (k : Int) (pasos m : Nat) (p0 : Int)
    (h : Alcanzable n t) (hp : t.siguienteLibre ≤ pasos) (hm : t.siguienteLibre ≤ m) :
    ∃ pos padre, buscarPosicion pasos t k p0 = .ok (pos, padre) ∧
      (k ∈ clavesVivas t →
        (camino t.arreglo k m t.raiz).getLast? = some pos ∧
        ∃ nd, leer t.arreglo pos = some nd ∧ nd.activo = true ∧ nd.clave = k) ∧
      (k ∉ clavesVivas t → pos = -1 ∧ (t.raiz = -1 → padre = p0) ∧
        (t.raiz ≠ -1 → (camino t.arreglo k m t.raiz).getLast? = some padre ∧
          ∃ np, leer t.arreglo padre = some np ∧ np.activo = true ∧
            (k < np.clave → np.izq = -1) ∧ (¬ k < np.clave → np.der = -1))) := by
  obtain ⟨f, hf⟩ := inv_alcanzable h
  have htalla := hf.talla_le_nat hm
  by_cases hr0 : t.raiz = -1
  · have hf0 : f = Forma.hoja := (Forma.raiz_eq_menos_uno hf.rep).1 (hf.raiz ▸ hr0)
    subst hf0
    refine ⟨-1, p0, by unfold buscarPosicion; rw [if_pos hr0], ?_, ?_⟩
    · intro hk
      have hkf := hf.viva_iff.1 hk
      simp [Forma.claves] at hkf
    · intro _
      exact ⟨rfl, fun _ => rfl, fun hx => absurd hr0 hx⟩
  have hent : buscarPosicion pasos t k p0 = buscarPosicion pasos t k (-1) := by
    unfold buscarPosicion
    rw [if_neg hr0, if_neg hr0]
  refine ⟨_, _, hent.trans (buscarPosicion_eq hf hp k), ?_, ?_⟩
  · intro hk
    have hkf := hf.viva_iff.1 hk
    obtain ⟨h1, h2⟩ := Forma.ubica_snd_of_mem hf.rep hf.ord hkf (-1)
    obtain ⟨nd, h3, h4, -⟩ := Forma.rep_leer_indices hf.rep _ h1
    refine ⟨?_, nd, h3, h4, ?_⟩
    · rw [hf.raiz]
      exact Forma.camino_ultimo_presente hf.rep hf.ord hkf m (-1) htalla
    · simpa [claveEn, h3] using h2
  · intro hk
    have hkf : k ∉ f.claves := fun hx => hk (hf.viva_iff.2 hx)
    refine ⟨Forma.ubica_snd_of_not_mem hkf (-1), fun hr => absurd hr hr0, ?_⟩
    · intro hr
      have hf0 : f ≠ Forma.hoja := fun hx => hr (by rw [hf.raiz, hx]; rfl)
      obtain ⟨-, np, h2, h3, h4, h5, -⟩ := Forma.padre_de_insercion hf.rep hkf hf0 (-1)
      refine ⟨?_, np, h2, h3, h4, h5⟩
      rw [hf.raiz]
      exact Forma.camino_ultimo_ausente hf.rep hkf hf0 m (-1) htalla

theorem C28_buscarPosicion_witness :
    ∃ pos padre, buscarPosicion 5 ejemplo 60 77 = .ok (pos, padre) ∧
      (60 ∈ clavesVivas ejemplo →
        (camino ejemplo.arreglo 60 5 ejemplo.raiz).getLast? = some pos ∧
        ∃ nd, leer ejemplo.arreglo pos = some nd ∧ nd.activo = true ∧ nd.clave = 60) ∧
      (60 ∉ clavesVivas ejemplo → pos = -1 ∧ (ejemplo.raiz = -1 → padre = 77) ∧
        (ejemplo.raiz ≠ -1 → (camino ejemplo.arreglo 60 5 ejemplo.raiz).getLast? = some padre ∧
          ∃ np, leer ejemplo.arreglo padre = some np ∧ np.activo = true ∧
            (60 < np.clave → np.izq = -1) ∧ (¬ 60 < np.clave → np.der = -1))) :=
  C28_buscarPosicion 5 ejemplo 60 5 5 77 alcanzable_ejemplo (by decide) (by decide)

namespace Forma

/-! ## The links form a tree -/

theorem raiz_mem_of_ne {a : List Nodo} {g : Forma} (h : Rep a g) (hr : g.raiz ≠ -1) :
    g.raiz ∈ g.indices := by
  rcases raiz_mem_o_vacio h with h0 | h0
  · exact absurd h0 hr
  · exact h0

/-- A link of a slot of a stored tree leads to a slot of the tree that is not
its root. -/
theorem hijo_en_arbol {a : List Nodo} {g : Forma} (h : Rep a g) (hn : g.indices.Nodup) :
    ∀ y ∈ g.indices, ∀ nd, leer a y = some nd → ∀ j, j ≠ -1 → (nd.izq = j ∨ nd.der = j) →
      j ∈ g.indices ∧ j ≠ g.raiz := by
  induction g with
  | hoja => intro y hy; simp [indices] at hy
  | nodo l i c e r ihl ihr =>
    simp only [indices] at hn
    have hn' := List.nodup_append.1 hn
    have hcons := List.nodup_cons.1 hn'.2.1
    have hil : i ∉ l.indices := fun hx => hn'.2.2 hx (List.mem_cons_self _ _)
    intro y hy nd hl j hj hlink
    simp only [indices, List.mem_append, List.mem_cons] at hy
    simp only [indices, List.mem_append, List.mem_cons, raiz_nodo]
    rcases hy with hy | rfl | hy
    · have := (ihl h.2.1 hn'.1 y hy nd hl j hj hlink).1
      exact ⟨Or.inl this, fun hx => hil (hx ▸ this)⟩
    · rw [h.1] at hl
      cases hl
      rcases hlink with rfl | rfl
      · have := raiz_mem_of_ne h.2.1 hj
        exact ⟨Or.inl this, fun hx => hil (hx ▸ this)⟩
      · have := raiz_mem_of_ne h.2.2 hj
        exact ⟨Or.inr (Or.inr this), fun hx => hcons.1 (hx ▸ this)⟩
    · have := (ihr h.2.2 hcons.2 y hy nd hl j hj hlink).1
      exact ⟨Or.inr (Or.inr this), fun hx => hcons.1 (hx ▸ this)⟩

/-- No slot of a stored tree is below one of its own links. -/
theorem sin_ciclo {a : List Nodo} {g : Forma} (h : Rep a g) (hn : g.indices.Nodup) :
    ∀ x ∈ g.indices, ∀ nd, leer a x = some nd →
      ¬ EnSubarbol a nd.izq x ∧ ¬ EnSubarbol a nd.der x := by
  induction g with
  | hoja => intro x hx; simp [indices] at hx
  | nodo l i c e r ihl ihr =>
    simp only [indices] at hn
    have hn' := List.nodup_append.1 hn
    have hcons := List.nodup_cons.1 hn'.2.1
    have hil : i ∉ l.indices := fun hx => hn'.2.2 hx (List.mem_cons_self _ _)
    intro x hx nd hl
    simp only [indices, List.mem_append, List.mem_cons] at hx
    rcases hx with hx | rfl | hx
    · exact ihl h.2.1 hn'.1 x hx nd hl
    · rw [h.1] at hl
      cases hl
      exact ⟨fun hs => hil (mem_indices_of_enSubarbol hs l h.2.1 rfl),
        fun hs => hcons.1 (mem_indices_of_enSubarbol hs r h.2.2 rfl)⟩
    · exact ihr h.2.2 hcons.2 x hx nd hl

/-- The two links of a slot of a stored tree lead to different slots. -/
theorem enlaces_distintos {a : List Nodo} {g : Forma} (h : Rep a g) (hn : g.indices.Nodup) :
    ∀ x ∈ g.indices, ∀ nd, leer a x = some nd → nd.izq ≠ -1 → nd.izq ≠ nd.der := by
  induction g with
  | hoja => intro x hx; simp [indices] at hx
  | nodo l i c e r ihl ihr =>
    simp only [indices] at hn
    have hn' := List.nodup_append.1 hn
    have hcons := List.nodup_cons.1 hn'.2.1
    intro x hx nd hl hizq
    simp only [indices, List.mem_append, List.mem_cons] at hx
    rcases hx with hx | rfl | hx
    · exact ihl h.2.1 hn'.1 x hx nd hl hizq
    · rw [h.1] at hl
      cases hl
      intro heq
      have h1 := raiz_mem_of_ne h.2.1 hizq
      have h2 : r.raiz ∈ r.indices := raiz_mem_of_ne h.2.2 (by
        intro hx
        apply hizq
        show l.raiz = -1
        rw [show l.raiz = r.raiz from heq, hx])
      exact hn'.2.2 h1 (List.mem_cons_of_mem _ (show l.raiz ∈ r.indices by
        rw [show l.raiz = r.raiz from heq]; exact h2))
    · exact ihr h.2.2 hcons.2 x hx nd hl hizq

/-- No slot of a stored tree is the child of two slots of the tree. -/
theorem un_padre {a : List Nodo} {g : Forma} (h : Rep a g) (hn : g.indices.Nodup) :
    ∀ x ∈ g.indices, ∀ y ∈ g.indices, ∀ ndx ndy, leer a x = some ndx → leer a y = some ndy →
      ∀ j, j ≠ -1 → (ndx.izq = j ∨ ndx.der = j) → (ndy.izq = j ∨ ndy.der = j) → x = y := by
  induction g with
  | hoja => intro x hx; simp [indices] at hx
  | nodo l i c e r ihl ihr =>
    simp only [indices] at hn
    have hn' := List.nodup_append.1 hn
    have hcons := List.nodup_cons.1 hn'.2.1
    have hil : i ∉ l.indices := fun hx => hn'.2.2 hx (List.mem_cons_self _ _)
    have hraiz : ∀ nd, leer a i = some nd → ∀ j, j ≠ -1 → (nd.izq = j ∨ nd.der = j) →
        (j = l.raiz ∧ j ∈ l.indices) ∨ (j = r.raiz ∧ j ∈ r.indices) := by
      intro nd hl j hj hlink
      rw [h.1] at hl
      cases hl
      rcases hlink with rfl | rfl
      · exact Or.inl ⟨rfl, raiz_mem_of_ne h.2.1 hj⟩
      · exact Or.inr ⟨rfl, raiz_mem_of_ne h.2.2 hj⟩
    have hcruce : ∀ j, j ∈ l.indices → j ∈ r.indices → False :=
      fun j h1 h2 => hn'.2.2 h1 (List.mem_cons_of_mem _ h2)
    intro x hx y hy ndx ndy hlx hly j hj hkx hky
    simp only [indices, List.mem_append, List.mem_cons] at hx hy
    rcases hx with hx | rfl | hx
    · have hjx := hijo_en_arbol h.2.1 hn'.1 x hx ndx hlx j hj hkx
      rcases hy with hy | rfl | hy
      · exact ihl h.2.1 hn'.1 x hx y hy ndx ndy hlx hly j hj hkx hky
      · rcases hraiz ndy hly j hj hky with ⟨e, -⟩ | ⟨-, e⟩
        · exact absurd e hjx.2
        · exact absurd e (fun hx2 => hcruce j hjx.1 hx2)
      · have hjy := hijo_en_arbol h.2.2 hcons.2 y hy ndy hly j hj hky
        exact absurd hjy.1 (fun hx2 => hcruce j hjx.1 hx2)
    · rcases hy with hy | rfl | hy
      · have hjy := hijo_en_arbol h.2.1 hn'.1 y hy ndy hly j hj hky
        rcases hraiz ndx hlx j hj hkx with ⟨e, -⟩ | ⟨-, e⟩
        · exact absurd e hjy.2
        · exact absurd e (fun hx2 => hcruce j hjy.1 hx2)
      · rfl
      · have hjy := hijo_en_arbol h.2.2 hcons.2 y hy ndy hly j hj hky
        rcases hraiz ndx hlx j hj hkx with ⟨-, e⟩ | ⟨e, -⟩
        · exact absurd hjy.1 (fun hx2 => hcruce j e hx2)
        · exact absurd e hjy.2
    · have hjx := hijo_en_arbol h.2.2 hcons.2 x hx ndx hlx j hj hkx
      rcases hy with hy | rfl | hy
      · have hjy := hijo_en_arbol h.2.1 hn'.1 y hy ndy hly j hj hky
        exact absurd hjx.1 (fun hx2 => hcruce j hjy.1 hx2)
      · rcases hraiz ndy hly j hj hky with ⟨-, e⟩ | ⟨e, -⟩
        · exact absurd hjx.1 (fun hx2 => hcruce j e hx2)
        · exact absurd e hjx.2
      · exact ihr h.2.2 hcons.2 x hx y hy ndx ndy hlx hly j hj hkx hky

theorem subarbol_en {a : List Nodo} {f : Forma} (h : Rep a f) :
    ∀ i ∈ f.indices, ∃ (l : Forma) (c d : Int) (r : Forma),
      leer a i = some ⟨c, d, l.raiz, r.raiz, true⟩ ∧ Rep a l ∧ Rep a r ∧
        l.talla + r.talla < f.talla := by
  induction f with
  | hoja => intro i hi; simp [indices] at hi
  | nodo l0 i0 c0 d0 r0 ihl ihr =>
    intro i hi
    simp only [indices, List.mem_append, List.mem_cons] at hi
    simp only [talla]
    rcases hi with hi | rfl | hi
    · obtain ⟨l, c, d, r, e1, e2, e3, e4⟩ := ihl h.2.1 i hi
      exact ⟨l, c, d, r, e1, e2, e3, by omega⟩
    · exact ⟨l0, c0, d0, r0, h.1, h.2.1, h.2.2, by omega⟩
    · obtain ⟨l, c, d, r, e1, e2, e3, e4⟩ := ihr h.2.2 i hi
      exact ⟨l, c, d, r, e1, e2, e3, by omega⟩

end Forma

/-! ## The properties of the specification: termination -/

/-- C27: in every reachable state the links from `raiz` form a finite tree: no
slot reached from `raiz` is below one of its own links, no slot is the child of
two reached slots or both children of one, and the reached slots are at most
`siguienteLibre - 1`, the number of allocated slots.  So, with a bound of
`siguienteLibre` on the evaluations of each loop condition (one more than the
number of allocated slots), `buscar`, `modificar`, `eliminar`, `buscarPosicion`,
the successor search of `eliminar` at a live slot with two children, and the
four traversals all return. -/
theorem C27_bucles_terminan (n : Nat) (t : Arbol) (h : Alcanzable n t) :
    (∀ x nd, EnSubarbol t.arreglo t.raiz x → leer t.arreglo x = some nd →
      ¬ EnSubarbol t.arreglo nd.izq x ∧ ¬ EnSubarbol t.arreglo nd.der x) ∧
    (∀ x y ndx ndy j, EnSubarbol t.arreglo t.raiz x → EnSubarbol t.arreglo t.raiz y →
      leer t.arreglo x = some ndx → leer t.arreglo y = some ndy → j ≠ -1 →
      (ndx.izq = j ∨ ndx.der = j) → (ndy.izq = j ∨ ndy.der = j) →
      x = y ∧ ¬ (ndx.izq = j ∧ ndx.der = j)) ∧
    (∃ slots : List Int, slots.Nodup ∧ (∀ j, j ∈ slots ↔ EnSubarbol t.arreglo t.raiz j) ∧
      (slots.length : Int) ≤ t.siguienteLibre - 1) ∧
    (∀ (pasos : Nat) (k : Int) (p : List Char), t.siguienteLibre ≤ pasos →
      (∃ r, buscar pasos t k = .ok r) ∧ (∃ r, modificar pasos t k p = .ok r) ∧
      (∃ r, eliminar pasos t k = .ok r) ∧ (∃ r, buscarPosicion pasos t k (-1) = .ok r) ∧
      (∀ i nd, leer t.arreglo i = some nd → nd.activo = true → nd.izq ≠ -1 → nd.der ≠ -1 →
        ∃ r, iterar (pasoSucesor t.arreglo) pasos (i, nd.der) = .ok r) ∧
      (∃ r, recorridoInorden pasos t = .ok r) ∧ (∃ r, recorridoPreorden pasos t = .ok r) ∧
      (∃ r, recorridoPostorden pasos t = .ok r) ∧
      (∃ r, recorridoPorNiveles pasos t = .ok r)) := by
  obtain ⟨f, hf⟩ := inv_alcanzable h
  have hnd := Forma.rep_nodup_indices hf.rep hf.ord
  have hmem : ∀ x, EnSubarbol t.arreglo t.raiz x → x ∈ f.indices := by
    intro x hx
    rw [hf.raiz] at hx
    exact (Forma.enSubarbol_iff_mem hf.rep x).1 hx
  refine ⟨?_, ?_, ?_, ?_⟩
  · intro x nd hx hl
    exact Forma.sin_ciclo hf.rep hnd x (hmem x hx) nd hl
  · intro x y ndx ndy j hx hy hlx hly hj hkx hky
    refine ⟨Forma.un_padre hf.rep hnd x (hmem x hx) y (hmem y hy) ndx ndy hlx hly j hj hkx hky,
      ?_⟩
    rintro ⟨e1, e2⟩
    exact Forma.enlaces_distintos hf.rep hnd x (hmem x hx) ndx hlx (by rw [e1]; exact hj)
      (by rw [e1, e2])
  · refine ⟨f.indices, hnd, ?_, ?_⟩
    · intro j
      rw [hf.raiz, Forma.enSubarbol_iff_mem hf.rep]
    · have := hf.talla_lt
      rw [Forma.length_indices]
      omega
  · intro pasos k p hp
    refine ⟨⟨_, buscar_eq hf hp k⟩, modificar_total hf hp k p, eliminar_total hf hp k,
      ⟨_, buscarPosicion_eq hf hp k⟩, ?_, ⟨_, Forma.recorridoInorden_eq hf hp⟩,
      ⟨_, Forma.recorridoPreorden_eq hf hp⟩, ⟨_, Forma.recorridoPostorden_eq hf hp⟩,
      ⟨_, Forma.recorridoPorNiveles_eq hf hp⟩⟩
    intro i nd hl ha hizq hder
    obtain ⟨l, c, d, r, e1, e2, e3, e4⟩ := Forma.subarbol_en hf.rep i ((hf.vivo i nd hl).1 ha)
    rw [hl] at e1
    cases e1
    have hr : r ≠ Forma.hoja := by
      intro hx
      subst hx
      exact hder rfl
    have htalla := hf.talla_lt_pasos hp
    exact ⟨_, Forma.iterar_pasoSucesor e3 hr pasos i (by omega)⟩

theorem C27_bucles_terminan_witness :
    (∀ x nd, EnSubarbol ejemplo.arreglo ejemplo.raiz x → leer ejemplo.arreglo x = some nd →
      ¬ EnSubarbol ejemplo.arreglo nd.izq x ∧ ¬ EnSubarbol ejemplo.arreglo nd.der x) ∧
    (∀ x y ndx ndy j, EnSubarbol ejemplo.arreglo ejemplo.raiz x →
      EnSubarbol ejemplo.arreglo ejemplo.raiz y →
      leer ejemplo.arreglo x = some ndx → leer ejemplo.arreglo y = some ndy → j ≠ -1 →
      (ndx.izq = j ∨ ndx.der = j) → (ndy.izq = j ∨ ndy.der = j) →
      x = y ∧ ¬ (ndx.izq = j ∧ ndx.der = j)) ∧
    (∃ slots : List Int, slots.Nodup ∧
      (∀ j, j ∈ slots ↔ EnSubarbol ejemplo.arreglo ejemplo.raiz j) ∧
      (slots.length : Int) ≤ ejemplo.siguienteLibre - 1) ∧
    (∀ (pasos : Nat) (k : Int) (p : List Char), ejemplo.siguienteLibre ≤ pasos →
      (∃ r, buscar pasos ejemplo k = .ok r) ∧ (∃ r, modificar pasos ejemplo k p = .ok r) ∧
      (∃ r, eliminar pasos ejemplo k = .ok r) ∧
      (∃ r, buscarPosicion pasos ejemplo k (-1) = .ok r) ∧
      (∀ i nd, leer ejemplo.arreglo i = some nd → nd.activo = true → nd.izq ≠ -1 →
        nd.der ≠ -1 → ∃ r, iterar (pasoSucesor ejemplo.arreglo) pasos (i, nd.der) = .ok r) ∧
      (∃ r, recorridoInorden pasos ejemplo = .ok r) ∧
      (∃ r, recorridoPreorden pasos ejemplo = .ok r) ∧
      (∃ r, recorridoPostorden pasos ejemplo = .ok r) ∧
      (∃ r, recorridoPorNiveles pasos ejemplo = .ok r)) :=
  C27_bucles_terminan 5 ejemplo alcanzable_ejemplo

/-! ## The indices of the array accesses -/

theorem leerDato_eq {a : List Nodo} {i : Int} (h : i ≠ 0) : leerDato a i = leer a i := by
  unfold leerDato leer
  by_cases h1 : 1 ≤ i
  · rw [if_pos h1]
  · rw [if_neg h1, if_neg (by omega)]

theorem enlace_no_cero {t : Arbol} {x : Int} (h : EnlaceValido t x) : x ≠ 0 := by
  rcases h with h | h <;> omega

theorem sinCero_alcanzable {n : Nat} {t : Arbol} (h : Alcanzable n t) : SinCero t.arreglo :=
  fun i nd hl =>
    ⟨enlace_no_cero (enlaces_alcanzable h i nd hl).1, enlace_no_cero (enlaces_alcanzable h i nd hl).2⟩

/-- Two loops whose steps agree on the states that satisfy an invariant of the
second loop agree from every such state. -/
theorem iterar_igual {σ ρ : Type} (P : σ → Prop) {paso paso' : σ → Except Falla (σ ⊕ ρ)}
    (h1 : ∀ s, P s → paso' s = paso s) (h2 : ∀ s s', P s → paso s = .ok (.inl s') → P s') :
    ∀ (k : Nat) (s : σ), P s → iterar paso' k s = iterar paso k s := by
  intro k
  induction k with
  | zero => intro s _; rfl
  | succ k ih =>
    intro s hs
    unfold iterar
    rw [h1 s hs]
    cases hp : paso s with
    | error e => rfl
    | ok r =>
      cases r with
      | inl s' => exact ih s' (h2 s s' hs hp)
      | inr r => rfl

/-- What holds of every value with which a step leaves the loop, from a state
that satisfies an invariant, holds of the result of the loop. -/
theorem iterar_sale {σ ρ : Type} (P : σ → Prop) (Q : ρ → Prop)
    {paso : σ → Except Falla (σ ⊕ ρ)}
    (h2 : ∀ s s', P s → paso s = .ok (.inl s') → P s')
    (h3 : ∀ s r, P s → paso s = .ok (.inr r) → Q r) :
    ∀ (k : Nat) (s : σ) (r : ρ), P s → iterar paso k s = .ok r → Q r := by
  intro k
  induction k with
  | zero => intro s r _ h; cases h
  | succ k ih =>
    intro s r hs h
    unfold iterar at h
    cases hp : paso s with
    | error e => rw [hp] at h; cases h
    | ok x =>
      rw [hp] at h
      cases x with
      | inl s' => exact ih s' r (h2 s s' hs hp) h
      | inr r' =>
        injection h with h
        subst h
        exact h3 s r' hs hp

/-! ### With the plain read the operations are the operations of the program -/

theorem pasoBuscarPosicionCon_leer : pasoBuscarPosicionCon leer = pasoBuscarPosicion := rfl

theorem buscarPosicionCon_leer : buscarPosicionCon leer = buscarPosicion := rfl

theorem insertarCon_leer : insertarCon leer = insertar := rfl

theorem pasoBuscarCon_leer : pasoBuscarCon leer = pasoBuscar := rfl

theorem buscarCon_leer : buscarCon leer = buscar := rfl

theorem actualizarCon_leer : actualizarCon leer = actualizar := rfl

theorem pasoBuscarEliminarCon_leer : pasoBuscarEliminarCon leer = pasoBuscarEliminar := rfl

theorem pasoSucesorCon_leer : pasoSucesorCon leer = pasoSucesor := rfl

theorem reenlazarCon_leer : reenlazarCon leer = reenlazar := rfl

theorem eliminarNodoCon_leer : eliminarNodoCon leer = eliminarNodo := rfl

theorem eliminarCon_leer : eliminarCon leer = eliminar := rfl

theorem pasoModificarCon_leer : pasoModificarCon leer = pasoModificar := rfl

theorem modificarCon_leer : modificarCon leer = modificar := rfl

theorem pasoBajarCon_leer : pasoBajarCon leer = pasoBajar := rfl

theorem pasoInordenCon_leer : pasoInordenCon leer = pasoInorden := rfl

theorem recorridoInordenCon_leer : recorridoInordenCon leer = recorridoInorden := rfl

theorem pasoPreordenCon_leer : pasoPreordenCon leer = pasoPreorden := rfl

theorem recorridoPreordenCon_leer : recorridoPreordenCon leer = recorridoPreorden := rfl

theorem pasoPostordenCon_leer : pasoPostordenCon leer = pasoPostorden := rfl

theorem vaciarPila2Con_leer (a : List Nodo) :
    ∀ (pila resultado : List Int), vaciarPila2Con leer a pila resultado = vaciarPila2 a pila resultado := by
  intro pila
  induction pila with
  | nil => intro r; rfl
  | cons x xs ih =>
    intro r
    unfold vaciarPila2Con vaciarPila2
    cases leer a x with
    | none => rfl
    | some nd => exact ih _

theorem recorridoPostordenCon_leer (pasos : Nat) (t : Arbol) :
    recorridoPostordenCon leer pasos t = recorridoPostorden pasos t := by
  unfold recorridoPostordenCon recorridoPostorden
  rw [pasoPostordenCon_leer]
  by_cases h : t.raiz = -1
  · rw [if_pos h, if_pos h]
  · rw [if_neg h, if_neg h]
    cases iterar (pasoPostorden t.arreglo) pasos ([t.raiz], []) with
    | error e => rfl
    | ok p => exact vaciarPila2Con_leer _ _ _

theorem pasoPorNivelesCon_leer : pasoPorNivelesCon leer = pasoPorNiveles := rfl

theorem recorridoPorNivelesCon_leer : recorridoPorNivelesCon leer = recorridoPorNiveles := rfl

/-! ### With the read of the data slots the descents take the same steps -/

theorem pasoBuscarCon_dato (a : List Nodo) (k : Int) {s : Int} (hs : s ≠ 0) :
    pasoBuscarCon leerDato a k s = pasoBuscar a k s := by
  simp only [pasoBuscarCon, pasoBuscar, leerDato_eq hs]

theorem pasoBuscar_sigue {a : List Nodo} (ha : SinCero a) {k s s' : Int}
    (h : pasoBuscar a k s = .ok (.inl s')) : s' ≠ 0 := by
  cases hl : leer a s with
  | none => simp only [pasoBuscar, hl] at h; split_ifs at h; cases h
  | some nd =>
    simp only [pasoBuscar, hl] at h
    split_ifs at h <;> simp only [Except.ok.injEq, Sum.inl.injEq, reduceCtorEq] at h <;> subst h
    · exact (ha _ _ hl).1
    · exact (ha _ _ hl).2

theorem buscarCon_dato {t : Arbol} (ha : SinCero t.arreglo) (hr : t.raiz ≠ 0) (pasos : Nat)
    (k : Int) : buscarCon leerDato pasos t k = buscar pasos t k := by
  unfold buscarCon buscar
  rw [iterar_igual (fun s => s ≠ 0) (fun s hs => pasoBuscarCon_dato t.arreglo k hs)
    (fun s s' _ h => pasoBuscar_sigue ha h) pasos t.raiz hr]

theorem pasoModificarCon_dato (a : List Nodo) (k : Int) {s : Int} (hs : s ≠ 0) :
    pasoModificarCon leerDato a k s = pasoModificar a k s := by
  simp only [pasoModificarCon, pasoModificar, leerDato_eq hs]

theorem pasoModificar_sigue {a : List Nodo} (ha : SinCero a) {k s s' : Int}
    (h : pasoModificar a k s = .ok (.inl s')) : s' ≠ 0 := by
  cases hl : leer a s with
  | none => simp only [pasoModificar, hl] at h; split_ifs at h; cases h
  | some nd =>
    simp only [pasoModificar, hl] at h
    split_ifs at h <;> simp only [Except.ok.injEq, Sum.inl.injEq, reduceCtorEq] at h <;> subst h
    · exact (ha _ _ hl).1
    · exact (ha _ _ hl).2

theorem pasoModificar_sale {a : List Nodo} {k s : Int} (hs : s ≠ 0) {r : Option Int}
    (h : pasoModificar a k s = .ok (.inr r)) : ∀ j, r = some j → j ≠ 0 := by
  intro j hj
  subst hj
  cases hl : leer a s with
  | none => simp only [pasoModificar, hl] at h; split_ifs at h; cases h
  | some nd =>
    simp only [pasoModificar, hl] at h
    split_ifs at h <;>
      simp only [Except.ok.injEq, Sum.inr.injEq, reduceCtorEq, Option.some.injEq] at h
    subst h
    exact hs

theorem modificarCon_dato {t : Arbol} (ha : SinCero t.arreglo) (hr : t.raiz ≠ 0) (pasos : Nat)
    (k : Int) (p : List Char) : modificarCon leerDato pasos t k p = modificar pasos t k p := by
  unfold modificarCon modificar
  rw [iterar_igual (fun s => s ≠ 0) (fun s hs => pasoModificarCon_dato t.arreglo k hs)
    (fun s s' _ h => pasoModificar_sigue ha h) pasos t.raiz hr]
  cases hres : iterar (pasoModificar t.arreglo k) pasos t.raiz with
  | error e => rfl
  | ok r =>
    cases r with
    | none => rfl
    | some j =>
      have hj : j ≠ 0 := iterar_sale (fun s => s ≠ 0) (fun r => ∀ j, r = some j → j ≠ 0)
        (fun s s' _ h => pasoModificar_sigue ha h) (fun s r hs h => pasoModificar_sale hs h)
        pasos t.raiz _ hr hres j rfl
      simp only
      rw [leerDato_eq hj]

/-! ### Insertion -/

theorem pasoBuscarPosicionCon_dato (a : List Nodo) (k : Int) {s : Int × Int} (hs : s.2 ≠ 0) :
    pasoBuscarPosicionCon leerDato a k s = pasoBuscarPosicion a k s := by
  obtain ⟨padre, actual⟩ := s
  simp only [pasoBuscarPosicionCon, pasoBuscarPosicion, leerDato_eq hs]

theorem pasoBuscarPosicion_sigue {a : List Nodo} (ha : SinCero a) {k : Int} {s s' : Int × Int}
    (hs : s.1 ≠ 0 ∧ s.2 ≠ 0) (h : pasoBuscarPosicion a k s = .ok (.inl s')) :
    s'.1 ≠ 0 ∧ s'.2 ≠ 0 := by
  obtain ⟨padre, actual⟩ := s
  cases hl : leer a actual with
  | none => simp only [pasoBuscarPosicion, hl] at h; split_ifs at h; cases h
  | some nd =>
    simp only [pasoBuscarPosicion, hl] at h
    split_ifs at h <;> simp only [Except.ok.injEq, Sum.inl.injEq, reduceCtorEq] at h <;> subst h
    · exact ⟨hs.2, (ha _ _ hl).1⟩
    · exact ⟨hs.2, (ha _ _ hl).2⟩

theorem pasoBuscarPosicion_sale {a : List Nodo} {k : Int} {s r : Int × Int}
    (hs : s.1 ≠ 0 ∧ s.2 ≠ 0) (h : pasoBuscarPosicion a k s = .ok (.inr r)) :
    r.1 ≠ 0 ∧ r.2 ≠ 0 := by
  obtain ⟨padre, actual⟩ := s
  cases hl : leer a actual with
  | none =>
    simp only [pasoBuscarPosicion, hl] at h
    split_ifs at h
    simp only [Except.ok.injEq, Sum.inr.injEq] at h
    subst h
    exact ⟨by norm_num, hs.1⟩
  | some nd =>
    simp only [pasoBuscarPosicion, hl] at h
    split_ifs at h <;> simp only [Except.ok.injEq, Sum.inr.injEq, reduceCtorEq] at h <;> subst h
    · exact ⟨by norm_num, hs.1⟩
    · exact ⟨hs.2, hs.1⟩

theorem buscarPosicionCon_dato {t : Arbol} (ha : SinCero t.arreglo) (hr : t.raiz ≠ 0)
    (pasos : Nat) (k p0 : Int) :
    buscarPosicionCon leerDato pasos t k p0 = buscarPosicion pasos t k p0 := by
  unfold buscarPosicionCon buscarPosicion
  rw [iterar_igual (fun s : Int × Int => s.1 ≠ 0 ∧ s.2 ≠ 0)
    (fun s hs => pasoBuscarPosicionCon_dato t.arreglo k hs.2)
    (fun s s' hs h => pasoBuscarPosicion_sigue ha hs h) pasos (-1, t.raiz) ⟨by norm_num, hr⟩]

/-- The indices that `buscarPosicion` returns are not 0. -/
theorem buscarPosicion_no_cero {t : Arbol} (ha : SinCero t.arreglo) (hr : t.raiz ≠ 0)
    {pasos : Nat} {k pos padre : Int}
    (h : buscarPosicion pasos t k (-1) = .ok (pos, padre)) : pos ≠ 0 ∧ padre ≠ 0 := by
  unfold buscarPosicion at h
  split_ifs at h
  · simp only [Except.ok.injEq, Prod.mk.injEq] at h
    obtain ⟨rfl, rfl⟩ := h
    exact ⟨by norm_num, by norm_num⟩
  · exact iterar_sale (fun s : Int × Int => s.1 ≠ 0 ∧ s.2 ≠ 0)
      (fun r : Int × Int => r.1 ≠ 0 ∧ r.2 ≠ 0)
      (fun s s' hs h => pasoBuscarPosicion_sigue ha hs h)
      (fun s r hs h => pasoBuscarPosicion_sale hs h) pasos (-1, t.raiz) (pos, padre)
      ⟨by norm_num, hr⟩ h

theorem insertarCon_dato {t : Arbol} (ha : SinCero t.arreglo) (hr : t.raiz ≠ 0)
    (hl : t.siguienteLibre ≠ 0) (pasos : Nat) (k : Int) (p : List Char) :
    insertarCon leerDato pasos t k p = insertar pasos t k p := by
  unfold insertarCon insertar
  rw [buscarPosicionCon_dato ha hr]
  by_cases hfull : t.siguienteLibre > t.tamano
  · rw [if_pos hfull, if_pos hfull]
  rw [if_neg hfull, if_neg hfull]
  cases hres : buscarPosicion pasos t k (-1) with
  | error e => rfl
  | ok r =>
    obtain ⟨pos, padre⟩ := r
    obtain ⟨h1, h2⟩ := buscarPosicion_no_cero ha hr hres
    simp only [leerDato_eq h1, leerDato_eq h2, leerDato_eq hl]

/-! ### Deletion -/

theorem pasoBuscarEliminarCon_dato (a : List Nodo) (k : Int) {s : Int × Int} (hs : s.2 ≠ 0) :
    pasoBuscarEliminarCon leerDato a k s = pasoBuscarEliminar a k s := by
  obtain ⟨padre, actual⟩ := s
  simp only [pasoBuscarEliminarCon, pasoBuscarEliminar, leerDato_eq hs]

theorem pasoBuscarEliminar_sigue {a : List Nodo} (ha : SinCero a) {k : Int} {s s' : Int × Int}
    (hs : s.1 ≠ 0 ∧ s.2 ≠ 0) (h : pasoBuscarEliminar a k s = .ok (.inl s')) :
    s'.1 ≠ 0 ∧ s'.2 ≠ 0 := by
  obtain ⟨padre, actual⟩ := s
  cases hl : leer a actual with
  | none => simp only [pasoBuscarEliminar, hl] at h; split_ifs at h; cases h
  | some nd =>
    simp only [pasoBuscarEliminar, hl] at h
    split_ifs at h <;> simp only [Except.ok.injEq, Sum.inl.injEq, reduceCtorEq] at h <;> subst h
    · exact ⟨hs.2, (ha _ _ hl).1⟩
    · exact ⟨hs.2, (ha _ _ hl).2⟩

theorem pasoBuscarEliminar_sale {a : List Nodo} {k : Int} {s : Int × Int} {r : Bool × Int × Int}
    (hs : s.1 ≠ 0 ∧ s.2 ≠ 0) (h : pasoBuscarEliminar a k s = .ok (.inr r)) :
    r.2.1 ≠ 0 ∧ r.2.2 ≠ 0 := by
  obtain ⟨padre, actual⟩ := s
  cases hl : leer a actual with
  | none =>
    simp only [pasoBuscarEliminar, hl] at h
    split_ifs at h
    simp only [Except.ok.injEq, Sum.inr.injEq] at h
    subst h
    exact hs
  | some nd =>
    simp only [pasoBuscarEliminar, hl] at h
    split_ifs at h <;> simp only [Except.ok.injEq, Sum.inr.injEq, reduceCtorEq] at h <;> subst h <;>
      exact hs

theorem pasoSucesorCon_dato (a : List Nodo) {s : Int × Int} (hs : s.2 ≠ 0) :
    pasoSucesorCon leerDato a s = pasoSucesor a s := by
  obtain ⟨sp, su⟩ := s
  simp only [pasoSucesorCon, pasoSucesor, leerDato_eq hs]

theorem pasoSucesor_sigue {a : List Nodo} (ha : SinCero a) {s s' : Int × Int}
    (hs : s.1 ≠ 0 ∧ s.2 ≠ 0) (h : pasoSucesor a s = .ok (.inl s')) : s'.1 ≠ 0 ∧ s'.2 ≠ 0 := by
  obtain ⟨sp, su⟩ := s
  cases hl : leer a su with
  | none => simp only [pasoSucesor, hl] at h; cases h
  | some nd =>
    simp only [pasoSucesor, hl] at h
    split_ifs at h <;> simp only [Except.ok.injEq, Sum.inl.injEq, reduceCtorEq] at h
    subst h
    exact ⟨hs.2, (ha _ _ hl).1⟩

theorem pasoSucesor_sale {a : List Nodo} {s r : Int × Int}
    (hs : s.1 ≠ 0 ∧ s.2 ≠ 0) (h : pasoSucesor a s = .ok (.inr r)) : r.1 ≠ 0 ∧ r.2 ≠ 0 := by
  obtain ⟨sp, su⟩ := s
  cases hl : leer a su with
  | none => simp only [pasoSucesor, hl] at h; cases h
  | some nd =>
    simp only [pasoSucesor, hl] at h
    split_ifs at h <;> simp only [Except.ok.injEq, Sum.inr.injEq, reduceCtorEq] at h
    subst h
    exact hs

theorem actualizarCon_dato (a : List Nodo) {i : Int} (hi : i ≠ 0) (f : Nodo → Nodo) :
    actualizarCon leerDato a i f = actualizar a i f := by
  unfold actualizarCon actualizar
  rw [leerDato_eq hi]

theorem reenlazarCon_dato (a : List Nodo) (raiz : Int) {padre : Int} (hp : padre ≠ 0)
    (actual hijo : Int) :
    reenlazarCon leerDato a raiz padre actual hijo = reenlazar a raiz padre actual hijo := by
  unfold reenlazarCon reenlazar
  rw [leerDato_eq hp]

theorem eliminarNodoCon_dato {a : List Nodo} (ha : SinCero a) (pasos : Nat) (raiz : Int)
    {padre actual : Int} (hp : padre ≠ 0) (hac : actual ≠ 0) :
    eliminarNodoCon leerDato pasos a raiz padre actual = eliminarNodo pasos a raiz padre actual := by
  unfold eliminarNodoCon eliminarNodo
  rw [leerDato_eq hac]
  cases hl : leer a actual with
  | none => rfl
  | some nd =>
    dsimp only
    by_cases h1 : nd.izq = -1 ∧ nd.der = -1
    · rw [if_pos h1, if_pos h1, reenlazarCon_dato _ _ hp]
      simp only [actualizarCon_dato _ hac]
    · rw [if_neg h1, if_neg h1]
      by_cases h2 : nd.izq = -1 ∨ nd.der = -1
      · rw [if_pos h2, if_pos h2, reenlazarCon_dato _ _ hp]
        simp only [actualizarCon_dato _ hac]
      · rw [if_neg h2, if_neg h2, iterar_igual (fun s : Int × Int => s.1 ≠ 0 ∧ s.2 ≠ 0)
          (fun s hs => pasoSucesorCon_dato a hs.2)
          (fun s s' hs h => pasoSucesor_sigue ha hs h) pasos (actual, nd.der)
          ⟨hac, (ha _ _ hl).2⟩]
        cases hres : iterar (pasoSucesor a) pasos (actual, nd.der) with
        | error e => rfl
        | ok r =>
          obtain ⟨sp, su⟩ := r
          obtain ⟨h3, h4⟩ := iterar_sale (fun s : Int × Int => s.1 ≠ 0 ∧ s.2 ≠ 0)
            (fun r : Int × Int => r.1 ≠ 0 ∧ r.2 ≠ 0)
            (fun s s' hs h => pasoSucesor_sigue ha hs h)
            (fun s r hs h => pasoSucesor_sale hs h) pasos (actual, nd.der) (sp, su)
            ⟨hac, (ha _ _ hl).2⟩ hres
          simp only [bind, Except.bind, leerDato_eq h4, actualizarCon_dato _ h3,
            actualizarCon_dato _ h4, actualizarCon_dato _ hac]

theorem eliminarCon_dato {t : Arbol} (ha : SinCero t.arreglo) (hr : t.raiz ≠ 0) (pasos : Nat)
    (k : Int) : eliminarCon leerDato pasos t k = eliminar pasos t k := by
  unfold eliminarCon eliminar
  rw [iterar_igual (fun s : Int × Int => s.1 ≠ 0 ∧ s.2 ≠ 0)
    (fun s hs => pasoBuscarEliminarCon_dato t.arreglo k hs.2)
    (fun s s' hs h => pasoBuscarEliminar_sigue ha hs h) pasos (-1, t.raiz) ⟨by norm_num, hr⟩]
  cases hres : iterar (pasoBuscarEliminar t.arreglo k) pasos (-1, t.raiz) with
  | error e => rfl
  | ok r =>
    obtain ⟨b, padre, actual⟩ := r
    obtain ⟨h1, h2⟩ := iterar_sale (fun s : Int × Int => s.1 ≠ 0 ∧ s.2 ≠ 0)
      (fun r : Bool × Int × Int => r.2.1 ≠ 0 ∧ r.2.2 ≠ 0)
      (fun s s' hs h => pasoBuscarEliminar_sigue ha hs h)
      (fun s r hs h => pasoBuscarEliminar_sale hs h) pasos (-1, t.raiz) (b, padre, actual)
      ⟨by norm_num, hr⟩ hres
    cases b with
    | false => rfl
    | true =>
      simp only
      rw [leerDato_eq h2, eliminarNodoCon_dato ha pasos t.raiz h1 h2]

/-! ### The traversals -/

theorem sinCeros_nil : SinCeros [] := fun _ h => nomatch h

theorem sinCeros_cons {x : Int} {l : List Int} (hx : x ≠ 0) (hl : SinCeros l) :
    SinCeros (x :: l) := by
  intro y hy
  rcases List.mem_cons.1 hy with rfl | hy
  · exact hx
  · exact hl y hy

theorem sinCeros_concat {x : Int} {l : List Int} (hl : SinCeros l) (hx : x ≠ 0) :
    SinCeros (l ++ [x]) := by
  intro y hy
  rcases List.mem_append.1 hy with hy | hy
  · exact hl y hy
  · rw [List.mem_singleton] at hy
    rw [hy]
    exact hx

theorem pasoBajarCon_dato (a : List Nodo) {s : Int × List Int} (hs : s.1 ≠ 0) :
    pasoBajarCon leerDato a s = pasoBajar a s := by
  obtain ⟨actual, pila⟩ := s
  simp only [pasoBajarCon, pasoBajar, leerDato_eq hs]

theorem pasoBajar_sigue {a : List Nodo} (ha : SinCero a) {s s' : Int × List Int}
    (hs : s.1 ≠ 0 ∧ SinCeros s.2) (h : pasoBajar a s = .ok (.inl s')) :
    s'.1 ≠ 0 ∧ SinCeros s'.2 := by
  obtain ⟨actual, pila⟩ := s
  cases hl : leer a actual with
  | none => simp only [pasoBajar, hl] at h; split_ifs at h; cases h
  | some nd =>
    simp only [pasoBajar, hl] at h
    split_ifs at h <;> simp only [Except.ok.injEq, Sum.inl.injEq, reduceCtorEq] at h
    subst h
    exact ⟨(ha _ _ hl).1, sinCeros_cons hs.1 hs.2⟩

theorem pasoBajar_sale {a : List Nodo} {s : Int × List Int} {r : List Int}
    (hs : s.1 ≠ 0 ∧ SinCeros s.2) (h : pasoBajar a s = .ok (.inr r)) : SinCeros r := by
  obtain ⟨actual, pila⟩ := s
  cases hl : leer a actual with
  | none =>
    simp only [pasoBajar, hl] at h
    split_ifs at h
    simp only [Except.ok.injEq, Sum.inr.injEq] at h
    subst h
    exact hs.2
  | some nd =>
    simp only [pasoBajar, hl] at h
    split_ifs at h <;> simp only [Except.ok.injEq, Sum.inr.injEq, reduceCtorEq] at h
    subst h
    exact hs.2

theorem pasoInordenCon_dato (pasos : Nat) {a : List Nodo} (ha : SinCero a)
    {s : Int × List Int × List Int} (hs : s.1 ≠ 0 ∧ SinCeros s.2.1) :
    pasoInordenCon leerDato pasos a s = pasoInorden pasos a s := by
  obtain ⟨actual, pila, res⟩ := s
  simp only [pasoInordenCon, pasoInorden]
  rw [iterar_igual (fun s : Int × List Int => s.1 ≠ 0 ∧ SinCeros s.2)
    (fun s hs => pasoBajarCon_dato a hs.1) (fun s s' hs h => pasoBajar_sigue ha hs h)
    pasos (actual, pila) hs]
  split_ifs with h0
  · rfl
  cases hres : iterar (pasoBajar a) pasos (actual, pila) with
  | error e => rfl
  | ok r =>
    cases r with
    | nil => rfl
    | cons tope resto =>
      have hr := iterar_sale (fun s : Int × List Int => s.1 ≠ 0 ∧ SinCeros s.2) SinCeros
        (fun s s' hs h => pasoBajar_sigue ha hs h) (fun s r hs h => pasoBajar_sale hs h)
        pasos (actual, pila) _ hs hres
      simp only [leerDato_eq (hr tope (List.mem_cons_self _ _))]

theorem pasoInorden_sigue (pasos : Nat) {a : List Nodo} (ha : SinCero a)
    {s s' : Int × List Int × List Int} (hs : s.1 ≠ 0 ∧ SinCeros s.2.1)
    (h : pasoInorden pasos a s = .ok (.inl s')) : s'.1 ≠ 0 ∧ SinCeros s'.2.1 := by
  obtain ⟨actual, pila, res⟩ := s
  simp only [pasoInorden] at h
  split_ifs at h with h0
  · cases h
  cases hres : iterar (pasoBajar a) pasos (actual, pila) with
  | error e => rw [hres] at h; cases h
  | ok r =>
    have hr := iterar_sale (fun s : Int × List Int => s.1 ≠ 0 ∧ SinCeros s.2) SinCeros
      (fun s s' hs h => pasoBajar_sigue ha hs h) (fun s r hs h => pasoBajar_sale hs h)
      pasos (actual, pila) _ hs hres
    rw [hres] at h
    cases r with
    | nil => cases h
    | cons tope resto =>
      simp only at h
      cases hl : leer a tope with
      | none => rw [hl] at h; cases h
      | some nd =>
        rw [hl] at h
        simp only [Except.ok.injEq, Sum.inl.injEq] at h
        subst h
        exact ⟨(ha _ _ hl).2, fun x hx => hr x (List.mem_cons_of_mem _ hx)⟩

theorem recorridoInordenCon_dato {t : Arbol} (ha : SinCero t.arreglo) (hr : t.raiz ≠ 0)
    (pasos : Nat) : recorridoInordenCon leerDato pasos t = recorridoInorden pasos t := by
  unfold recorridoInordenCon recorridoInorden
  exact iterar_igual (fun s : Int × List Int × List Int => s.1 ≠ 0 ∧ SinCeros s.2.1)
    (fun s hs => pasoInordenCon_dato pasos ha hs) (fun s s' hs h => pasoInorden_sigue pasos ha hs h)
    pasos (t.raiz, [], []) ⟨hr, sinCeros_nil⟩

theorem pasoPreordenCon_dato (a : List Nodo) {s : List Int × List Int} (hs : SinCeros s.1) :
    pasoPreordenCon leerDato a s = pasoPreorden a s := by
  obtain ⟨pila, res⟩ := s
  cases pila with
  | nil => rfl
  | cons x xs => simp only [pasoPreordenCon, pasoPreorden, leerDato_eq (hs x (List.mem_cons_self _ _))]

theorem pasoPreorden_sigue {a : List Nodo} (ha : SinCero a) {s s' : List Int × List Int}
    (hs : SinCeros s.1) (h : pasoPreorden a s = .ok (.inl s')) : SinCeros s'.1 := by
  obtain ⟨pila, res⟩ := s
  cases pila with
  | nil => cases h
  | cons x xs =>
    have hxs : SinCeros xs := fun y hy => hs y (List.mem_cons_of_mem _ hy)
    cases hl : leer a x with
    | none => simp only [pasoPreorden, hl] at h; cases h
    | some nd =>
      simp only [pasoPreorden, hl, Except.ok.injEq, Sum.inl.injEq] at h
      subst h
      dsimp only
      split_ifs
      · exact sinCeros_cons (ha _ _ hl).1 (sinCeros_cons (ha _ _ hl).2 hxs)
      · exact sinCeros_cons (ha _ _ hl).1 hxs
      · exact sinCeros_cons (ha _ _ hl).2 hxs
      · exact hxs

theorem recorridoPreordenCon_dato {t : Arbol} (ha : SinCero t.arreglo) (hr : t.raiz ≠ 0)
    (pasos : Nat) : recorridoPreordenCon leerDato pasos t = recorridoPreorden pasos t := by
  unfold recorridoPreordenCon recorridoPreorden
  rw [iterar_igual (fun s : List Int × List Int => SinCeros s.1)
    (fun s hs => pasoPreordenCon_dato t.arreglo hs) (fun s s' hs h => pasoPreorden_sigue ha hs h)
    pasos ([t.raiz], []) (sinCeros_cons hr sinCeros_nil)]

theorem pasoPostordenCon_dato (a : List Nodo) {s : List Int × List Int} (hs : SinCeros s.1) :
    pasoPostordenCon leerDato a s = pasoPostorden a s := by
  obtain ⟨pila, res⟩ := s
  cases pila with
  | nil => rfl
  | cons x xs =>
    simp only [pasoPostordenCon, pasoPostorden, leerDato_eq (hs x (List.mem_cons_self _ _))]

theorem pasoPostorden_sigue {a : List Nodo} (ha : SinCero a) {s s' : List Int × List Int}
    (hs : SinCeros s.1 ∧ SinCeros s.2) (h : pasoPostorden a s = .ok (.inl s')) :
    SinCeros s'.1 ∧ SinCeros s'.2 := by
  obtain ⟨pila, res⟩ := s
  cases pila with
  | nil => cases h
  | cons x xs =>
    have hx : x ≠ 0 := hs.1 x (List.mem_cons_self _ _)
    have hxs : SinCeros xs := fun y hy => hs.1 y (List.mem_cons_of_mem _ hy)
    cases hl : leer a x with
    | none => simp only [pasoPostorden, hl] at h; cases h
    | some nd =>
      simp only [pasoPostorden, hl, Except.ok.injEq, Sum.inl.injEq] at h
      subst h
      dsimp only
      refine ⟨?_, sinCeros_cons hx hs.2⟩
      split_ifs
      · exact sinCeros_cons (ha _ _ hl).2 (sinCeros_cons (ha _ _ hl).1 hxs)
      · exact sinCeros_cons (ha _ _ hl).2 hxs
      · exact sinCeros_cons (ha _ _ hl).1 hxs
      · exact hxs

theorem pasoPostorden_sale {a : List Nodo} {s : List Int × List Int} {r : List Int}
    (hs : SinCeros s.1 ∧ SinCeros s.2) (h : pasoPostorden a s = .ok (.inr r)) : SinCeros r := by
  obtain ⟨pila, res⟩ := s
  cases pila with
  | nil =>
    simp only [pasoPostorden, Except.ok.injEq, Sum.inr.injEq] at h
    subst h
    exact hs.2
  | cons x xs =>
    cases hl : leer a x with
    | none => simp only [pasoPostorden, hl] at h; cases h
    | some nd => simp only [pasoPostorden, hl, Except.ok.injEq, reduceCtorEq] at h

theorem vaciarPila2Con_dato (a : List Nodo) :
    ∀ (pila resultado : List Int), SinCeros pila →
      vaciarPila2Con leerDato a pila resultado = vaciarPila2 a pila resultado := by
  intro pila
  induction pila with
  | nil => intro r _; rfl
  | cons x xs ih =>
    intro r hs
    unfold vaciarPila2Con vaciarPila2
    rw [leerDato_eq (hs x (List.mem_cons_self _ _))]
    cases leer a x with
    | none => rfl
    | some nd => exact ih _ (fun y hy => hs y (List.mem_cons_of_mem _ hy))

theorem recorridoPostordenCon_dato {t : Arbol} (ha : SinCero t.arreglo) (hr : t.raiz ≠ 0)
    (pasos : Nat) : recorridoPostordenCon leerDato pasos t = recorridoPostorden pasos t := by
  unfold recorridoPostordenCon recorridoPostorden
  rw [iterar_igual (fun s : List Int × List Int => SinCeros s.1 ∧ SinCeros s.2)
    (fun s hs => pasoPostordenCon_dato t.arreglo hs.1)
    (fun s s' hs h => pasoPostorden_sigue ha hs h)
    pasos ([t.raiz], []) ⟨sinCeros_cons hr sinCeros_nil, sinCeros_nil⟩]
  by_cases h : t.raiz = -1
  · rw [if_pos h, if_pos h]
  · rw [if_neg h, if_neg h]
    cases hres : iterar (pasoPostorden t.arreglo) pasos ([t.raiz], []) with
    | error e => rfl
    | ok p =>
      exact vaciarPila2Con_dato _ _ _
        (iterar_sale (fun s : List Int × List Int => SinCeros s.1 ∧ SinCeros s.2) SinCeros
          (fun s s' hs h => pasoPostorden_sigue ha hs h) (fun s r hs h => pasoPostorden_sale hs h)
          pasos ([t.raiz], []) p ⟨sinCeros_cons hr sinCeros_nil, sinCeros_nil⟩ hres)

theorem pasoPorNivelesCon_dato (a : List Nodo) {s : List Int × List Int} (hs : SinCeros s.1) :
    pasoPorNivelesCon leerDato a s = pasoPorNiveles a s := by
  obtain ⟨cola, res⟩ := s
  cases cola with
  | nil => rfl
  | cons x xs =>
    simp only [pasoPorNivelesCon, pasoPorNiveles, leerDato_eq (hs x (List.mem_cons_self _ _))]

theorem pasoPorNiveles_sigue {a : List Nodo} (ha : SinCero a) {s s' : List Int × List Int}
    (hs : SinCeros s.1) (h : pasoPorNiveles a s = .ok (.inl s')) : SinCeros s'.1 := by
  obtain ⟨cola, res⟩ := s
  cases cola with
  | nil => cases h
  | cons x xs =>
    have hxs : SinCeros xs := fun y hy => hs y (List.mem_cons_of_mem _ hy)
    cases hl : leer a x with
    | none => simp only [pasoPorNiveles, hl] at h; cases h
    | some nd =>
      simp only [pasoPorNiveles, hl, Except.ok.injEq, Sum.inl.injEq] at h
      subst h
      dsimp only
      split_ifs
      · exact sinCeros_concat (sinCeros_concat hxs (ha _ _ hl).1) (ha _ _ hl).2
      · exact sinCeros_concat hxs (ha _ _ hl).2
      · exact sinCeros_concat hxs (ha _ _ hl).1
      · exact hxs

theorem recorridoPorNivelesCon_dato {t : Arbol} (ha : SinCero t.arreglo) (hr : t.raiz ≠ 0)
    (pasos : Nat) : recorridoPorNivelesCon leerDato pasos t = recorridoPorNiveles pasos t := by
  unfold recorridoPorNivelesCon recorridoPorNiveles
  rw [iterar_igual (fun s : List Int × List Int => SinCeros s.1)
    (fun s hs => pasoPorNivelesCon_dato t.arreglo hs) (fun s s' hs h => pasoPorNiveles_sigue ha hs h)
    pasos ([t.raiz], []) (sinCeros_cons hr sinCeros_nil)]

/-! ## The properties of the specification: the array accesses -/

/-- C20: in every reachable state slot 0 is in its default state, `raiz` and
the `izq` and `der` of every slot are `-1` or an index from 1 to
`siguienteLibre - 1`, which is at most the capacity and inside the array; so
`insertar`, `buscar`, `modificar`, `eliminar` and the four traversals never
read or write outside the array, whatever the bound on their steps, and they
all return once the bound is at least `siguienteLibre`.  They never access
index 0 either: run with the read `leerDato`, which refuses every index other
than 1, ..., the capacity, each of them gives what it gives with the plain
read (every write of the code follows a read at the same index); and with the
plain read the operations that take the read as a parameter are, in every
state, the operations of the program. -/
theorem C20_indices_validos (n : Nat) (t : Arbol) (h : Alcanzable n t) :
    leer t.arreglo 0 = some ⟨0, -1, -1, -1, false⟩ ∧
    t.siguienteLibre - 1 ≤ n ∧ t.arreglo.length = n + 1 ∧
    EnlaceValido t t.raiz ∧
    (∀ i nd, leer t.arreglo i = some nd → EnlaceValido t nd.izq ∧ EnlaceValido t nd.der) ∧
    (∀ x, EnlaceValido t x → x ≠ -1 → ∃ nd, leer t.arreglo x = some nd) ∧
    (∀ pasos k p,
      insertar pasos t k p ≠ .error .fueraDeRango ∧ buscar pasos t k ≠ .error .fueraDeRango ∧
      modificar pasos t k p ≠ .error .fueraDeRango ∧ eliminar pasos t k ≠ .error .fueraDeRango ∧
      recorridoInorden pasos t ≠ .error .fueraDeRango ∧
      recorridoPreorden pasos t ≠ .error .fueraDeRango ∧
      recorridoPostorden pasos t ≠ .error .fueraDeRango ∧
      recorridoPorNiveles pasos t ≠ .error .fueraDeRango) ∧
    (∀ (pasos : Nat) k p, t.siguienteLibre ≤ pasos →
      (∃ r, insertar pasos t k p = .ok r) ∧ (∃ r, buscar pasos t k = .ok r) ∧
      (∃ r, modificar pasos t k p = .ok r) ∧ (∃ r, eliminar pasos t k = .ok r) ∧
      (∃ r, recorridoInorden pasos t = .ok r) ∧ (∃ r, recorridoPreorden pasos t = .ok r) ∧
      (∃ r, recorridoPostorden pasos t = .ok r) ∧
      (∃ r, recorridoPorNiveles pasos t = .ok r)) ∧
    (∀ pasos k p,
      insertarCon leerDato pasos t k p = insertar pasos t k p ∧
      buscarCon leerDato pasos t k = buscar pasos t k ∧
      modificarCon leerDato pasos t k p = modificar pasos t k p ∧
      eliminarCon leerDato pasos t k = eliminar pasos t k ∧
      recorridoInordenCon leerDato pasos t = recorridoInorden pasos t ∧
      recorridoPreordenCon leerDato pasos t = recorridoPreorden pasos t ∧
      recorridoPostordenCon leerDato pasos t = recorridoPostorden pasos t ∧
      recorridoPorNivelesCon leerDato pasos t = recorridoPorNiveles pasos t) ∧
    (∀ pasos (t0 : Arbol) k p,
      insertarCon leer pasos t0 k p = insertar pasos t0 k p ∧
      buscarCon leer pasos t0 k = buscar pasos t0 k ∧
      modificarCon leer pasos t0 k p = modificar pasos t0 k p ∧
      eliminarCon leer pasos t0 k = eliminar pasos t0 k ∧
      recorridoInordenCon leer pasos t0 = recorridoInorden pasos t0 ∧
      recorridoPreordenCon leer pasos t0 = recorridoPreorden pasos t0 ∧
      recorridoPostordenCon leer pasos t0 = recorridoPostorden pasos t0 ∧
      recorridoPorNivelesCon leer pasos t0 = recorridoPorNiveles pasos t0) := by
  obtain ⟨f, hf⟩ := inv_alcanzable h
  have ha := sinCero_alcanzable h
  have hr : t.raiz ≠ 0 := enlace_no_cero hf.raiz_valida
  have hsl : t.siguienteLibre ≠ 0 := by
    have := hf.libre_pos
    omega
  have htot : ∀ (pasos : Nat) k p, t.siguienteLibre ≤ pasos →
      (∃ r, insertar pasos t k p = .ok r) ∧ (∃ r, buscar pasos t k = .ok r) ∧
      (∃ r, modificar pasos t k p = .ok r) ∧ (∃ r, eliminar pasos t k = .ok r) ∧
      (∃ r, recorridoInorden pasos t = .ok r) ∧ (∃ r, recorridoPreorden pasos t = .ok r) ∧
      (∃ r, recorridoPostorden pasos t = .ok r) ∧
      (∃ r, recorridoPorNiveles pasos t = .ok r) := by
    intro pasos k p hp
    exact ⟨insertar_total hf hp k p, ⟨_, buscar_eq hf hp k⟩, modificar_total hf hp k p,
      eliminar_total hf hp k, ⟨_, Forma.recorridoInorden_eq hf hp⟩,
      ⟨_, Forma.recorridoPreorden_eq hf hp⟩, ⟨_, Forma.recorridoPostorden_eq hf hp⟩,
      ⟨_, Forma.recorridoPorNiveles_eq hf hp⟩⟩
  refine ⟨hf.cero, ?_, hf.largo, hf.raiz_valida, enlaces_alcanzable h, ?_, ?_, htot,
    fun pasos k p => ⟨insertarCon_dato ha hr hsl pasos k p, buscarCon_dato ha hr pasos k,
      modificarCon_dato ha hr pasos k p, eliminarCon_dato ha hr pasos k,
      recorridoInordenCon_dato ha hr pasos, recorridoPreordenCon_dato ha hr pasos,
      recorridoPostordenCon_dato ha hr pasos, recorridoPorNivelesCon_dato ha hr pasos⟩,
    fun pasos t0 k p => ⟨rfl, rfl, rfl, rfl, rfl, rfl, recorridoPostordenCon_leer pasos t0, rfl⟩⟩
  · have := hf.libre_le
    omega
  · intro x hx hne
    rcases hx with hx | ⟨h1, h2⟩
    · exact absurd hx hne
    · have := hf.libre_le
      have hlen := hf.largo
      exact leer_of_rango (by omega) (by omega)
  · intro pasos k p
    refine ⟨?_, ?_, ?_, ?_, ?_, ?_, ?_, ?_⟩
    · exact @sin_fuera_de_total _ (fun q => insertar q t k p)
        (fun _ _ hab => insertar_refina hab t k p) t.siguienteLibre.toNat
        (fun q hq => (htot q k p (pasos_de_nat hq)).1) pasos
    · exact @sin_fuera_de_total _ (fun q => buscar q t k)
        (fun _ _ hab => buscar_refina hab t k) t.siguienteLibre.toNat
        (fun q hq => (htot q k p (pasos_de_nat hq)).2.1) pasos
    · exact @sin_fuera_de_total _ (fun q => modificar q t k p)
        (fun _ _ hab => modificar_refina hab t k p) t.siguienteLibre.toNat
        (fun q hq => (htot q k p (pasos_de_nat hq)).2.2.1) pasos
    · exact @sin_fuera_de_total _ (fun q => eliminar q t k)
        (fun _ _ hab => eliminar_refina hab t k) t.siguienteLibre.toNat
        (fun q hq => (htot q k p (pasos_de_nat hq)).2.2.2.1) pasos
    · exact @sin_fuera_de_total _ (fun q => recorridoInorden q t)
        (fun _ _ hab => recorridoInorden_refina hab t) t.siguienteLibre.toNat
        (fun q hq => (htot q k p (pasos_de_nat hq)).2.2.2.2.1) pasos
    · exact @sin_fuera_de_total _ (fun q => recorridoPreorden q t)
        (fun _ _ hab => recorridoPreorden_refina hab t) t.siguienteLibre.toNat
        (fun q hq => (htot q k p (pasos_de_nat hq)).2.2.2.2.2.1) pasos
    · exact @sin_fuera_de_total _ (fun q => recorridoPostorden q t)
        (fun _ _ hab => recorridoPostorden_refina hab t) t.siguienteLibre.toNat
        (fun q hq => (htot q k p (pasos_de_nat hq)).2.2.2.2.2.2.1) pasos
    · exact @sin_fuera_de_total _ (fun q => recorridoPorNiveles q t)
        (fun _ _ hab => recorridoPorNiveles_refina hab t) t.siguienteLibre.toNat
        (fun q hq => (htot q k p (pasos_de_nat hq)).2.2.2.2.2.2.2) pasos

theorem C20_indices_validos_witness :
    leer ejemploSin50.arreglo 0 = some ⟨0, -1, -1, -1, false⟩ ∧
    ejemploSin50.siguienteLibre - 1 ≤ (5 : Nat) ∧ ejemploSin50.arreglo.length = 5 + 1 ∧
    EnlaceValido ejemploSin50 ejemploSin50.raiz ∧
    (∀ i nd, leer ejemploSin50.arreglo i = some nd →
      EnlaceValido ejemploSin50 nd.izq ∧ EnlaceValido ejemploSin50 nd.der) ∧
    (∀ x, EnlaceValido ejemploSin50 x → x ≠ -1 → ∃ nd, leer ejemploSin50.arreglo x = some nd) ∧
    (∀ pasos k p,
      insertar pasos ejemploSin50 k p ≠ .error .fueraDeRango ∧
      buscar pasos ejemploSin50 k ≠ .error .fueraDeRango ∧
      modificar pasos ejemploSin50 k p ≠ .error .fueraDeRango ∧
      eliminar pasos ejemploSin50 k ≠ .error .fueraDeRango ∧
      recorridoInorden pasos ejemploSin50 ≠ .error .fueraDeRango ∧
      recorridoPreorden pasos ejemploSin50 ≠ .error .fueraDeRango ∧
      recorridoPostorden pasos ejemploSin50 ≠ .error .fueraDeRango ∧
      recorridoPorNiveles pasos ejemploSin50 ≠ .error .fueraDeRango) ∧
    (∀ (pasos : Nat) k p, ejemploSin50.siguienteLibre ≤ pasos →
      (∃ r, insertar pasos ejemploSin50 k p = .ok r) ∧ (∃ r, buscar pasos ejemploSin50 k = .ok r) ∧
      (∃ r, modificar pasos ejemploSin50 k p = .ok r) ∧
      (∃ r, eliminar pasos ejemploSin50 k = .ok r) ∧
      (∃ r, recorridoInorden pasos ejemploSin50 = .ok r) ∧
      (∃ r, recorridoPreorden pasos ejemploSin50 = .ok r) ∧
      (∃ r, recorridoPostorden pasos ejemploSin50 = .ok r) ∧
      (∃ r, recorridoPorNiveles pasos ejemploSin50 = .ok r)) ∧
    (∀ pasos k p,
      insertarCon leerDato pasos ejemploSin50 k p = insertar pasos ejemploSin50 k p ∧
      buscarCon leerDato pasos ejemploSin50 k = buscar pasos ejemploSin50 k ∧
      modificarCon leerDato pasos ejemploSin50 k p = modificar pasos ejemploSin50 k p ∧
      eliminarCon leerDato pasos ejemploSin50 k = eliminar pasos ejemploSin50 k ∧
      recorridoInordenCon leerDato pasos ejemploSin50 = recorridoInorden pasos ejemploSin50 ∧
      recorridoPreordenCon leerDato pasos ejemploSin50 = recorridoPreorden pasos ejemploSin50 ∧
      recorridoPostordenCon leerDato pasos ejemploSin50 = recorridoPostorden pasos ejemploSin50 ∧
      recorridoPorNivelesCon leerDato pasos ejemploSin50 =
        recorridoPorNiveles pasos ejemploSin50) ∧
    (∀ pasos (t0 : Arbol) k p,
      insertarCon leer pasos t0 k p = insertar pasos t0 k p ∧
      buscarCon leer pasos t0 k = buscar pasos t0 k ∧
      modificarCon leer pasos t0 k p = modificar pasos t0 k p ∧
      eliminarCon leer pasos t0 k = eliminar pasos t0 k ∧
      recorridoInordenCon leer pasos t0 = recorridoInorden pasos t0 ∧
      recorridoPreordenCon leer pasos t0 = recorridoPreorden pasos t0 ∧
      recorridoPostordenCon leer pasos t0 = recorridoPostorden pasos t0 ∧
      recorridoPorNivelesCon leer pasos t0 = recorridoPorNiveles pasos t0) :=
  C20_indices_validos 5 ejemploSin50 alcanzable_ejemploSin50

end ArbolBin
